import Mathlib

/-!
# Verification of the doctest execution engine bundled with cuda-kat

A shallow embedding of the parts of `external/doctest/doctest.h` that drive test
execution: the wildcard filter (`wildcmp`, `matchesAny`), the sub-branch
(`Subcase`) traversal, the driving loop of `Context::run`, the failure
classification of `ContextState::finalizeTestCaseData`, the assertion
machinery (`ResultBuilder`, `Approx`, the atomic counters) and the
fatal-condition handler; and of the reversed integer sequences of
`src/kat/detail/integer_sequence.hpp`.

Conventions of the embedding.

* A C string is the list of its characters before the terminating NUL; a
  `const char*` into it is the remaining suffix, and dereferencing gives `none`
  at the terminator.
* `unsigned`/`int` counters are `Nat`/`Int`; the conversion `size_t(int)` is
  explicit (`size_t_of_int`).  Counters are far below their word size in any
  run, so increments are not wrapped.
* `double` is IEEE-754 binary64 (`Double`): every arithmetic operation gives its
  exact result rounded to the nearest double, a tie going to the even
  significand, with infinities, NaN and signed zeros.
* The calls `DOCTEST_ITERATE_THROUGH_REPORTERS(f, args)` are recorded, in
  program order, in the field `events`: it is what every attached reporter
  receives.
* Loops whose termination is not structural take a step budget and return
  `none` when it is exhausted; the theorems prove that the budget used is
  never exhausted.
-/

namespace Doctest

/-! ## C strings and characters -/

/-- The `tolower` of the C library in the "C" locale: `A`..`Z` go to `a`..`z`. -/
def tolower (c : Char) : Char := c.toLower

/-- Reading `*p`: the first character of the remaining string, `none` for NUL. -/
def deref (p : List Char) : Option Char := p.head?

/-- The test `caseSensitive ? (a == b) : (tolower(a) == tolower(b))` of `wildcmp`. -/
def charsEqual (caseSensitive : Bool) (a b : Option Char) : Bool :=
  if caseSensitive then a == b else a.map tolower == b.map tolower

/-- The sign behaviour of `std::strcmp`: the terminator is below every character,
otherwise the first differing position decides by character code. -/
def strcmp : List Char → List Char → Int
  | [], [] => 0
  | [], _ :: _ => -1
  | _ :: _, [] => 1
  | a :: s, b :: t => if a = b then strcmp s t else (a.toNat : Int) - (b.toNat : Int)

/-! ## The wildcard filter engine -/

/-- The first loop of `wildcmp`, `while((*str) && (*wild != '*'))`: `none` is the
early `return 0`, `some (str, wild)` are the pointers when the loop is left. -/
def wildcmpLoop1 (caseSensitive : Bool) : List Char → List Char → Option (List Char × List Char)
  | [], wild => some ([], wild)
  | c :: str, wild =>
    if deref wild = some '*' then some (c :: str, wild)
    else if !charsEqual caseSensitive (deref wild) (some c) && deref wild != some '?' then none
    else wildcmpLoop1 caseSensitive str wild.tail

/-- The tail of `wildcmp`: `while(*wild == '*') wild++; return !*wild;`. -/
def wildcmpLoop3 (wild : List Char) : Int :=
  if deref (wild.dropWhile (fun c => c == '*')) = none then 1 else 0

/-- The second loop of `wildcmp`, `while(*str)`, followed by the tail.  `mp` and
`cp` are `none` while they are `nullptr`; the result is `none` when the budget
runs out or when a null `mp`/`cp` would be dereferenced. -/
def wildcmpLoop2 (caseSensitive : Bool) :
    Nat → List Char → List Char → Option (List Char) → Option (List Char) → Option Int
  | 0, _, _, _, _ => none
  | _ + 1, [], wild, _, _ => some (wildcmpLoop3 wild)
  | fuel + 1, c :: str, wild, mp, cp =>
    if deref wild = some '*' then
      if deref wild.tail = none then some 1
      else wildcmpLoop2 caseSensitive fuel (c :: str) wild.tail (some wild.tail) (some str)
    else if charsEqual caseSensitive (deref wild) (some c) || deref wild == some '?' then
      wildcmpLoop2 caseSensitive fuel str wild.tail mp cp
    else
      match mp, cp with
      | some m, some p => wildcmpLoop2 caseSensitive fuel p m (some m) (some p.tail)
      | _, _ => none

/-- The function `wildcmp(str, wild, caseSensitive)` under a step budget for its
second loop. -/
def wildcmpFuel (fuel : Nat) (str wild : List Char) (caseSensitive : Bool) : Option Int :=
  match wildcmpLoop1 caseSensitive str wild with
  | none => some 0
  | some (str1, wild1) => wildcmpLoop2 caseSensitive fuel str1 wild1 none none

/-- A step budget that the second loop of `wildcmp` never exhausts. -/
def wildcmpBudget (str wild : List Char) : Nat := (str.length + 1) * (wild.length + 2)

/-- The function `wildcmp(str, wild, caseSensitive)`. -/
def wildcmp (str wild : List Char) (caseSensitive : Bool) : Int :=
  (wildcmpFuel (wildcmpBudget str wild) str wild caseSensitive).getD 0

/-- The function `matchesAny(name, filters, matchEmpty, caseSensitive)`. -/
def matchesAny (name : List Char) (filters : List (List Char)) (matchEmpty : Bool)
    (caseSensitive : Bool) : Bool :=
  if filters.isEmpty && matchEmpty then true
  else filters.any (fun curr => wildcmp name curr caseSensitive != 0)

/-- Glob semantics, following the words of the specification: `*` matches any run
of characters (also the empty one), `?` matches exactly one character, every
other character matches only itself, and the whole candidate must be consumed.
`GlobMatch p s` reads "candidate `s` matches pattern `p`". -/
inductive GlobMatch : List Char → List Char → Prop
  | nil : GlobMatch [] []
  | star (run rest p : List Char) : GlobMatch p rest → GlobMatch ('*' :: p) (run ++ rest)
  | any (c : Char) (p s : List Char) : GlobMatch p s → GlobMatch ('?' :: p) (c :: s)
  | lit (c : Char) (p s : List Char) :
      c ≠ '*' → c ≠ '?' → GlobMatch p s → GlobMatch (c :: p) (c :: s)

/-! ## Signatures and the passed-branch memo -/

/-- The struct `SubcaseSignature`. -/
structure SubcaseSignature where
  m_name : List Char
  m_file : List Char
  m_line : Int
  deriving DecidableEq, Repr

/-- The member `SubcaseSignature::operator<`. -/
def SubcaseSignature.lt (a other : SubcaseSignature) : Bool :=
  if a.m_line ≠ other.m_line then decide (a.m_line < other.m_line)
  else if strcmp a.m_file other.m_file ≠ 0 then decide (strcmp a.m_file other.m_file < 0)
  else decide (strcmp a.m_name other.m_name < 0)

/-- The `operator<` of `std::vector<SubcaseSignature>`, a lexicographical compare
through `SubcaseSignature::operator<`. -/
def vectorLt : List SubcaseSignature → List SubcaseSignature → Bool
  | _, [] => false
  | [], _ :: _ => true
  | a :: s, b :: t => if a.lt b then true else if b.lt a then false else vectorLt s t

/-- The call `std::set::count(key)` on the memo: an element is found when neither
it nor the key is below the other. -/
def setCount (set : List (List SubcaseSignature)) (key : List SubcaseSignature) : Nat :=
  if set.any (fun e => !vectorLt e key && !vectorLt key e) then 1 else 0

/-- The call `std::set::insert(key)`: nothing happens when an equivalent element is
present. -/
def setInsert (set : List (List SubcaseSignature)) (key : List SubcaseSignature) :
    List (List SubcaseSignature) :=
  if setCount set key ≠ 0 then set else set ++ [key]

/-! ## The type `double` -/

/-- A value of the type `double`, taken as IEEE-754 binary64: a NaN, an infinity,
or the finite number `(-1)^neg * m * 2^e`.  The doubles are the values with
`Double.valid`. -/
inductive Double where
  | nan : Double
  | inf (neg : Bool) : Double
  | finite (neg : Bool) (m : Nat) (e : Int) : Double
deriving DecidableEq, Repr

/-- The value is a double: a finite one has a significand below `2^53` and an
exponent from `-1074` to `971`, and is written with the least exponent possible
(the significand is at least `2^52`, or the exponent is `-1074`: a subnormal
number or zero). -/
def Double.valid : Double → Bool
  | Double.nan => true
  | Double.inf _ => true
  | Double.finite _ m e =>
    decide (m < 2 ^ 53 ∧ -1074 ≤ e ∧ e ≤ 971 ∧ (2 ^ 52 ≤ m ∨ e = -1074))

/-- The number of binary digits of `m`, by halving; `fuel` bounds the number of
halvings. -/
def bitLengthAux : Nat → Nat → Nat
  | 0, _ => 0
  | fuel + 1, m => if m = 0 then 0 else bitLengthAux fuel (m / 2) + 1

/-- The number of binary digits of `m`: the least `k` with `m < 2^k`. -/
def bitLength (m : Nat) : Nat := bitLengthAux m m

/-- The double nearest to the exact value `(-1)^neg * m * 2^e`, a tie going to the
even significand (the rounding of every arithmetic operation of `double`).
A result of magnitude `2^1024` or more is an infinity.  The value is cut at
the exponent `e1` that leaves 53 binary digits, or at `-1074` for a subnormal
result; the digits cut off decide whether the significand is incremented. -/
def Double.round (neg : Bool) (m : Nat) (e : Int) : Double :=
  if m = 0 then Double.finite neg 0 (-1074)
  else
    let e1 : Int := max (e + (bitLength m : Int) - 53) (-1074)
    if e1 ≤ e then
      if e1 > 971 then Double.inf neg
      else Double.finite neg (m * 2 ^ (e - e1).toNat) e1
    else
      let k : Nat := (e1 - e).toNat
      let q : Nat := m / 2 ^ k
      let r : Nat := m % 2 ^ k
      let m1 : Nat := if 2 ^ k < 2 * r ∨ (2 * r = 2 ^ k ∧ q % 2 = 1) then q + 1 else q
      let m2 : Nat := if m1 = 2 ^ 53 then 2 ^ 52 else m1
      let e2 : Int := if m1 = 2 ^ 53 then e1 + 1 else e1
      if e2 > 971 then Double.inf neg else Double.finite neg m2 e2

/-- The integer `(-1)^neg * m`. -/
def signedInt (neg : Bool) (m : Nat) : Int := if neg then -(m : Int) else (m : Int)

/-- The operator `-x` of `double`. -/
def Double.neg : Double → Double
  | Double.nan => Double.nan
  | Double.inf s => Double.inf (!s)
  | Double.finite s m e => Double.finite (!s) m e

/-- The operator `x + y` of `double`: the exact sum, rounded.  A sum that is
exactly zero is `+0`, unless both terms are `-0`. -/
def Double.add : Double → Double → Double
  | Double.nan, _ => Double.nan
  | _, Double.nan => Double.nan
  | Double.inf s, Double.inf t => if s = t then Double.inf s else Double.nan
  | Double.inf s, Double.finite _ _ _ => Double.inf s
  | Double.finite _ _ _, Double.inf t => Double.inf t
  | Double.finite s m e, Double.finite t n f =>
    let e0 : Int := min e f
    let z : Int := signedInt s (m * 2 ^ (e - e0).toNat) + signedInt t (n * 2 ^ (f - e0).toNat)
    if z = 0 then Double.finite (s && t) 0 (-1074)
    else Double.round (decide (z < 0)) z.natAbs e0

/-- The operator `x - y` of `double`, which is `x + (-y)`. -/
def Double.sub (x y : Double) : Double := Double.add x (Double.neg y)

/-- The operator `x * y` of `double`: the exact product, rounded. -/
def Double.mul : Double → Double → Double
  | Double.nan, _ => Double.nan
  | _, Double.nan => Double.nan
  | Double.inf s, Double.inf t => Double.inf (s != t)
  | Double.inf s, Double.finite t n _ => if n = 0 then Double.nan else Double.inf (s != t)
  | Double.finite s m _, Double.inf t => if m = 0 then Double.nan else Double.inf (s != t)
  | Double.finite s m e, Double.finite t n f => Double.round (s != t) (m * n) (e + f)

/-- The operator `x < y` of `double`: false when an operand is a NaN. -/
def Double.lt : Double → Double → Bool
  | Double.nan, _ => false
  | _, Double.nan => false
  | Double.inf s, Double.inf t => s && !t
  | Double.inf s, Double.finite _ _ _ => s
  | Double.finite _ _ _, Double.inf t => !t
  | Double.finite s m e, Double.finite t n f =>
    decide (signedInt s (m * 2 ^ (e - min e f).toNat) <
      signedInt t (n * 2 ^ (f - min e f).toNat))

/-- The operator `x > y` of `double`. -/
def Double.gt (x y : Double) : Bool := Double.lt y x

/-- The function `std::fabs(x)`. -/
def Double.fabs : Double → Double
  | Double.nan => Double.nan
  | Double.inf _ => Double.inf false
  | Double.finite _ m e => Double.finite false m e

/-- The function `std::max<double>(a, b)`, which is `(a < b) ? b : a`. -/
def Double.max (a b : Double) : Double := if Double.lt a b then b else a

/-- The conversion of a non-negative integer to `double`. -/
def Double.ofNat (n : Nat) : Double := Double.round false n 0

/-- The double `2^e`, for `e` from `-1074` to `1023`. -/
def Double.pow2 (e : Int) : Double := Double.round false 1 e

/-- The exact value of a finite double as a rational number (0 for the others). -/
def Double.toRat : Double → ℚ
  | Double.finite s m e => (signedInt s m : ℚ) * (2 : ℚ) ^ e
  | _ => 0

/-- The exact value is defined: the double is neither a NaN nor an infinity. -/
def Double.isFinite : Double → Bool
  | Double.finite _ _ _ => true
  | _ => false

/-- The double `0.0`, which is also the conversion of the integer `0`. -/
def Double.zero : Double := Double.finite false 0 (-1074)

/-- The operator `x == y` of `double`: false when an operand is a NaN, and `-0.0`
equals `0.0`. -/
def Double.eq (x y : Double) : Bool :=
  match x, y with
  | Double.nan, _ => false
  | _, Double.nan => false
  | _, _ => !Double.lt x y && !Double.lt y x

/-! ## Test descriptors, test bodies and the run state -/

/-- The struct `TestCaseData` (the description text is left out). -/
structure TestCaseData where
  m_file : List Char
  m_line : Nat
  m_name : List Char
  m_test_suite : List Char
  m_skip : Bool
  m_may_fail : Bool
  m_should_fail : Bool
  m_expected_failures : Int
  m_timeout : Double

/-- What the body of a test case does, as far as the engine can observe it: it
evaluates assertions, opens sub-branches (`SUBCASE`), and may throw.
`assertion a failed rest` is an assertion of type `a` whose `m_failed` is
`failed`, followed by `rest`; `subcase sig inner rest` is
`SUBCASE(..) { inner } rest`; `throwOther` throws an exception that is not the
`TestFailureException`. -/
inductive Body where
  | done : Body
  | assertion (a : Nat) (failed : Bool) (rest : Body) : Body
  | throwOther : Body
  | subcase (sig : SubcaseSignature) (inner rest : Body) : Body

/-- The struct `TestCase`: the descriptor with the test function `m_test`.
`elapsedSeconds` is what `timer.getElapsedSeconds()` yields when the test case
is finalised, an input from the environment. -/
structure TestCase extends TestCaseData where
  m_test : Body
  elapsedSeconds : Double

/-- The calls made on every attached reporter (`IReporter`). -/
inductive Event where
  | report_query : Event
  | test_run_start : Event
  | test_run_end : Event
  | test_case_start (tc : TestCaseData) : Event
  | test_case_reenter (tc : TestCaseData) : Event
  | test_case_end : Event
  | test_case_exception (is_crash : Bool) : Event
  | subcase_start (sig : SubcaseSignature) : Event
  | subcase_end : Event
  | log_assert (a : Nat) (failed : Bool) : Event
  | test_case_skipped (tc : TestCaseData) : Event

/-- The enum `TestCaseFailureReason`. -/
def TestCaseFailureReason.None : Nat := 0
/-- An assertion has failed in the test case. -/
def TestCaseFailureReason.AssertFailure : Nat := 1
/-- The test case threw an exception. -/
def TestCaseFailureReason.Exception : Nat := 2
/-- A crash. -/
def TestCaseFailureReason.Crash : Nat := 4
/-- The abort-after option. -/
def TestCaseFailureReason.TooManyFailedAsserts : Nat := 8
/-- See the timeout decorator. -/
def TestCaseFailureReason.Timeout : Nat := 16
/-- See the should_fail decorator. -/
def TestCaseFailureReason.ShouldHaveFailedButDidnt : Nat := 32
/-- See the should_fail decorator. -/
def TestCaseFailureReason.ShouldHaveFailedAndDid : Nat := 64
/-- See the expected_failures decorator. -/
def TestCaseFailureReason.DidntFailExactlyNumTimes : Nat := 128
/-- See the expected_failures decorator. -/
def TestCaseFailureReason.FailedExactlyNumTimes : Nat := 256
/-- See the may_fail decorator. -/
def TestCaseFailureReason.CouldHaveFailedAndDid : Nat := 512

/-- Trait bit of the enum `assertType`. -/
def assertType.is_warn : Nat := 1
/-- Trait bit of the enum `assertType`. -/
def assertType.is_check : Nat := 2
/-- Trait bit of the enum `assertType`. -/
def assertType.is_require : Nat := 4
/-- Trait bit of the enum `assertType`. -/
def assertType.is_normal : Nat := 8
/-- Assertion type `DT_WARN`. -/
def assertType.DT_WARN : Nat := assertType.is_normal ||| assertType.is_warn
/-- Assertion type `DT_CHECK`. -/
def assertType.DT_CHECK : Nat := assertType.is_normal ||| assertType.is_check
/-- Assertion type `DT_REQUIRE`. -/
def assertType.DT_REQUIRE : Nat := assertType.is_normal ||| assertType.is_require

/-- The struct `ContextState` with the members of its bases `ContextOptions`,
`TestRunStats` and `CurrentTestCaseStats` that the engine reads or writes, and
the record `events` of the reporter calls. -/
structure ContextState where
  first : Nat
  last : Nat
  abort_after : Int
  subcase_filter_levels : Int
  case_sensitive : Bool
  no_exitcode : Bool
  no_run : Bool
  no_skip : Bool
  help : Bool
  version : Bool
  count : Bool
  list_test_cases : Bool
  list_test_suites : Bool
  list_reporters : Bool
  numTestCases : Nat
  numTestCasesPassingFilters : Nat
  numTestSuitesPassingFilters : Nat
  numTestCasesFailed : Nat
  numAsserts : Int
  numAssertsFailed : Int
  numAssertsCurrentTest : Int
  numAssertsFailedCurrentTest : Int
  seconds : Double
  failure_flags : Nat
  numAssertsCurrentTest_atomic : Int
  numAssertsFailedCurrentTest_atomic : Int
  filters : Nat → List (List Char)
  currentTest : Option TestCase
  subcasesStack : List SubcaseSignature
  subcasesPassed : List (List SubcaseSignature)
  subcasesCurrentMaxLevel : Nat
  should_reenter : Bool
  shouldLogCurrentException : Bool
  events : List Event

/-- The macro `DOCTEST_ITERATE_THROUGH_REPORTERS(function, ...)`. -/
def iterateThroughReporters (e : Event) (s : ContextState) : ContextState :=
  { s with events := s.events ++ [e] }

/-- The conversion `size_t(n)` of an `int` (64-bit `size_t`). -/
def size_t_of_int (n : Int) : Nat := (n % 2 ^ 64).toNat

/-! ## The sub-branch engine -/

/-- The constructor `Subcase::Subcase(name, file, line)`; the flag returned is
`m_entered`. -/
def Subcase.ctor (m_signature : SubcaseSignature) (s : ContextState) : ContextState × Bool :=
  if s.subcasesStack.length < size_t_of_int s.subcase_filter_levels ∧
      (!matchesAny m_signature.m_name (s.filters 6) true s.case_sensitive ||
        matchesAny m_signature.m_name (s.filters 7) false s.case_sensitive) then
    (s, false)
  else if s.subcasesStack.length < s.subcasesCurrentMaxLevel then
    ({ s with should_reenter := true }, false)
  else if setCount s.subcasesPassed (s.subcasesStack ++ [m_signature]) ≠ 0 then
    (s, false)
  else
    (iterateThroughReporters (Event.subcase_start m_signature)
      { s with subcasesStack := s.subcasesStack ++ [m_signature],
               subcasesCurrentMaxLevel := (s.subcasesStack ++ [m_signature]).length }, true)

/-- The destructor `Subcase::~Subcase()`; `uncaught` is `std::uncaught_exception()`. -/
def Subcase.dtor (m_entered : Bool) (uncaught : Bool) (s : ContextState) : ContextState :=
  if m_entered then
    let s1 := if s.should_reenter = false then
        { s with subcasesPassed := setInsert s.subcasesPassed s.subcasesStack } else s
    let s2 := { s1 with subcasesStack := s1.subcasesStack.dropLast }
    let s3 := if uncaught && s2.shouldLogCurrentException then
        { iterateThroughReporters (Event.test_case_exception false) s2 with
            shouldLogCurrentException := false }
      else s2
    iterateThroughReporters Event.subcase_end s3
  else s

/-- The function `addAssert(at)`. -/
def addAssert (a : Nat) (s : ContextState) : ContextState :=
  if a &&& assertType.is_warn = 0 then
    { s with numAssertsCurrentTest_atomic := s.numAssertsCurrentTest_atomic + 1 }
  else s

/-- The function `addFailedAssert(at)`. -/
def addFailedAssert (a : Nat) (s : ContextState) : ContextState :=
  if a &&& assertType.is_warn = 0 then
    { s with numAssertsFailedCurrentTest_atomic := s.numAssertsFailedCurrentTest_atomic + 1 }
  else s

/-- The function `checkIfShouldThrow(at)`. -/
def checkIfShouldThrow (a : Nat) (s : ContextState) : Bool :=
  if a &&& assertType.is_require ≠ 0 then true
  else if a &&& assertType.is_check ≠ 0 ∧ s.abort_after > 0 ∧
      s.numAssertsFailed + s.numAssertsFailedCurrentTest_atomic ≥ s.abort_after then true
  else false

/-- The part of `ResultBuilder::log()` executed inside a running test
(`is_running_in_test`), for an assertion whose `m_failed` is `failed`. -/
def ResultBuilder.log (a : Nat) (failed : Bool) (s : ContextState) : ContextState :=
  let s1 := iterateThroughReporters (Event.log_assert a failed) (addAssert a s)
  if failed then addFailedAssert a s1 else s1

/-- How the execution of a piece of a test body ends: normally, by the
`TestFailureException` of `throwException()`, or by another exception. -/
inductive Outcome where
  | normal : Outcome
  | testFailure : Outcome
  | exception : Outcome
  deriving DecidableEq, Repr

/-- Execution of a test body on the run state.  An assertion is
`DOCTEST_ASSERT_LOG_AND_REACT`: `log()`, then `react()` which calls
`throwException()` when the assertion failed and `checkIfShouldThrow` says so.
A sub-branch is the `if` of `DOCTEST_SUBCASE`: the constructor runs, the block
is executed when `m_entered`, and the destructor runs when the scope is left,
normally or by an exception. -/
def execBody : Body → ContextState → ContextState × Outcome
  | Body.done, s => (s, Outcome.normal)
  | Body.throwOther, s => (s, Outcome.exception)
  | Body.assertion a failed rest, s =>
    let s1 := ResultBuilder.log a failed s
    if failed && checkIfShouldThrow a s1 then
      ({ s1 with shouldLogCurrentException := false }, Outcome.testFailure)
    else execBody rest s1
  | Body.subcase sig inner rest, s =>
    let r1 := Subcase.ctor sig s
    let r2 := if r1.2 then execBody inner r1.1 else (r1.1, Outcome.normal)
    let s3 := Subcase.dtor r1.2 (r2.2 != Outcome.normal) r2.1
    if r2.2 = Outcome.normal then execBody rest s3 else (s3, r2.2)

/-- The first statements of the block of the driving loop of `Context::run`: the
members for sub-branches are reset, except for the memo of passed ones. -/
def loopReset (p : ContextState) : ContextState :=
  { p with should_reenter := false, subcasesCurrentMaxLevel := 0,
           subcasesStack := [], shouldLogCurrentException := true }

/-- One pass through the `do { ... } while(run_test)` block of `Context::run` for
test case `tc`; the flag returned is `run_test` at the loop condition. -/
def runIteration (tc : TestCase) (p : ContextState) : ContextState × Bool :=
  let r := execBody tc.m_test (loopReset p)
  let p2 := match r.2 with
    | Outcome.normal => r.1
    | Outcome.testFailure =>
      { r.1 with failure_flags := r.1.failure_flags ||| TestCaseFailureReason.AssertFailure }
    | Outcome.exception =>
      let q := iterateThroughReporters (Event.test_case_exception false) r.1
      { q with failure_flags := q.failure_flags ||| TestCaseFailureReason.Exception }
  let tooMany : Bool := decide (p2.abort_after > 0 ∧
    p2.numAssertsFailed + p2.numAssertsFailedCurrentTest_atomic ≥ p2.abort_after)
  let p3 := if tooMany then
      { p2 with failure_flags := p2.failure_flags ||| TestCaseFailureReason.TooManyFailedAsserts }
    else p2
  let run_test1 : Bool := !tooMany
  let p4 := if p3.should_reenter && run_test1 then
      iterateThroughReporters (Event.test_case_reenter tc.toTestCaseData) p3 else p3
  (p4, if !p4.should_reenter then false else run_test1)

/-- The driving loop `do { ... } while(run_test)` of `Context::run` under a step
budget; the number returned is how many times the test body was invoked. -/
def runTestLoop (tc : TestCase) : Nat → ContextState → Option (ContextState × Nat)
  | 0, _ => none
  | fuel + 1, p =>
    let r := runIteration tc p
    if r.2 then (runTestLoop tc fuel r.1).map (fun q => (q.1, q.2 + 1)) else some (r.1, 1)

/-! ## Failure classification -/

/-- The class `Approx`. -/
structure Approx where
  m_epsilon : Double
  m_scale : Double
  m_value : Double

/-- The macro `DBL_EPSILON` of `<cfloat>`: `2^-52`. -/
def DBL_EPSILON : Double := Double.pow2 (-52)

/-- The value `static_cast<double>(std::numeric_limits<float>::epsilon())`:
`2^-23`. -/
def FLT_EPSILON : Double := Double.pow2 (-23)

/-- The constructor `Approx::Approx(double value)`. -/
def Approx.ofValue (value : Double) : Approx :=
  { m_epsilon := Double.mul FLT_EPSILON (Double.ofNat 100), m_scale := Double.ofNat 1,
    m_value := value }

/-- The setter `Approx::epsilon(double newEpsilon)`. -/
def Approx.epsilon (a : Approx) (newEpsilon : Double) : Approx :=
  { a with m_epsilon := newEpsilon }

/-- The setter `Approx::scale(double newScale)`. -/
def Approx.scale (a : Approx) (newScale : Double) : Approx := { a with m_scale := newScale }

/-- The function `operator==(double lhs, const Approx& rhs)`:
`std::fabs(lhs - rhs.m_value) < rhs.m_epsilon * (rhs.m_scale +
std::max<double>(std::fabs(lhs), std::fabs(rhs.m_value)))`. -/
def Approx.eqLeft (lhs : Double) (rhs : Approx) : Bool :=
  Double.lt (Double.fabs (Double.sub lhs rhs.m_value))
    (Double.mul rhs.m_epsilon
      (Double.add rhs.m_scale (Double.max (Double.fabs lhs) (Double.fabs rhs.m_value))))

/-- The function `operator==(const Approx& lhs, double rhs)`. -/
def Approx.eqRight (lhs : Approx) (rhs : Double) : Bool := Approx.eqLeft rhs lhs

/-- The function `operator!=(double lhs, const Approx& rhs)`. -/
def Approx.neLeft (lhs : Double) (rhs : Approx) : Bool := !Approx.eqLeft lhs rhs

/-- The function `operator!=(const Approx& lhs, double rhs)`. -/
def Approx.neRight (lhs : Approx) (rhs : Double) : Bool := !Approx.eqLeft rhs lhs

/-- The function `operator>(const Approx& lhs, double rhs)`. -/
def Approx.gtRight (lhs : Approx) (rhs : Double) : Bool :=
  Double.gt lhs.m_value rhs && Approx.neRight lhs rhs

/-- The timeout test of `finalizeTestCaseData`:
`Approx(m_timeout).epsilon(DBL_EPSILON) != 0 && Approx(seconds).epsilon(DBL_EPSILON) > m_timeout`;
the `0` is converted to `double`. -/
def timeoutExceeded (m_timeout seconds : Double) : Bool :=
  Approx.neRight ((Approx.ofValue m_timeout).epsilon DBL_EPSILON) Double.zero &&
    Approx.gtRight ((Approx.ofValue seconds).epsilon DBL_EPSILON) m_timeout

/-- The statement `failure_flags |= reason`. -/
def orFailureFlag (reason : Nat) (s : ContextState) : ContextState :=
  { s with failure_flags := s.failure_flags ||| reason }

/-- The first statements of `finalizeTestCaseData`: the elapsed time is read and
the atomic counters are added to the totals of the run. -/
def updateCounters (elapsed : Double) (s : ContextState) : ContextState :=
  { s with
    seconds := elapsed,
    numAsserts := s.numAsserts + s.numAssertsCurrentTest_atomic,
    numAssertsFailed := s.numAssertsFailed + s.numAssertsFailedCurrentTest_atomic,
    numAssertsCurrentTest := s.numAssertsCurrentTest_atomic,
    numAssertsFailedCurrentTest := s.numAssertsFailedCurrentTest_atomic }

/-- The reconciliation of `failure_flags` against the decorators in
`finalizeTestCaseData`. -/
def applyDecorators (tc : TestCase) (s : ContextState) : ContextState :=
  if tc.m_should_fail then
    if s.failure_flags ≠ 0 then orFailureFlag TestCaseFailureReason.ShouldHaveFailedAndDid s
    else orFailureFlag TestCaseFailureReason.ShouldHaveFailedButDidnt s
  else if s.failure_flags ≠ 0 ∧ tc.m_may_fail then
    orFailureFlag TestCaseFailureReason.CouldHaveFailedAndDid s
  else if tc.m_expected_failures > 0 then
    if s.numAssertsFailedCurrentTest = tc.m_expected_failures then
      orFailureFlag TestCaseFailureReason.FailedExactlyNumTimes s
    else orFailureFlag TestCaseFailureReason.DidntFailExactlyNumTimes s
  else s

/-- The local `ok_to_fail` of `finalizeTestCaseData`. -/
def okToFail (failure_flags : Nat) : Bool :=
  decide (TestCaseFailureReason.ShouldHaveFailedAndDid &&& failure_flags ≠ 0) ||
  decide (TestCaseFailureReason.CouldHaveFailedAndDid &&& failure_flags ≠ 0) ||
  decide (TestCaseFailureReason.FailedExactlyNumTimes &&& failure_flags ≠ 0)

/-- The last statement of `finalizeTestCaseData`:
`if(failure_flags && !ok_to_fail) numTestCasesFailed++`. -/
def countFailure (s : ContextState) : ContextState :=
  if s.failure_flags ≠ 0 ∧ !okToFail s.failure_flags then
    { s with numTestCasesFailed := s.numTestCasesFailed + 1 }
  else s

/-- The member `ContextState::finalizeTestCaseData()`, for the test case `tc` that
`currentTest` points to. -/
def finalizeTestCaseDataFor (tc : TestCase) (s : ContextState) : ContextState :=
  let s2 := updateCounters tc.elapsedSeconds s
  let s3 := if s2.numAssertsFailedCurrentTest ≠ 0 then
      orFailureFlag TestCaseFailureReason.AssertFailure s2 else s2
  let s4 := if timeoutExceeded tc.m_timeout s3.seconds then
      orFailureFlag TestCaseFailureReason.Timeout s3 else s3
  countFailure (applyDecorators tc s4)

/-- The member `ContextState::finalizeTestCaseData()`; `currentTest` is dereferenced,
so there is no result when it is null. -/
def finalizeTestCaseData (s : ContextState) : Option ContextState :=
  match s.currentTest with
  | none => none
  | some tc => some (finalizeTestCaseDataFor tc s)

/-! ## The run driver -/

/-- The member `ContextState::resetRunData()`. -/
def resetRunData (s : ContextState) : ContextState :=
  { s with numTestCases := 0, numTestCasesPassingFilters := 0, numTestSuitesPassingFilters := 0,
           numTestCasesFailed := 0, numAsserts := 0, numAssertsFailed := 0,
           numAssertsCurrentTest := 0, numAssertsFailedCurrentTest := 0 }

/-- The value of `skip_me` in `Context::run` before the execution-range check:
the skip decorator and the six filters on file, suite and name. -/
def skipByFilters (p : ContextState) (tc : TestCaseData) : Bool :=
  let skip0 : Bool := tc.m_skip && !p.no_skip
  let skip1 := if !matchesAny tc.m_file (p.filters 0) true p.case_sensitive then true else skip0
  let skip2 := if matchesAny tc.m_file (p.filters 1) false p.case_sensitive then true else skip1
  let skip3 := if !matchesAny tc.m_test_suite (p.filters 2) true p.case_sensitive then true else skip2
  let skip4 := if matchesAny tc.m_test_suite (p.filters 3) false p.case_sensitive then true else skip3
  let skip5 := if !matchesAny tc.m_name (p.filters 4) true p.case_sensitive then true else skip4
  if matchesAny tc.m_name (p.filters 5) false p.case_sensitive then true else skip5

/-- The local variables of `Context::run` that live across the iterations of its
loop over `testArray`. -/
structure RunLocals where
  testSuitesPassingFilt : List (List Char)
  queryResults : List TestCaseData

/-- How one iteration of the loop over `testArray` ends: the state, the locals,
whether the loop is left by `break`, and how many times the body of the test
case was invoked. -/
structure StepResult where
  state : ContextState
  locals : RunLocals
  broke : Bool
  invocations : Nat

/-- The statements of `Context::run` before the driving loop of a test case: the
per-test members are reset, the memo is cleared and `test_case_start` is sent. -/
def beginTestCase (tc : TestCase) (p : ContextState) : ContextState :=
  iterateThroughReporters (Event.test_case_start tc.toTestCaseData)
    { p with currentTest := some tc, failure_flags := TestCaseFailureReason.None,
             seconds := Double.zero, numAssertsFailedCurrentTest_atomic := 0,
             numAssertsCurrentTest_atomic := 0, subcasesPassed := [] }

/-- The statements of `Context::run` after `finalizeTestCaseData`: `test_case_end`
is sent and `currentTest` is reset. -/
def endTestCase (p : ContextState) : ContextState :=
  { iterateThroughReporters Event.test_case_end p with currentTest := none }

/-- The block "execute the test if it passes all the filtering" of `Context::run`
under a step budget for the driving loop. -/
def executeTestCase (fuel : Nat) (tc : TestCase) (p : ContextState) (loc : RunLocals) :
    Option StepResult :=
  match runTestLoop tc fuel (beginTestCase tc p) with
  | none => none
  | some (p3, n) =>
    match finalizeTestCaseData p3 with
    | none => none
    | some p4 =>
      some { state := endTestCase p4, locals := loc,
             broke := decide ((endTestCase p4).abort_after > 0 ∧
               (endTestCase p4).numAssertsFailed ≥ (endTestCase p4).abort_after),
             invocations := n }

/-- The number of `SUBCASE` statements of a test body. -/
def Body.subcaseCount : Body → Nat
  | Body.done => 0
  | Body.throwOther => 0
  | Body.assertion _ _ rest => rest.subcaseCount
  | Body.subcase _ inner rest => inner.subcaseCount + rest.subcaseCount + 1

/-- A step budget that the driving loop of a test case never exhausts. -/
def loopBudget (tc : TestCase) : Nat := tc.m_test.subcaseCount + 1

/-- One iteration of the loop `for(auto& curr : testArray)` of `Context::run`. -/
def testCaseStep (query_mode : Bool) (tc : TestCase) (p : ContextState) (loc : RunLocals) :
    Option StepResult :=
  let skip_me0 := skipByFilters p tc.toTestCaseData
  let p1 := if !skip_me0 then
      { p with numTestCasesPassingFilters := p.numTestCasesPassingFilters + 1 } else p
  let skip_me : Bool :=
    if (p1.last < p1.numTestCasesPassingFilters ∧ p1.first ≤ p1.last) ∨
        p1.first > p1.numTestCasesPassingFilters then true else skip_me0
  if skip_me then
    some { state := if !query_mode then
                      iterateThroughReporters (Event.test_case_skipped tc.toTestCaseData) p1
                    else p1,
           locals := loc, broke := false, invocations := 0 }
  else if p1.count then
    some { state := p1, locals := loc, broke := false, invocations := 0 }
  else if p1.list_test_cases then
    some { state := p1,
           locals := { loc with queryResults := loc.queryResults ++ [tc.toTestCaseData] },
           broke := false, invocations := 0 }
  else if p1.list_test_suites then
    if !loc.testSuitesPassingFilt.contains tc.m_test_suite && tc.m_test_suite != [] then
      some { state := { p1 with numTestSuitesPassingFilters := p1.numTestSuitesPassingFilters + 1 },
             locals := { testSuitesPassingFilt := loc.testSuitesPassingFilt ++ [tc.m_test_suite],
                         queryResults := loc.queryResults ++ [tc.toTestCaseData] },
             broke := false, invocations := 0 }
    else some { state := p1, locals := loc, broke := false, invocations := 0 }
  else executeTestCase (loopBudget tc) tc p1 loc

/-- The loop `for(auto& curr : testArray)` of `Context::run`; the list returned
gives, for every test case reached, how many times its body was invoked. -/
def runTestArray (query_mode : Bool) :
    List TestCase → ContextState → RunLocals → Option (ContextState × RunLocals × List Nat)
  | [], p, loc => some (p, loc, [])
  | tc :: rest, p, loc =>
    match testCaseStep query_mode tc p loc with
    | none => none
    | some r =>
      if r.broke then some (r.state, r.locals, [r.invocations])
      else (runTestArray query_mode rest r.state r.locals).map
        (fun q => (q.1, q.2.1, r.invocations :: q.2.2))

/-- The values `EXIT_SUCCESS` and `EXIT_FAILURE` of `<cstdlib>`. -/
def EXIT_SUCCESS : Int := 0
/-- The values `EXIT_SUCCESS` and `EXIT_FAILURE` of `<cstdlib>`. -/
def EXIT_FAILURE : Int := 1

/-- The lambda `cleanup_and_return` of `Context::run`. -/
def cleanup_and_return (p : ContextState) : Int :=
  if p.numTestCasesFailed ≠ 0 ∧ !p.no_exitcode then EXIT_FAILURE else EXIT_SUCCESS

/-- The member `Context::run()`, from the point where `testArray` holds the
registered test cases in the order chosen by `order_by`.  The result is the
final state and the exit code. -/
def Context.run (testArray : List TestCase) (p0 : ContextState) : Option (ContextState × Int) :=
  let p := resetRunData p0
  if p.no_run || p.version || p.help || p.list_reporters then
    let q := iterateThroughReporters Event.report_query p
    some (q, cleanup_and_return q)
  else
    let p1 := { p with numTestCases := testArray.length }
    let query_mode : Bool := p1.count || p1.list_test_cases || p1.list_test_suites
    let p2 := if !query_mode then iterateThroughReporters Event.test_run_start p1 else p1
    match runTestArray query_mode testArray p2
        { testSuitesPassingFilt := [], queryResults := [] } with
    | none => none
    | some (p3, _, _) =>
      let p4 := if !query_mode then iterateThroughReporters Event.test_run_end p3
                else iterateThroughReporters Event.report_query p3
      some (p4, cleanup_and_return p4)

/-! ## Notions used by the statements about failure classification -/

/-- A failure was observed while the test case ran: a failure flag is already
set, an assertion was counted as failed, or the elapsed time exceeds the
timeout. -/
def failureObserved (tc : TestCase) (s : ContextState) : Prop :=
  s.failure_flags ≠ 0 ∨ s.numAssertsFailedCurrentTest_atomic ≠ 0 ∨
    timeoutExceeded tc.m_timeout tc.elapsedSeconds = true

/-- The state of `finalizeTestCaseData` just before `failure_flags` is reconciled
against the decorators. -/
def beforeDecorators (tc : TestCase) (s : ContextState) : ContextState :=
  let s2 := updateCounters tc.elapsedSeconds s
  let s3 := if s2.numAssertsFailedCurrentTest ≠ 0 then
      orFailureFlag TestCaseFailureReason.AssertFailure s2 else s2
  if timeoutExceeded tc.m_timeout s3.seconds then
      orFailureFlag TestCaseFailureReason.Timeout s3 else s3

/-! ## Sample inputs -/

/-- The options and counters of a `Context` constructed without command-line
arguments (the defaults of `parseArgs`), before a run. -/
def defaultContext : ContextState :=
  { first := 0, last := 4294967295, abort_after := 0, subcase_filter_levels := 2147483647,
    case_sensitive := false, no_exitcode := false, no_run := false, no_skip := false,
    help := false, version := false, count := false, list_test_cases := false,
    list_test_suites := false, list_reporters := false, numTestCases := 0,
    numTestCasesPassingFilters := 0, numTestSuitesPassingFilters := 0, numTestCasesFailed := 0,
    numAsserts := 0, numAssertsFailed := 0, numAssertsCurrentTest := 0,
    numAssertsFailedCurrentTest := 0, seconds := Double.zero, failure_flags := 0,
    numAssertsCurrentTest_atomic := 0, numAssertsFailedCurrentTest_atomic := 0,
    filters := fun _ => [], currentTest := none, subcasesStack := [], subcasesPassed := [],
    subcasesCurrentMaxLevel := 0, should_reenter := false, shouldLogCurrentException := true,
    events := [] }

/-- An undecorated test case named `t` of file `a.cpp` with the given body. -/
def sampleTest (body : Body) : TestCase :=
  { m_file := ['a', '.', 'c', 'p', 'p'], m_line := 1, m_name := ['t'], m_test_suite := [],
    m_skip := false, m_may_fail := false, m_should_fail := false, m_expected_failures := 0,
    m_timeout := Double.zero, m_test := body, elapsedSeconds := Double.zero }

/-- A sub-branch signature of file `a.cpp`. -/
def sampleSig (name : List Char) (line : Int) : SubcaseSignature :=
  { m_name := name, m_file := ['a', '.', 'c', 'p', 'p'], m_line := line }

/-! ## Notions used by the statements about the sub-branch engine -/

/-- The state with the members written by the execution of a test body reset:
what is left are the options and the counters that a test body cannot change. -/
def engineFrame (s : ContextState) : ContextState :=
  { s with numAssertsCurrentTest_atomic := 0, numAssertsFailedCurrentTest_atomic := 0,
           subcasesStack := [], subcasesPassed := [], subcasesCurrentMaxLevel := 0,
           should_reenter := false, shouldLogCurrentException := false, events := [] }

/-- A sub-branch with signature `sig` reached with `depth` signatures on the stack
passes the sub-branch filters of `Subcase::Subcase`. -/
def visible (s : ContextState) (depth : Nat) (sig : SubcaseSignature) : Bool :=
  !(decide (depth < size_t_of_int s.subcase_filter_levels) &&
    (!matchesAny sig.m_name (s.filters 6) true s.case_sensitive ||
      matchesAny sig.m_name (s.filters 7) false s.case_sensitive))

/-- The tree of the sub-branches of a body that pass the sub-branch filters, for a
body reached with `depth` signatures on the stack: a sub-branch that does not
pass is dropped with everything nested in it. -/
def filterBody (s : ContextState) : Nat → Body → Body
  | _, Body.done => Body.done
  | _, Body.throwOther => Body.throwOther
  | d, Body.assertion a failed rest => Body.assertion a failed (filterBody s d rest)
  | d, Body.subcase sig inner rest =>
    if visible s d sig then Body.subcase sig (filterBody s (d + 1) inner) (filterBody s d rest)
    else filterBody s d rest

/-- Every sub-branch of the body passes the sub-branch filters. -/
def allVisible (s : ContextState) : Nat → Body → Bool
  | _, Body.done => true
  | _, Body.throwOther => true
  | d, Body.assertion _ _ rest => allVisible s d rest
  | d, Body.subcase sig inner rest =>
    visible s d sig && allVisible s (d + 1) inner && allVisible s d rest

/-- The signatures of the sub-branches at the top level of a body. -/
def siblings : Body → List SubcaseSignature
  | Body.done => []
  | Body.throwOther => []
  | Body.assertion _ _ rest => siblings rest
  | Body.subcase sig _ rest => sig :: siblings rest

/-- Sibling sub-branches have pairwise distinct signatures, at every level. -/
def distinctSiblings : Body → Bool
  | Body.done => true
  | Body.throwOther => true
  | Body.assertion _ _ rest => distinctSiblings rest
  | Body.subcase sig inner rest =>
    !(siblings rest).contains sig && distinctSiblings inner && distinctSiblings rest

/-- The body never throws when the abort threshold is disabled: it has no `throw`
and no failed assertion of the require class. -/
def noThrow : Body → Bool
  | Body.done => true
  | Body.throwOther => false
  | Body.assertion a failed rest =>
    !(failed && decide (a &&& assertType.is_require ≠ 0)) && noThrow rest
  | Body.subcase _ inner rest => noThrow inner && noThrow rest

/-- The leaf paths of a body in depth-first declaration order: the signature
paths, from the top level down, of the sub-branches that have no nested
sub-branch. -/
def leafPaths : Body → List (List SubcaseSignature)
  | Body.done => []
  | Body.throwOther => []
  | Body.assertion _ _ rest => leafPaths rest
  | Body.subcase sig inner rest =>
    (if leafPaths inner = [] then [[sig]] else (leafPaths inner).map (fun q => sig :: q)) ++
      leafPaths rest

/-- The number of leaf paths of a body, one when it has no sub-branch. -/
def leafCount (b : Body) : Nat := max 1 (leafPaths b).length

/-- The number of distinct leaf paths of a body, one when it has no
sub-branch. -/
def distinctLeafPathCount (b : Body) : Nat := max 1 (leafPaths b).dedup.length

/-- The paths of all sub-branches of a body reached under the stack `stack`. -/
def nodePaths (stack : List SubcaseSignature) : Body → List (List SubcaseSignature)
  | Body.done => []
  | Body.throwOther => []
  | Body.assertion _ _ rest => nodePaths stack rest
  | Body.subcase sig inner rest =>
    (stack ++ [sig]) :: (nodePaths (stack ++ [sig]) inner ++ nodePaths stack rest)

/-- The memo is what it should be when exactly the first `k` leaves of the body
have been completed: a sub-branch is in the memo iff all the leaves under it are
among the first `k` leaves. -/
def memoAgrees (memo : List (List SubcaseSignature)) :
    Nat → List SubcaseSignature → Body → Prop
  | _, _, Body.done => True
  | _, _, Body.throwOther => True
  | k, stack, Body.assertion _ _ rest => memoAgrees memo k stack rest
  | k, stack, Body.subcase sig inner rest =>
    (stack ++ [sig] ∈ memo ↔ leafCount inner ≤ k) ∧
      memoAgrees memo k (stack ++ [sig]) inner ∧
      memoAgrees memo (k - leafCount inner) stack rest

/-- The signatures of the `subcase_start` events of a record, in order. -/
def startsOf : List Event → List SubcaseSignature
  | [] => []
  | Event.subcase_start sig :: rest => sig :: startsOf rest
  | _ :: rest => startsOf rest

/-- The event can be sent while a test body executes. -/
def Event.inBody : Event → Bool
  | Event.subcase_start _ => true
  | Event.subcase_end => true
  | Event.log_assert _ _ => true
  | Event.test_case_exception _ => true
  | _ => false

/-- The sub-branches entered by each invocation of the test body, read off a
record of one test case: the record is cut at the `test_case_reenter` events and
each piece gives the signatures of its `subcase_start` events. -/
def invocationTraces : List Event → List (List SubcaseSignature)
  | [] => [[]]
  | Event.test_case_reenter _ :: rest => [] :: invocationTraces rest
  | Event.subcase_start sig :: rest =>
    match invocationTraces rest with
    | [] => [[sig]]
    | t :: ts => (sig :: t) :: ts
  | _ :: rest => invocationTraces rest

/-- The part of the run state that the sub-branch engine works on, with the
signatures of the `subcase_start` events sent so far. -/
structure EngineView where
  stack : List SubcaseSignature
  passed : List (List SubcaseSignature)
  maxLevel : Nat
  reenter : Bool
  starts : List SubcaseSignature

/-- The engine's part of a run state. -/
def view (s : ContextState) : EngineView :=
  { stack := s.subcasesStack, passed := s.subcasesPassed,
    maxLevel := s.subcasesCurrentMaxLevel, reenter := s.should_reenter,
    starts := startsOf s.events }

/-- The number of sub-branch paths of a body that are not in the memo. -/
def openPaths (b : Body) (memo : List (List SubcaseSignature)) : Nat :=
  ((nodePaths [] b).filter (fun q => decide (q ∉ memo))).length

/-- The state with the members written by the driving loop of a test case reset:
those written by the test body, and `failure_flags`. -/
def loopFrame (s : ContextState) : ContextState :=
  { engineFrame s with failure_flags := 0 }

/-- Two run states have the same sub-branch filter options. -/
def sameSubcaseFilters (s t : ContextState) : Prop :=
  s.subcase_filter_levels = t.subcase_filter_levels ∧ s.filters 6 = t.filters 6 ∧
    s.filters 7 = t.filters 7 ∧ s.case_sensitive = t.case_sensitive

/-- Sample body: two top-level sub-branches `A` and `B`. -/
def bodyAB : Body :=
  Body.subcase (sampleSig ['A'] 10) Body.done (Body.subcase (sampleSig ['B'] 20) Body.done Body.done)

/-- Sample body: sub-branch `A` with nested `A1` and `A2`, and a sibling `B`. -/
def bodyNested : Body :=
  Body.subcase (sampleSig ['A'] 10)
    (Body.subcase (sampleSig ['A', '1'] 11) Body.done
      (Body.subcase (sampleSig ['A', '2'] 12) Body.done Body.done))
    (Body.subcase (sampleSig ['B'] 20) Body.done Body.done)

/-- Sample body: one `SUBCASE("A")` statement executed twice by a loop. -/
def bodyTwice : Body :=
  Body.subcase (sampleSig ['A'] 10) Body.done (Body.subcase (sampleSig ['A'] 10) Body.done Body.done)

/-- Sample body: sub-branch `A` in which one `SUBCASE("x")` statement is executed
twice by a loop. -/
def bodyTwiceNested : Body :=
  Body.subcase (sampleSig ['A'] 10)
    (Body.subcase (sampleSig ['x'] 11) Body.done
      (Body.subcase (sampleSig ['x'] 11) Body.done Body.done))
    Body.done

/-- Sample body: `SUBCASE("A") { REQUIRE(false); }` followed by `SUBCASE("B") {}`. -/
def bodyRequire : Body :=
  Body.subcase (sampleSig ['A'] 10) (Body.assertion assertType.DT_REQUIRE true Body.done)
    (Body.subcase (sampleSig ['B'] 20) Body.done Body.done)

/-! ## Notions used by the statements about the wildcard filter -/

/-- The character test of `wildcmp` on two characters of the strings. -/
def charEq (caseSensitive : Bool) (c d : Char) : Bool :=
  if caseSensitive then c == d else tolower c == tolower d

/-- Glob matching relative to the character test of `wildcmp`: `*` matches any
run, any other pattern character matches one character, which it must equal
under the test unless it is `?`. -/
inductive GlobMatchBy (caseSensitive : Bool) : List Char → List Char → Prop
  | nil : GlobMatchBy caseSensitive [] []
  | star (run rest p : List Char) :
      GlobMatchBy caseSensitive p rest → GlobMatchBy caseSensitive ('*' :: p) (run ++ rest)
  | one (c d : Char) (p s : List Char) :
      c ≠ '*' → (c = '?' ∨ charEq caseSensitive c d = true) →
      GlobMatchBy caseSensitive p s → GlobMatchBy caseSensitive (c :: p) (d :: s)

/-- A pattern piece without `*` matches a string piece character by character. -/
def pieceMatches (caseSensitive : Bool) (pre m : List Char) : Prop :=
  List.Forall₂ (fun c d => c ≠ '*' ∧ (c = '?' ∨ charEq caseSensitive c d = true)) pre m

/-! ## Notions used by the statements about test selection -/

/-- The test case passes the selection filters: it is not skip-decorated (or
`no_skip` is set), its file, suite and name match their include filters (an
empty list matches) and none of them matches its exclude filter (an empty list
matches nothing). -/
def passesSelection (p : ContextState) (tc : TestCaseData) : Prop :=
  (tc.m_skip = false ∨ p.no_skip = true) ∧
  matchesAny tc.m_file (p.filters 0) true p.case_sensitive = true ∧
  matchesAny tc.m_file (p.filters 1) false p.case_sensitive = false ∧
  matchesAny tc.m_test_suite (p.filters 2) true p.case_sensitive = true ∧
  matchesAny tc.m_test_suite (p.filters 3) false p.case_sensitive = false ∧
  matchesAny tc.m_name (p.filters 4) true p.case_sensitive = true ∧
  matchesAny tc.m_name (p.filters 5) false p.case_sensitive = false

/-- The test cases of a list that pass the selection filters. -/
def selectedBefore (p : ContextState) (pre : List TestCase) : List TestCase :=
  pre.filter (fun tc => !skipByFilters p tc.toTestCaseData)

/-- The state with everything that the loop over the test cases writes reset: what
is left are the options of the run. -/
def runFrame (s : ContextState) : ContextState :=
  { loopFrame s with numTestCasesPassingFilters := 0, numTestSuitesPassingFilters := 0,
                     numTestCasesFailed := 0, numAsserts := 0, numAssertsFailed := 0,
                     numAssertsCurrentTest := 0, numAssertsFailedCurrentTest := 0,
                     seconds := Double.zero, currentTest := none }

/-! ## Sample inputs for the timeout decorator and for `Approx` -/

/-- The double nearest to `0.1`, which is `0x3FB999999999999A`. -/
def doubleTenth : Double := Double.finite false 7205759403792794 (-56)

/-- The double `0.5`. -/
def doubleHalf : Double := Double.pow2 (-1)


/-- Trait bit of the enum `assertType`. -/
def assertType.is_false : Nat := 256
/-- Trait bit of the enum `assertType`. -/
def assertType.is_eq : Nat := 1024
/-- Assertion type `DT_CHECK_EQ`. -/
def assertType.DT_CHECK_EQ : Nat :=
  assertType.is_normal ||| assertType.is_eq ||| assertType.is_check
/-- Assertion type `DT_CHECK_FALSE`. -/
def assertType.DT_CHECK_FALSE : Nat :=
  assertType.is_normal ||| assertType.is_false ||| assertType.is_check

/-- The conversion `sprintf(buf, "%d", in)` of the C library: the decimal digits of
the number, after a `-` when it is negative. -/
def sprintf_d (n : Int) : List Char :=
  if n < 0 then '-' :: Nat.toDigits 10 n.natAbs else Nat.toDigits 10 n.natAbs

/-- The overload `toString(int in)`. -/
def toString (n : Int) : List Char := sprintf_d n

/-- The template `stringifyBinaryExpr(lhs, op, rhs)` on `int` operands. -/
def stringifyBinaryExpr (lhs : Int) (op : List Char) (rhs : Int) : List Char :=
  toString lhs ++ op ++ toString rhs

/-- The value `eq` of the enum `binaryAssertComparison`. -/
def binaryAssertComparison.eq : Nat := 0
/-- The value `ne` of the enum `binaryAssertComparison`. -/
def binaryAssertComparison.ne : Nat := 1
/-- The value `gt` of the enum `binaryAssertComparison`. -/
def binaryAssertComparison.gt : Nat := 2
/-- The value `lt` of the enum `binaryAssertComparison`. -/
def binaryAssertComparison.lt : Nat := 3
/-- The value `ge` of the enum `binaryAssertComparison`. -/
def binaryAssertComparison.ge : Nat := 4
/-- The value `le` of the enum `binaryAssertComparison`. -/
def binaryAssertComparison.le : Nat := 5

/-- The call `RelationalComparator<comparison, int, int>()(lhs, rhs)`: the
specialisations 0 to 5 apply `eq`, `ne`, `gt`, `lt`, `ge` and `le`, the primary
template returns `false`.  The operands are compared here, and `evals` counts how
many times that has happened. -/
def RelationalComparator (comparison : Nat) (lhs rhs : Int) (evals : Nat) : Bool × Nat :=
  (match comparison with
   | 0 => decide (lhs = rhs)
   | 1 => decide (lhs ≠ rhs)
   | 2 => decide (lhs > rhs)
   | 3 => decide (lhs < rhs)
   | 4 => decide (lhs ≥ rhs)
   | 5 => decide (lhs ≤ rhs)
   | _ => false, evals + 1)

/-- The macro `DOCTEST_CMP_EQ(l, r)`, `l == r`; `evals` counts the comparisons. -/
def DOCTEST_CMP_EQ (l r : Int) (evals : Nat) : Bool × Nat := (decide (l = r), evals + 1)

/-- The members of `AssertData` that an assertion on two operands writes. -/
structure AssertData where
  m_at : Nat
  m_failed : Bool
  m_decomp : List Char
  deriving DecidableEq

/-- The struct `Result`. -/
structure Result where
  m_passed : Bool
  m_decomp : List Char
  deriving DecidableEq

/-- The constructor `ResultBuilder::ResultBuilder(at, file, line, expr)`. -/
def ResultBuilder.ctor (a : Nat) : AssertData := { m_at := a, m_failed := true, m_decomp := [] }

/-- The member `ResultBuilder::setResult(res)`. -/
def ResultBuilder.setResult (res : Result) (rb : AssertData) : AssertData :=
  { rb with m_decomp := res.m_decomp, m_failed := !res.m_passed }

/-- The member template `ResultBuilder::binary_assert<comparison>(lhs, rhs)`;
`success` is `getContextOptions()->success`. -/
def ResultBuilder.binary_assert (comparison : Nat) (lhs rhs : Int) (success : Bool)
    (rb : AssertData) (evals : Nat) : AssertData × Nat :=
  let r := RelationalComparator comparison lhs rhs evals
  let rb1 := { rb with m_failed := !r.1 }
  (if rb1.m_failed || success then
     { rb1 with m_decomp := stringifyBinaryExpr lhs [',', ' '] rhs } else rb1, r.2)

/-- The operator `Expression_lhs<int>::operator==(rhs)`, generated by
`DOCTEST_DO_BINARY_EXPRESSION_COMPARISON(==, " == ", DOCTEST_CMP_EQ)`. -/
def Expression_lhs.opEq (lhs : Int) (m_at : Nat) (rhs : Int) (success : Bool) (evals : Nat) :
    Result × Nat :=
  let r := DOCTEST_CMP_EQ lhs rhs evals
  let res := if m_at &&& assertType.is_false ≠ 0 then !r.1 else r.1
  if !res || success then
    ({ m_passed := res, m_decomp := stringifyBinaryExpr lhs [' ', '=', '=', ' '] rhs }, r.2)
  else ({ m_passed := res, m_decomp := [] }, r.2)

/-- The statements of `DOCTEST_ASSERT_IMPLEMENT_2(assert_type, lhs == rhs)` before
`DOCTEST_ASSERT_LOG_AND_REACT`: the builder is constructed and receives the
result of `ExpressionDecomposer(assert_type) << lhs == rhs`. -/
def decomposedEquality (a : Nat) (lhs rhs : Int) (success : Bool) (evals : Nat) :
    AssertData × Nat :=
  let r := Expression_lhs.opEq lhs a rhs success evals
  (ResultBuilder.setResult r.1 (ResultBuilder.ctor a), r.2)

/-- The function template `binary_assert<comparison>(at, file, line, expr, lhs, rhs)`
inside a running test, up to the call of `rb.log()`: the builder `rb` of
`DOCTEST_ASSERT_IN_TESTS`. -/
def binary_assert (comparison : Nat) (a : Nat) (lhs rhs : Int) (success : Bool) (evals : Nat) :
    AssertData × Nat :=
  let r := RelationalComparator comparison lhs rhs evals
  let failed := !r.1
  let rb := { ResultBuilder.ctor a with m_failed := failed }
  (if rb.m_failed || success then
     { rb with m_decomp := stringifyBinaryExpr lhs [',', ' '] rhs } else rb, r.2)

/-! ## Notions used by the statements about assertion classes -/

/-- The assertions that a record reports, in order: the type and `m_failed` of
every `log_assert` event. -/
def assertsLogged : List Event → List (Nat × Bool)
  | [] => []
  | Event.log_assert a failed :: rest => (a, failed) :: assertsLogged rest
  | _ :: rest => assertsLogged rest

/-- Sample body: `CHECK(false); CHECK(true);`. -/
def bodyCheckCheck : Body :=
  Body.assertion assertType.DT_CHECK true (Body.assertion assertType.DT_CHECK false Body.done)

/-! ## Notions used by the statements about the run -/

/-- The statement `p->numTestCasesPassingFilters++` of `Context::run`. -/
def countPassingFilters (p : ContextState) : ContextState :=
  { p with numTestCasesPassingFilters := p.numTestCasesPassingFilters + 1 }

/-- In the loop over the test cases, test case `tc` reaches the block "execute the
test": it passes the filters, its position among the test cases passing them is
in the execution range, and the run is not a query. -/
def reachesExecution (p : ContextState) (tc : TestCaseData) : Prop :=
  skipByFilters p tc = false ∧
  ¬ ((p.last < p.numTestCasesPassingFilters + 1 ∧ p.first ≤ p.last) ∨
      p.first > p.numTestCasesPassingFilters + 1) ∧
  p.count = false ∧ p.list_test_cases = false ∧ p.list_test_suites = false

/-- The run state when the `try` statement of the driving loop is left: the body
was executed and the `catch` clauses have run. -/
def afterBody (tc : TestCase) (p : ContextState) : ContextState :=
  match (execBody tc.m_test (loopReset p)).2 with
  | Outcome.normal => (execBody tc.m_test (loopReset p)).1
  | Outcome.testFailure =>
    orFailureFlag TestCaseFailureReason.AssertFailure (execBody tc.m_test (loopReset p)).1
  | Outcome.exception =>
    orFailureFlag TestCaseFailureReason.Exception
      (iterateThroughReporters (Event.test_case_exception false)
        (execBody tc.m_test (loopReset p)).1)

/-- The condition of the abort threshold in the driving loop: the threshold is
enabled and the failed assertions of the run, those of the current test case
included, have reached it. -/
def abortReached (p : ContextState) : Bool :=
  decide (p.abort_after > 0 ∧
    p.numAssertsFailed + p.numAssertsFailedCurrentTest_atomic ≥ p.abort_after)

/-- The run state after `k` passes through the driving loop of `tc` started in `s`. -/
def iterationState (tc : TestCase) : Nat → ContextState → ContextState
  | 0, s => s
  | k + 1, s => iterationState tc k (runIteration tc s).1

/-- The driving loop of `tc` started in `s` makes more than `k` passes: each of the
first `k` passes ends with `run_test` true. -/
def reachesIteration (tc : TestCase) : Nat → ContextState → Bool
  | 0, _ => true
  | k + 1, s => (runIteration tc s).2 && reachesIteration tc k (runIteration tc s).1

/-- The event is a `test_case_reenter`. -/
def Event.isReenter : Event → Bool
  | Event.test_case_reenter _ => true
  | _ => false

/-- The names of the reporter functions. -/
inductive EventKind where
  | report_query | test_run_start | test_run_end | test_case_start | test_case_reenter
  | test_case_end | test_case_exception | subcase_start | subcase_end | log_assert
  | test_case_skipped
  deriving DecidableEq, Repr

/-- The reporter function that an event is a call of. -/
def Event.kind : Event → EventKind
  | Event.report_query => EventKind.report_query
  | Event.test_run_start => EventKind.test_run_start
  | Event.test_run_end => EventKind.test_run_end
  | Event.test_case_start _ => EventKind.test_case_start
  | Event.test_case_reenter _ => EventKind.test_case_reenter
  | Event.test_case_end => EventKind.test_case_end
  | Event.test_case_exception _ => EventKind.test_case_exception
  | Event.subcase_start _ => EventKind.subcase_start
  | Event.subcase_end => EventKind.subcase_end
  | Event.log_assert _ _ => EventKind.log_assert
  | Event.test_case_skipped _ => EventKind.test_case_skipped

/-- What the reporters receive for one test case `tc` whose body was invoked `n`
times: one `test_case_skipped` when it was not executed; otherwise one
`test_case_start`, then events sent while the body runs and `n - 1` events
`test_case_reenter`, then one `test_case_end`. -/
def caseReport (tc : TestCaseData) (n : Nat) (E : List Event) : Prop :=
  (n = 0 ∧ E = [Event.test_case_skipped tc]) ∨
  (0 < n ∧ ∃ M, E = Event.test_case_start tc :: M ++ [Event.test_case_end] ∧
    (∀ e ∈ M, Event.inBody e = true ∨ e = Event.test_case_reenter tc) ∧
    (M.filter Event.isReenter).length = n - 1)

/-- Sample body: `SUBCASE("A") {} SUBCASE("B") {} CHECK(false);`. -/
def bodyABCheck : Body :=
  Body.subcase (sampleSig ['A'] 10) Body.done
    (Body.subcase (sampleSig ['B'] 20) Body.done
      (Body.assertion assertType.DT_CHECK true Body.done))

/-- Sample body: `SUBCASE("A") {} SUBCASE("B") { CHECK(false); } throw 0;`. -/
def bodyThrow : Body :=
  Body.subcase (sampleSig ['A'] 10) Body.done
    (Body.subcase (sampleSig ['B'] 20) (Body.assertion assertType.DT_CHECK true Body.done)
      Body.throwOther)

/-- The run state of a normal run when the loop over the `n` registered test cases
is entered: the data of the run is reset and `test_run_start` was sent. -/
def runStart (n : Nat) (p0 : ContextState) : ContextState :=
  iterateThroughReporters Event.test_run_start { resetRunData p0 with numTestCases := n }

/-- The run state of a query when the loop over the `n` registered test cases is
entered. -/
def queryStart (n : Nat) (p0 : ContextState) : ContextState :=
  { resetRunData p0 with numTestCases := n }

/-! ## Sample inputs for the sub-branch filters -/

/-- Filter lists with the single include pattern `x` for sub-branch names
(`filters[6]`) and nothing else. -/
def filtersOnlyX : Nat → List (List Char) := fun i => if i = 6 then [['x']] else []

/-- Sample state with `subcase_filter_levels = 1`, inside the sub-branch `A`: the
stack holds one signature. -/
def insideSubcaseA : ContextState :=
  { defaultContext with subcase_filter_levels := 1, subcasesStack := [sampleSig ['A'] 10] }

/-! ## The reversed integer sequences of `kat/detail/integer_sequence.hpp`

An `integer_sequence<T, Is...>` is the list of its elements `Is...`; the element
type `T` is taken wide enough for `N - 1`, so the elements are natural numbers. -/

/-- The alias `merge_and_renumber_reversed_integer_sequences<Sequence0, Sequence1>`,
which is `integer_sequence<T, (sizeof...(Is1) + Is0)..., Is1...>`. -/
def kat.merge_and_renumber_reversed_integer_sequences (Is0 Is1 : List Nat) : List Nat :=
  Is0.map (fun i => Is1.length + i) ++ Is1

/-- The member `type` of `make_reversed_integer_sequence_impl<T, N>` under a budget
for nested instantiations of the primary template: the specialisations for 0
and 1 are `integer_sequence<T>` and `integer_sequence<T, 0>`, and the primary
template merges the sequences for `N / 2` and `N - N / 2`. -/
def kat.make_reversed_integer_sequence_impl : Nat → Nat → Option (List Nat)
  | _, 0 => some []
  | _, 1 => some [0]
  | 0, _ + 2 => none
  | fuel + 1, n + 2 =>
    match kat.make_reversed_integer_sequence_impl fuel ((n + 2) / 2),
        kat.make_reversed_integer_sequence_impl fuel ((n + 2) - (n + 2) / 2) with
    | some Is0, some Is1 => some (kat.merge_and_renumber_reversed_integer_sequences Is0 Is1)
    | _, _ => none

/-- The alias `make_reversed_integer_sequence<T, N>`; `N` nested instantiations are
always enough. -/
def kat.make_reversed_integer_sequence (N : Nat) : List Nat :=
  (kat.make_reversed_integer_sequence_impl N N).getD []

/-! ## The fatal-condition handler -/

/-- The loop `while(g_cs->subcasesStack.size())` of `reportFatal`, which pops one
signature and sends `subcase_end` in each pass; `passes` bounds the number of
passes, and `reportFatal` gives it the size of the stack. -/
def reportFatalLoop : Nat → ContextState → ContextState
  | 0, s => s
  | passes + 1, s =>
    if s.subcasesStack.length ≠ 0 then
      reportFatalLoop passes
        (iterateThroughReporters Event.subcase_end
          { s with subcasesStack := s.subcasesStack.dropLast })
    else s

/-- The function `reportFatal(message)`; `finalizeTestCaseData` dereferences
`currentTest`, so there is no result when it is null. -/
def reportFatal (s : ContextState) : Option ContextState :=
  let s1 := orFailureFlag TestCaseFailureReason.Crash s
  let s2 := iterateThroughReporters (Event.test_case_exception true) s1
  let s3 := reportFatalLoop s2.subcasesStack.length s2
  match finalizeTestCaseData s3 with
  | none => none
  | some s4 =>
    some (iterateThroughReporters Event.test_run_end
      (iterateThroughReporters Event.test_case_end s4))

/-- The result of `FatalConditionHandler::handleSignal(sig)`: the run state, the
static member `isSet` and the signal passed to `raise`. -/
structure SignalResult where
  state : ContextState
  isSet : Bool
  raised : Int

/-- The function `FatalConditionHandler::handleSignal(sig)`: `reset()` restores the
previous signal actions and clears `isSet`, `reportFatal(name)` reports, and
`raise(sig)` sends the signal again. -/
def FatalConditionHandler.handleSignal (sig : Int) (s : ContextState) : Option SignalResult :=
  match reportFatal s with
  | none => none
  | some s1 => some { state := s1, isSet := false, raised := sig }

/-- The event is a `test_case_exception` with `is_crash` true. -/
def Event.isCrash : Event → Bool
  | Event.test_case_exception true => true
  | _ => false

/-- Sample state inside the body of a test case, with one sub-branch entered. -/
def crashState : ContextState :=
  { defaultContext with currentTest := some (sampleTest bodyAB),
                        subcasesStack := [sampleSig ['A'] 10] }

/-! ## Assertions logged from several threads -/

/-- An atomic read-modify-write on the counters of the current test case: the
increment of `numAssertsCurrentTest_atomic` in `addAssert(at)` or of
`numAssertsFailedCurrentTest_atomic` in `addFailedAssert(at)`.  The counters
are `std::atomic<int>`, so each increment is one indivisible step. -/
inductive CounterOp where
  | countAssert (a : Nat) : CounterOp
  | countFailedAssert (a : Nat) : CounterOp

/-- The effect of one counter operation on the run state. -/
def CounterOp.apply : CounterOp → ContextState → ContextState
  | CounterOp.countAssert a, s => addAssert a s
  | CounterOp.countFailedAssert a, s => addFailedAssert a s

/-- The counter operations of `ResultBuilder::log()` for an assertion of type `a`
whose `m_failed` is `failed`: `addAssert`, then `addFailedAssert` when it
failed. -/
def logOps (a : Nat) (failed : Bool) : List CounterOp :=
  CounterOp.countAssert a :: (if failed then [CounterOp.countFailedAssert a] else [])

/-- The counter operations of a thread that logs the given assertions in order. -/
def threadOps : List (Nat × Bool) → List CounterOp
  | [] => []
  | (a, failed) :: rest => logOps a failed ++ threadOps rest

/-- The threads of a test body under a schedule: at each step the thread named by
the schedule performs its next counter operation (nothing happens when that
thread has finished).  The result is the run state and what every thread has
still to do. -/
def runThreads : List Nat → List (List CounterOp) → ContextState →
    ContextState × List (List CounterOp)
  | [], threads, s => (s, threads)
  | i :: schedule, threads, s =>
    match threads[i]? with
    | some (op :: rest) => runThreads schedule (threads.set i rest) (op.apply s)
    | _ => runThreads schedule threads s

/-- The number of assertions of a thread that are not of the warn class. -/
def countedAsserts : List (Nat × Bool) → Nat
  | [] => 0
  | (a, _) :: rest => (if a &&& assertType.is_warn = 0 then 1 else 0) + countedAsserts rest

/-- The number of failed assertions of a thread that are not of the warn class. -/
def countedFailures : List (Nat × Bool) → Nat
  | [] => 0
  | (a, failed) :: rest =>
    (if a &&& assertType.is_warn = 0 ∧ failed = true then 1 else 0) + countedFailures rest

/-- The increments of `numAssertsCurrentTest_atomic` that a list of counter
operations makes. -/
def pendingAsserts : List CounterOp → Nat
  | [] => 0
  | CounterOp.countAssert a :: rest =>
    (if a &&& assertType.is_warn = 0 then 1 else 0) + pendingAsserts rest
  | CounterOp.countFailedAssert _ :: rest => pendingAsserts rest

/-- The increments of `numAssertsFailedCurrentTest_atomic` that a list of counter
operations makes. -/
def pendingFailures : List CounterOp → Nat
  | [] => 0
  | CounterOp.countAssert _ :: rest => pendingFailures rest
  | CounterOp.countFailedAssert a :: rest =>
    (if a &&& assertType.is_warn = 0 then 1 else 0) + pendingFailures rest

/-! ## Notions used by the statements about repeated sub-branches -/

/-- Sequential composition of two pieces of a test body: `second` is executed where
`first` ends normally. -/
def Body.seq : Body → Body → Body
  | Body.done, second => second
  | Body.throwOther, _ => Body.throwOther
  | Body.assertion a failed rest, second => Body.assertion a failed (rest.seq second)
  | Body.subcase sig inner rest, second => Body.subcase sig inner (rest.seq second)

/-! ## Notions used by the statements about warn-class assertions -/

/-- The assertion type is of the warn class: it has the trait `is_warn` and neither
`is_check` nor `is_require`, as every `DT_WARN...` value of the enum. -/
def warnClass (a : Nat) : Bool :=
  decide (a &&& assertType.is_warn ≠ 0 ∧ a &&& assertType.is_check = 0 ∧
    a &&& assertType.is_require = 0)

/-- The body throws nothing and every assertion of it that fails is of the warn
class. -/
def onlyWarnFailures : Body → Bool
  | Body.done => true
  | Body.throwOther => false
  | Body.assertion a failed rest => (!failed || warnClass a) && onlyWarnFailures rest
  | Body.subcase _ inner rest => onlyWarnFailures inner && onlyWarnFailures rest

/-- Sample body: `WARN(false); CHECK(true);`. -/
def bodyWarn : Body :=
  Body.assertion assertType.DT_WARN true (Body.assertion assertType.DT_CHECK false Body.done)

/-! # Theorems -/
/-! ## Failure classification (`finalizeTestCaseData`) -/

theorem lor_ne_zero_left {a : Nat} (b : Nat) (h : a ≠ 0) : a ||| b ≠ 0 := by
  intro h0
  apply h
  apply Nat.eq_of_testBit_eq
  intro i
  have := congrArg (fun n => Nat.testBit n i) h0
  simp only [Nat.testBit_or, Nat.zero_testBit] at this
  simp only [Nat.zero_testBit]
  cases hb : a.testBit i
  · rfl
  · rw [hb] at this; simp at this

theorem lor_ne_zero_right (a : Nat) {b : Nat} (h : b ≠ 0) : a ||| b ≠ 0 := by
  rw [Nat.lor_comm]; exact lor_ne_zero_left a h

theorem land_lor_self (a f : Nat) : a &&& (f ||| a) = a := by
  apply Nat.eq_of_testBit_eq
  intro i
  simp only [Nat.testBit_and, Nat.testBit_or]
  cases a.testBit i <;> simp

theorem finalize_eq (tc : TestCase) (s : ContextState) :
    finalizeTestCaseDataFor tc s = countFailure (applyDecorators tc (beforeDecorators tc s)) := rfl

theorem beforeDecorators_failed (tc : TestCase) (s : ContextState) :
    (beforeDecorators tc s).numTestCasesFailed = s.numTestCasesFailed := by
  unfold beforeDecorators
  simp only [updateCounters, orFailureFlag]
  split_ifs <;> rfl

theorem beforeDecorators_numFailed (tc : TestCase) (s : ContextState) :
    (beforeDecorators tc s).numAssertsFailedCurrentTest =
      s.numAssertsFailedCurrentTest_atomic := by
  unfold beforeDecorators
  simp only [updateCounters, orFailureFlag]
  split_ifs <;> rfl

theorem beforeDecorators_flags_ne_zero (tc : TestCase) (s : ContextState) :
    (beforeDecorators tc s).failure_flags ≠ 0 ↔ failureObserved tc s := by
  unfold beforeDecorators failureObserved
  simp only [updateCounters, orFailureFlag, TestCaseFailureReason.AssertFailure,
    TestCaseFailureReason.Timeout]
  by_cases h1 : s.numAssertsFailedCurrentTest_atomic = 0 <;>
    by_cases h2 : timeoutExceeded tc.m_timeout tc.elapsedSeconds = true <;>
    by_cases h3 : s.failure_flags = 0 <;>
    simp [h1, h2, h3, lor_ne_zero_left, lor_ne_zero_right]

theorem beforeDecorators_flags_lt (tc : TestCase) (s : ContextState)
    (h : s.failure_flags < 16) : (beforeDecorators tc s).failure_flags < 32 := by
  have key : ∀ f < 16, f < 32 ∧ f ||| 1 < 32 ∧ f ||| 16 < 32 ∧ (f ||| 1) ||| 16 < 32 := by
    decide
  obtain ⟨k1, k2, k3, k4⟩ := key _ h
  unfold beforeDecorators
  simp only [updateCounters, orFailureFlag, TestCaseFailureReason.AssertFailure,
    TestCaseFailureReason.Timeout]
  split_ifs <;> assumption

theorem okToFail_should (f : Nat) :
    okToFail (f ||| TestCaseFailureReason.ShouldHaveFailedAndDid) = true := by
  simp [okToFail, land_lor_self, TestCaseFailureReason.ShouldHaveFailedAndDid]

theorem okToFail_could (f : Nat) :
    okToFail (f ||| TestCaseFailureReason.CouldHaveFailedAndDid) = true := by
  simp [okToFail, land_lor_self, TestCaseFailureReason.CouldHaveFailedAndDid]

theorem okToFail_exactly (f : Nat) :
    okToFail (f ||| TestCaseFailureReason.FailedExactlyNumTimes) = true := by
  simp [okToFail, land_lor_self, TestCaseFailureReason.FailedExactlyNumTimes]

theorem countFailure_failed (s : ContextState) :
    (countFailure s).numTestCasesFailed =
      if s.failure_flags ≠ 0 ∧ okToFail s.failure_flags = false then s.numTestCasesFailed + 1
      else s.numTestCasesFailed := by
  unfold countFailure
  by_cases h : s.failure_flags ≠ 0 ∧ okToFail s.failure_flags = false
  · have h2 : s.failure_flags ≠ 0 ∧ (!okToFail s.failure_flags) = true := by
      simpa using h
    rw [if_pos h2, if_pos h]
  · have h2 : ¬ (s.failure_flags ≠ 0 ∧ (!okToFail s.failure_flags) = true) := by
      simpa using h
    rw [if_neg h2, if_neg h]

theorem orFailureFlag_flags (r : Nat) (s : ContextState) :
    (orFailureFlag r s).failure_flags = s.failure_flags ||| r := rfl

theorem orFailureFlag_failed (r : Nat) (s : ContextState) :
    (orFailureFlag r s).numTestCasesFailed = s.numTestCasesFailed := rfl

theorem okToFail_shouldnt : okToFail (0 ||| TestCaseFailureReason.ShouldHaveFailedButDidnt) = false := by
  decide

theorem finalize_should_fail_observed (tc : TestCase) (s : ContextState)
    (hsf : tc.m_should_fail = true) (hobs : failureObserved tc s) :
    (finalizeTestCaseDataFor tc s).numTestCasesFailed = s.numTestCasesFailed := by
  have h0 : (beforeDecorators tc s).failure_flags ≠ 0 :=
    (beforeDecorators_flags_ne_zero tc s).mpr hobs
  rw [finalize_eq, countFailure_failed]
  simp only [applyDecorators, hsf, if_true, if_pos h0, orFailureFlag_flags, okToFail_should,
    orFailureFlag_failed, beforeDecorators_failed]
  simp

theorem finalize_should_fail_unobserved (tc : TestCase) (s : ContextState)
    (hsf : tc.m_should_fail = true) (hobs : ¬ failureObserved tc s) :
    (finalizeTestCaseDataFor tc s).numTestCasesFailed = s.numTestCasesFailed + 1 := by
  have h0 : (beforeDecorators tc s).failure_flags = 0 := by
    by_contra hc; exact hobs ((beforeDecorators_flags_ne_zero tc s).mp hc)
  have h1 : ¬ ((beforeDecorators tc s).failure_flags ≠ 0) := fun h => h h0
  have h2 : applyDecorators tc (beforeDecorators tc s) =
      orFailureFlag TestCaseFailureReason.ShouldHaveFailedButDidnt (beforeDecorators tc s) := by
    unfold applyDecorators
    rw [if_pos hsf, if_neg h1]
  rw [finalize_eq, countFailure_failed, h2, orFailureFlag_flags, orFailureFlag_failed, h0,
    okToFail_shouldnt, beforeDecorators_failed]
  simp [TestCaseFailureReason.ShouldHaveFailedButDidnt]

/-- C8: for a test case decorated `should_fail`, `finalizeTestCaseData` counts the
test case as failed exactly when no failure was observed; when a failure was
observed (in particular a failed assertion) `numTestCasesFailed` is unchanged. -/
theorem should_fail_inverts_verdict (tc : TestCase) (s : ContextState)
    (hcur : s.currentTest = some tc) (hsf : tc.m_should_fail = true) :
    ∃ s1, finalizeTestCaseData s = some s1 ∧
      (s1.numTestCasesFailed = s.numTestCasesFailed + 1 ↔ ¬ failureObserved tc s) ∧
      (failureObserved tc s → s1.numTestCasesFailed = s.numTestCasesFailed) ∧
      (s.failure_flags = 0 → s.numAssertsFailedCurrentTest_atomic = 0 →
        timeoutExceeded tc.m_timeout tc.elapsedSeconds = false →
        s1.numTestCasesFailed = s.numTestCasesFailed + 1) ∧
      (s.numAssertsFailedCurrentTest_atomic ≠ 0 →
        s1.numTestCasesFailed = s.numTestCasesFailed) := by
  refine ⟨finalizeTestCaseDataFor tc s, by simp [finalizeTestCaseData, hcur], ?_, ?_, ?_, ?_⟩
  · constructor
    · intro h hobs
      rw [finalize_should_fail_observed tc s hsf hobs] at h
      omega
    · exact finalize_should_fail_unobserved tc s hsf
  · exact finalize_should_fail_observed tc s hsf
  · intro h1 h2 h3
    apply finalize_should_fail_unobserved tc s hsf
    simp [failureObserved, h1, h2, h3]
  · intro h1
    exact finalize_should_fail_observed tc s hsf (Or.inr (Or.inl h1))
theorem should_fail_inverts_verdict_witness :
    ∃ s1, finalizeTestCaseData
        { defaultContext with
          currentTest := some { sampleTest Body.done with m_should_fail := true } } = some s1 ∧
      (s1.numTestCasesFailed = 0 + 1 ↔
        ¬ failureObserved { sampleTest Body.done with m_should_fail := true }
          { defaultContext with
            currentTest := some { sampleTest Body.done with m_should_fail := true } }) :=
  let ⟨s1, h1, h2, _⟩ := should_fail_inverts_verdict
    { sampleTest Body.done with m_should_fail := true }
    { defaultContext with currentTest := some { sampleTest Body.done with m_should_fail := true } }
    rfl rfl
  ⟨s1, h1, h2⟩

theorem finalize_flags_bound_aux :
    ∀ f < 32, okToFail (f ||| TestCaseFailureReason.DidntFailExactlyNumTimes) = false ∧
      (f ||| TestCaseFailureReason.DidntFailExactlyNumTimes) ≠ 0 := by
  decide

/-- C9: for a test case decorated only with `expected_failures = N`, `N > 0`, whose
flags hold only failure reasons accumulated during the run, `finalizeTestCaseData`
leaves `numTestCasesFailed` unchanged when exactly `N` assertions failed and
increments it for every other number of failed assertions. -/
theorem expected_failures_exact (tc : TestCase) (s : ContextState)
    (hcur : s.currentTest = some tc) (hsf : tc.m_should_fail = false)
    (hmf : tc.m_may_fail = false) (hN : tc.m_expected_failures > 0)
    (hflags : s.failure_flags < 16) :
    ∃ s1, finalizeTestCaseData s = some s1 ∧
      (s.numAssertsFailedCurrentTest_atomic = tc.m_expected_failures →
        s1.numTestCasesFailed = s.numTestCasesFailed) ∧
      (s.numAssertsFailedCurrentTest_atomic ≠ tc.m_expected_failures →
        s1.numTestCasesFailed = s.numTestCasesFailed + 1) ∧
      (s1.numTestCasesFailed = s.numTestCasesFailed ↔
        s.numAssertsFailedCurrentTest_atomic = tc.m_expected_failures) := by
  refine ⟨finalizeTestCaseDataFor tc s, by simp [finalizeTestCaseData, hcur], ?_⟩
  have hlt := beforeDecorators_flags_lt tc s hflags
  have hmay : ¬ ((beforeDecorators tc s).failure_flags ≠ 0 ∧ tc.m_may_fail = true) := by
    simp [hmf]
  have hsf1 : ¬ (tc.m_should_fail = true) := by simp [hsf]
  have hyes : s.numAssertsFailedCurrentTest_atomic = tc.m_expected_failures →
      (finalizeTestCaseDataFor tc s).numTestCasesFailed = s.numTestCasesFailed := by
    intro he
    have h2 : applyDecorators tc (beforeDecorators tc s) =
        orFailureFlag TestCaseFailureReason.FailedExactlyNumTimes (beforeDecorators tc s) := by
      unfold applyDecorators
      rw [if_neg hsf1, if_neg hmay, if_pos hN, if_pos (by rw [beforeDecorators_numFailed]; exact he)]
    rw [finalize_eq, countFailure_failed, h2, orFailureFlag_flags, orFailureFlag_failed,
      okToFail_exactly, beforeDecorators_failed]
    simp
  have hno : s.numAssertsFailedCurrentTest_atomic ≠ tc.m_expected_failures →
      (finalizeTestCaseDataFor tc s).numTestCasesFailed = s.numTestCasesFailed + 1 := by
    intro he
    have h2 : applyDecorators tc (beforeDecorators tc s) =
        orFailureFlag TestCaseFailureReason.DidntFailExactlyNumTimes (beforeDecorators tc s) := by
      unfold applyDecorators
      rw [if_neg hsf1, if_neg hmay, if_pos hN, if_neg (by rw [beforeDecorators_numFailed]; exact he)]
    obtain ⟨k1, k2⟩ := finalize_flags_bound_aux _ hlt
    rw [finalize_eq, countFailure_failed, h2, orFailureFlag_flags, orFailureFlag_failed,
      beforeDecorators_failed, if_pos ⟨k2, k1⟩]
  refine ⟨hyes, hno, ?_⟩
  constructor
  · intro h
    by_contra hne
    rw [hno hne] at h
    omega
  · exact hyes

theorem expected_failures_exact_witness :
    (2 : Int) > 0 ∧
    ∃ s1, finalizeTestCaseData
        { defaultContext with
          numAssertsFailedCurrentTest_atomic := 3,
          currentTest := some { sampleTest Body.done with m_expected_failures := 2 } } = some s1 ∧
      s1.numTestCasesFailed = 0 + 1 :=
  ⟨by decide,
   let ⟨s1, h1, _, h3, _⟩ := expected_failures_exact
    { sampleTest Body.done with m_expected_failures := 2 }
    { defaultContext with
      numAssertsFailedCurrentTest_atomic := 3,
      currentTest := some { sampleTest Body.done with m_expected_failures := 2 } }
    rfl rfl rfl (by decide) (by decide)
   ⟨s1, h1, h3 (by decide)⟩⟩

/-- C10: for a test case decorated `may_fail`, whenever a failure was observed
(a failure flag set during the run, a failed assertion or an exceeded timeout)
`finalizeTestCaseData` leaves `numTestCasesFailed` unchanged. -/
theorem may_fail_suppresses_failure (tc : TestCase) (s : ContextState)
    (hcur : s.currentTest = some tc) (hmf : tc.m_may_fail = true)
    (hobs : failureObserved tc s) :
    ∃ s1, finalizeTestCaseData s = some s1 ∧ s1.numTestCasesFailed = s.numTestCasesFailed := by
  refine ⟨finalizeTestCaseDataFor tc s, by simp [finalizeTestCaseData, hcur], ?_⟩
  by_cases hsf : tc.m_should_fail = true
  · exact finalize_should_fail_observed tc s hsf hobs
  · have h0 : (beforeDecorators tc s).failure_flags ≠ 0 :=
      (beforeDecorators_flags_ne_zero tc s).mpr hobs
    have h2 : applyDecorators tc (beforeDecorators tc s) =
        orFailureFlag TestCaseFailureReason.CouldHaveFailedAndDid (beforeDecorators tc s) := by
      unfold applyDecorators
      rw [if_neg hsf, if_pos ⟨h0, hmf⟩]
    rw [finalize_eq, countFailure_failed, h2, orFailureFlag_flags, orFailureFlag_failed,
      okToFail_could, beforeDecorators_failed]
    simp

theorem may_fail_suppresses_failure_witness :
    failureObserved { sampleTest Body.done with m_may_fail := true }
      { defaultContext with
        failure_flags := TestCaseFailureReason.Exception,
        currentTest := some { sampleTest Body.done with m_may_fail := true } } ∧
    ∃ s1, finalizeTestCaseData
        { defaultContext with
          failure_flags := TestCaseFailureReason.Exception,
          currentTest := some { sampleTest Body.done with m_may_fail := true } } = some s1 ∧
      s1.numTestCasesFailed = 0 :=
  ⟨Or.inl (by decide),
   may_fail_suppresses_failure { sampleTest Body.done with m_may_fail := true }
    { defaultContext with
      failure_flags := TestCaseFailureReason.Exception,
      currentTest := some { sampleTest Body.done with m_may_fail := true } }
    rfl rfl (Or.inl (by decide))⟩

/-! ## The filter list (`matchesAny`) -/

/-- C6: `matchesAny` returns `matchEmpty` on the empty pattern list, and on a
non-empty list it returns true exactly when some pattern of the list matches
the name under `wildcmp`, whatever `matchEmpty` is. -/
theorem matchesAny_spec (name : List Char) (matchEmpty caseSensitive : Bool) :
    matchesAny name [] matchEmpty caseSensitive = matchEmpty ∧
    ∀ (p : List Char) (ps : List (List Char)),
      (matchesAny name (p :: ps) matchEmpty caseSensitive = true ↔
        ∃ q ∈ p :: ps, wildcmp name q caseSensitive ≠ 0) := by
  constructor
  · cases matchEmpty <;> simp [matchesAny]
  · intro p ps
    simp [matchesAny]
/-! ## The memo: membership is equality of signature paths -/

theorem char_toNat_inj {c d : Char} (h : c.toNat = d.toNat) : c = d := by
  apply Char.ext
  have h2 : c.val.toNat = d.val.toNat := h
  cases hc : c.val with | mk v =>
  cases hd : d.val with | mk w =>
  rw [hc, hd] at h2
  congr
  exact BitVec.eq_of_toNat_eq h2

theorem strcmp_self (a : List Char) : strcmp a a = 0 := by
  induction a with
  | nil => rfl
  | cons c s ih => simp [strcmp, ih]

theorem strcmp_sign (a b : List Char) :
    (strcmp a b = 0 → a = b) ∧ (0 < strcmp a b → strcmp b a < 0) ∧
      (strcmp a b < 0 → 0 < strcmp b a) := by
  induction a generalizing b with
  | nil => cases b <;> simp [strcmp]
  | cons c s ih =>
    cases b with
    | nil => simp [strcmp]
    | cons d t =>
      by_cases h : c = d
      · subst h
        simp only [strcmp, if_true, List.cons.injEq, true_and]
        exact ih t
      · have h2 : ¬ d = c := fun e => h e.symm
        have h3 : c.toNat ≠ d.toNat := fun e => h (char_toNat_inj e)
        have e1 : strcmp (c :: s) (d :: t) = (c.toNat : Int) - (d.toNat : Int) := by
          simp [strcmp, h]
        have e2 : strcmp (d :: t) (c :: s) = (d.toNat : Int) - (c.toNat : Int) := by
          simp [strcmp, h2]
        rw [e1, e2]
        refine ⟨?_, ?_, ?_⟩ <;> intro _ <;> omega

theorem SubcaseSignature.lt_irrefl (a : SubcaseSignature) : a.lt a = false := by
  simp [SubcaseSignature.lt, strcmp_self]

theorem SubcaseSignature.eq_of_not_lt (a b : SubcaseSignature)
    (h1 : a.lt b = false) (h2 : b.lt a = false) : a = b := by
  have hline : a.m_line = b.m_line := by
    by_contra hne
    have hne2 : ¬ b.m_line = a.m_line := fun e => hne e.symm
    simp only [SubcaseSignature.lt, ne_eq, hne, hne2, not_false_eq_true, if_true,
      decide_eq_false_iff_not] at h1 h2
    omega
  have hfile : a.m_file = b.m_file := by
    by_contra hne
    have s1 := strcmp_sign a.m_file b.m_file
    have s2 := strcmp_sign b.m_file a.m_file
    have n1 : strcmp a.m_file b.m_file ≠ 0 := fun e => hne (s1.1 e)
    have n2 : strcmp b.m_file a.m_file ≠ 0 := fun e => hne (s2.1 e).symm
    simp only [SubcaseSignature.lt, ne_eq, hline, not_true_eq_false, if_false, n1, n2,
      not_false_eq_true, if_true, decide_eq_false_iff_not] at h1 h2
    have := s1.2.1 (by omega)
    omega
  have hname : a.m_name = b.m_name := by
    have s1 := strcmp_sign a.m_name b.m_name
    simp only [SubcaseSignature.lt, ne_eq, hline, not_true_eq_false, if_false, hfile,
      strcmp_self, decide_eq_false_iff_not] at h1 h2
    apply s1.1
    by_contra hne
    have := s1.2.1 (by omega)
    omega
  cases a; cases b; simp_all

theorem vectorLt_equiv (e k : List SubcaseSignature) :
    (vectorLt e k = false ∧ vectorLt k e = false) ↔ e = k := by
  induction e generalizing k with
  | nil => cases k <;> simp [vectorLt]
  | cons a s ih =>
    cases k with
    | nil => simp [vectorLt]
    | cons b t =>
      by_cases hab : a.lt b = true
      · have hne : a ≠ b := by
          intro e; subst e; rw [SubcaseSignature.lt_irrefl] at hab; exact absurd hab (by decide)
        simp [vectorLt, hab, hne]
      · by_cases hba : b.lt a = true
        · have hne : a ≠ b := by
            intro e; subst e; rw [SubcaseSignature.lt_irrefl] at hba; exact absurd hba (by decide)
          simp [vectorLt, hab, hba, hne]
        · have heq : a = b :=
            SubcaseSignature.eq_of_not_lt a b (by simpa using hab) (by simpa using hba)
          subst heq
          simp only [vectorLt, SubcaseSignature.lt_irrefl, Bool.false_eq_true, if_false,
            List.cons.injEq, true_and]
          exact ih t

theorem setCount_ne_zero (set : List (List SubcaseSignature)) (key : List SubcaseSignature) :
    setCount set key ≠ 0 ↔ key ∈ set := by
  unfold setCount
  have : (set.any fun e => !vectorLt e key && !vectorLt key e) = true ↔ key ∈ set := by
    rw [List.any_eq_true]
    constructor
    · rintro ⟨e, he, h⟩
      have h2 : vectorLt e key = false ∧ vectorLt key e = false := by simpa using h
      rw [← (vectorLt_equiv e key).mp h2]; exact he
    · intro h
      refine ⟨key, h, ?_⟩
      have := (vectorLt_equiv key key).mpr rfl
      simp [this.1]
  by_cases h : key ∈ set
  · simp [this.mpr h, h]
  · have h2 : ¬ (set.any fun e => !vectorLt e key && !vectorLt key e) = true :=
      fun c => h (this.mp c)
    simp [h2, h]

theorem mem_setInsert (set : List (List SubcaseSignature)) (key q : List SubcaseSignature) :
    q ∈ setInsert set key ↔ q ∈ set ∨ q = key := by
  unfold setInsert
  by_cases h : key ∈ set
  · rw [if_pos ((setCount_ne_zero set key).mpr h)]
    constructor
    · exact Or.inl
    · rintro (h1 | h1)
      · exact h1
      · rw [h1]; exact h
  · rw [if_neg (fun c => h ((setCount_ne_zero set key).mp c))]
    simp
/-! ## The sub-branch engine: one execution of a body -/

theorem startsOf_append (a b : List Event) : startsOf (a ++ b) = startsOf a ++ startsOf b := by
  induction a with
  | nil => rfl
  | cons e a ih => cases e <;> simp [startsOf, ih]

theorem ctor_frame (sig : SubcaseSignature) (s : ContextState) :
    engineFrame (Subcase.ctor sig s).1 = engineFrame s := by
  unfold Subcase.ctor
  split_ifs <;> rfl

theorem dtor_frame (e u : Bool) (s : ContextState) :
    engineFrame (Subcase.dtor e u s) = engineFrame s := by
  unfold Subcase.dtor
  cases e
  · rfl
  · simp only [if_true]
    split_ifs <;> rfl

theorem log_frame (a : Nat) (f : Bool) (s : ContextState) :
    engineFrame (ResultBuilder.log a f s) = engineFrame s := by
  unfold ResultBuilder.log addAssert addFailedAssert
  simp only
  split_ifs <;> rfl

theorem execBody_subcase_skipped (sig : SubcaseSignature) (inner rest : Body)
    (s : ContextState) (h : (Subcase.ctor sig s).2 = false) :
    execBody (Body.subcase sig inner rest) s = execBody rest (Subcase.ctor sig s).1 := by
  simp [execBody, h, Subcase.dtor]

theorem execBody_subcase_entered (sig : SubcaseSignature) (inner rest : Body)
    (s : ContextState) (h : (Subcase.ctor sig s).2 = true) :
    execBody (Body.subcase sig inner rest) s =
      if (execBody inner (Subcase.ctor sig s).1).2 = Outcome.normal then
        execBody rest (Subcase.dtor true false (execBody inner (Subcase.ctor sig s).1).1)
      else (Subcase.dtor true true (execBody inner (Subcase.ctor sig s).1).1,
            (execBody inner (Subcase.ctor sig s).1).2) := by
  simp only [execBody, h, if_true]
  by_cases hn : (execBody inner (Subcase.ctor sig s).1).2 = Outcome.normal
  · simp [hn]
  · have hb : ((execBody inner (Subcase.ctor sig s).1).2 != Outcome.normal) = true := by
      simpa using hn
    simp [hn, hb]

theorem execBody_frame (b : Body) (s : ContextState) :
    engineFrame (execBody b s).1 = engineFrame s := by
  induction b generalizing s with
  | done => rfl
  | throwOther => rfl
  | assertion a f rest ih =>
    simp only [execBody]
    split_ifs
    · exact log_frame a f s
    · rw [ih, log_frame]
  | subcase sig inner rest ih1 ih2 =>
    cases h : (Subcase.ctor sig s).2
    · rw [execBody_subcase_skipped _ _ _ _ h, ih2, ctor_frame]
    · rw [execBody_subcase_entered _ _ _ _ h]
      split_ifs
      · rw [ih2, dtor_frame, ih1, ctor_frame]
      · rw [dtor_frame, ih1, ctor_frame]

theorem visible_congr {s t : ContextState} (h : engineFrame s = engineFrame t) :
    visible s = visible t := by
  funext d sig
  have h1 : s.subcase_filter_levels = t.subcase_filter_levels :=
    (congrArg ContextState.subcase_filter_levels h :
      (engineFrame s).subcase_filter_levels = (engineFrame t).subcase_filter_levels)
  have h2 : s.filters = t.filters :=
    (congrArg ContextState.filters h : (engineFrame s).filters = (engineFrame t).filters)
  have h3 : s.case_sensitive = t.case_sensitive :=
    (congrArg ContextState.case_sensitive h :
      (engineFrame s).case_sensitive = (engineFrame t).case_sensitive)
  simp only [visible, h1, h2, h3]

theorem ctor_invisible (sig : SubcaseSignature) (s : ContextState)
    (hv : visible s s.subcasesStack.length sig = false) : Subcase.ctor sig s = (s, false) := by
  unfold Subcase.ctor
  have : s.subcasesStack.length < size_t_of_int s.subcase_filter_levels ∧
      (!matchesAny sig.m_name (s.filters 6) true s.case_sensitive ||
        matchesAny sig.m_name (s.filters 7) false s.case_sensitive) = true := by
    unfold visible at hv
    rw [Bool.not_eq_false', Bool.and_eq_true, decide_eq_true_eq] at hv
    exact hv
  rw [if_pos this]

theorem ctor_visible_cond (sig : SubcaseSignature) (s : ContextState)
    (hv : visible s s.subcasesStack.length sig = true) :
    ¬ (s.subcasesStack.length < size_t_of_int s.subcase_filter_levels ∧
      (!matchesAny sig.m_name (s.filters 6) true s.case_sensitive ||
        matchesAny sig.m_name (s.filters 7) false s.case_sensitive) = true) := by
  intro hc
  have : visible s s.subcasesStack.length sig = false := by
    simp only [visible, Bool.not_eq_false', Bool.and_eq_true, decide_eq_true_eq]
    exact hc
  rw [this] at hv
  exact absurd hv (by decide)

theorem ctor_level (sig : SubcaseSignature) (s : ContextState)
    (hv : visible s s.subcasesStack.length sig = true)
    (hl : s.subcasesStack.length < s.subcasesCurrentMaxLevel) :
    Subcase.ctor sig s = ({ s with should_reenter := true }, false) := by
  unfold Subcase.ctor
  rw [if_neg (ctor_visible_cond sig s hv), if_pos hl]

theorem ctor_passed (sig : SubcaseSignature) (s : ContextState)
    (hv : visible s s.subcasesStack.length sig = true)
    (hl : ¬ s.subcasesStack.length < s.subcasesCurrentMaxLevel)
    (hp : s.subcasesStack ++ [sig] ∈ s.subcasesPassed) :
    Subcase.ctor sig s = (s, false) := by
  unfold Subcase.ctor
  rw [if_neg (ctor_visible_cond sig s hv), if_neg hl, if_pos ((setCount_ne_zero _ _).mpr hp)]

theorem ctor_enter (sig : SubcaseSignature) (s : ContextState)
    (hv : visible s s.subcasesStack.length sig = true)
    (hl : ¬ s.subcasesStack.length < s.subcasesCurrentMaxLevel)
    (hp : s.subcasesStack ++ [sig] ∉ s.subcasesPassed) :
    (Subcase.ctor sig s).2 = true ∧
    view (Subcase.ctor sig s).1 =
      { stack := s.subcasesStack ++ [sig], passed := s.subcasesPassed,
        maxLevel := s.subcasesStack.length + 1, reenter := s.should_reenter,
        starts := startsOf s.events ++ [sig] } := by
  unfold Subcase.ctor
  rw [if_neg (ctor_visible_cond sig s hv), if_neg hl,
    if_neg (fun c => hp ((setCount_ne_zero _ _).mp c))]
  refine ⟨rfl, ?_⟩
  simp [view, iterateThroughReporters, startsOf_append, startsOf]

theorem dtor_view (u : Bool) (s : ContextState) :
    view (Subcase.dtor true u s) =
      { stack := s.subcasesStack.dropLast,
        passed := if s.should_reenter = false then setInsert s.subcasesPassed s.subcasesStack
                  else s.subcasesPassed,
        maxLevel := s.subcasesCurrentMaxLevel, reenter := s.should_reenter,
        starts := startsOf s.events } := by
  unfold Subcase.dtor
  simp only [if_true]
  by_cases h1 : s.should_reenter = false <;> by_cases h2 : u = true <;>
    by_cases h3 : s.shouldLogCurrentException = true <;>
    simp [view, iterateThroughReporters, startsOf_append, startsOf, h1, h2, h3]

theorem log_view (a : Nat) (f : Bool) (s : ContextState) :
    view (ResultBuilder.log a f s) = view s := by
  unfold ResultBuilder.log addAssert addFailedAssert
  simp only
  split_ifs <;> simp [view, iterateThroughReporters, startsOf_append, startsOf]

theorem checkIfShouldThrow_disabled (a : Nat) (s : ContextState) (h : s.abort_after ≤ 0) :
    checkIfShouldThrow a s = decide (a &&& assertType.is_require ≠ 0) := by
  unfold checkIfShouldThrow
  by_cases h1 : a &&& assertType.is_require ≠ 0
  · simp [h1]
  · have h2 : ¬ (a &&& assertType.is_check ≠ 0 ∧ s.abort_after > 0 ∧
        s.numAssertsFailed + s.numAssertsFailedCurrentTest_atomic ≥ s.abort_after) := by
      intro c; omega
    rw [if_neg h1, if_neg h2]
    simp [h1]

theorem abort_after_of_frame {s t : ContextState} (h : engineFrame s = engineFrame t) :
    s.abort_after = t.abort_after :=
  (congrArg ContextState.abort_after h :
    (engineFrame s).abort_after = (engineFrame t).abort_after)

theorem execBody_noThrow (b : Body) (s : ContextState) (ha : s.abort_after ≤ 0)
    (hb : noThrow b = true) : (execBody b s).2 = Outcome.normal := by
  induction b generalizing s with
  | done => rfl
  | throwOther => simp [noThrow] at hb
  | assertion a f rest ih =>
    simp only [noThrow, Bool.and_eq_true] at hb
    have ha1 : (ResultBuilder.log a f s).abort_after ≤ 0 := by
      rw [abort_after_of_frame (log_frame a f s)]; exact ha
    simp only [execBody]
    rw [checkIfShouldThrow_disabled _ _ ha1]
    have : (f && decide (a &&& assertType.is_require ≠ 0)) = false := by
      have h1 := hb.1
      rw [Bool.not_eq_true'] at h1
      exact h1
    rw [this]
    simp only [Bool.false_eq_true, if_false]
    exact ih _ ha1 hb.2
  | subcase sig inner rest ih1 ih2 =>
    simp only [noThrow, Bool.and_eq_true] at hb
    have ha1 : (Subcase.ctor sig s).1.abort_after ≤ 0 := by
      rw [abort_after_of_frame (ctor_frame sig s)]; exact ha
    cases h : (Subcase.ctor sig s).2
    · rw [execBody_subcase_skipped _ _ _ _ h]
      exact ih2 _ ha1 hb.2
    · rw [execBody_subcase_entered _ _ _ _ h, if_pos (ih1 _ ha1 hb.1)]
      apply ih2 _ _ hb.2
      rw [abort_after_of_frame (dtor_frame _ _ _), abort_after_of_frame (execBody_frame _ _)]
      exact ha1
theorem dtor_stack (u : Bool) (s : ContextState) :
    (Subcase.dtor true u s).subcasesStack = s.subcasesStack.dropLast :=
  congrArg EngineView.stack (dtor_view u s)

theorem dtor_passed (u : Bool) (s : ContextState) :
    (Subcase.dtor true u s).subcasesPassed =
      if s.should_reenter = false then setInsert s.subcasesPassed s.subcasesStack
      else s.subcasesPassed :=
  congrArg EngineView.passed (dtor_view u s)

theorem dtor_maxLevel (u : Bool) (s : ContextState) :
    (Subcase.dtor true u s).subcasesCurrentMaxLevel = s.subcasesCurrentMaxLevel :=
  congrArg EngineView.maxLevel (dtor_view u s)

theorem dtor_reenter (u : Bool) (s : ContextState) :
    (Subcase.dtor true u s).should_reenter = s.should_reenter :=
  congrArg EngineView.reenter (dtor_view u s)

theorem dtor_starts (u : Bool) (s : ContextState) :
    startsOf (Subcase.dtor true u s).events = startsOf s.events :=
  congrArg EngineView.starts (dtor_view u s)

theorem dtor_passed_mono (u : Bool) (s : ContextState) (q : List SubcaseSignature)
    (h : q ∈ s.subcasesPassed) : q ∈ (Subcase.dtor true u s).subcasesPassed := by
  rw [dtor_passed]
  split_ifs
  · exact (mem_setInsert _ _ _).mpr (Or.inl h)
  · exact h

/-- The effect of an assertion statement on the engine's part of the state. -/
theorem assertion_view (a : Nat) (f : Bool) (s : ContextState) :
    view ({ ResultBuilder.log a f s with shouldLogCurrentException := false }) = view s :=
  log_view a f s

theorem execBody_stack (b : Body) (s : ContextState) :
    (execBody b s).1.subcasesStack = s.subcasesStack := by
  induction b generalizing s with
  | done => rfl
  | throwOther => rfl
  | assertion a f rest ih =>
    simp only [execBody]
    split_ifs
    · exact congrArg EngineView.stack (assertion_view a f s)
    · rw [ih]; exact congrArg EngineView.stack (log_view a f s)
  | subcase sig inner rest ih1 ih2 =>
    by_cases hv : visible s s.subcasesStack.length sig = true
    · by_cases hl : s.subcasesStack.length < s.subcasesCurrentMaxLevel
      · have hc := ctor_level sig s hv hl
        rw [execBody_subcase_skipped _ _ _ _ (by rw [hc]), hc, ih2]
      · by_cases hp : s.subcasesStack ++ [sig] ∈ s.subcasesPassed
        · have hc := ctor_passed sig s hv hl hp
          rw [execBody_subcase_skipped _ _ _ _ (by rw [hc]), hc, ih2]
        · obtain ⟨he, hview⟩ := ctor_enter sig s hv hl hp
          have hst : (Subcase.ctor sig s).1.subcasesStack = s.subcasesStack ++ [sig] :=
            congrArg EngineView.stack hview
          rw [execBody_subcase_entered _ _ _ _ he]
          split_ifs
          · rw [ih2, dtor_stack, ih1, hst, List.dropLast_concat]
          · rw [dtor_stack, ih1, hst, List.dropLast_concat]
    · have hc := ctor_invisible sig s (by simpa using hv)
      rw [execBody_subcase_skipped _ _ _ _ (by rw [hc]), hc, ih2]

theorem execBody_passed_mono (b : Body) (s : ContextState) (q : List SubcaseSignature)
    (h : q ∈ s.subcasesPassed) : q ∈ (execBody b s).1.subcasesPassed := by
  induction b generalizing s with
  | done => exact h
  | throwOther => exact h
  | assertion a f rest ih =>
    have h1 : q ∈ (ResultBuilder.log a f s).subcasesPassed := by
      rw [show (ResultBuilder.log a f s).subcasesPassed = s.subcasesPassed from
        congrArg EngineView.passed (log_view a f s)]
      exact h
    simp only [execBody]
    split_ifs
    · exact h1
    · exact ih _ h1
  | subcase sig inner rest ih1 ih2 =>
    by_cases hv : visible s s.subcasesStack.length sig = true
    · by_cases hl : s.subcasesStack.length < s.subcasesCurrentMaxLevel
      · have hc := ctor_level sig s hv hl
        rw [execBody_subcase_skipped _ _ _ _ (by rw [hc]), hc]
        exact ih2 _ h
      · by_cases hp : s.subcasesStack ++ [sig] ∈ s.subcasesPassed
        · have hc := ctor_passed sig s hv hl hp
          rw [execBody_subcase_skipped _ _ _ _ (by rw [hc]), hc]
          exact ih2 _ h
        · obtain ⟨he, hview⟩ := ctor_enter sig s hv hl hp
          have hpa : (Subcase.ctor sig s).1.subcasesPassed = s.subcasesPassed :=
            congrArg EngineView.passed hview
          have h2 : q ∈ (execBody inner (Subcase.ctor sig s).1).1.subcasesPassed :=
            ih1 _ (by rw [hpa]; exact h)
          rw [execBody_subcase_entered _ _ _ _ he]
          split_ifs
          · exact ih2 _ (dtor_passed_mono _ _ _ h2)
          · exact dtor_passed_mono _ _ _ h2
    · have hc := ctor_invisible sig s (by simpa using hv)
      rw [execBody_subcase_skipped _ _ _ _ (by rw [hc]), hc]
      exact ih2 _ h

/-- Once a sub-branch has been entered at this level or deeper, the rest of the body
enters nothing: memo, maximum level and entered sub-branches stay as they are. -/
theorem execBody_level_mode (b : Body) (s : ContextState)
    (hl : s.subcasesStack.length < s.subcasesCurrentMaxLevel) :
    (execBody b s).1.subcasesPassed = s.subcasesPassed ∧
    (execBody b s).1.subcasesCurrentMaxLevel = s.subcasesCurrentMaxLevel ∧
    startsOf (execBody b s).1.events = startsOf s.events ∧
    (s.should_reenter = true → (execBody b s).1.should_reenter = true) := by
  induction b generalizing s with
  | done => exact ⟨rfl, rfl, rfl, id⟩
  | throwOther => exact ⟨rfl, rfl, rfl, id⟩
  | assertion a f rest ih =>
    have hv := log_view a f s
    have e1 : (ResultBuilder.log a f s).subcasesPassed = s.subcasesPassed :=
      congrArg EngineView.passed hv
    have e2 : (ResultBuilder.log a f s).subcasesCurrentMaxLevel = s.subcasesCurrentMaxLevel :=
      congrArg EngineView.maxLevel hv
    have e3 : startsOf (ResultBuilder.log a f s).events = startsOf s.events :=
      congrArg EngineView.starts hv
    have e4 : (ResultBuilder.log a f s).should_reenter = s.should_reenter :=
      congrArg EngineView.reenter hv
    have e5 : (ResultBuilder.log a f s).subcasesStack = s.subcasesStack :=
      congrArg EngineView.stack hv
    simp only [execBody]
    split_ifs
    · exact ⟨e1, e2, e3, fun h => by rw [← h]; exact e4⟩
    · obtain ⟨i1, i2, i3, i4⟩ := ih (ResultBuilder.log a f s) (by rw [e5, e2]; exact hl)
      exact ⟨i1.trans e1, i2.trans e2, i3.trans e3, fun h => i4 (by rw [e4]; exact h)⟩
  | subcase sig inner rest _ ih2 =>
    by_cases hv : visible s s.subcasesStack.length sig = true
    · have hc := ctor_level sig s hv hl
      rw [execBody_subcase_skipped _ _ _ _ (by rw [hc]), hc]
      obtain ⟨i1, i2, i3, i4⟩ := ih2 { s with should_reenter := true } hl
      exact ⟨i1, i2, i3, fun _ => i4 rfl⟩
    · have hc := ctor_invisible sig s (by simpa using hv)
      rw [execBody_subcase_skipped _ _ _ _ (by rw [hc]), hc]
      exact ih2 s hl
/-- One execution of a body at a level where nothing has been entered yet either
enters nothing and leaves the memo and `should_reenter` untouched, or enters
exactly one chain of sub-branches whose path was not in the memo and is in it
afterwards. -/
theorem execBody_progress (b : Body) (s : ContextState)
    (hm : s.subcasesCurrentMaxLevel ≤ s.subcasesStack.length)
    (hr : s.should_reenter = false) :
    ((execBody b s).1.subcasesPassed = s.subcasesPassed ∧
      (execBody b s).1.subcasesCurrentMaxLevel = s.subcasesCurrentMaxLevel ∧
      (execBody b s).1.should_reenter = false ∧
      startsOf (execBody b s).1.events = startsOf s.events) ∨
    (∃ q, q ≠ [] ∧ s.subcasesStack ++ q ∉ s.subcasesPassed ∧
      s.subcasesStack ++ q ∈ (execBody b s).1.subcasesPassed ∧
      s.subcasesStack ++ q ∈ nodePaths s.subcasesStack b ∧
      startsOf (execBody b s).1.events = startsOf s.events ++ q ∧
      s.subcasesStack.length < (execBody b s).1.subcasesCurrentMaxLevel) := by
  induction b generalizing s with
  | done => exact Or.inl ⟨rfl, rfl, hr, rfl⟩
  | throwOther => exact Or.inl ⟨rfl, rfl, hr, rfl⟩
  | assertion a f rest ih =>
    have hv := log_view a f s
    have e1 : (ResultBuilder.log a f s).subcasesPassed = s.subcasesPassed :=
      congrArg EngineView.passed hv
    have e2 : (ResultBuilder.log a f s).subcasesCurrentMaxLevel = s.subcasesCurrentMaxLevel :=
      congrArg EngineView.maxLevel hv
    have e3 : startsOf (ResultBuilder.log a f s).events = startsOf s.events :=
      congrArg EngineView.starts hv
    have e4 : (ResultBuilder.log a f s).should_reenter = s.should_reenter :=
      congrArg EngineView.reenter hv
    have e5 : (ResultBuilder.log a f s).subcasesStack = s.subcasesStack :=
      congrArg EngineView.stack hv
    simp only [execBody]
    split_ifs
    · exact Or.inl ⟨e1, e2, e4.trans hr, e3⟩
    · have := ih (ResultBuilder.log a f s) (by rw [e5, e2]; exact hm) (e4.trans hr)
      rw [e1, e2, e3, e5] at this
      simpa [nodePaths] using this
  | subcase sig inner rest ih1 ih2 =>
    have hl : ¬ s.subcasesStack.length < s.subcasesCurrentMaxLevel := by omega
    have hrest : ∀ t : ContextState, execBody (Body.subcase sig inner rest) s = execBody rest t →
        t = s →
        ((execBody (Body.subcase sig inner rest) s).1.subcasesPassed = s.subcasesPassed ∧
          (execBody (Body.subcase sig inner rest) s).1.subcasesCurrentMaxLevel =
            s.subcasesCurrentMaxLevel ∧
          (execBody (Body.subcase sig inner rest) s).1.should_reenter = false ∧
          startsOf (execBody (Body.subcase sig inner rest) s).1.events = startsOf s.events) ∨
        (∃ q, q ≠ [] ∧ s.subcasesStack ++ q ∉ s.subcasesPassed ∧
          s.subcasesStack ++ q ∈ (execBody (Body.subcase sig inner rest) s).1.subcasesPassed ∧
          s.subcasesStack ++ q ∈ nodePaths s.subcasesStack (Body.subcase sig inner rest) ∧
          startsOf (execBody (Body.subcase sig inner rest) s).1.events =
            startsOf s.events ++ q ∧
          s.subcasesStack.length <
            (execBody (Body.subcase sig inner rest) s).1.subcasesCurrentMaxLevel) := by
      intro t he ht
      subst ht
      rw [he]
      rcases ih2 t hm hr with h | ⟨q, h1, h2, h3, h4, h5, h6⟩
      · exact Or.inl h
      · refine Or.inr ⟨q, h1, h2, h3, ?_, h5, h6⟩
        simp only [nodePaths, List.mem_cons, List.mem_append]
        exact Or.inr (Or.inr h4)
    by_cases hv : visible s s.subcasesStack.length sig = true
    · by_cases hp : s.subcasesStack ++ [sig] ∈ s.subcasesPassed
      · have hc := ctor_passed sig s hv hl hp
        exact hrest s (by rw [execBody_subcase_skipped _ _ _ _ (by rw [hc]), hc]) rfl
      · obtain ⟨he, hview⟩ := ctor_enter sig s hv hl hp
        have c1 : (Subcase.ctor sig s).1.subcasesStack = s.subcasesStack ++ [sig] :=
          congrArg EngineView.stack hview
        have c2 : (Subcase.ctor sig s).1.subcasesPassed = s.subcasesPassed :=
          congrArg EngineView.passed hview
        have c3 : (Subcase.ctor sig s).1.subcasesCurrentMaxLevel = s.subcasesStack.length + 1 :=
          congrArg EngineView.maxLevel hview
        have c4 : (Subcase.ctor sig s).1.should_reenter = s.should_reenter :=
          congrArg EngineView.reenter hview
        have c5 : startsOf (Subcase.ctor sig s).1.events = startsOf s.events ++ [sig] :=
          congrArg EngineView.starts hview
        -- the state after the nested block
        have hin := ih1 (Subcase.ctor sig s).1 (by rw [c1, c3]; simp) (c4.trans hr)
        have hstk : (execBody inner (Subcase.ctor sig s).1).1.subcasesStack =
            s.subcasesStack ++ [sig] := by rw [execBody_stack, c1]
        -- facts about the state after the destructor, whatever the outcome
        have key : ∀ u : Bool, ∃ q, q ≠ [] ∧ s.subcasesStack ++ q ∉ s.subcasesPassed ∧
            s.subcasesStack ++ q ∈
              (Subcase.dtor true u (execBody inner (Subcase.ctor sig s).1).1).subcasesPassed ∧
            s.subcasesStack ++ q ∈ nodePaths s.subcasesStack (Body.subcase sig inner rest) ∧
            startsOf (Subcase.dtor true u (execBody inner (Subcase.ctor sig s).1).1).events =
              startsOf s.events ++ q ∧
            s.subcasesStack.length <
              (Subcase.dtor true u
                (execBody inner (Subcase.ctor sig s).1).1).subcasesCurrentMaxLevel := by
          intro u
          rcases hin with ⟨n1, n2, n3, n4⟩ | ⟨q, h1, h2, h3, h4, h5, h6⟩
          · refine ⟨[sig], by simp, hp, ?_, ?_, ?_, ?_⟩
            · rw [dtor_passed, if_pos n3, hstk]
              exact (mem_setInsert _ _ _).mpr (Or.inr rfl)
            · simp [nodePaths]
            · rw [dtor_starts, n4, c5]
            · rw [dtor_maxLevel, n2, c3]; omega
          · rw [c1, c2] at h2
            rw [c1] at h3 h4 h6
            rw [c5] at h5
            refine ⟨sig :: q, by simp, ?_, ?_, ?_, ?_, ?_⟩
            · simpa using h2
            · apply dtor_passed_mono
              simpa using h3
            · simp only [nodePaths, List.mem_cons, List.mem_append]
              right; left
              simpa using h4
            · rw [dtor_starts, h5]; simp
            · rw [dtor_maxLevel]
              simp only [List.length_append, List.length_singleton] at h6
              omega
        rw [execBody_subcase_entered _ _ _ _ he]
        split_ifs
        · obtain ⟨q, k1, k2, k3, k4, k5, k6⟩ := key false
          have hst3 : (Subcase.dtor true false
              (execBody inner (Subcase.ctor sig s).1).1).subcasesStack = s.subcasesStack := by
            rw [dtor_stack, hstk, List.dropLast_concat]
          obtain ⟨l1, l2, l3, _⟩ := execBody_level_mode rest
            (Subcase.dtor true false (execBody inner (Subcase.ctor sig s).1).1)
            (by rw [hst3]; exact k6)
          exact Or.inr ⟨q, k1, k2, by rw [l1]; exact k3, k4, by rw [l3]; exact k5,
            by rw [l2]; exact k6⟩
        · exact Or.inr (key true)
    · have hc := ctor_invisible sig s (by simpa using hv)
      exact hrest s (by rw [execBody_subcase_skipped _ _ _ _ (by rw [hc]), hc]) rfl
/-! ## The driving loop: termination -/

theorem filter_length_lt {α : Type} (L : List α) (f g : α → Bool)
    (hfg : ∀ x, f x = true → g x = true) (q : α) (hq : q ∈ L) (hg : g q = true)
    (hf : f q = false) : (L.filter f).length < (L.filter g).length := by
  induction L with
  | nil => simp at hq
  | cons a L ih =>
    have hle : (L.filter f).length ≤ (L.filter g).length :=
      List.Sublist.length_le (List.monotone_filter_right L hfg)
    by_cases haq : a = q
    · subst haq
      simp only [List.filter_cons, hf, hg, if_true, Bool.false_eq_true, if_false,
        List.length_cons]
      omega
    · have hq2 : q ∈ L := by
        rcases List.mem_cons.mp hq with h | h
        · exact absurd h.symm haq
        · exact h
      have := ih hq2
      cases hfa : f a
      · cases hga : g a
        · simp only [List.filter_cons, hfa, hga, Bool.false_eq_true, if_false]
          exact this
        · simp only [List.filter_cons, hfa, hga, Bool.false_eq_true, if_false, if_true,
            List.length_cons]
          omega
      · have hga := hfg a hfa
        simp only [List.filter_cons, hfa, hga, if_true, List.length_cons]
        omega

theorem nodePaths_length (stack : List SubcaseSignature) (b : Body) :
    (nodePaths stack b).length = b.subcaseCount := by
  induction b generalizing stack with
  | done => rfl
  | throwOther => rfl
  | assertion a f rest ih => simpa [nodePaths, Body.subcaseCount] using ih stack
  | subcase sig inner rest ih1 ih2 =>
    simp [nodePaths, Body.subcaseCount, ih1, ih2]

theorem openPaths_le (b : Body) (memo : List (List SubcaseSignature)) :
    openPaths b memo ≤ b.subcaseCount := by
  unfold openPaths
  rw [← nodePaths_length [] b]
  exact List.length_filter_le _ _

theorem runIteration_fields (tc : TestCase) (p : ContextState) :
    (runIteration tc p).1.subcasesPassed =
        (execBody tc.m_test (loopReset p)).1.subcasesPassed ∧
    (runIteration tc p).1.should_reenter =
        (execBody tc.m_test (loopReset p)).1.should_reenter ∧
    ((runIteration tc p).2 = true →
        (execBody tc.m_test (loopReset p)).1.should_reenter = true) ∧
    (p.abort_after ≤ 0 →
      (runIteration tc p).2 = (execBody tc.m_test (loopReset p)).1.should_reenter) := by
  have hfr := execBody_frame tc.m_test (loopReset p)
  have hab : (execBody tc.m_test (loopReset p)).1.abort_after = p.abort_after :=
    abort_after_of_frame hfr
  unfold runIteration
  simp only
  generalize execBody tc.m_test (loopReset p) = r at hab
  obtain ⟨s1, o⟩ := r
  cases o <;> simp only [iterateThroughReporters] at hab ⊢ <;>
    by_cases ht : (s1.abort_after > 0 ∧
      s1.numAssertsFailed + s1.numAssertsFailedCurrentTest_atomic ≥ s1.abort_after) <;>
    cases hre : s1.should_reenter <;>
    simp [ht, hre] <;> omega

theorem runIteration_starts (tc : TestCase) (p : ContextState) :
    startsOf (runIteration tc p).1.events =
      startsOf (execBody tc.m_test (loopReset p)).1.events := by
  unfold runIteration
  simp only
  generalize execBody tc.m_test (loopReset p) = r
  obtain ⟨s1, o⟩ := r
  cases o <;> simp only [iterateThroughReporters] <;>
    by_cases ht : (s1.abort_after > 0 ∧
      s1.numAssertsFailed + s1.numAssertsFailedCurrentTest_atomic ≥ s1.abort_after) <;>
    cases hre : s1.should_reenter <;>
    simp [ht, hre, startsOf_append, startsOf]

theorem runIteration_frame (tc : TestCase) (p : ContextState) :
    loopFrame (runIteration tc p).1 = loopFrame p := by
  have hfr : loopFrame (execBody tc.m_test (loopReset p)).1 = loopFrame p := by
    have := execBody_frame tc.m_test (loopReset p)
    unfold loopFrame
    rw [this]
    rfl
  unfold runIteration
  simp only
  generalize execBody tc.m_test (loopReset p) = r at hfr
  obtain ⟨s1, o⟩ := r
  rw [← hfr]
  cases o <;> simp only [iterateThroughReporters] <;>
    by_cases ht : (s1.abort_after > 0 ∧
      s1.numAssertsFailed + s1.numAssertsFailedCurrentTest_atomic ≥ s1.abort_after) <;>
    cases hre : s1.should_reenter <;>
    simp [ht, hre, loopFrame, engineFrame]

theorem runTestLoop_frame (tc : TestCase) (fuel : Nat) (p : ContextState)
    (r : ContextState × Nat) (h : runTestLoop tc fuel p = some r) :
    loopFrame r.1 = loopFrame p := by
  induction fuel generalizing p r with
  | zero => simp [runTestLoop] at h
  | succ n ih =>
    simp only [runTestLoop] at h
    split_ifs at h with hc
    · cases hrec : runTestLoop tc n (runIteration tc p).1 with
      | none => rw [hrec] at h; simp at h
      | some q =>
        rw [hrec] at h
        simp only [Option.map_some', Option.some.injEq] at h
        rw [← h]
        exact (ih _ _ hrec).trans (runIteration_frame tc p)
    · simp only [Option.some.injEq] at h
      rw [← h]
      exact runIteration_frame tc p

/-- One pass of the driving loop either enters no sub-branch, leaves the memo and
`should_reenter` untouched and ends the loop, or enters exactly one chain of
sub-branches whose path was not in the memo and records it. -/
theorem runIteration_progress (tc : TestCase) (p : ContextState) :
    ((runIteration tc p).1.subcasesPassed = p.subcasesPassed ∧
      (runIteration tc p).1.should_reenter = false ∧ (runIteration tc p).2 = false ∧
      startsOf (runIteration tc p).1.events = startsOf p.events) ∨
    (∃ q, q ≠ [] ∧ q ∉ p.subcasesPassed ∧ q ∈ (runIteration tc p).1.subcasesPassed ∧
      q ∈ nodePaths [] tc.m_test ∧
      startsOf (runIteration tc p).1.events = startsOf p.events ++ q) := by
  obtain ⟨f1, f2, f3, _⟩ := runIteration_fields tc p
  rw [runIteration_starts, f1, f2]
  rcases execBody_progress tc.m_test (loopReset p) (Nat.zero_le _) rfl with
    ⟨h1, _, h3, h4⟩ | ⟨q, h1, h2, h3, h4, h5, _⟩
  · refine Or.inl ⟨h1, h3, ?_, h4⟩
    cases hc : (runIteration tc p).2
    · rfl
    · rw [f3 hc] at h3; exact absurd h3 (by decide)
  · exact Or.inr ⟨q, h1, h2, h3, h4, h5⟩

theorem runIteration_passed_mono (tc : TestCase) (p : ContextState)
    (q : List SubcaseSignature) (h : q ∈ p.subcasesPassed) :
    q ∈ (runIteration tc p).1.subcasesPassed := by
  rw [(runIteration_fields tc p).1]
  exact execBody_passed_mono _ _ _ h

theorem runTestLoop_terminates (tc : TestCase) (fuel : Nat) (p : ContextState)
    (h : openPaths tc.m_test p.subcasesPassed < fuel) :
    ∃ r, runTestLoop tc fuel p = some r := by
  induction fuel generalizing p with
  | zero => omega
  | succ n ih =>
    simp only [runTestLoop]
    split_ifs with hc
    · rcases runIteration_progress tc p with ⟨_, _, h3, _⟩ | ⟨q, _, h2, h3, h4, _⟩
      · rw [h3] at hc; exact absurd hc (by decide)
      · have hlt : openPaths tc.m_test (runIteration tc p).1.subcasesPassed <
            openPaths tc.m_test p.subcasesPassed :=
          filter_length_lt _ _ _
            (fun x hx => by
              simp only [decide_eq_true_eq] at hx ⊢
              exact fun c => hx (runIteration_passed_mono tc p x c))
            q h4 (by simpa using h2) (by simpa using h3)
        obtain ⟨r, hr⟩ := ih (runIteration tc p).1 (by omega)
        exact ⟨(r.1, r.2 + 1), by rw [hr]; rfl⟩
    · exact ⟨_, rfl⟩

theorem runTestLoop_budget (tc : TestCase) (fuel : Nat) (p : ContextState)
    (h : loopBudget tc ≤ fuel) : ∃ r, runTestLoop tc fuel p = some r := by
  apply runTestLoop_terminates
  have := openPaths_le tc.m_test p.subcasesPassed
  unfold loopBudget at h
  omega
/-! ## The sub-branch engine: the traversal of a tree with distinct siblings -/

theorem leafPaths_subcase_length (sig : SubcaseSignature) (inner rest : Body) :
    (leafPaths (Body.subcase sig inner rest)).length = leafCount inner + (leafPaths rest).length := by
  unfold leafCount
  by_cases h : leafPaths inner = []
  · simp [leafPaths, h]; omega
  · have : 0 < (leafPaths inner).length := List.length_pos.mpr h
    simp [leafPaths, h]
    omega

theorem leafCount_pos (b : Body) : 1 ≤ leafCount b := by
  unfold leafCount; omega

theorem leafPaths_eq_nil_iff (b : Body) : leafPaths b = [] ↔ siblings b = [] := by
  induction b with
  | done => simp [leafPaths, siblings]
  | throwOther => simp [leafPaths, siblings]
  | assertion a f rest ih => simpa [leafPaths, siblings] using ih
  | subcase sig inner rest _ _ =>
    simp only [siblings, reduceCtorEq, iff_false]
    intro h
    have := congrArg List.length h
    rw [leafPaths_subcase_length] at this
    have := leafCount_pos inner
    simp at *
    omega

theorem nodePaths_shape (stack : List SubcaseSignature) (b : Body) (q : List SubcaseSignature)
    (h : q ∈ nodePaths stack b) : ∃ sig ∈ siblings b, ∃ t, q = stack ++ sig :: t := by
  induction b generalizing stack with
  | done => simp [nodePaths] at h
  | throwOther => simp [nodePaths] at h
  | assertion a f rest ih => exact ih stack (by simpa [nodePaths] using h)
  | subcase sig inner rest ih1 ih2 =>
    simp only [nodePaths, List.mem_cons, List.mem_append] at h
    rcases h with h | h | h
    · exact ⟨sig, by simp [siblings], [], h⟩
    · obtain ⟨sig2, _, t, ht⟩ := ih1 _ h
      exact ⟨sig, by simp [siblings], sig2 :: t, by rw [ht]; simp⟩
    · obtain ⟨sig2, hs, t, ht⟩ := ih2 _ h
      exact ⟨sig2, by simp [siblings, hs], t, ht⟩

theorem nodePaths_ne_stack (stack : List SubcaseSignature) (b : Body)
    (h : stack ∈ nodePaths stack b) : False := by
  obtain ⟨sig, _, t, ht⟩ := nodePaths_shape stack b stack h
  have := congrArg List.length ht
  simp at this

theorem nodePaths_disjoint (stack : List SubcaseSignature) (sig : SubcaseSignature)
    (inner rest : Body) (q : List SubcaseSignature)
    (h1 : q = stack ++ [sig] ∨ q ∈ nodePaths (stack ++ [sig]) inner)
    (h2 : q ∈ nodePaths stack rest) : sig ∈ siblings rest := by
  obtain ⟨sig2, hs, t, ht⟩ := nodePaths_shape stack rest q h2
  have hq : ∃ t2, q = stack ++ sig :: t2 := by
    rcases h1 with h | h
    · exact ⟨[], h⟩
    · obtain ⟨sig3, _, t3, ht3⟩ := nodePaths_shape _ inner q h
      exact ⟨sig3 :: t3, by rw [ht3]; simp⟩
  obtain ⟨t2, ht2⟩ := hq
  rw [ht] at ht2
  have := List.append_cancel_left ht2
  simp only [List.cons.injEq] at this
  rw [← this.1]
  exact hs

theorem memoAgrees_congr (P Q : List (List SubcaseSignature)) (k : Nat)
    (stack : List SubcaseSignature) (b : Body)
    (h : ∀ q ∈ nodePaths stack b, (q ∈ Q ↔ q ∈ P)) (hA : memoAgrees P k stack b) :
    memoAgrees Q k stack b := by
  induction b generalizing stack k with
  | done => trivial
  | throwOther => trivial
  | assertion a f rest ih => exact ih k stack (by simpa [nodePaths] using h) hA
  | subcase sig inner rest ih1 ih2 =>
    obtain ⟨a1, a2, a3⟩ := hA
    refine ⟨?_, ih1 k _ ?_ a2, ih2 _ _ ?_ a3⟩
    · rw [h _ (by simp [nodePaths])]; exact a1
    · intro q hq; exact h q (by simp [nodePaths, hq])
    · intro q hq; exact h q (by simp [nodePaths, hq])

theorem memoAgrees_saturated (P Q : List (List SubcaseSignature)) (k m : Nat)
    (stack : List SubcaseSignature) (b : Body)
    (hk : (leafPaths b).length ≤ k) (hkm : k ≤ m) (hsub : ∀ q ∈ P, q ∈ Q)
    (hA : memoAgrees P k stack b) : memoAgrees Q m stack b := by
  induction b generalizing stack k m with
  | done => trivial
  | throwOther => trivial
  | assertion a f rest ih => exact ih k m stack (by simpa [leafPaths] using hk) hkm hA
  | subcase sig inner rest ih1 ih2 =>
    obtain ⟨a1, a2, a3⟩ := hA
    rw [leafPaths_subcase_length] at hk
    have hn : leafCount inner ≤ k := by omega
    have hi : (leafPaths inner).length ≤ leafCount inner := by unfold leafCount; omega
    refine ⟨?_, ih1 k m _ (by omega) hkm a2, ih2 _ _ _ (by omega) (by omega) a3⟩
    constructor
    · intro _; omega
    · intro _; exact hsub _ (a1.mpr hn)

theorem memoAgrees_nil (stack : List SubcaseSignature) (b : Body) :
    memoAgrees [] 0 stack b := by
  induction b generalizing stack with
  | done => trivial
  | throwOther => trivial
  | assertion a f rest ih => exact ih stack
  | subcase sig inner rest ih1 ih2 =>
    refine ⟨?_, ih1 _, by simpa using ih2 stack⟩
    have := leafCount_pos inner
    constructor
    · intro h; simp at h
    · intro h; omega

theorem allVisible_congr {s t : ContextState} (h : engineFrame s = engineFrame t) :
    allVisible s = allVisible t := by
  funext d b
  induction b generalizing d with
  | done => rfl
  | throwOther => rfl
  | assertion a f rest ih => simpa [allVisible] using ih d
  | subcase sig inner rest ih1 ih2 =>
    simp only [allVisible, visible_congr h, ih1, ih2]

/-- In level mode a body that does not throw sets `should_reenter` as soon as it
reaches a sub-branch that passes the filters. -/
theorem execBody_level_mode_reenter (b : Body) (s : ContextState)
    (hl : s.subcasesStack.length < s.subcasesCurrentMaxLevel)
    (ha : s.abort_after ≤ 0) (hnt : noThrow b = true)
    (hvis : allVisible s s.subcasesStack.length b = true) :
    (execBody b s).1.should_reenter = (s.should_reenter || !(siblings b).isEmpty) := by
  induction b generalizing s with
  | done => simp [execBody, siblings]
  | throwOther => simp [noThrow] at hnt
  | assertion a f rest ih =>
    simp only [noThrow, Bool.and_eq_true] at hnt
    have hv := log_view a f s
    have e2 : (ResultBuilder.log a f s).subcasesCurrentMaxLevel = s.subcasesCurrentMaxLevel :=
      congrArg EngineView.maxLevel hv
    have e4 : (ResultBuilder.log a f s).should_reenter = s.should_reenter :=
      congrArg EngineView.reenter hv
    have e5 : (ResultBuilder.log a f s).subcasesStack = s.subcasesStack :=
      congrArg EngineView.stack hv
    have ha1 : (ResultBuilder.log a f s).abort_after ≤ 0 := by
      rw [abort_after_of_frame (log_frame a f s)]; exact ha
    have hth : (f && checkIfShouldThrow a (ResultBuilder.log a f s)) = false := by
      rw [checkIfShouldThrow_disabled _ _ ha1]
      have h1 := hnt.1
      rw [Bool.not_eq_true'] at h1
      exact h1
    simp only [execBody, hth, Bool.false_eq_true, if_false, siblings]
    rw [ih _ (by rw [e5, e2]; exact hl) ha1 hnt.2
      (by rw [allVisible_congr (log_frame a f s), e5]; simpa [allVisible] using hvis), e4]
  | subcase sig inner rest _ ih2 =>
    simp only [noThrow, Bool.and_eq_true] at hnt
    simp only [allVisible, Bool.and_eq_true] at hvis
    have hc := ctor_level sig s hvis.1.1 hl
    rw [execBody_subcase_skipped _ _ _ _ (by rw [hc]), hc]
    have e : allVisible { s with should_reenter := true } = allVisible s :=
      allVisible_congr rfl
    rw [ih2 { s with should_reenter := true } hl ha hnt.2 (by rw [e]; exact hvis.2)]
    simp [siblings]
theorem leafPaths_get_right (sig : SubcaseSignature) (inner rest : Body) (k : Nat)
    (hk : leafCount inner ≤ k) :
    (leafPaths (Body.subcase sig inner rest))[k]? = (leafPaths rest)[k - leafCount inner]? := by
  unfold leafCount at hk ⊢
  by_cases h : leafPaths inner = []
  · simp only [leafPaths, h, if_true, List.length_nil, Nat.zero_le, max_eq_left] at hk ⊢
    rw [List.getElem?_append_right (by simpa using hk)]
    simp
  · have hpos : 0 < (leafPaths inner).length := List.length_pos.mpr h
    have e : max 1 (leafPaths inner).length = (leafPaths inner).length := by omega
    rw [e] at hk ⊢
    simp only [leafPaths, h, if_false]
    rw [List.getElem?_append_right (by simpa using hk)]
    simp

theorem leafPaths_get_left_nil (sig : SubcaseSignature) (inner rest : Body)
    (h : leafPaths inner = []) :
    (leafPaths (Body.subcase sig inner rest))[0]? = some [sig] := by
  simp [leafPaths, h]

theorem leafPaths_get_left (sig : SubcaseSignature) (inner rest : Body) (k : Nat)
    (p : List SubcaseSignature) (h : (leafPaths inner)[k]? = some p) :
    (leafPaths (Body.subcase sig inner rest))[k]? = some (sig :: p) := by
  have hne : leafPaths inner ≠ [] := by
    intro c; rw [c] at h; simp at h
  have hk : k < (leafPaths inner).length := by
    by_contra c
    rw [List.getElem?_eq_none (by omega)] at h
    simp at h
  simp only [leafPaths, hne, if_false]
  rw [List.getElem?_append_left (by simpa using hk)]
  simp [h]
/-- The traversal step: when the memo is what it should be after `k` completed
leaves, one execution of a body that does not throw and whose siblings are
distinct enters exactly the path of leaf `k`, makes the memo what it should be
after `k + 1` leaves, and sets `should_reenter` iff a later leaf exists. -/
theorem execBody_traversal (b : Body) (s : ContextState) (k : Nat)
    (ha : s.abort_after ≤ 0) (hnt : noThrow b = true)
    (hvis : allVisible s s.subcasesStack.length b = true)
    (hd : distinctSiblings b = true)
    (hm : s.subcasesCurrentMaxLevel ≤ s.subcasesStack.length)
    (hr : s.should_reenter = false)
    (hA : memoAgrees s.subcasesPassed k s.subcasesStack b) :
    (∀ q ∈ (execBody b s).1.subcasesPassed,
        q ∈ s.subcasesPassed ∨ q ∈ nodePaths s.subcasesStack b) ∧
    memoAgrees (execBody b s).1.subcasesPassed (k + 1) s.subcasesStack b ∧
    (k < (leafPaths b).length →
      (∀ path, (leafPaths b)[k]? = some path →
        startsOf (execBody b s).1.events = startsOf s.events ++ path) ∧
      s.subcasesStack.length < (execBody b s).1.subcasesCurrentMaxLevel ∧
      (execBody b s).1.should_reenter = decide (k + 1 < (leafPaths b).length)) ∧
    ((leafPaths b).length ≤ k →
      (execBody b s).1.subcasesPassed = s.subcasesPassed ∧
      (execBody b s).1.subcasesCurrentMaxLevel = s.subcasesCurrentMaxLevel ∧
      (execBody b s).1.should_reenter = false ∧
      startsOf (execBody b s).1.events = startsOf s.events) := by
  induction b generalizing s k with
  | done =>
    refine ⟨fun q hq => Or.inl hq, trivial, ?_, fun _ => ⟨rfl, rfl, hr, rfl⟩⟩
    intro h; simp [leafPaths] at h
  | throwOther => simp [noThrow] at hnt
  | assertion a f rest ih =>
    simp only [noThrow, Bool.and_eq_true] at hnt
    have hv := log_view a f s
    have e1 : (ResultBuilder.log a f s).subcasesPassed = s.subcasesPassed :=
      congrArg EngineView.passed hv
    have e2 : (ResultBuilder.log a f s).subcasesCurrentMaxLevel = s.subcasesCurrentMaxLevel :=
      congrArg EngineView.maxLevel hv
    have e3 : startsOf (ResultBuilder.log a f s).events = startsOf s.events :=
      congrArg EngineView.starts hv
    have e4 : (ResultBuilder.log a f s).should_reenter = s.should_reenter :=
      congrArg EngineView.reenter hv
    have e5 : (ResultBuilder.log a f s).subcasesStack = s.subcasesStack :=
      congrArg EngineView.stack hv
    have ha1 : (ResultBuilder.log a f s).abort_after ≤ 0 := by
      rw [abort_after_of_frame (log_frame a f s)]; exact ha
    have hth : (f && checkIfShouldThrow a (ResultBuilder.log a f s)) = false := by
      rw [checkIfShouldThrow_disabled _ _ ha1]
      have h1 := hnt.1
      rw [Bool.not_eq_true'] at h1
      exact h1
    have := ih (ResultBuilder.log a f s) k ha1 hnt.2
      (by rw [allVisible_congr (log_frame a f s), e5]; simpa [allVisible] using hvis)
      (by simpa [distinctSiblings] using hd) (by rw [e5, e2]; exact hm) (e4.trans hr)
      (by rw [e1, e5]; exact hA)
    rw [e1, e2, e3, e5] at this
    simp only [execBody, hth, Bool.false_eq_true, if_false, nodePaths, leafPaths, memoAgrees]
    exact this
  | subcase sig inner rest ih1 ih2 =>
    simp only [noThrow, Bool.and_eq_true] at hnt
    simp only [allVisible, Bool.and_eq_true] at hvis
    simp only [distinctSiblings, Bool.and_eq_true, Bool.not_eq_true'] at hd
    have hsig : sig ∉ siblings rest := by
      intro c
      have h1 := hd.1.1
      simp [c] at h1
    obtain ⟨a1, a2, a3⟩ := hA
    have hl : ¬ s.subcasesStack.length < s.subcasesCurrentMaxLevel := by omega
    have hlen := leafPaths_subcase_length sig inner rest
    have hn1 := leafCount_pos inner
    by_cases hk : leafCount inner ≤ k
    · -- the sub-branch is in the memo: it is popped and the rest is executed
      have hp := a1.mpr hk
      have hc := ctor_passed sig s hvis.1.1 hl hp
      have he : execBody (Body.subcase sig inner rest) s = execBody rest s := by
        rw [execBody_subcase_skipped _ _ _ _ (by rw [hc]), hc]
      rw [he]
      obtain ⟨i1, i2, i3, i4⟩ := ih2 s (k - leafCount inner) ha hnt.2 hvis.2 hd.2 hm hr a3
      refine ⟨?_, ⟨?_, ?_, ?_⟩, ?_, ?_⟩
      · intro q hq
        rcases i1 q hq with h | h
        · exact Or.inl h
        · exact Or.inr (by simp [nodePaths, h])
      · constructor
        · intro _; omega
        · intro _; exact execBody_passed_mono _ _ _ hp
      · exact memoAgrees_saturated _ _ k (k + 1) _ inner (by unfold leafCount at hk; omega)
          (by omega) (fun q hq => execBody_passed_mono _ _ _ hq) a2
      · have e : k + 1 - leafCount inner = k - leafCount inner + 1 := by omega
        rw [e]; exact i2
      · intro hk2
        rw [hlen] at hk2
        obtain ⟨j1, j2, j3⟩ := i3 (by omega)
        refine ⟨?_, j2, ?_⟩
        · intro path hpath
          rw [leafPaths_get_right _ _ _ _ hk] at hpath
          exact j1 path hpath
        · rw [j3, hlen]
          exact decide_eq_decide.mpr (by omega)
      · intro hk2
        rw [hlen] at hk2
        exact i4 (by omega)
    · -- the sub-branch is entered
      have hk1 : k < leafCount inner := by omega
      have hp : s.subcasesStack ++ [sig] ∉ s.subcasesPassed := fun c => hk (a1.mp c)
      obtain ⟨he, hview⟩ := ctor_enter sig s hvis.1.1 hl hp
      have c1 : (Subcase.ctor sig s).1.subcasesStack = s.subcasesStack ++ [sig] :=
        congrArg EngineView.stack hview
      have c2 : (Subcase.ctor sig s).1.subcasesPassed = s.subcasesPassed :=
        congrArg EngineView.passed hview
      have c3 : (Subcase.ctor sig s).1.subcasesCurrentMaxLevel = s.subcasesStack.length + 1 :=
        congrArg EngineView.maxLevel hview
      have c4 : (Subcase.ctor sig s).1.should_reenter = s.should_reenter :=
        congrArg EngineView.reenter hview
      have c5 : startsOf (Subcase.ctor sig s).1.events = startsOf s.events ++ [sig] :=
        congrArg EngineView.starts hview
      have hf1 := ctor_frame sig s
      have ha1 : (Subcase.ctor sig s).1.abort_after ≤ 0 := by
        rw [abort_after_of_frame hf1]; exact ha
      have hvis1 : allVisible (Subcase.ctor sig s).1 (Subcase.ctor sig s).1.subcasesStack.length
          inner = true := by
        rw [allVisible_congr hf1, c1]; simpa using hvis.1.2
      obtain ⟨i1, i2, i3, i4⟩ := ih1 (Subcase.ctor sig s).1 k ha1 hnt.1 hvis1 hd.1.2
        (by rw [c1, c3]; simp) (c4.trans hr) (by rw [c1, c2]; exact a2)
      rw [c1, c2] at i1
      rw [c1] at i2 i3
      rw [c2, c3] at i4
      rw [c5] at i3 i4
      have hnorm : (execBody inner (Subcase.ctor sig s).1).2 = Outcome.normal :=
        execBody_noThrow _ _ ha1 hnt.1
      have hstk2 : (execBody inner (Subcase.ctor sig s).1).1.subcasesStack =
          s.subcasesStack ++ [sig] := by rw [execBody_stack, c1]
      have hf2 : engineFrame (execBody inner (Subcase.ctor sig s).1).1 = engineFrame s :=
        (execBody_frame _ _).trans hf1
      generalize hs2 : (execBody inner (Subcase.ctor sig s).1).1 = s2 at i1 i2 i3 i4 hstk2 hf2
      -- what the nested block did
      have hsum : (∀ path, (leafPaths (Body.subcase sig inner rest))[k]? = some path →
            startsOf s2.events = startsOf s.events ++ path) ∧
          s.subcasesStack.length < s2.subcasesCurrentMaxLevel ∧
          s2.should_reenter = decide (k + 1 < leafCount inner) := by
        by_cases hL : leafPaths inner = []
        · have hz : (leafPaths inner).length = 0 := by rw [hL]; rfl
          have hlc : leafCount inner = 1 := by unfold leafCount; rw [hz]; rfl
          have hk0 : k = 0 := by omega
          obtain ⟨_, j2, j3, j4⟩ := i4 (by omega)
          refine ⟨?_, by rw [j2]; omega, ?_⟩
          · intro path hpath
            rw [hk0, leafPaths_get_left_nil _ _ _ hL] at hpath
            simp only [Option.some.injEq] at hpath
            rw [j4, ← hpath]
          · rw [j3, hlc, hk0]; rfl
        · have hpos : 0 < (leafPaths inner).length := List.length_pos.mpr hL
          have hlc : leafCount inner = (leafPaths inner).length := by unfold leafCount; omega
          obtain ⟨j1, j2, j3⟩ := i3 (by omega)
          refine ⟨?_, ?_, by rw [j3, hlc]⟩
          · intro path hpath
            have hkl : k < (leafPaths inner).length := by omega
            have hex : ∃ p, (leafPaths inner)[k]? = some p :=
              ⟨(leafPaths inner)[k], List.getElem?_eq_getElem hkl⟩
            obtain ⟨p, hp2⟩ := hex
            rw [leafPaths_get_left _ _ _ _ _ hp2] at hpath
            simp only [Option.some.injEq] at hpath
            rw [j1 p hp2, ← hpath]
            simp
          · simp only [List.length_append, List.length_singleton] at j2
            omega
      obtain ⟨hstarts2, hmax2, hre2⟩ := hsum
      -- the destructor
      have d1 : (Subcase.dtor true false s2).subcasesStack = s.subcasesStack := by
        rw [dtor_stack, hstk2, List.dropLast_concat]
      have d2 : ∀ q, q ∈ (Subcase.dtor true false s2).subcasesPassed ↔
          (q ∈ s2.subcasesPassed ∨ (leafCount inner ≤ k + 1 ∧ q = s.subcasesStack ++ [sig])) := by
        intro q
        rw [dtor_passed, hre2, hstk2]
        by_cases hc : k + 1 < leafCount inner
        · have hc2 : ¬ leafCount inner ≤ k + 1 := by omega
          simp [hc, hc2]
        · have hc2 : leafCount inner ≤ k + 1 := by omega
          simp [hc, hc2, mem_setInsert]
      have d3 : (Subcase.dtor true false s2).subcasesCurrentMaxLevel =
          s2.subcasesCurrentMaxLevel := dtor_maxLevel _ _
      have d4 : (Subcase.dtor true false s2).should_reenter = s2.should_reenter :=
        dtor_reenter _ _
      have d5 : startsOf (Subcase.dtor true false s2).events = startsOf s2.events :=
        dtor_starts _ _
      have hf3 : engineFrame (Subcase.dtor true false s2) = engineFrame s :=
        (dtor_frame _ _ _).trans hf2
      -- the rest of the body, in level mode
      have hl3 : (Subcase.dtor true false s2).subcasesStack.length <
          (Subcase.dtor true false s2).subcasesCurrentMaxLevel := by rw [d1, d3]; exact hmax2
      obtain ⟨l1, l2, l3, _⟩ := execBody_level_mode rest (Subcase.dtor true false s2) hl3
      have l4 := execBody_level_mode_reenter rest (Subcase.dtor true false s2) hl3
        (by rw [abort_after_of_frame hf3]; exact ha) hnt.2
        (by rw [allVisible_congr hf3, d1]; exact hvis.2)
      rw [execBody_subcase_entered _ _ _ _ he, if_pos hnorm, hs2]
      rw [l1, l2, l3, l4, d3, d4, d5]
      have hnew : ∀ q, q ∈ (Subcase.dtor true false s2).subcasesPassed →
          q ∈ s.subcasesPassed ∨ q = s.subcasesStack ++ [sig] ∨
            q ∈ nodePaths (s.subcasesStack ++ [sig]) inner := by
        intro q hq
        rcases (d2 q).mp hq with h | ⟨_, h⟩
        · rcases i1 q h with h2 | h2
          · exact Or.inl h2
          · exact Or.inr (Or.inr h2)
        · exact Or.inr (Or.inl h)
      have hmono : ∀ q, q ∈ s.subcasesPassed → q ∈ (Subcase.dtor true false s2).subcasesPassed := by
        intro q hq
        apply (d2 q).mpr
        left
        rw [← hs2]
        exact execBody_passed_mono _ _ _ (by rw [c2]; exact hq)
      refine ⟨?_, ⟨?_, ?_, ?_⟩, ?_, ?_⟩
      · intro q hq
        rcases hnew q hq with h | h | h
        · exact Or.inl h
        · exact Or.inr (by simp [nodePaths, h])
        · exact Or.inr (by simp [nodePaths, h])
      · rw [d2]
        constructor
        · rintro (h | ⟨h, _⟩)
          · rcases i1 _ h with h2 | h2
            · exact absurd h2 hp
            · exact absurd h2 (nodePaths_ne_stack _ _)
          · exact h
        · intro h; exact Or.inr ⟨h, rfl⟩
      · apply memoAgrees_congr _ _ _ _ _ _ i2
        intro q hq
        rw [d2]
        constructor
        · rintro (h | ⟨_, h⟩)
          · exact h
          · rw [h] at hq; exact absurd hq (nodePaths_ne_stack _ _)
        · exact Or.inl
      · have e : k + 1 - leafCount inner = k - leafCount inner := by omega
        rw [e]
        apply memoAgrees_congr _ _ _ _ _ _ a3
        intro q hq
        constructor
        · intro h
          rcases hnew q h with h2 | h2 | h2
          · exact h2
          · exact absurd (nodePaths_disjoint _ _ inner rest q (Or.inl h2) hq) hsig
          · exact absurd (nodePaths_disjoint _ _ inner rest q (Or.inr h2) hq) hsig
        · exact hmono q
      · intro _
        refine ⟨hstarts2, hmax2, ?_⟩
        rw [hre2, hlen]
        by_cases hs : siblings rest = []
        · have : (leafPaths rest).length = 0 := by
            rw [(leafPaths_eq_nil_iff rest).mpr hs]; rfl
          rw [hs, this]
          simp
        · have : 0 < (leafPaths rest).length :=
            List.length_pos.mpr (fun c => hs ((leafPaths_eq_nil_iff rest).mp c))
          have h1 : (!(siblings rest).isEmpty) = true := by
            cases hsr : siblings rest with
            | nil => exact absurd hsr hs
            | cons x xs => rfl
          rw [h1, Bool.or_true]
          symm
          exact decide_eq_true (by omega)
      · intro hk2
        rw [hlen] at hk2
        omega
/-! ## Sub-branch filters -/

theorem visible_of_options {s t : ContextState} (h : sameSubcaseFilters s t) :
    visible s = visible t := by
  funext d sig
  obtain ⟨h1, h2, h3, h4⟩ := h
  simp only [visible, h1, h2, h3, h4]

theorem sameSubcaseFilters_of_frame {s t : ContextState} (h : loopFrame s = loopFrame t) :
    sameSubcaseFilters s t := by
  have h1 : s.subcase_filter_levels = t.subcase_filter_levels :=
    (congrArg ContextState.subcase_filter_levels h :
      (loopFrame s).subcase_filter_levels = (loopFrame t).subcase_filter_levels)
  have h2 : s.filters = t.filters :=
    (congrArg ContextState.filters h : (loopFrame s).filters = (loopFrame t).filters)
  have h3 : s.case_sensitive = t.case_sensitive :=
    (congrArg ContextState.case_sensitive h :
      (loopFrame s).case_sensitive = (loopFrame t).case_sensitive)
  exact ⟨h1, by rw [h2], by rw [h2], h3⟩

theorem loopFrame_of_engineFrame {s t : ContextState} (h : engineFrame s = engineFrame t) :
    loopFrame s = loopFrame t := by
  unfold loopFrame; rw [h]

theorem filterBody_of_options {s t : ContextState} (h : sameSubcaseFilters s t) :
    filterBody s = filterBody t := by
  funext d b
  induction b generalizing d with
  | done => rfl
  | throwOther => rfl
  | assertion a f rest ih => simp only [filterBody, ih]
  | subcase sig inner rest ih1 ih2 =>
    simp only [filterBody, visible_of_options h, ih1, ih2]

theorem allVisible_of_options {s t : ContextState} (h : sameSubcaseFilters s t) :
    allVisible s = allVisible t := by
  funext d b
  induction b generalizing d with
  | done => rfl
  | throwOther => rfl
  | assertion a f rest ih => simpa [allVisible] using ih d
  | subcase sig inner rest ih1 ih2 =>
    simp only [allVisible, visible_of_options h, ih1, ih2]

theorem allVisible_filterBody (s : ContextState) (d : Nat) (b : Body) :
    allVisible s d (filterBody s d b) = true := by
  induction b generalizing d with
  | done => rfl
  | throwOther => rfl
  | assertion a f rest ih => simpa [filterBody, allVisible] using ih d
  | subcase sig inner rest ih1 ih2 =>
    simp only [filterBody]
    split_ifs with hv
    · simp [allVisible, hv, ih1, ih2]
    · exact ih2 d

theorem noThrow_filterBody (s : ContextState) (d : Nat) (b : Body) (h : noThrow b = true) :
    noThrow (filterBody s d b) = true := by
  induction b generalizing d with
  | done => rfl
  | throwOther => simp [noThrow] at h
  | assertion a f rest ih =>
    simp only [noThrow, Bool.and_eq_true] at h
    simp only [filterBody, noThrow, Bool.and_eq_true]
    exact ⟨h.1, ih d h.2⟩
  | subcase sig inner rest ih1 ih2 =>
    simp only [noThrow, Bool.and_eq_true] at h
    simp only [filterBody]
    split_ifs with hv
    · simp only [noThrow, Bool.and_eq_true]
      exact ⟨ih1 _ h.1, ih2 _ h.2⟩
    · exact ih2 d h.2

theorem subcaseCount_filterBody (s : ContextState) (d : Nat) (b : Body) :
    (filterBody s d b).subcaseCount ≤ b.subcaseCount := by
  induction b generalizing d with
  | done => exact Nat.le_refl _
  | throwOther => exact Nat.le_refl _
  | assertion a f rest ih => simpa [filterBody, Body.subcaseCount] using ih d
  | subcase sig inner rest ih1 ih2 =>
    simp only [filterBody]
    split_ifs with hv
    · simp only [Body.subcaseCount]
      have := ih1 (d + 1)
      have := ih2 d
      omega
    · simp only [Body.subcaseCount]
      have := ih2 d
      omega

/-- A sub-branch that does not pass the filters is invisible to the engine: the
body behaves as the tree of the sub-branches that pass. -/
theorem execBody_filterBody (b : Body) (s : ContextState) :
    execBody b s = execBody (filterBody s s.subcasesStack.length b) s := by
  induction b generalizing s with
  | done => rfl
  | throwOther => rfl
  | assertion a f rest ih =>
    have e5 : (ResultBuilder.log a f s).subcasesStack = s.subcasesStack :=
      congrArg EngineView.stack (log_view a f s)
    have ef : filterBody (ResultBuilder.log a f s) = filterBody s :=
      filterBody_of_options
        (sameSubcaseFilters_of_frame (loopFrame_of_engineFrame (log_frame a f s)))
    simp only [filterBody, execBody]
    split_ifs
    · rfl
    · rw [ih (ResultBuilder.log a f s), e5, ef]
  | subcase sig inner rest ih1 ih2 =>
    by_cases hv : visible s s.subcasesStack.length sig = true
    · simp only [filterBody, hv, if_true]
      have hfc : ∀ t : ContextState, engineFrame t = engineFrame s → filterBody t = filterBody s :=
        fun t ht => filterBody_of_options
          (sameSubcaseFilters_of_frame (loopFrame_of_engineFrame ht))
      cases he : (Subcase.ctor sig s).2
      · have hst : (Subcase.ctor sig s).1.subcasesStack = s.subcasesStack := by
          by_cases hl : s.subcasesStack.length < s.subcasesCurrentMaxLevel
          · rw [ctor_level sig s hv hl]
          · by_cases hp : s.subcasesStack ++ [sig] ∈ s.subcasesPassed
            · rw [ctor_passed sig s hv hl hp]
            · rw [(ctor_enter sig s hv hl hp).1] at he
              simp at he
        rw [execBody_subcase_skipped _ _ _ _ he, execBody_subcase_skipped _ _ _ _ he,
          ih2 (Subcase.ctor sig s).1, hst, hfc _ (ctor_frame sig s)]
      · have hst : (Subcase.ctor sig s).1.subcasesStack = s.subcasesStack ++ [sig] := by
          by_cases hl : s.subcasesStack.length < s.subcasesCurrentMaxLevel
          · rw [ctor_level sig s hv hl] at he; simp at he
          · by_cases hp : s.subcasesStack ++ [sig] ∈ s.subcasesPassed
            · rw [ctor_passed sig s hv hl hp] at he; simp at he
            · exact congrArg EngineView.stack (ctor_enter sig s hv hl hp).2
        have hin : execBody inner (Subcase.ctor sig s).1 =
            execBody (filterBody s (s.subcasesStack.length + 1) inner) (Subcase.ctor sig s).1 := by
          rw [ih1 (Subcase.ctor sig s).1, hst, hfc _ (ctor_frame sig s)]
          simp
        rw [execBody_subcase_entered _ _ _ _ he, execBody_subcase_entered _ _ _ _ he, ← hin]
        have hrest : ∀ u : Bool,
            execBody rest (Subcase.dtor true u (execBody inner (Subcase.ctor sig s).1).1) =
            execBody (filterBody s s.subcasesStack.length rest)
              (Subcase.dtor true u (execBody inner (Subcase.ctor sig s).1).1) := by
          intro u
          rw [ih2 (Subcase.dtor true u (execBody inner (Subcase.ctor sig s).1).1),
            hfc _ ((dtor_frame _ _ _).trans ((execBody_frame _ _).trans (ctor_frame sig s))),
            dtor_stack, execBody_stack, hst, List.dropLast_concat]
        rw [hrest false]
    · have hv2 : visible s s.subcasesStack.length sig = false := by simpa using hv
      have hc := ctor_invisible sig s hv2
      simp only [filterBody, hv2, Bool.false_eq_true, if_false]
      rw [execBody_subcase_skipped _ _ _ _ (by rw [hc]), hc]
      exact ih2 s
/-! ## The record of reporter calls -/

theorem ctor_events (sig : SubcaseSignature) (s : ContextState) :
    ∃ E, (Subcase.ctor sig s).1.events = s.events ++ E ∧ ∀ e ∈ E, Event.inBody e = true := by
  unfold Subcase.ctor
  split_ifs
  · exact ⟨[], by simp, by simp⟩
  · exact ⟨[], by simp, by simp⟩
  · exact ⟨[], by simp, by simp⟩
  · exact ⟨[Event.subcase_start sig], rfl, by simp [Event.inBody]⟩

theorem dtor_events (m u : Bool) (s : ContextState) :
    ∃ E, (Subcase.dtor m u s).events = s.events ++ E ∧ ∀ e ∈ E, Event.inBody e = true := by
  unfold Subcase.dtor
  cases m
  · exact ⟨[], by simp, by simp⟩
  · simp only [if_true]
    by_cases h23 : (u && s.shouldLogCurrentException) = true
    · refine ⟨[Event.test_case_exception false, Event.subcase_end], ?_, by simp [Event.inBody]⟩
      by_cases h1 : s.should_reenter = false <;> simp [iterateThroughReporters, h1, h23]
    · refine ⟨[Event.subcase_end], ?_, by simp [Event.inBody]⟩
      by_cases h1 : s.should_reenter = false <;> simp [iterateThroughReporters, h1, h23]

theorem log_events (a : Nat) (f : Bool) (s : ContextState) :
    ∃ E, (ResultBuilder.log a f s).events = s.events ++ E ∧ ∀ e ∈ E, Event.inBody e = true := by
  refine ⟨[Event.log_assert a f], ?_, by simp [Event.inBody]⟩
  unfold ResultBuilder.log addAssert addFailedAssert
  simp only
  split_ifs <;> rfl

theorem execBody_events (b : Body) (s : ContextState) :
    ∃ E, (execBody b s).1.events = s.events ++ E ∧ ∀ e ∈ E, Event.inBody e = true := by
  induction b generalizing s with
  | done => exact ⟨[], by simp [execBody], by simp⟩
  | throwOther => exact ⟨[], by simp [execBody], by simp⟩
  | assertion a f rest ih =>
    obtain ⟨E1, h1, g1⟩ := log_events a f s
    simp only [execBody]
    split_ifs
    · exact ⟨E1, h1, g1⟩
    · obtain ⟨E2, h2, g2⟩ := ih (ResultBuilder.log a f s)
      refine ⟨E1 ++ E2, by rw [h2, h1, List.append_assoc], ?_⟩
      intro e he
      rcases List.mem_append.mp he with h | h
      · exact g1 e h
      · exact g2 e h
  | subcase sig inner rest ih1 ih2 =>
    obtain ⟨E1, h1, g1⟩ := ctor_events sig s
    cases he : (Subcase.ctor sig s).2
    · rw [execBody_subcase_skipped _ _ _ _ he]
      obtain ⟨E2, h2, g2⟩ := ih2 (Subcase.ctor sig s).1
      refine ⟨E1 ++ E2, by rw [h2, h1, List.append_assoc], ?_⟩
      intro e hm
      rcases List.mem_append.mp hm with h | h
      · exact g1 e h
      · exact g2 e h
    · rw [execBody_subcase_entered _ _ _ _ he]
      obtain ⟨E2, h2, g2⟩ := ih1 (Subcase.ctor sig s).1
      have key : ∀ u : Bool, ∃ E,
          (Subcase.dtor true u (execBody inner (Subcase.ctor sig s).1).1).events = s.events ++ E ∧
            ∀ e ∈ E, Event.inBody e = true := by
        intro u
        obtain ⟨E3, h3, g3⟩ := dtor_events true u (execBody inner (Subcase.ctor sig s).1).1
        refine ⟨E1 ++ E2 ++ E3, by rw [h3, h2, h1]; simp, ?_⟩
        intro e hm
        simp only [List.mem_append] at hm
        rcases hm with (h | h) | h
        · exact g1 e h
        · exact g2 e h
        · exact g3 e h
      split_ifs
      · obtain ⟨E3, h3, g3⟩ := key false
        obtain ⟨E4, h4, g4⟩ :=
          ih2 (Subcase.dtor true false (execBody inner (Subcase.ctor sig s).1).1)
        refine ⟨E3 ++ E4, by rw [h4, h3, List.append_assoc], ?_⟩
        intro e hm
        rcases List.mem_append.mp hm with h | h
        · exact g3 e h
        · exact g4 e h
      · exact key true

theorem runIteration_events (tc : TestCase) (p : ContextState) :
    ∃ E, (runIteration tc p).1.events =
        p.events ++ E ++
          (if (runIteration tc p).2 = true then [Event.test_case_reenter tc.toTestCaseData]
           else []) ∧
      ∀ e ∈ E, Event.inBody e = true := by
  obtain ⟨E1, h1, g1⟩ := execBody_events tc.m_test (loopReset p)
  have h1b : (execBody tc.m_test (loopReset p)).1.events = p.events ++ E1 := h1
  unfold runIteration
  simp only
  generalize execBody tc.m_test (loopReset p) = r at h1b
  obtain ⟨s1, o⟩ := r
  simp only at h1b
  have g2 : ∀ e ∈ E1 ++ [Event.test_case_exception false], Event.inBody e = true := by
    intro e he
    rcases List.mem_append.mp he with h | h
    · exact g1 e h
    · simp only [List.mem_singleton] at h; rw [h]; rfl
  cases o
  · refine ⟨E1, ?_, g1⟩
    simp only [iterateThroughReporters]
    by_cases ht : (s1.abort_after > 0 ∧
      s1.numAssertsFailed + s1.numAssertsFailedCurrentTest_atomic ≥ s1.abort_after) <;>
    cases hre : s1.should_reenter <;> simp [ht, hre, h1b]
  · refine ⟨E1, ?_, g1⟩
    simp only [iterateThroughReporters]
    by_cases ht : (s1.abort_after > 0 ∧
      s1.numAssertsFailed + s1.numAssertsFailedCurrentTest_atomic ≥ s1.abort_after) <;>
    cases hre : s1.should_reenter <;> simp [ht, hre, h1b]
  · refine ⟨E1 ++ [Event.test_case_exception false], ?_, g2⟩
    simp only [iterateThroughReporters]
    by_cases ht : (s1.abort_after > 0 ∧
      s1.numAssertsFailed + s1.numAssertsFailedCurrentTest_atomic ≥ s1.abort_after) <;>
    cases hre : s1.should_reenter <;> simp [ht, hre, h1b]

theorem invocationTraces_inBody (E : List Event) (h : ∀ e ∈ E, Event.inBody e = true) :
    invocationTraces E = [startsOf E] := by
  induction E with
  | nil => rfl
  | cons e E ih =>
    have ih2 := ih (fun x hx => h x (List.mem_cons_of_mem _ hx))
    have he := h e (List.mem_cons_self _ _)
    cases e <;> simp_all [invocationTraces, startsOf, Event.inBody]

theorem invocationTraces_append_reenter (E R : List Event) (tc : TestCaseData)
    (h : ∀ e ∈ E, Event.inBody e = true) :
    invocationTraces (E ++ Event.test_case_reenter tc :: R) =
      startsOf E :: invocationTraces R := by
  induction E with
  | nil => rfl
  | cons e E ih =>
    have ih2 := ih (fun x hx => h x (List.mem_cons_of_mem _ hx))
    have he := h e (List.mem_cons_self _ _)
    cases e <;> simp_all [invocationTraces, startsOf, Event.inBody]
/-! ## The driving loop on a tree with distinct siblings -/

theorem runTestLoop_fuel_mono (tc : TestCase) (n m : Nat) (p : ContextState)
    (r : ContextState × Nat) (h : runTestLoop tc n p = some r) (hnm : n ≤ m) :
    runTestLoop tc m p = some r := by
  induction n generalizing m p r with
  | zero => simp [runTestLoop] at h
  | succ n ih =>
    obtain ⟨m, rfl⟩ : ∃ m2, m = m2 + 1 := ⟨m - 1, by omega⟩
    simp only [runTestLoop] at h ⊢
    split_ifs at h ⊢ with hc
    · cases hrec : runTestLoop tc n (runIteration tc p).1 with
      | none => rw [hrec] at h; simp at h
      | some q =>
        rw [hrec] at h
        rw [ih m _ q hrec (by omega)]
        exact h
    · exact h

theorem loopReset_frame (p : ContextState) : loopFrame (loopReset p) = loopFrame p := rfl

theorem runTestLoop_traversal (tc : TestCase) (p0 : ContextState)
    (ha : p0.abort_after ≤ 0) (hnt : noThrow tc.m_test = true)
    (hd : distinctSiblings (filterBody p0 0 tc.m_test) = true) :
    ∀ (n k : Nat) (p : ContextState), loopFrame p = loopFrame p0 →
      memoAgrees p.subcasesPassed k [] (filterBody p0 0 tc.m_test) →
      k + n = leafCount (filterBody p0 0 tc.m_test) → 0 < n →
      ∃ q E, runTestLoop tc n p = some (q, n) ∧ q.events = p.events ++ E ∧
        invocationTraces E =
          (if leafPaths (filterBody p0 0 tc.m_test) = [] then [[]]
           else (leafPaths (filterBody p0 0 tc.m_test)).drop k) := by
  intro n
  induction n with
  | zero => intro k p _ _ _ h; omega
  | succ m ih =>
    intro k p hfr hA hkn _
    have hopt : sameSubcaseFilters (loopReset p) p0 := sameSubcaseFilters_of_frame hfr
    have hab : p.abort_after = p0.abort_after :=
      (congrArg ContextState.abort_after hfr :
        (loopFrame p).abort_after = (loopFrame p0).abort_after)
    have hex : execBody tc.m_test (loopReset p) =
        execBody (filterBody p0 0 tc.m_test) (loopReset p) := by
      rw [execBody_filterBody tc.m_test (loopReset p), filterBody_of_options hopt]
      rfl
    obtain ⟨_, t2, t3, t4⟩ := execBody_traversal (filterBody p0 0 tc.m_test) (loopReset p) k
      (by show p.abort_after ≤ 0; omega) (noThrow_filterBody _ _ _ hnt)
      (by rw [allVisible_of_options hopt]; exact allVisible_filterBody p0 0 tc.m_test)
      hd (Nat.le_refl _) rfl hA
    obtain ⟨f1, f2, _, f4⟩ := runIteration_fields tc p
    have f4 := f4 (by omega)
    have hst := runIteration_starts tc p
    rw [hex] at f1 f2 f4 hst
    obtain ⟨E, hE, gE⟩ := runIteration_events tc p
    generalize hL : leafPaths (filterBody p0 0 tc.m_test) = L at *
    have hlc : leafCount (filterBody p0 0 tc.m_test) = max 1 L.length := by
      unfold leafCount; rw [hL]
    have hsE : startsOf (runIteration tc p).1.events = startsOf p.events ++ startsOf E := by
      rw [hE]
      split_ifs <;> simp [startsOf_append, startsOf]
    by_cases hm0 : m = 0
    · -- the last invocation
      subst hm0
      have hre : (runIteration tc p).2 = false := by
        rw [f4]
        by_cases hz : L.length ≤ k
        · exact (t4 hz).2.2.1
        · rw [(t3 (by omega)).2.2]
          exact decide_eq_false (by omega)
      refine ⟨(runIteration tc p).1, E, ?_, ?_, ?_⟩
      · simp [runTestLoop, hre]
      · rw [hE, hre]; simp
      · rw [invocationTraces_inBody E gE]
        by_cases hz : L = []
        · rw [if_pos hz]
          have h4 := (t4 (by rw [hz]; exact Nat.zero_le _)).2.2.2
          rw [← hst, hsE] at h4
          have : startsOf E = [] := by
            have h5 : startsOf p.events ++ startsOf E = startsOf p.events ++ [] := by
              rw [h4]; simp [loopReset]
            exact List.append_cancel_left h5
          rw [this]
        · rw [if_neg hz]
          have hpos : 0 < L.length := List.length_pos.mpr hz
          have hk : k < L.length := by omega
          have h3 := (t3 hk).1 L[k] (List.getElem?_eq_getElem hk)
          rw [← hst, hsE] at h3
          have : startsOf E = L[k] := by
            have h5 : startsOf p.events ++ startsOf E = startsOf p.events ++ L[k] := by
              rw [h3]; simp [loopReset]
            exact List.append_cancel_left h5
          rw [this, List.drop_eq_getElem_cons hk]
          have : List.drop (k + 1) L = [] := List.drop_eq_nil_of_le (by omega)
          rw [this]
    · -- an invocation followed by another
      have hk : k + 1 < L.length := by omega
      have hz : L ≠ [] := by intro c; rw [c] at hk; simp at hk
      have hre : (runIteration tc p).2 = true := by
        rw [f4, (t3 (by omega)).2.2]
        exact decide_eq_true hk
      obtain ⟨q, E2, r1, r2, r3⟩ := ih (k + 1) (runIteration tc p).1
        ((runIteration_frame tc p).trans hfr) (by rw [f1]; exact t2) (by omega) (by omega)
      refine ⟨q, E ++ Event.test_case_reenter tc.toTestCaseData :: E2, ?_, ?_, ?_⟩
      · simp [runTestLoop, hre, r1]
      · rw [r2, hE, hre]; simp
      · rw [invocationTraces_append_reenter E E2 _ gE, r3, if_neg hz, if_neg hz]
        have hk0 : k < L.length := by omega
        have h3 := (t3 hk0).1 L[k] (List.getElem?_eq_getElem hk0)
        rw [← hst, hsE] at h3
        have : startsOf E = L[k] := by
          have h5 : startsOf p.events ++ startsOf E = startsOf p.events ++ L[k] := by
            rw [h3]; simp [loopReset]
          exact List.append_cancel_left h5
        rw [this, List.drop_eq_getElem_cons hk0]
set_option maxRecDepth 100000

/-! ## The claims about the sub-branch engine -/

theorem leafPaths_head (b : Body) (q : List SubcaseSignature) (h : q ∈ leafPaths b) :
    ∃ sig ∈ siblings b, ∃ t, q = sig :: t := by
  induction b with
  | done => simp [leafPaths] at h
  | throwOther => simp [leafPaths] at h
  | assertion a f rest ih => exact ih (by simpa [leafPaths] using h)
  | subcase sig inner rest _ ih2 =>
    simp only [leafPaths, List.mem_append] at h
    rcases h with h | h
    · refine ⟨sig, by simp [siblings], ?_⟩
      split_ifs at h
      · exact ⟨[], by simpa using h⟩
      · obtain ⟨t, _, ht⟩ := List.mem_map.mp h
        exact ⟨t, ht.symm⟩
    · obtain ⟨sig2, hs, t, ht⟩ := ih2 h
      exact ⟨sig2, by simp [siblings, hs], t, ht⟩

theorem leafPaths_nodup (b : Body) (hd : distinctSiblings b = true) : (leafPaths b).Nodup := by
  induction b with
  | done => simp [leafPaths]
  | throwOther => simp [leafPaths]
  | assertion a f rest ih => exact ih (by simpa [distinctSiblings] using hd)
  | subcase sig inner rest ih1 ih2 =>
    simp only [distinctSiblings, Bool.and_eq_true, Bool.not_eq_true'] at hd
    have hsig : sig ∉ siblings rest := by
      intro c
      have h1 := hd.1.1
      simp [c] at h1
    simp only [leafPaths]
    rw [List.nodup_append]
    refine ⟨?_, ih2 hd.2, ?_⟩
    · split_ifs
      · simp
      · exact (ih1 hd.1.2).map (fun x y hxy => by simpa using hxy)
    · intro q hq1 hq2
      obtain ⟨sig2, hs, t, ht⟩ := leafPaths_head rest q hq2
      have : ∃ t2, q = sig :: t2 := by
        split_ifs at hq1
        · exact ⟨[], by simpa using hq1⟩
        · obtain ⟨t2, _, ht2⟩ := List.mem_map.mp hq1
          exact ⟨t2, ht2.symm⟩
      obtain ⟨t2, ht2⟩ := this
      rw [ht] at ht2
      simp only [List.cons.injEq] at ht2
      exact hsig (ht2.1 ▸ hs)

theorem distinctLeafPathCount_eq (b : Body) (hd : distinctSiblings b = true) :
    distinctLeafPathCount b = leafCount b := by
  unfold distinctLeafPathCount leafCount
  rw [(leafPaths_nodup b hd).dedup]

theorem runTestLoop_count (tc : TestCase) (p : ContextState) (fuel : Nat)
    (ha : p.abort_after ≤ 0) (hnt : noThrow tc.m_test = true)
    (hd : distinctSiblings (filterBody p 0 tc.m_test) = true)
    (hmemo : p.subcasesPassed = []) (hfuel : loopBudget tc ≤ fuel) :
    ∃ q E, runTestLoop tc fuel p = some (q, leafCount (filterBody p 0 tc.m_test)) ∧
      q.events = p.events ++ E ∧
      invocationTraces E =
        (if leafPaths (filterBody p 0 tc.m_test) = [] then [[]]
         else leafPaths (filterBody p 0 tc.m_test)) := by
  obtain ⟨q, E, h1, h2, h3⟩ := runTestLoop_traversal tc p ha hnt hd
    (leafCount (filterBody p 0 tc.m_test)) 0 p rfl (by rw [hmemo]; exact memoAgrees_nil _ _)
    (by omega) (leafCount_pos _)
  obtain ⟨r, hr⟩ := runTestLoop_budget tc fuel p hfuel
  refine ⟨q, E, ?_, h2, by simpa using h3⟩
  rcases Nat.le_total (leafCount (filterBody p 0 tc.m_test)) fuel with hle | hle
  · exact runTestLoop_fuel_mono tc _ _ p _ h1 hle
  · have := runTestLoop_fuel_mono tc _ _ p _ hr hle
    rw [h1] at this
    rw [hr, ← Option.some.inj this]

/-- C1 (counterexample): one `SUBCASE("A")` statement executed twice by a loop has a
single distinct leaf path, but the driving loop invokes the body twice. -/
theorem invocation_count_counterexample :
    noThrow bodyTwice = true ∧ defaultContext.abort_after ≤ 0 ∧
    (runTestLoop (sampleTest bodyTwice) (loopBudget (sampleTest bodyTwice))
      defaultContext).map Prod.snd = some 2 ∧
    distinctLeafPathCount (filterBody defaultContext 0 bodyTwice) = 1 := by
  refine ⟨by decide, by decide, by decide, by decide⟩

/-- C1 (amended): for a body that does not throw, with the abort threshold disabled,
whose sibling sub-branches passing the filters have pairwise distinct signatures,
the driving loop invokes the body exactly as many times as there are distinct
leaf paths passing the filters (one when there is none); the count is the same
for every run state with the same sub-branch filter options. -/
theorem invocation_count (tc : TestCase) (p : ContextState) (fuel : Nat)
    (ha : p.abort_after ≤ 0) (hnt : noThrow tc.m_test = true)
    (hd : distinctSiblings (filterBody p 0 tc.m_test) = true)
    (hmemo : p.subcasesPassed = []) (hfuel : loopBudget tc ≤ fuel) :
    (∃ q, runTestLoop tc fuel p =
      some (q, distinctLeafPathCount (filterBody p 0 tc.m_test))) ∧
    (∀ p2 : ContextState, sameSubcaseFilters p2 p → p2.abort_after ≤ 0 →
      p2.subcasesPassed = [] →
      ∃ q2, runTestLoop tc fuel p2 =
        some (q2, distinctLeafPathCount (filterBody p 0 tc.m_test))) := by
  have key : ∀ p2 : ContextState, sameSubcaseFilters p2 p → p2.abort_after ≤ 0 →
      p2.subcasesPassed = [] →
      ∃ q2, runTestLoop tc fuel p2 =
        some (q2, distinctLeafPathCount (filterBody p 0 tc.m_test)) := by
    intro p2 hs ha2 hm2
    have e := filterBody_of_options hs
    obtain ⟨q, _, h1, _, _⟩ := runTestLoop_count tc p2 fuel ha2 hnt (by rw [e]; exact hd) hm2 hfuel
    rw [e] at h1
    exact ⟨q, by rw [h1, distinctLeafPathCount_eq _ hd]⟩
  exact ⟨key p ⟨rfl, rfl, rfl, rfl⟩ ha hmemo, key⟩

theorem invocation_count_witness :
    defaultContext.abort_after ≤ 0 ∧ noThrow bodyNested = true ∧
    distinctSiblings (filterBody defaultContext 0 bodyNested) = true ∧
    distinctLeafPathCount (filterBody defaultContext 0 bodyNested) = 3 ∧
    ∃ q, runTestLoop (sampleTest bodyNested) (loopBudget (sampleTest bodyNested))
      defaultContext = some (q, distinctLeafPathCount (filterBody defaultContext 0 bodyNested)) :=
  ⟨by decide, by decide, by decide, by decide,
   (invocation_count (sampleTest bodyNested) defaultContext (loopBudget (sampleTest bodyNested))
      (by decide) (by decide) (by decide) rfl (Nat.le_refl _)).1⟩

theorem filterBody_no_filters (p : ContextState) (h6 : p.filters 6 = [])
    (h7 : p.filters 7 = []) (d : Nat) (b : Body) : filterBody p d b = b := by
  induction b generalizing d with
  | done => rfl
  | throwOther => rfl
  | assertion a f rest ih => simp only [filterBody, ih]
  | subcase sig inner rest ih1 ih2 =>
    have hv : visible p d sig = true := by
      simp [visible, h6, h7, matchesAny]
    simp only [filterBody, hv, if_true, ih1, ih2]

/-- C2: for a body that does not throw, with no sub-branch filters and the abort
threshold disabled, whose siblings have pairwise distinct signatures, the body is
invoked once per leaf and the sub-branches entered by the successive invocations
are the leaf paths in depth-first declaration order. -/
theorem leaves_in_declaration_order (tc : TestCase) (p : ContextState) (fuel : Nat)
    (ha : p.abort_after ≤ 0) (hnt : noThrow tc.m_test = true)
    (hd : distinctSiblings tc.m_test = true)
    (h6 : p.filters 6 = []) (h7 : p.filters 7 = [])
    (hmemo : p.subcasesPassed = []) (hfuel : loopBudget tc ≤ fuel) :
    ∃ q E, runTestLoop tc fuel p = some (q, leafCount tc.m_test) ∧
      q.events = p.events ++ E ∧
      invocationTraces E = (if leafPaths tc.m_test = [] then [[]] else leafPaths tc.m_test) := by
  have e := filterBody_no_filters p h6 h7 0 tc.m_test
  have := runTestLoop_count tc p fuel ha hnt (by rw [e]; exact hd) hmemo hfuel
  rw [e] at this
  exact this

theorem leaves_in_declaration_order_witness :
    leafPaths bodyNested =
      [[sampleSig ['A'] 10, sampleSig ['A', '1'] 11], [sampleSig ['A'] 10, sampleSig ['A', '2'] 12],
       [sampleSig ['B'] 20]] ∧
    ∃ q E, runTestLoop (sampleTest bodyNested) (loopBudget (sampleTest bodyNested))
        defaultContext = some (q, leafCount bodyNested) ∧
      q.events = defaultContext.events ++ E ∧
      invocationTraces E = (if leafPaths bodyNested = [] then [[]] else leafPaths bodyNested) :=
  ⟨by decide,
   leaves_in_declaration_order (sampleTest bodyNested) defaultContext
    (loopBudget (sampleTest bodyNested)) (by decide) (by decide) (by decide) rfl rfl rfl
    (Nat.le_refl _)⟩

/-- C3 (the code at the failing input): in `SUBCASE("A") { REQUIRE(false); }
SUBCASE("B") {}` the body is invoked once, only `A` is entered, and the loop ends
although the leaf `B` was never executed. -/
theorem require_failure_loses_sibling :
    leafPaths bodyRequire = [[sampleSig ['A'] 10], [sampleSig ['B'] 20]] ∧
    (runTestLoop (sampleTest bodyRequire) (loopBudget (sampleTest bodyRequire))
      defaultContext).map (fun r => (r.2, invocationTraces r.1.events)) =
        some (1, [[sampleSig ['A'] 10]]) := by
  refine ⟨by decide, by decide⟩

/-- C4 (counterexample): when one `SUBCASE("x")` statement is executed twice inside
`A`, the second invocation enters and records the path `A` alone, which is not a
leaf path, and it does enter a sub-branch. -/
theorem leaf_per_invocation_counterexample :
    (runTestLoop (sampleTest bodyTwiceNested) (loopBudget (sampleTest bodyTwiceNested))
      defaultContext).map (fun r => invocationTraces r.1.events) =
        some [[sampleSig ['A'] 10, sampleSig ['x'] 11], [sampleSig ['A'] 10]] ∧
    [sampleSig ['A'] 10] ∉ leafPaths bodyTwiceNested := by
  refine ⟨by decide, by decide⟩

/-- C4 (amended): the driving loop terminates for every body; each invocation either
enters exactly one chain of sub-branches whose path was not in the memo, and
records it, or enters no sub-branch, leaves `should_reenter` false and ends the
loop; and when the body does not throw, the abort threshold is disabled and the
siblings passing the filters are distinct, every path entered is a leaf path. -/
theorem driving_loop_terminates (tc : TestCase) (p : ContextState) (fuel : Nat)
    (hfuel : loopBudget tc ≤ fuel) :
    (∃ r, runTestLoop tc fuel p = some r) ∧
    (∀ s : ContextState,
      (∃ q, q ≠ [] ∧ q ∉ s.subcasesPassed ∧ q ∈ (runIteration tc s).1.subcasesPassed ∧
        q ∈ nodePaths [] tc.m_test ∧
        startsOf (runIteration tc s).1.events = startsOf s.events ++ q) ∨
      ((runIteration tc s).1.subcasesPassed = s.subcasesPassed ∧
        startsOf (runIteration tc s).1.events = startsOf s.events ∧
        (runIteration tc s).1.should_reenter = false ∧ (runIteration tc s).2 = false)) ∧
    (p.abort_after ≤ 0 → noThrow tc.m_test = true →
      distinctSiblings (filterBody p 0 tc.m_test) = true → p.subcasesPassed = [] →
      leafPaths (filterBody p 0 tc.m_test) ≠ [] →
      ∃ q E, runTestLoop tc fuel p = some (q, leafCount (filterBody p 0 tc.m_test)) ∧
        q.events = p.events ++ E ∧
        ∀ t ∈ invocationTraces E, t ∈ leafPaths (filterBody p 0 tc.m_test)) := by
  refine ⟨runTestLoop_budget tc fuel p hfuel, ?_, ?_⟩
  · intro s
    rcases runIteration_progress tc s with ⟨h1, h2, h3, h4⟩ | h
    · exact Or.inr ⟨h1, h4, h2, h3⟩
    · exact Or.inl h
  · intro ha hnt hd hmemo hne
    obtain ⟨q, E, h1, h2, h3⟩ := runTestLoop_count tc p fuel ha hnt hd hmemo hfuel
    rw [if_neg hne] at h3
    exact ⟨q, E, h1, h2, fun t ht => by rw [h3] at ht; exact ht⟩

theorem driving_loop_terminates_witness :
    loopBudget (sampleTest bodyTwiceNested) ≤ 4 ∧
    ∃ r, runTestLoop (sampleTest bodyTwiceNested) 4 defaultContext = some r :=
  ⟨by decide,
   (driving_loop_terminates (sampleTest bodyTwiceNested) defaultContext 4 (by decide)).1⟩

set_option maxRecDepth 512
/-! ## The wildcard filter (`wildcmp`) -/

theorem glob_nil_left (cs : Bool) (s : List Char) : GlobMatchBy cs [] s ↔ s = [] := by
  constructor
  · intro h; cases h; rfl
  · intro h; rw [h]; exact GlobMatchBy.nil

theorem glob_star_iff (cs : Bool) (p s : List Char) :
    GlobMatchBy cs ('*' :: p) s ↔ ∃ run rest, s = run ++ rest ∧ GlobMatchBy cs p rest := by
  constructor
  · intro h
    cases h with
    | star run rest _ h1 => exact ⟨run, rest, rfl, h1⟩
    | one c d _ _ hc _ _ => exact absurd rfl hc
  · rintro ⟨run, rest, rfl, h⟩
    exact GlobMatchBy.star run rest p h

theorem glob_one_iff (cs : Bool) (c : Char) (p s : List Char) (hc : c ≠ '*') :
    GlobMatchBy cs (c :: p) s ↔
      ∃ d t, s = d :: t ∧ (c = '?' ∨ charEq cs c d = true) ∧ GlobMatchBy cs p t := by
  constructor
  · intro h
    cases h with
    | star run rest _ h1 => exact absurd rfl hc
    | one _ d _ t _ h2 h3 => exact ⟨d, t, rfl, h2, h3⟩
  · rintro ⟨d, t, rfl, h2, h3⟩
    exact GlobMatchBy.one c d p t hc h2 h3

theorem glob_star_extend (cs : Bool) (p x r : List Char) (h : GlobMatchBy cs ('*' :: p) r) :
    GlobMatchBy cs ('*' :: p) (x ++ r) := by
  obtain ⟨run, rest, rfl, h1⟩ := (glob_star_iff cs p r).mp h
  rw [← List.append_assoc]
  exact GlobMatchBy.star (x ++ run) rest p h1

theorem glob_star_cons (cs : Bool) (p : List Char) (d : Char) (t : List Char) :
    GlobMatchBy cs ('*' :: p) (d :: t) ↔
      GlobMatchBy cs p (d :: t) ∨ GlobMatchBy cs ('*' :: p) t := by
  constructor
  · intro h
    obtain ⟨run, rest, he, h1⟩ := (glob_star_iff cs p _).mp h
    cases run with
    | nil => left; simp only [List.nil_append] at he; rw [he]; exact h1
    | cons x run =>
      right
      simp only [List.cons_append, List.cons.injEq] at he
      rw [he.2]
      exact GlobMatchBy.star run rest p h1
  · rintro (h | h)
    · exact GlobMatchBy.star [] (d :: t) p h
    · exact glob_star_extend cs p [d] t h

theorem glob_piece (cs : Bool) (pre m w t : List Char) (h : pieceMatches cs pre m) :
    GlobMatchBy cs (pre ++ w) (m ++ t) ↔ GlobMatchBy cs w t := by
  unfold pieceMatches at h
  induction h with
  | nil => simp
  | cons hcd _ ih =>
    rename_i c d pre m _
    simp only [List.cons_append]
    rw [glob_one_iff cs c _ _ hcd.1]
    constructor
    · rintro ⟨d2, t2, he, _, h3⟩
      simp only [List.cons.injEq] at he
      rw [← he.2] at h3
      exact ih.mp h3
    · intro h3
      exact ⟨d, m ++ t, rfl, hcd.2, ih.mpr h3⟩

theorem pieceMatches_length (cs : Bool) (pre m : List Char) (h : pieceMatches cs pre m) :
    pre.length = m.length := List.Forall₂.length_eq h

theorem pieceMatches_no_star (cs : Bool) (pre m : List Char) (h : pieceMatches cs pre m) :
    ∀ c ∈ pre, c ≠ '*' := by
  unfold pieceMatches at h
  induction h with
  | nil => simp
  | cons hcd _ ih =>
    intro x hx
    rcases List.mem_cons.mp hx with h1 | h1
    · rw [h1]; exact hcd.1
    · exact ih x h1

theorem glob_piece_split (cs : Bool) (pre w u : List Char) (hpre : ∀ c ∈ pre, c ≠ '*')
    (h : GlobMatchBy cs (pre ++ w) u) :
    ∃ m t, u = m ++ t ∧ m.length = pre.length ∧ GlobMatchBy cs w t := by
  induction pre generalizing u with
  | nil => exact ⟨[], u, rfl, rfl, h⟩
  | cons c pre ih =>
    simp only [List.cons_append] at h
    obtain ⟨d, t, rfl, _, h3⟩ :=
      (glob_one_iff cs c _ _ (hpre c (List.mem_cons_self _ _))).mp h
    obtain ⟨m, t2, rfl, hl, h4⟩ := ih _ (fun x hx => hpre x (List.mem_cons_of_mem _ hx)) h3
    exact ⟨d :: m, t2, rfl, by simp [hl], h4⟩

theorem glob_empty_iff (cs : Bool) (p : List Char) :
    GlobMatchBy cs p [] ↔ wildcmpLoop3 p = 1 := by
  induction p with
  | nil => simp [wildcmpLoop3, deref, glob_nil_left]
  | cons c p ih =>
    by_cases hc : c = '*'
    · subst hc
      have e : wildcmpLoop3 ('*' :: p) = wildcmpLoop3 p := by
        simp [wildcmpLoop3, List.dropWhile]
      rw [e, ← ih, glob_star_iff]
      constructor
      · rintro ⟨run, rest, he, h⟩
        have hr : rest = [] := (List.append_eq_nil.mp he.symm).2
        rw [hr] at h; exact h
      · intro h; exact ⟨[], [], rfl, h⟩
    · have hb : (c == '*') = false := by simpa using hc
      have e : wildcmpLoop3 (c :: p) = 0 := by
        simp [wildcmpLoop3, List.dropWhile, hb, deref]
      rw [e, glob_one_iff cs c _ _ hc]
      simp

theorem wildcmpLoop3_range (p : List Char) : wildcmpLoop3 p = 0 ∨ wildcmpLoop3 p = 1 := by
  unfold wildcmpLoop3
  split_ifs
  · right; rfl
  · left; rfl
theorem charsEqual_some (cs : Bool) (c d : Char) :
    charsEqual cs (some c) (some d) = charEq cs c d := by
  cases cs <;> simp [charsEqual, charEq]

theorem charsEqual_none (cs : Bool) (d : Char) : charsEqual cs none (some d) = false := by
  cases cs <;> simp [charsEqual]

theorem wildcmpLoop1_spec (cs : Bool) (str wild : List Char) :
    (wildcmpLoop1 cs str wild = none → ¬ GlobMatchBy cs wild str) ∧
    (∀ str1 wild1, wildcmpLoop1 cs str wild = some (str1, wild1) →
      (GlobMatchBy cs wild str ↔ GlobMatchBy cs wild1 str1) ∧
      (str1 = [] ∨ deref wild1 = some '*') ∧ str1.length ≤ str.length ∧
      wild1.length ≤ wild.length) := by
  induction str generalizing wild with
  | nil =>
    refine ⟨by simp [wildcmpLoop1], ?_⟩
    intro str1 wild1 h
    simp only [wildcmpLoop1, Option.some.injEq, Prod.mk.injEq] at h
    rw [← h.1, ← h.2]
    exact ⟨Iff.rfl, Or.inl rfl, Nat.le_refl _, Nat.le_refl _⟩
  | cons c str ih =>
    cases wild with
    | nil =>
      refine ⟨fun _ h => ?_, ?_⟩
      · have := (glob_nil_left cs (c :: str)).mp h
        simp at this
      · intro str1 wild1 h
        simp [wildcmpLoop1, deref, charsEqual_none] at h
    | cons w ws =>
      by_cases hw : w = '*'
      · subst hw
        refine ⟨by simp [wildcmpLoop1, deref], ?_⟩
        intro str1 wild1 h
        simp only [wildcmpLoop1, deref, List.head?_cons, if_true, Option.some.injEq,
          Prod.mk.injEq] at h
        rw [← h.1, ← h.2]
        exact ⟨Iff.rfl, Or.inr rfl, Nat.le_refl _, Nat.le_refl _⟩
      · have hd : ¬ (deref (w :: ws) = some '*') := by simp [deref, hw]
        by_cases hm : (!charsEqual cs (deref (w :: ws)) (some c) &&
            deref (w :: ws) != some '?') = true
        · have e : wildcmpLoop1 cs (c :: str) (w :: ws) = none := by
            simp only [wildcmpLoop1, if_neg hd, hm, if_true]
          refine ⟨fun _ h => ?_, fun str1 wild1 h => by rw [e] at h; simp at h⟩
          obtain ⟨d, t, he, h2, _⟩ := (glob_one_iff cs w ws _ hw).mp h
          simp only [List.cons.injEq] at he
          rw [← he.1] at h2
          simp only [deref, List.head?_cons, charsEqual_some, Bool.and_eq_true,
            Bool.not_eq_true', bne_iff_ne, ne_eq, Option.some.injEq] at hm
          rcases h2 with h2 | h2
          · exact hm.2 h2
          · rw [hm.1] at h2; exact absurd h2 (by decide)
        · have e : wildcmpLoop1 cs (c :: str) (w :: ws) = wildcmpLoop1 cs str ws := by
            simp only [wildcmpLoop1, if_neg hd, hm, Bool.false_eq_true, if_false, List.tail_cons]
          have hstep : GlobMatchBy cs (w :: ws) (c :: str) ↔ GlobMatchBy cs ws str := by
            rw [glob_one_iff cs w ws _ hw]
            constructor
            · rintro ⟨d, t, he, _, h3⟩
              simp only [List.cons.injEq] at he
              rw [he.2]; exact h3
            · intro h3
              refine ⟨c, str, rfl, ?_, h3⟩
              simp only [deref, List.head?_cons, charsEqual_some, Bool.and_eq_true,
                Bool.not_eq_true', bne_iff_ne, ne_eq, Option.some.injEq, not_and,
                not_not] at hm
              by_cases hq : w = '?'
              · exact Or.inl hq
              · right
                by_contra hne
                exact hq (hm (by simpa using hne))
          rw [e]
          obtain ⟨i1, i2⟩ := ih ws
          refine ⟨fun h hg => i1 h (hstep.mp hg), ?_⟩
          intro str1 wild1 h
          obtain ⟨j1, j2, j3, j4⟩ := i2 str1 wild1 h
          refine ⟨hstep.trans j1, j2, ?_, ?_⟩
          · simp only [List.length_cons]; omega
          · simp only [List.length_cons]; omega
theorem pieceMatches_snoc (cs : Bool) (pre m : List Char) (w c : Char)
    (h : pieceMatches cs pre m) (hw : w ≠ '*') (hm : w = '?' ∨ charEq cs w c = true) :
    pieceMatches cs (pre ++ [w]) (m ++ [c]) := by
  unfold pieceMatches at *
  induction h with
  | nil => exact List.Forall₂.cons ⟨hw, hm⟩ List.Forall₂.nil
  | cons h1 _ ih => exact List.Forall₂.cons h1 ih

theorem glob_star_piece_end (cs : Bool) (pre m wild : List Char) (h : pieceMatches cs pre m) :
    GlobMatchBy cs ('*' :: (pre ++ wild)) m ↔ GlobMatchBy cs wild [] := by
  constructor
  · intro hg
    obtain ⟨run, rest, he, h1⟩ := (glob_star_iff cs _ _).mp hg
    obtain ⟨m2, t, he2, hl, h2⟩ :=
      glob_piece_split cs pre wild rest (pieceMatches_no_star cs pre m h) h1
    have hlen := pieceMatches_length cs pre m h
    have : t = [] := by
      have h3 := congrArg List.length he
      rw [he2] at h3
      simp only [List.length_append] at h3
      exact List.eq_nil_of_length_eq_zero (by omega)
    rw [this] at h2
    exact h2
  · intro hg
    have := (glob_piece cs pre m wild [] h).mpr hg
    rw [List.append_nil] at this
    exact GlobMatchBy.star [] m _ this

theorem glob_star_step (cs : Bool) (pre m w str : List Char) (h : pieceMatches cs pre m) :
    GlobMatchBy cs ('*' :: (pre ++ '*' :: w)) (m ++ str) ↔ GlobMatchBy cs ('*' :: w) str := by
  constructor
  · intro hg
    obtain ⟨run, rest, he, h1⟩ := (glob_star_iff cs _ _).mp hg
    obtain ⟨m2, t, he2, hl, h2⟩ :=
      glob_piece_split cs pre ('*' :: w) rest (pieceMatches_no_star cs pre m h) h1
    have hlen := pieceMatches_length cs pre m h
    rw [he2, ← List.append_assoc] at he
    rcases List.append_eq_append_iff.mp he with ⟨a, _, h4⟩ | ⟨c, h3, h4⟩
    · rw [h4]; exact glob_star_extend cs w a t h2
    · have h5 := congrArg List.length h3
      simp only [List.length_append] at h5
      have hc : c = [] := List.eq_nil_of_length_eq_zero (by omega)
      rw [hc] at h4
      simp only [List.nil_append] at h4
      rw [← h4]; exact h2
  · intro hg
    exact GlobMatchBy.star [] (m ++ str) _ ((glob_piece cs pre m _ str h).mpr hg)

theorem wildcmpLoop2_spec (cs : Bool) (fuel : Nat) :
    ∀ (str wild mp base pre m : List Char),
      base = m ++ str → mp = pre ++ wild → pieceMatches cs pre m →
      (str = [] → 1 ≤ fuel) →
      (str ≠ [] → wild.length + base.tail.length * (mp.length + 1) + 2 ≤ fuel) →
      ∃ r, wildcmpLoop2 cs fuel str wild (some mp) (some base.tail) = some r ∧
        (r = 0 ∨ r = 1) ∧ (r = 1 ↔ GlobMatchBy cs ('*' :: mp) base) := by
  induction fuel with
  | zero =>
    intro str wild mp base pre m _ _ _ h1 h2
    by_cases hs : str = []
    · have := h1 hs; omega
    · have := h2 hs; omega
  | succ n ih =>
    intro str wild mp base pre m hbase hmp hpm h1 h2
    cases str with
    | nil =>
      refine ⟨wildcmpLoop3 wild, by simp [wildcmpLoop2], wildcmpLoop3_range wild, ?_⟩
      rw [← glob_empty_iff cs wild, hbase, hmp, List.append_nil]
      exact (glob_star_piece_end cs pre m wild hpm).symm
    | cons c str =>
      have hb := h2 (by simp)
      have hbl : base.tail.length = m.length + str.length := by
        rw [hbase]; cases m <;> simp; omega
      by_cases hs : deref wild = some '*'
      · -- a star in the pattern
        obtain ⟨w, hw⟩ : ∃ w, wild = '*' :: w := by
          cases wild with
          | nil => simp [deref] at hs
          | cons x w => simp only [deref, List.head?_cons, Option.some.injEq] at hs; exact ⟨w, by rw [hs]⟩
        subst hw
        by_cases hw2 : deref w = none
        · have hwn : w = [] := by
            cases w with
            | nil => rfl
            | cons x w => simp [deref] at hw2
          subst hwn
          refine ⟨1, by simp [wildcmpLoop2, deref], Or.inr rfl, ?_⟩
          simp only [true_iff]
          rw [hbase, hmp]
          apply (glob_star_step cs pre m [] (c :: str) hpm).mpr
          have := GlobMatchBy.star (c :: str) [] [] (@GlobMatchBy.nil cs)
          rw [List.append_nil] at this
          exact this
        · have hmpl : mp.length = pre.length + (w.length + 1) := by rw [hmp]; simp
          have hmul : str.length * (w.length + 1) ≤ base.tail.length * (mp.length + 1) :=
            Nat.mul_le_mul (by omega) (by omega)
          obtain ⟨r, hr1, hr2, hr3⟩ := ih (c :: str) w w (c :: str) [] [] rfl rfl
            List.Forall₂.nil (by simp)
            (fun _ => by
              simp only [List.tail_cons, List.length_cons] at hb ⊢
              omega)
          refine ⟨r, ?_, hr2, ?_⟩
          · simp only [wildcmpLoop2, hs, if_true, List.tail_cons, hw2, if_false]
            exact hr1
          · rw [hr3, hbase, hmp]
            exact (glob_star_step cs pre m w (c :: str) hpm).symm
      · by_cases hmt : (charsEqual cs (deref wild) (some c) || deref wild == some '?') = true
        · -- the characters match
          obtain ⟨w, ws, hw⟩ : ∃ w ws, wild = w :: ws := by
            cases wild with
            | nil => simp [deref, charsEqual_none] at hmt
            | cons w ws => exact ⟨w, ws, rfl⟩
          subst hw
          have hwstar : w ≠ '*' := by
            intro e; apply hs; simp [deref, e]
          have hwm : w = '?' ∨ charEq cs w c = true := by
            simp only [deref, List.head?_cons, charsEqual_some, Bool.or_eq_true, beq_iff_eq,
              Option.some.injEq] at hmt
            rcases hmt with h | h
            · exact Or.inr h
            · exact Or.inl h
          obtain ⟨r, hr1, hr2, hr3⟩ := ih str ws mp base (pre ++ [w]) (m ++ [c])
            (by rw [hbase]; simp) (by rw [hmp]; simp) (pieceMatches_snoc cs pre m w c hpm hwstar hwm)
            (fun _ => by omega)
            (fun _ => by
              simp only [List.length_cons] at hb
              omega)
          refine ⟨r, ?_, hr2, hr3⟩
          simp only [wildcmpLoop2, hs, if_false, hmt, if_true, List.tail_cons]
          exact hr1
        · -- a mismatch: back to the last star, one character further
          have hno : ¬ GlobMatchBy cs mp base := by
            rw [hbase, hmp, glob_piece cs pre m wild (c :: str) hpm]
            intro hg
            cases wild with
            | nil => have := (glob_nil_left cs _).mp hg; simp at this
            | cons w ws =>
              have hwstar : w ≠ '*' := by
                intro e; apply hs; simp [deref, e]
              obtain ⟨d, t, he, h3, _⟩ := (glob_one_iff cs w ws _ hwstar).mp hg
              simp only [List.cons.injEq] at he
              rw [← he.1] at h3
              apply hmt
              simp only [deref, List.head?_cons, charsEqual_some, Bool.or_eq_true, beq_iff_eq,
                Option.some.injEq]
              rcases h3 with h | h
              · exact Or.inr h
              · exact Or.inl h
          obtain ⟨b0, hb0⟩ : ∃ b0, base = b0 :: base.tail := by
            rw [hbase]; cases m <;> simp
          have hmul : base.tail.length * (mp.length + 1) =
              base.tail.tail.length * (mp.length + 1) + (base.tail.length - base.tail.tail.length) *
                (mp.length + 1) := by
            rw [← Nat.add_mul]
            congr 1
            have e0 : base.tail.tail.length = base.tail.length - 1 := List.length_tail _
            omega
          obtain ⟨r, hr1, hr2, hr3⟩ := ih base.tail mp mp base.tail [] [] rfl rfl
            List.Forall₂.nil
            (fun he => by
              rw [he] at hb
              simp only [List.length_nil, Nat.zero_mul] at hb
              omega)
            (fun hne => by
              have hpos : 0 < base.tail.length := List.length_pos.mpr hne
              have e0 : base.tail.tail.length = base.tail.length - 1 := List.length_tail _
              have e1 : base.tail.length - base.tail.tail.length = 1 := by omega
              rw [e1, Nat.one_mul] at hmul
              omega)
          refine ⟨r, ?_, hr2, ?_⟩
          · simp only [wildcmpLoop2, hs, if_false, hmt, Bool.false_eq_true]
            exact hr1
          · rw [hr3]
            conv_rhs => rw [hb0]
            rw [glob_star_cons cs mp b0 base.tail, ← hb0]
            constructor
            · exact Or.inr
            · rintro (h | h)
              · exact absurd h hno
              · exact h
theorem wildcmpFuel_spec (cs : Bool) (str wild : List Char) (fuel : Nat)
    (h : wildcmpBudget str wild ≤ fuel) :
    ∃ r, wildcmpFuel fuel str wild cs = some r ∧ (r = 0 ∨ r = 1) ∧
      (r ≠ 0 ↔ GlobMatchBy cs wild str) := by
  obtain ⟨s1, s2⟩ := wildcmpLoop1_spec cs str wild
  unfold wildcmpFuel
  cases h1 : wildcmpLoop1 cs str wild with
  | none => exact ⟨0, rfl, Or.inl rfl, by simpa using s1 h1⟩
  | some pr =>
    obtain ⟨str1, wild1⟩ := pr
    obtain ⟨j1, j2, j3, j4⟩ := s2 str1 wild1 h1
    simp only
    unfold wildcmpBudget at h
    have hf : 2 ≤ fuel := by
      have : 1 * 2 ≤ (str.length + 1) * (wild.length + 2) := Nat.mul_le_mul (by omega) (by omega)
      omega
    obtain ⟨n, rfl⟩ : ∃ n, fuel = n + 1 := ⟨fuel - 1, by omega⟩
    have fin : ∀ r : Int, (r = 0 ∨ r = 1) → (r = 1 ↔ GlobMatchBy cs wild1 str1) →
        (r = 0 ∨ r = 1) ∧ (r ≠ 0 ↔ GlobMatchBy cs wild str) := by
      intro r hr hi
      refine ⟨hr, ?_⟩
      rw [j1, ← hi]
      rcases hr with e | e <;> simp [e]
    cases str1 with
    | nil =>
      refine ⟨wildcmpLoop3 wild1, by simp [wildcmpLoop2], ?_⟩
      exact fin _ (wildcmpLoop3_range wild1) (glob_empty_iff cs wild1).symm
    | cons c s =>
      have hd : deref wild1 = some '*' := by
        rcases j2 with e | e
        · simp at e
        · exact e
      obtain ⟨w, hw⟩ : ∃ w, wild1 = '*' :: w := by
        cases wild1 with
        | nil => simp [deref] at hd
        | cons x w =>
          simp only [deref, List.head?_cons, Option.some.injEq] at hd
          exact ⟨w, by rw [hd]⟩
      subst hw
      by_cases hw2 : deref w = none
      · have hwn : w = [] := by
          cases w with
          | nil => rfl
          | cons x w => simp [deref] at hw2
        subst hwn
        refine ⟨1, by simp [wildcmpLoop2, deref], ?_⟩
        apply fin 1 (Or.inr rfl)
        simp only [true_iff]
        have := GlobMatchBy.star (c :: s) [] [] (@GlobMatchBy.nil cs)
        rw [List.append_nil] at this
        exact this
      · simp only [List.length_cons] at j3 j4
        have hmul : (s.length + 2) * (w.length + 3) ≤ (str.length + 1) * (wild.length + 2) :=
          Nat.mul_le_mul (by omega) (by omega)
        have e : (s.length + 2) * (w.length + 3) =
            s.length * (w.length + 1) + (2 * s.length + 2 * w.length + 6) := by ring
        obtain ⟨r, hr1, hr2, hr3⟩ := wildcmpLoop2_spec cs n (c :: s) w w (c :: s) [] [] rfl rfl
          List.Forall₂.nil (by simp)
          (fun _ => by
            simp only [List.tail_cons]
            omega)
        refine ⟨r, ?_, fin r hr2 hr3⟩
        simp only [wildcmpLoop2, hd, if_true, List.tail_cons, hw2, if_false]
        exact hr1

theorem wildcmp_spec (cs : Bool) (str wild : List Char) :
    (wildcmp str wild cs ≠ 0 ↔ GlobMatchBy cs wild str) ∧
    ∀ fuel, wildcmpBudget str wild ≤ fuel →
      wildcmpFuel fuel str wild cs = some (wildcmp str wild cs) := by
  obtain ⟨r, h1, h2, h3⟩ := wildcmpFuel_spec cs str wild _ (Nat.le_refl _)
  have e : wildcmp str wild cs = r := by
    unfold wildcmp; rw [h1]; rfl
  refine ⟨by rw [e]; exact h3, ?_⟩
  intro fuel hf
  obtain ⟨r2, g1, g2, g3⟩ := wildcmpFuel_spec cs str wild fuel hf
  rw [g1, e]
  have : (r2 ≠ 0 ↔ r ≠ 0) := g3.trans h3.symm
  congr 1
  rcases g2 with a | a <;> rcases h2 with b | b <;> simp_all
theorem tolower_special :
    ∀ n < 91, 65 ≤ n → Char.ofNat (n + 32) ≠ '*' ∧ Char.ofNat (n + 32) ≠ '?' := by
  decide

theorem tolower_eq_star (c : Char) : tolower c = '*' ↔ c = '*' := by
  unfold tolower Char.toLower
  simp only
  split_ifs with h
  · have := tolower_special c.toNat (by omega) h.1
    constructor
    · intro e; exact absurd e this.1
    · intro e; subst e; exact absurd h (by decide)
  · exact Iff.rfl

theorem tolower_eq_question (c : Char) : tolower c = '?' ↔ c = '?' := by
  unfold tolower Char.toLower
  simp only
  split_ifs with h
  · have := tolower_special c.toNat (by omega) h.1
    constructor
    · intro e; exact absurd e this.2
    · intro e; subst e; exact absurd h (by decide)
  · exact Iff.rfl

theorem globBy_sensitive (p s : List Char) : GlobMatchBy true p s ↔ GlobMatch p s := by
  constructor
  · intro h
    induction h with
    | nil => exact GlobMatch.nil
    | star run rest p _ ih => exact GlobMatch.star run rest p ih
    | one c d p s hc hm _ ih =>
      by_cases hq : c = '?'
      · rw [hq]; exact GlobMatch.any d p s ih
      · have : c = d := by
          rcases hm with e | e
          · exact absurd e hq
          · simpa [charEq] using e
        rw [← this]
        exact GlobMatch.lit c p s hc hq ih
  · intro h
    induction h with
    | nil => exact GlobMatchBy.nil
    | star run rest p _ ih => exact GlobMatchBy.star run rest p ih
    | any c p s _ ih => exact GlobMatchBy.one '?' c p s (by decide) (Or.inl rfl) ih
    | lit c p s hc _ _ ih =>
      exact GlobMatchBy.one c c p s hc (Or.inr (by simp [charEq])) ih

theorem globBy_insensitive (p s : List Char) :
    GlobMatchBy false p s ↔ GlobMatch (p.map tolower) (s.map tolower) := by
  constructor
  · intro h
    induction h with
    | nil => exact GlobMatch.nil
    | star run rest p _ ih =>
      have e : tolower '*' = '*' := by decide
      rw [List.map_cons, List.map_append, e]
      exact GlobMatch.star _ _ _ ih
    | one c d p s hc hm _ ih =>
      rw [List.map_cons, List.map_cons]
      by_cases hq : c = '?'
      · have e : tolower c = '?' := (tolower_eq_question c).mpr hq
        rw [e]; exact GlobMatch.any _ _ _ ih
      · have : tolower c = tolower d := by
          rcases hm with e | e
          · exact absurd e hq
          · simpa [charEq] using e
        rw [← this]
        exact GlobMatch.lit _ _ _ (fun e => hc ((tolower_eq_star c).mp e))
          (fun e => hq ((tolower_eq_question c).mp e)) ih
  · intro h
    generalize hp : p.map tolower = p2 at h
    generalize hs : s.map tolower = s2 at h
    induction h generalizing p s with
    | nil =>
      have e1 : p = [] := by simpa using hp
      have e2 : s = [] := by simpa using hs
      rw [e1, e2]; exact GlobMatchBy.nil
    | star run rest q _ ih =>
      obtain ⟨c, p0, rfl, hc, hq⟩ := List.map_eq_cons_iff.mp hp
      obtain ⟨s1, s3, rfl, _, h3⟩ := List.map_eq_append_iff.mp hs
      rw [(tolower_eq_star c).mp hc]
      exact GlobMatchBy.star s1 s3 p0 (ih p0 s3 hq h3)
    | any d q t _ ih =>
      obtain ⟨c, p0, rfl, hc, hq⟩ := List.map_eq_cons_iff.mp hp
      obtain ⟨d0, t0, rfl, _, ht⟩ := List.map_eq_cons_iff.mp hs
      rw [(tolower_eq_question c).mp hc]
      exact GlobMatchBy.one '?' d0 p0 t0 (by decide) (Or.inl rfl) (ih p0 t0 hq ht)
    | lit x q t hx1 _ _ ih =>
      obtain ⟨c, p0, rfl, hc, hq⟩ := List.map_eq_cons_iff.mp hp
      obtain ⟨d0, t0, rfl, hd, ht⟩ := List.map_eq_cons_iff.mp hs
      refine GlobMatchBy.one c d0 p0 t0 ?_ (Or.inr ?_) (ih p0 t0 hq ht)
      · intro e; rw [e] at hc; exact hx1 hc.symm
      · simp [charEq, hc, hd]

/-- C5: `wildcmp(s, p, true)` is non-zero iff the whole of `s` matches the glob
pattern `p` (`*` any run, `?` one character, any other character itself); with
`caseSensitive = false` the same holds after lower-casing both strings; and the
step budget of the model is never exhausted. -/
theorem wildcmp_glob (s p : List Char) :
    (wildcmp s p true ≠ 0 ↔ GlobMatch p s) ∧
    (wildcmp s p false ≠ 0 ↔ GlobMatch (p.map tolower) (s.map tolower)) ∧
    (∀ (caseSensitive : Bool) (fuel : Nat), wildcmpBudget s p ≤ fuel →
      wildcmpFuel fuel s p caseSensitive = some (wildcmp s p caseSensitive)) :=
  ⟨(wildcmp_spec true s p).1.trans (globBy_sensitive p s),
   (wildcmp_spec false s p).1.trans (globBy_insensitive p s),
   fun cs => (wildcmp_spec cs s p).2⟩
/-! ## Test selection in the run driver -/

theorem skipByFilters_iff (p : ContextState) (tc : TestCaseData) :
    skipByFilters p tc = false ↔ passesSelection p tc := by
  unfold skipByFilters passesSelection
  simp only
  cases tc.m_skip <;> cases p.no_skip <;>
    cases matchesAny tc.m_file (p.filters 0) true p.case_sensitive <;>
    cases matchesAny tc.m_file (p.filters 1) false p.case_sensitive <;>
    cases matchesAny tc.m_test_suite (p.filters 2) true p.case_sensitive <;>
    cases matchesAny tc.m_test_suite (p.filters 3) false p.case_sensitive <;>
    cases matchesAny tc.m_name (p.filters 4) true p.case_sensitive <;>
    cases matchesAny tc.m_name (p.filters 5) false p.case_sensitive <;>
    simp

theorem runTestLoop_count_pos (tc : TestCase) (fuel : Nat) (p : ContextState)
    (r : ContextState × Nat) (h : runTestLoop tc fuel p = some r) : 0 < r.2 := by
  induction fuel generalizing p r with
  | zero => simp [runTestLoop] at h
  | succ n ih =>
    simp only [runTestLoop] at h
    split_ifs at h
    · cases hrec : runTestLoop tc n (runIteration tc p).1 with
      | none => rw [hrec] at h; simp at h
      | some q =>
        rw [hrec] at h
        simp only [Option.map_some', Option.some.injEq] at h
        rw [← h]
        exact Nat.succ_pos _
    · simp only [Option.some.injEq] at h
      rw [← h]
      exact Nat.one_pos

theorem runFrame_of_loopFrame {s t : ContextState} (h : loopFrame s = loopFrame t) :
    runFrame s = runFrame t := by
  unfold runFrame; rw [h]

theorem orFailureFlag_runFrame (r : Nat) (s : ContextState) :
    runFrame (orFailureFlag r s) = runFrame s := rfl

theorem updateCounters_runFrame (e : Double) (s : ContextState) :
    runFrame (updateCounters e s) = runFrame s := rfl

theorem countFailure_runFrame (s : ContextState) : runFrame (countFailure s) = runFrame s := by
  unfold countFailure
  split_ifs <;> rfl

theorem applyDecorators_runFrame (tc : TestCase) (s : ContextState) :
    runFrame (applyDecorators tc s) = runFrame s := by
  unfold applyDecorators
  split_ifs <;> rfl

theorem beforeDecorators_runFrame (tc : TestCase) (s : ContextState) :
    runFrame (beforeDecorators tc s) = runFrame s := by
  unfold beforeDecorators
  simp only
  split_ifs <;>
    simp only [orFailureFlag_runFrame, updateCounters_runFrame]

theorem finalize_runFrame (tc : TestCase) (s : ContextState) :
    runFrame (finalizeTestCaseDataFor tc s) = runFrame s := by
  rw [finalize_eq, countFailure_runFrame, applyDecorators_runFrame, beforeDecorators_runFrame]

theorem finalize_passing (tc : TestCase) (s : ContextState) :
    (finalizeTestCaseDataFor tc s).numTestCasesPassingFilters = s.numTestCasesPassingFilters := by
  have h1 : ∀ t, (countFailure t).numTestCasesPassingFilters = t.numTestCasesPassingFilters := by
    intro t; unfold countFailure; split_ifs <;> rfl
  have h2 : ∀ t, (applyDecorators tc t).numTestCasesPassingFilters =
      t.numTestCasesPassingFilters := by
    intro t; unfold applyDecorators; split_ifs <;> rfl
  have h3 : (beforeDecorators tc s).numTestCasesPassingFilters =
      s.numTestCasesPassingFilters := by
    unfold beforeDecorators; simp only; split_ifs <;> rfl
  rw [finalize_eq, h1, h2, h3]

theorem beginTestCase_runFrame (tc : TestCase) (p : ContextState) :
    runFrame (beginTestCase tc p) = runFrame p := rfl

theorem endTestCase_runFrame (p : ContextState) : runFrame (endTestCase p) = runFrame p := rfl

theorem abort_after_of_runFrame {s t : ContextState} (h : runFrame s = runFrame t) :
    s.abort_after = t.abort_after :=
  (congrArg ContextState.abort_after h : (runFrame s).abort_after = (runFrame t).abort_after)

theorem executeTestCase_spec (tc : TestCase) (p : ContextState) (loc : RunLocals) :
    ∃ r, executeTestCase (loopBudget tc) tc p loc = some r ∧ 0 < r.invocations ∧
      runFrame r.state = runFrame p ∧
      r.state.numTestCasesPassingFilters = p.numTestCasesPassingFilters ∧
      (p.abort_after ≤ 0 → r.broke = false) := by
  unfold executeTestCase
  have hcur2 : (beginTestCase tc p).currentTest = some tc := rfl
  have hn2 : (beginTestCase tc p).numTestCasesPassingFilters = p.numTestCasesPassingFilters :=
    rfl
  obtain ⟨⟨p3, n⟩, h3⟩ := runTestLoop_budget tc (loopBudget tc) (beginTestCase tc p)
    (Nat.le_refl _)
  have hpos := runTestLoop_count_pos tc _ _ _ h3
  have hlf := runTestLoop_frame tc _ _ _ h3
  simp only at hpos hlf
  have hcur3 : p3.currentTest = some tc := by
    rw [← hcur2]
    exact (congrArg ContextState.currentTest hlf :
      (loopFrame p3).currentTest = (loopFrame (beginTestCase tc p)).currentTest)
  have hn3 : p3.numTestCasesPassingFilters = (beginTestCase tc p).numTestCasesPassingFilters :=
    (congrArg ContextState.numTestCasesPassingFilters hlf :
      (loopFrame p3).numTestCasesPassingFilters =
        (loopFrame (beginTestCase tc p)).numTestCasesPassingFilters)
  have hfr : runFrame (endTestCase (finalizeTestCaseDataFor tc p3)) = runFrame p := by
    rw [endTestCase_runFrame, finalize_runFrame, runFrame_of_loopFrame hlf,
      beginTestCase_runFrame]
  have hnum : (endTestCase (finalizeTestCaseDataFor tc p3)).numTestCasesPassingFilters =
      p.numTestCasesPassingFilters := by
    have e : (endTestCase (finalizeTestCaseDataFor tc p3)).numTestCasesPassingFilters =
        (finalizeTestCaseDataFor tc p3).numTestCasesPassingFilters := rfl
    rw [e, finalize_passing, hn3, hn2]
  rw [h3]
  simp only [finalizeTestCaseData, hcur3]
  refine ⟨_, rfl, hpos, hfr, hnum, ?_⟩
  intro ha
  simp only
  rw [abort_after_of_runFrame hfr]
  exact decide_eq_false (fun c => by omega)
theorem skipByFilters_of_runFrame {s t : ContextState} (h : runFrame s = runFrame t) :
    skipByFilters s = skipByFilters t := by
  funext tc
  have h1 : s.no_skip = t.no_skip :=
    (congrArg ContextState.no_skip h : (runFrame s).no_skip = (runFrame t).no_skip)
  have h2 : s.filters = t.filters :=
    (congrArg ContextState.filters h : (runFrame s).filters = (runFrame t).filters)
  have h3 : s.case_sensitive = t.case_sensitive :=
    (congrArg ContextState.case_sensitive h :
      (runFrame s).case_sensitive = (runFrame t).case_sensitive)
  simp only [skipByFilters, h1, h2, h3]

/-- One iteration of the loop over the test cases in a normal run with the abort
threshold disabled. -/
theorem testCaseStep_spec (tc : TestCase) (q : ContextState) (loc : RunLocals)
    (hc : q.count = false) (hl : q.list_test_cases = false) (hs : q.list_test_suites = false)
    (ha : q.abort_after ≤ 0) :
    ∃ r, testCaseStep false tc q loc = some r ∧ r.broke = false ∧
      runFrame r.state = runFrame q ∧
      r.state.numTestCasesPassingFilters =
        q.numTestCasesPassingFilters +
          (if skipByFilters q tc.toTestCaseData = false then 1 else 0) ∧
      (0 < r.invocations ↔
        skipByFilters q tc.toTestCaseData = false ∧
        ¬ ((q.last < q.numTestCasesPassingFilters + 1 ∧ q.first ≤ q.last) ∨
            q.first > q.numTestCasesPassingFilters + 1)) := by
  unfold testCaseStep
  simp only
  cases hsk : skipByFilters q tc.toTestCaseData
  · -- the filters are passed: the counter is incremented
    simp only [Bool.not_false, if_true]
    generalize hp1 : ({ q with numTestCasesPassingFilters := q.numTestCasesPassingFilters + 1 } :
      ContextState) = p1
    have e3 : p1.numTestCasesPassingFilters = q.numTestCasesPassingFilters + 1 := by rw [← hp1]
    have e7 : runFrame p1 = runFrame q := by rw [← hp1]; rfl
    have e8 : p1.abort_after ≤ 0 := by rw [← hp1]; exact ha
    by_cases hrange : (q.last < q.numTestCasesPassingFilters + 1 ∧ q.first ≤ q.last) ∨
        q.first > q.numTestCasesPassingFilters + 1
    · simp only [hrange, if_true]
      refine ⟨_, rfl, rfl, ?_, ?_, ?_⟩
      · exact e7
      · simp only [Bool.not_false, if_true, iterateThroughReporters]
        exact e3
      · simp
    · simp only [hrange, if_false, Bool.false_eq_true, hc, hl, hs]
      obtain ⟨r, h1, h2, h3, h4, h5⟩ := executeTestCase_spec tc p1 loc
      refine ⟨r, h1, h5 e8, h3.trans e7, by rw [h4, e3], ?_⟩
      simp [h2]
  · -- the filters are not passed
    simp only [Bool.not_true, Bool.false_eq_true, if_false, ite_self, if_true]
    refine ⟨_, rfl, rfl, rfl, ?_, ?_⟩
    · simp [iterateThroughReporters]
    · simp
theorem runTestArray_spec (testArray : List TestCase) :
    ∀ (q : ContextState) (loc : RunLocals), q.count = false → q.list_test_cases = false →
      q.list_test_suites = false → q.abort_after ≤ 0 →
      ∃ q2 loc2 ns, runTestArray false testArray q loc = some (q2, loc2, ns) ∧
        runFrame q2 = runFrame q ∧
        ∀ pre tc post, testArray = pre ++ tc :: post →
          ∃ n, ns[pre.length]? = some n ∧
            (0 < n ↔ skipByFilters q tc.toTestCaseData = false ∧
              ¬ ((q.last < q.numTestCasesPassingFilters + (selectedBefore q pre).length + 1 ∧
                    q.first ≤ q.last) ∨
                  q.first > q.numTestCasesPassingFilters + (selectedBefore q pre).length + 1)) := by
  induction testArray with
  | nil =>
    intro q loc _ _ _ _
    refine ⟨q, loc, [], rfl, rfl, ?_⟩
    intro pre tc post h
    simp at h
  | cons t rest ih =>
    intro q loc hc hl hs ha
    obtain ⟨r, h1, h2, h3, h4, h5⟩ := testCaseStep_spec t q loc hc hl hs ha
    have f1 : r.state.count = false := by
      rw [← hc]
      exact (congrArg ContextState.count h3 : (runFrame r.state).count = (runFrame q).count)
    have f2 : r.state.list_test_cases = false := by
      rw [← hl]
      exact (congrArg ContextState.list_test_cases h3 :
        (runFrame r.state).list_test_cases = (runFrame q).list_test_cases)
    have f3 : r.state.list_test_suites = false := by
      rw [← hs]
      exact (congrArg ContextState.list_test_suites h3 :
        (runFrame r.state).list_test_suites = (runFrame q).list_test_suites)
    have f4 : r.state.abort_after ≤ 0 := by rw [abort_after_of_runFrame h3]; exact ha
    have f5 : r.state.first = q.first :=
      (congrArg ContextState.first h3 : (runFrame r.state).first = (runFrame q).first)
    have f6 : r.state.last = q.last :=
      (congrArg ContextState.last h3 : (runFrame r.state).last = (runFrame q).last)
    have f7 := skipByFilters_of_runFrame h3
    obtain ⟨q2, loc2, ns, g1, g2, g3⟩ := ih r.state r.locals f1 f2 f3 f4
    refine ⟨q2, loc2, r.invocations :: ns, ?_, g2.trans h3, ?_⟩
    · simp only [runTestArray, h1, h2, Bool.false_eq_true, if_false, g1, Option.map_some']
    · intro pre tc post hdec
      cases pre with
      | nil =>
        simp only [List.nil_append, List.cons.injEq] at hdec
        refine ⟨r.invocations, by simp, ?_⟩
        rw [← hdec.1]
        simpa [selectedBefore] using h5
      | cons t2 pre2 =>
        simp only [List.cons_append, List.cons.injEq] at hdec
        obtain ⟨n, k1, k2⟩ := g3 pre2 tc post hdec.2
        refine ⟨n, by simpa using k1, ?_⟩
        rw [k2, f5, f6, f7, h4]
        have e : (selectedBefore r.state pre2).length = (selectedBefore q pre2).length := by
          unfold selectedBefore; rw [f7]
        have e2 : (selectedBefore q (t2 :: pre2)).length =
            (if skipByFilters q t.toTestCaseData = false then 1 else 0) +
              (selectedBefore q pre2).length := by
          rw [← hdec.1]
          unfold selectedBefore
          cases hsk : skipByFilters q t.toTestCaseData <;> simp [List.filter_cons, hsk] <;> omega
        rw [e, e2]
        have e3 : q.numTestCasesPassingFilters +
            (if skipByFilters q t.toTestCaseData = false then 1 else 0) +
              (selectedBefore q pre2).length + 1 =
            q.numTestCasesPassingFilters +
              ((if skipByFilters q t.toTestCaseData = false then 1 else 0) +
                (selectedBefore q pre2).length) + 1 := by omega
        rw [e3]

/-- C7: in a normal run with `first <= last` and the abort threshold disabled, the
body of a test case is executed iff it passes the selection filters (skip
decorator, file, suite and name include and exclude filters) and its 1-based
position among the test cases passing them lies in `[first, last]`. -/
theorem selection_gate (p : ContextState) (pre post : List TestCase) (tc : TestCase)
    (loc : RunLocals) (hc : p.count = false) (hl : p.list_test_cases = false)
    (hs : p.list_test_suites = false) (ha : p.abort_after ≤ 0) (hfl : p.first ≤ p.last)
    (h0 : p.numTestCasesPassingFilters = 0) :
    ∃ q loc2 ns n, runTestArray false (pre ++ tc :: post) p loc = some (q, loc2, ns) ∧
      ns[pre.length]? = some n ∧
      (0 < n ↔ passesSelection p tc.toTestCaseData ∧
        p.first ≤ (selectedBefore p pre).length + 1 ∧
        (selectedBefore p pre).length + 1 ≤ p.last) := by
  obtain ⟨q, loc2, ns, h1, _, h3⟩ := runTestArray_spec (pre ++ tc :: post) p loc hc hl hs ha
  obtain ⟨n, k1, k2⟩ := h3 pre tc post rfl
  refine ⟨q, loc2, ns, n, h1, k1, ?_⟩
  rw [k2, skipByFilters_iff, h0]
  constructor
  · rintro ⟨a, b⟩
    refine ⟨a, ?_, ?_⟩ <;> (by_contra hcon; apply b)
    · right; omega
    · left; exact ⟨by omega, hfl⟩
  · rintro ⟨a, b, c⟩
    refine ⟨a, ?_⟩
    rintro (⟨d, _⟩ | d) <;> omega

theorem selection_gate_witness :
    ∃ q loc2 ns n,
      runTestArray false ([sampleTest Body.done] ++ sampleTest Body.done :: [])
        { defaultContext with first := 2, last := 2 } ⟨[], []⟩ = some (q, loc2, ns) ∧
      ns[[sampleTest Body.done].length]? = some n ∧
      (0 < n ↔ passesSelection { defaultContext with first := 2, last := 2 }
          (sampleTest Body.done).toTestCaseData ∧
        ({ defaultContext with first := 2, last := 2 } : ContextState).first ≤
          (selectedBefore { defaultContext with first := 2, last := 2 }
            [sampleTest Body.done]).length + 1 ∧
        (selectedBefore { defaultContext with first := 2, last := 2 }
            [sampleTest Body.done]).length + 1 ≤
          ({ defaultContext with first := 2, last := 2 } : ContextState).last) :=
  selection_gate { defaultContext with first := 2, last := 2 } [sampleTest Body.done] []
    (sampleTest Body.done) ⟨[], []⟩ rfl rfl rfl (by decide) (by decide) rfl
/-! ## Arithmetic of `double` -/

theorem signedInt_not (s : Bool) (m : Nat) : signedInt (!s) m = -signedInt s m := by
  cases s <;> simp [signedInt]

theorem signedInt_false (m : Nat) : signedInt false m = (m : Int) := rfl

theorem Double.fabs_round (neg : Bool) (m : Nat) (e : Int) :
    Double.fabs (Double.round neg m e) = Double.round false m e := by
  simp only [Double.round]
  split_ifs <;> rfl

theorem Double.fabs_sub_comm (a b : Double) :
    Double.fabs (Double.sub a b) = Double.fabs (Double.sub b a) := by
  cases a with
  | nan => cases b <;> rfl
  | inf s =>
    cases b with
    | nan => rfl
    | inf t => cases s <;> cases t <;> rfl
    | finite t n f => rfl
  | finite s m e =>
    cases b with
    | nan => rfl
    | inf t => rfl
    | finite t n f =>
      simp only [Double.sub, Double.neg, Double.add, signedInt_not]
      rw [min_comm f e]
      generalize signedInt s (m * 2 ^ (e - min e f).toNat) = x
      generalize signedInt t (n * 2 ^ (f - min e f).toNat) = y
      have hz : y + -x = -(x + -y) := by ring
      by_cases h : x + -y = 0
      · have h2 : y + -x = 0 := by omega
        rw [if_pos h, if_pos h2]
        rfl
      · have h2 : ¬ (y + -x = 0) := by omega
        rw [if_neg h, if_neg h2, Double.fabs_round, Double.fabs_round, hz, Int.natAbs_neg]

theorem Double.valid_unique {m n : Nat} {e f : Int}
    (hx : Double.valid (Double.finite false m e) = true)
    (hy : Double.valid (Double.finite false n f) = true)
    (h : m * 2 ^ (e - min e f).toNat = n * 2 ^ (f - min e f).toNat) : m = n ∧ e = f := by
  simp only [Double.valid, decide_eq_true_eq] at hx hy
  obtain ⟨x1, x2, x3, x4⟩ := hx
  obtain ⟨y1, y2, y3, y4⟩ := hy
  have two (k : Nat) (hk : 0 < k) : 2 ≤ 2 ^ k := by
    calc 2 = 2 ^ 1 := rfl
      _ ≤ 2 ^ k := Nat.pow_le_pow_right (by decide) hk
  rcases le_total e f with hef | hef
  · rw [min_eq_left hef, sub_self, Int.toNat_zero, pow_zero, mul_one] at h
    by_cases hk : f = e
    · subst hk
      rw [sub_self, Int.toNat_zero, pow_zero, mul_one] at h
      exact ⟨h, rfl⟩
    · exfalso
      have hpos : 0 < (f - e).toNat := by omega
      have h2 := two _ hpos
      have h3 : n * 2 ≤ n * 2 ^ (f - e).toNat := Nat.mul_le_mul_left n h2
      rcases y4 with y4 | y4
      · omega
      · omega
  · rw [min_eq_right hef, sub_self, Int.toNat_zero, pow_zero, mul_one] at h
    by_cases hk : f = e
    · subst hk
      rw [sub_self, Int.toNat_zero, pow_zero, mul_one] at h
      exact ⟨h, rfl⟩
    · exfalso
      have hpos : 0 < (e - f).toNat := by omega
      have h2 := two _ hpos
      have h3 : m * 2 ≤ m * 2 ^ (e - f).toNat := Nat.mul_le_mul_left m h2
      rcases x4 with x4 | x4
      · omega
      · omega

theorem Double.valid_fabs (a : Double) (h : Double.valid a = true) :
    Double.valid (Double.fabs a) = true := by
  cases a <;> first | rfl | exact h

theorem Double.max_fabs_comm (a b : Double) (ha : Double.valid a = true)
    (hb : Double.valid b = true) (hna : a ≠ Double.nan) (hnb : b ≠ Double.nan) :
    Double.max (Double.fabs a) (Double.fabs b) = Double.max (Double.fabs b) (Double.fabs a) := by
  cases a with
  | nan => exact absurd rfl hna
  | inf s =>
    cases b with
    | nan => exact absurd rfl hnb
    | inf t => rfl
    | finite t n f => rfl
  | finite s m e =>
    cases b with
    | nan => exact absurd rfl hnb
    | inf t => rfl
    | finite t n f =>
      have va := Double.valid_fabs _ ha
      have vb := Double.valid_fabs _ hb
      simp only [Double.fabs] at va vb
      simp only [Double.max, Double.fabs, Double.lt, signedInt_false, Nat.cast_lt, min_comm f e]
      by_cases h1 : m * 2 ^ (e - min e f).toNat < n * 2 ^ (f - min e f).toNat
      · have h2 : ¬ (n * 2 ^ (f - min e f).toNat < m * 2 ^ (e - min e f).toNat) := by omega
        simp [h1, h2]
      · by_cases h2 : n * 2 ^ (f - min e f).toNat < m * 2 ^ (e - min e f).toNat
        · simp [h1, h2]
        · obtain ⟨e1, e2⟩ := Double.valid_unique va vb (by omega)
          subst e1 e2
          simp

theorem bitLengthAux_zero (fuel : Nat) : bitLengthAux fuel 0 = 0 := by
  cases fuel <;> simp [bitLengthAux]

theorem bitLengthAux_spec : ∀ (fuel m : Nat), m ≤ fuel → m ≠ 0 →
    2 ^ (bitLengthAux fuel m - 1) ≤ m ∧ m < 2 ^ bitLengthAux fuel m ∧
      0 < bitLengthAux fuel m := by
  intro fuel
  induction fuel with
  | zero => intro m h1 h2; omega
  | succ fuel ih =>
    intro m h1 h2
    simp only [bitLengthAux, if_neg h2]
    by_cases h0 : m / 2 = 0
    · rw [h0, bitLengthAux_zero]
      have : m = 1 := by omega
      subst this
      decide
    · obtain ⟨a, b, c⟩ := ih (m / 2) (by omega) h0
      have e1 : 2 ^ bitLengthAux fuel (m / 2) = 2 * 2 ^ (bitLengthAux fuel (m / 2) - 1) := by
        conv_lhs => rw [← Nat.sub_add_cancel c]
        rw [pow_succ]
        ring
      have e2 : 2 ^ (bitLengthAux fuel (m / 2) + 1) = 2 * 2 ^ bitLengthAux fuel (m / 2) := by
        rw [pow_succ]
        ring
      rw [Nat.add_sub_cancel, e2]
      omega

theorem bitLength_spec (m : Nat) (hm : m ≠ 0) :
    2 ^ (bitLength m - 1) ≤ m ∧ m < 2 ^ bitLength m ∧ 0 < bitLength m :=
  bitLengthAux_spec m m (Nat.le_refl m) hm

theorem double_round_valid (neg : Bool) (m : Nat) (e : Int) :
    Double.valid (Double.round neg m e) = true := by
  unfold Double.round
  by_cases hm : m = 0
  · rw [if_pos hm]
    cases neg <;> decide
  · rw [if_neg hm]
    obtain ⟨hlo, hhi, hpos⟩ := bitLength_spec m hm
    generalize bitLength m = L at hlo hhi hpos
    dsimp only
    have hmax : max (e + (L : Int) - 53) (-1074) = e + (L : Int) - 53 ∨
        max (e + (L : Int) - 53) (-1074) = -1074 := max_choice _ _
    have hge1 : e + (L : Int) - 53 ≤ max (e + (L : Int) - 53) (-1074) := le_max_left _ _
    have hge2 : (-1074 : Int) ≤ max (e + (L : Int) - 53) (-1074) := le_max_right _ _
    generalize max (e + (L : Int) - 53) (-1074) = e1 at hmax hge1 hge2
    by_cases hA : e1 ≤ e
    · rw [if_pos hA]
      by_cases hov : e1 > 971
      · rw [if_pos hov]
        rfl
      · rw [if_neg hov]
        have hK : (e - e1).toNat + L ≤ 53 := by omega
        have hlt : m * 2 ^ (e - e1).toNat < 2 ^ 53 := by
          calc m * 2 ^ (e - e1).toNat < 2 ^ L * 2 ^ (e - e1).toNat :=
                Nat.mul_lt_mul_of_pos_right hhi (by positivity)
            _ = 2 ^ (L + (e - e1).toNat) := (pow_add 2 _ _).symm
            _ ≤ 2 ^ 53 := Nat.pow_le_pow_right (by decide) (by omega)
        have hcan : 2 ^ 52 ≤ m * 2 ^ (e - e1).toNat ∨ e1 = -1074 := by
          rcases hmax with h | h
          · left
            have hK2 : (L - 1) + (e - e1).toNat = 52 := by omega
            calc 2 ^ 52 = 2 ^ ((L - 1) + (e - e1).toNat) := by rw [hK2]
              _ = 2 ^ (L - 1) * 2 ^ (e - e1).toNat := pow_add 2 _ _
              _ ≤ m * 2 ^ (e - e1).toNat := Nat.mul_le_mul_right _ hlo
          · right
            exact h
        simp only [Double.valid, decide_eq_true_eq]
        exact ⟨hlt, hge2, by omega, hcan⟩
    · rw [if_neg hA]
      have hk : L ≤ (e1 - e).toNat + 53 := by omega
      have hq : m / 2 ^ (e1 - e).toNat < 2 ^ 53 := by
        rw [Nat.div_lt_iff_lt_mul (by positivity)]
        calc m < 2 ^ L := hhi
          _ ≤ 2 ^ (53 + (e1 - e).toNat) := Nat.pow_le_pow_right (by decide) (by omega)
          _ = 2 ^ 53 * 2 ^ (e1 - e).toNat := pow_add 2 _ _
      have hq2 : e1 ≠ -1074 → 2 ^ 52 ≤ m / 2 ^ (e1 - e).toNat := by
        intro hne
        have h : e1 = e + (L : Int) - 53 := by
          rcases hmax with h | h
          · exact h
          · exact absurd h hne
        rw [Nat.le_div_iff_mul_le (by positivity)]
        have hK2 : 52 + (e1 - e).toNat = L - 1 := by omega
        calc 2 ^ 52 * 2 ^ (e1 - e).toNat = 2 ^ (52 + (e1 - e).toNat) := (pow_add 2 _ _).symm
          _ = 2 ^ (L - 1) := by rw [hK2]
          _ ≤ m := hlo
      generalize m / 2 ^ (e1 - e).toNat = q at hq hq2
      have hm1 : ∀ (c : Prop) [Decidable c],
          q ≤ (if c then q + 1 else q) ∧ (if c then q + 1 else q) ≤ q + 1 := by
        intro c _
        split_ifs <;> omega
      obtain ⟨b1, b2⟩ := hm1 (2 ^ (e1 - e).toNat < 2 * (m % 2 ^ (e1 - e).toNat) ∨
          2 * (m % 2 ^ (e1 - e).toNat) = 2 ^ (e1 - e).toNat ∧ q % 2 = 1)
      generalize (if 2 ^ (e1 - e).toNat < 2 * (m % 2 ^ (e1 - e).toNat) ∨
          2 * (m % 2 ^ (e1 - e).toNat) = 2 ^ (e1 - e).toNat ∧ q % 2 = 1 then q + 1 else q) = m1
        at b1 b2
      by_cases hc : m1 = 2 ^ 53
      · rw [if_pos hc, if_pos hc]
        split_ifs with hov
        · rfl
        · simp only [Double.valid, decide_eq_true_eq]
          exact ⟨by decide, by omega, by omega, Or.inl (Nat.le_refl _)⟩
      · rw [if_neg hc, if_neg hc]
        split_ifs with hov
        · rfl
        · simp only [Double.valid, decide_eq_true_eq]
          refine ⟨by omega, hge2, by omega, ?_⟩
          by_cases h74 : e1 = -1074
          · exact Or.inr h74
          · exact Or.inl (Nat.le_trans (hq2 h74) b1)

theorem double_add_valid (x y : Double) : Double.valid (Double.add x y) = true := by
  cases x with
  | nan => cases y <;> rfl
  | inf s =>
    cases y with
    | nan => rfl
    | inf t => cases s <;> cases t <;> rfl
    | finite t n f => rfl
  | finite s m e =>
    cases y with
    | nan => rfl
    | inf t => rfl
    | finite t n f =>
      simp only [Double.add]
      split_ifs
      · cases s <;> cases t <;> decide
      · exact double_round_valid _ _ _

theorem double_sub_valid (x y : Double) : Double.valid (Double.sub x y) = true := double_add_valid _ _

theorem double_mul_valid (x y : Double) : Double.valid (Double.mul x y) = true := by
  cases x with
  | nan => cases y <;> rfl
  | inf s =>
    cases y with
    | nan => rfl
    | inf t => rfl
    | finite t n f =>
      simp only [Double.mul]
      split_ifs <;> rfl
  | finite s m e =>
    cases y with
    | nan => rfl
    | inf t =>
      simp only [Double.mul]
      split_ifs <;> rfl
    | finite t n f => exact double_round_valid _ _ _

theorem Double.toRat_align (s : Bool) (m : Nat) (e e0 : Int) (h : e0 ≤ e) :
    Double.toRat (Double.finite s m e) =
      (signedInt s (m * 2 ^ (e - e0).toNat) : ℚ) * (2 : ℚ) ^ e0 := by
  have hk : ((e - e0).toNat : Int) = e - e0 := Int.toNat_of_nonneg (by omega)
  have h2 : (2 : ℚ) ^ e = (2 : ℚ) ^ (e - e0).toNat * (2 : ℚ) ^ e0 := by
    rw [← zpow_natCast, hk, ← zpow_add₀ (by norm_num : (2 : ℚ) ≠ 0)]
    congr 1
    ring
  simp only [Double.toRat]
  rw [h2]
  cases s <;> simp [signedInt] <;> ring

theorem Double.lt_iff_toRat (x y : Double) (hx : Double.isFinite x = true)
    (hy : Double.isFinite y = true) :
    Double.lt x y = true ↔ Double.toRat x < Double.toRat y := by
  cases x with
  | nan => exact Bool.noConfusion hx
  | inf s => exact Bool.noConfusion hx
  | finite s m e =>
    cases y with
    | nan => exact Bool.noConfusion hy
    | inf t => exact Bool.noConfusion hy
    | finite t n f =>
      rw [Double.toRat_align s m e (min e f) (min_le_left _ _),
        Double.toRat_align t n f (min e f) (min_le_right _ _)]
      simp only [Double.lt, decide_eq_true_eq]
      have hp : (0 : ℚ) < (2 : ℚ) ^ min e f := zpow_pos (by norm_num) _
      rw [mul_lt_mul_right hp, Int.cast_lt]

theorem Double.toRat_fabs (x : Double) : Double.toRat (Double.fabs x) = |Double.toRat x| := by
  cases x with
  | nan => simp [Double.fabs, Double.toRat]
  | inf s => simp [Double.fabs, Double.toRat]
  | finite s m e =>
    have hp : (0 : ℚ) < (2 : ℚ) ^ e := zpow_pos (by norm_num) _
    simp only [Double.fabs, Double.toRat]
    rw [abs_mul, abs_of_pos hp]
    cases s <;> simp [signedInt]

theorem Double.isFinite_fabs (x : Double) (h : Double.isFinite (Double.fabs x) = true) :
    Double.isFinite x = true := by
  cases x <;> first | rfl | exact h

theorem Double.isFinite_of_fabs (x : Double) (h : Double.isFinite x = true) :
    Double.isFinite (Double.fabs x) = true := by
  cases x <;> first | rfl | exact h

theorem nearest_core (q r m1 : Nat) (a P D : ℚ) (hP : 0 < P) (hr1 : (r : ℚ) * P < a)
    (hm1 : (m1 = q ∧ 2 * ((r : ℚ) * P) ≤ a) ∨ (m1 = q + 1 ∧ a ≤ 2 * ((r : ℚ) * P)))
    (hD : D ≤ (q : ℚ) * a ∨ ((q : ℚ) + 1) * a ≤ D) :
    |(m1 : ℚ) * a - ((q : ℚ) * a + (r : ℚ) * P)| ≤ |D - ((q : ℚ) * a + (r : ℚ) * P)| := by
  have hr0 : 0 ≤ (r : ℚ) * P := mul_nonneg (Nat.cast_nonneg r) (le_of_lt hP)
  rcases hm1 with ⟨h1, h2⟩ | ⟨h1, h2⟩
  · rw [h1]
    have e : (q : ℚ) * a - ((q : ℚ) * a + (r : ℚ) * P) = -((r : ℚ) * P) := by ring
    rw [e, abs_neg, abs_of_nonneg hr0]
    rcases hD with hD | hD
    · calc (r : ℚ) * P ≤ -(D - ((q : ℚ) * a + (r : ℚ) * P)) := by linarith
        _ ≤ |D - ((q : ℚ) * a + (r : ℚ) * P)| := neg_le_abs _
    · calc (r : ℚ) * P ≤ D - ((q : ℚ) * a + (r : ℚ) * P) := by linarith
        _ ≤ |D - ((q : ℚ) * a + (r : ℚ) * P)| := le_abs_self _
  · rw [h1]
    have e : ((q + 1 : Nat) : ℚ) * a - ((q : ℚ) * a + (r : ℚ) * P) = a - (r : ℚ) * P := by
      push_cast
      ring
    rw [e, abs_of_nonneg (by linarith)]
    rcases hD with hD | hD
    · calc a - (r : ℚ) * P ≤ -(D - ((q : ℚ) * a + (r : ℚ) * P)) := by linarith
        _ ≤ |D - ((q : ℚ) * a + (r : ℚ) * P)| := neg_le_abs _
    · calc a - (r : ℚ) * P ≤ D - ((q : ℚ) * a + (r : ℚ) * P) := by linarith
        _ ≤ |D - ((q : ℚ) * a + (r : ℚ) * P)| := le_abs_self _

theorem zpow_two_pos (e : Int) : (0 : ℚ) < (2 : ℚ) ^ e := zpow_pos (by norm_num) _

theorem zpow_two_split (e1 e : Int) (h : e ≤ e1) :
    (2 : ℚ) ^ e1 = ((2 ^ (e1 - e).toNat : Nat) : ℚ) * (2 : ℚ) ^ e := by
  have hk : ((e1 - e).toNat : Int) = e1 - e := Int.toNat_of_nonneg (by omega)
  push_cast
  rw [← zpow_natCast, hk, ← zpow_add₀ (by norm_num : (2 : ℚ) ≠ 0)]
  congr 1
  ring

/-- No double lies strictly between two neighbouring multiples of `2^e1`, when `e1`
is the exponent that rounding gives to a value of at least `q * 2^e1`. -/
theorem valid_gap (d : Double) (hd : Double.valid d = true) (hf : Double.isFinite d = true)
    (q : Nat) (e1 : Int) (hq : e1 = -1074 ∨ 2 ^ 52 ≤ q) :
    Double.toRat d ≤ (q : ℚ) * (2 : ℚ) ^ e1 ∨ ((q : ℚ) + 1) * (2 : ℚ) ^ e1 ≤ Double.toRat d := by
  cases d with
  | nan => exact Bool.noConfusion hf
  | inf s => exact Bool.noConfusion hf
  | finite s n f =>
    simp only [Double.valid, decide_eq_true_eq] at hd
    obtain ⟨d1, d2, d3, d4⟩ := hd
    have hp1 := zpow_two_pos e1
    have hpf := zpow_two_pos f
    cases s with
    | true =>
      left
      simp only [Double.toRat, signedInt, if_true]
      have h1 : ((-(n : Int) : Int) : ℚ) * (2 : ℚ) ^ f ≤ 0 := by
        push_cast
        have : (0 : ℚ) ≤ (n : ℚ) * (2 : ℚ) ^ f := mul_nonneg (Nat.cast_nonneg n) (le_of_lt hpf)
        linarith
      exact le_trans h1 (mul_nonneg (Nat.cast_nonneg q) (le_of_lt hp1))
    | false =>
      simp only [Double.toRat, signedInt, Bool.false_eq_true, if_false, Int.cast_natCast]
      by_cases hfe : e1 ≤ f
      · rw [zpow_two_split f e1 hfe, ← mul_assoc, ← Nat.cast_mul]
        rcases Nat.lt_or_ge q (n * 2 ^ (f - e1).toNat) with h | h
        · right
          have h2 : ((q + 1 : Nat) : ℚ) ≤ ((n * 2 ^ (f - e1).toNat : Nat) : ℚ) :=
            Nat.cast_le.mpr h
          push_cast at h2 ⊢
          exact mul_le_mul_of_nonneg_right h2 (le_of_lt hp1)
        · left
          have h2 : ((n * 2 ^ (f - e1).toNat : Nat) : ℚ) ≤ (q : ℚ) := Nat.cast_le.mpr h
          exact mul_le_mul_of_nonneg_right h2 (le_of_lt hp1)
      · left
        have hq2 : 2 ^ 52 ≤ q := by
          rcases hq with h | h
          · omega
          · exact h
        have hsplit := zpow_two_split e1 f (by omega)
        have hk : 1 ≤ (e1 - f).toNat := by omega
        have h2k : 2 ≤ 2 ^ (e1 - f).toNat := by
          calc 2 = 2 ^ 1 := rfl
            _ ≤ 2 ^ (e1 - f).toNat := Nat.pow_le_pow_right (by decide) hk
        rw [hsplit, ← mul_assoc, ← Nat.cast_mul]
        have h3 : n ≤ q * 2 ^ (e1 - f).toNat := by
          calc n ≤ 2 ^ 52 * 2 := by omega
            _ ≤ q * 2 ^ (e1 - f).toNat := Nat.mul_le_mul hq2 h2k
        exact mul_le_mul_of_nonneg_right (Nat.cast_le.mpr h3) (le_of_lt hpf)

theorem double_round_shape (neg : Bool) (m : Nat) (e : Int) (hm : m ≠ 0) :
    ∃ e1 : Int,
      (e1 ≤ e ∧ Double.round neg m e =
        if e1 > 971 then Double.inf neg else Double.finite neg (m * 2 ^ (e - e1).toNat) e1) ∨
      (e < e1 ∧ ∃ q r m1 : Nat, m = q * 2 ^ (e1 - e).toNat + r ∧ r < 2 ^ (e1 - e).toNat ∧
        (e1 = -1074 ∨ 2 ^ 52 ≤ q) ∧
        ((m1 = q ∧ 2 * r ≤ 2 ^ (e1 - e).toNat) ∨ (m1 = q + 1 ∧ 2 ^ (e1 - e).toNat ≤ 2 * r)) ∧
        (Double.round neg m e = Double.inf neg ∨
          Double.round neg m e = Double.finite neg m1 e1 ∨
          (m1 = 2 ^ 53 ∧ Double.round neg m e = Double.finite neg (2 ^ 52) (e1 + 1)))) := by
  unfold Double.round
  rw [if_neg hm]
  obtain ⟨hlo, hhi, hpos⟩ := bitLength_spec m hm
  generalize bitLength m = L at hlo hhi hpos
  dsimp only
  have hmax : Max.max (e + (L : Int) - 53) (-1074) = e + (L : Int) - 53 ∨
      Max.max (e + (L : Int) - 53) (-1074) = -1074 := max_choice _ _
  have hge1 : e + (L : Int) - 53 ≤ Max.max (e + (L : Int) - 53) (-1074) := le_max_left _ _
  have hge2 : (-1074 : Int) ≤ Max.max (e + (L : Int) - 53) (-1074) := le_max_right _ _
  generalize Max.max (e + (L : Int) - 53) (-1074) = e1 at hmax hge1 hge2
  refine ⟨e1, ?_⟩
  by_cases hA : e1 ≤ e
  · left
    rw [if_pos hA]
    exact ⟨hA, rfl⟩
  · right
    rw [if_neg hA]
    have hq2 : e1 = -1074 ∨ 2 ^ 52 ≤ m / 2 ^ (e1 - e).toNat := by
      by_cases hne : e1 = -1074
      · exact Or.inl hne
      · right
        have h : e1 = e + (L : Int) - 53 := by
          rcases hmax with h | h
          · exact h
          · exact absurd h hne
        rw [Nat.le_div_iff_mul_le (by positivity)]
        have hK2 : 52 + (e1 - e).toNat = L - 1 := by omega
        calc 2 ^ 52 * 2 ^ (e1 - e).toNat = 2 ^ (52 + (e1 - e).toNat) := (pow_add 2 _ _).symm
          _ = 2 ^ (L - 1) := by rw [hK2]
          _ ≤ m := hlo
    have hdm : m = m / 2 ^ (e1 - e).toNat * 2 ^ (e1 - e).toNat + m % 2 ^ (e1 - e).toNat :=
      (Nat.div_add_mod' m _).symm
    have hrlt : m % 2 ^ (e1 - e).toNat < 2 ^ (e1 - e).toNat := Nat.mod_lt _ (by positivity)
    generalize m / 2 ^ (e1 - e).toNat = q at hq2 hdm
    generalize m % 2 ^ (e1 - e).toNat = r at hdm hrlt
    generalize (e1 - e).toNat = k at hdm hrlt
    refine ⟨by omega, q, r, if 2 ^ k < 2 * r ∨ 2 * r = 2 ^ k ∧ q % 2 = 1 then q + 1 else q,
      hdm, hrlt, hq2, ?_, ?_⟩
    · by_cases hup : 2 ^ k < 2 * r ∨ 2 * r = 2 ^ k ∧ q % 2 = 1
      · rw [if_pos hup]
        right
        refine ⟨rfl, ?_⟩
        rcases hup with h | h <;> omega
      · rw [if_neg hup]
        left
        refine ⟨rfl, ?_⟩
        by_contra hc
        exact hup (Or.inl (by omega))
    · generalize (if 2 ^ k < 2 * r ∨ 2 * r = 2 ^ k ∧ q % 2 = 1 then q + 1 else q) = m1
      by_cases hc : m1 = 2 ^ 53
      · rw [if_pos hc, if_pos hc]
        split_ifs
        · exact Or.inl rfl
        · exact Or.inr (Or.inr ⟨hc, rfl⟩)
      · rw [if_neg hc, if_neg hc]
        split_ifs
        · exact Or.inl rfl
        · exact Or.inr (Or.inl rfl)

theorem signedInt_cast_false (m : Nat) : ((signedInt false m : Int) : ℚ) = (m : ℚ) := by
  simp [signedInt]

/-- Rounding gives a double nearest to the exact value: no double is closer to
`m * 2^e` than `Double.round false m e`, unless the result is an infinity. -/
theorem double_round_nearest_pos (m : Nat) (e : Int) (d : Double)
    (hd : Double.valid d = true) (hdf : Double.isFinite d = true)
    (hr : Double.isFinite (Double.round false m e) = true) :
    |Double.toRat (Double.round false m e) - (m : ℚ) * (2 : ℚ) ^ e| ≤
      |Double.toRat d - (m : ℚ) * (2 : ℚ) ^ e| := by
  by_cases hm : m = 0
  · subst hm
    have h0 : Double.round false 0 e = Double.finite false 0 (-1074) := by
      simp [Double.round]
    rw [h0]
    simp [Double.toRat, signedInt]
  · obtain ⟨e1, h | h⟩ := double_round_shape false m e hm
    · obtain ⟨h1, h2⟩ := h
      rw [h2] at hr ⊢
      by_cases hov : e1 > 971
      · rw [if_pos hov] at hr
        exact Bool.noConfusion hr
      · rw [if_neg hov]
        have hx : Double.toRat (Double.finite false (m * 2 ^ (e - e1).toNat) e1) =
            (m : ℚ) * (2 : ℚ) ^ e := by
          have := Double.toRat_align false m e e1 h1
          simp only [Double.toRat] at this ⊢
          rw [← this]
          simp [signedInt]
        rw [hx, sub_self, abs_zero]
        exact abs_nonneg _
    · obtain ⟨h1, q, r, m1, hdm, hrlt, hq, hm1, hres⟩ := h
      have hP := zpow_two_pos e
      have hsplit := zpow_two_split e1 e (le_of_lt h1)
      have hval : Double.toRat (Double.round false m e) = (m1 : ℚ) * (2 : ℚ) ^ e1 := by
        rcases hres with h | h | ⟨hc, h⟩
        · rw [h] at hr
          exact Bool.noConfusion hr
        · rw [h]
          simp [Double.toRat, signedInt]
        · rw [h, hc]
          simp only [Double.toRat, signedInt_cast_false]
          rw [zpow_add_one₀ (by norm_num : (2 : ℚ) ≠ 0)]
          push_cast
          ring
      have hx : (m : ℚ) * (2 : ℚ) ^ e =
          (q : ℚ) * (2 : ℚ) ^ e1 + (r : ℚ) * (2 : ℚ) ^ e := by
        rw [hsplit]
        conv_lhs => rw [hdm]
        push_cast
        ring
      rw [hval, hx]
      apply nearest_core q r m1 _ _ _ hP
      · rw [hsplit]
        exact mul_lt_mul_of_pos_right (Nat.cast_lt.mpr hrlt) hP
      · rw [hsplit]
        rcases hm1 with ⟨a, b⟩ | ⟨a, b⟩
        · left
          refine ⟨a, ?_⟩
          have : ((2 * r : Nat) : ℚ) ≤ ((2 ^ (e1 - e).toNat : Nat) : ℚ) := Nat.cast_le.mpr b
          have h3 := mul_le_mul_of_nonneg_right this (le_of_lt hP)
          push_cast at h3 ⊢
          linarith
        · right
          refine ⟨a, ?_⟩
          have : ((2 ^ (e1 - e).toNat : Nat) : ℚ) ≤ ((2 * r : Nat) : ℚ) := Nat.cast_le.mpr b
          have h3 := mul_le_mul_of_nonneg_right this (le_of_lt hP)
          push_cast at h3 ⊢
          linarith
      · exact valid_gap d hd hdf q e1 hq

theorem double_round_true (m : Nat) (e : Int) :
    Double.round true m e = Double.neg (Double.round false m e) := by
  simp only [Double.round]
  split_ifs <;> rfl

theorem Double.toRat_neg (d : Double) : Double.toRat (Double.neg d) = -Double.toRat d := by
  cases d with
  | nan => simp [Double.neg, Double.toRat]
  | inf s => simp [Double.neg, Double.toRat]
  | finite s m e =>
    simp only [Double.neg, Double.toRat, signedInt_not]
    push_cast
    ring

theorem Double.valid_neg (d : Double) : Double.valid (Double.neg d) = Double.valid d := by
  cases d <;> rfl

theorem Double.isFinite_neg (d : Double) :
    Double.isFinite (Double.neg d) = Double.isFinite d := by
  cases d <;> rfl

theorem Double.neg_neg (d : Double) : Double.neg (Double.neg d) = d := by
  cases d <;> simp [Double.neg]

/-- Rounding gives a double nearest to the exact value `(-1)^neg * m * 2^e`: no
double is closer to it than `Double.round neg m e`, unless that is an infinity
(the value is beyond the largest double). -/
theorem double_round_nearest (neg : Bool) (m : Nat) (e : Int) (d : Double)
    (hd : Double.valid d = true) (hdf : Double.isFinite d = true)
    (hr : Double.isFinite (Double.round neg m e) = true) :
    |Double.toRat (Double.round neg m e) - (signedInt neg m : ℚ) * (2 : ℚ) ^ e| ≤
      |Double.toRat d - (signedInt neg m : ℚ) * (2 : ℚ) ^ e| := by
  cases neg with
  | false =>
    rw [signedInt_cast_false]
    exact double_round_nearest_pos m e d hd hdf hr
  | true =>
    rw [double_round_true] at hr ⊢
    rw [Double.isFinite_neg] at hr
    have h := double_round_nearest_pos m e (Double.neg d)
      (by rw [Double.valid_neg]; exact hd) (by rw [Double.isFinite_neg]; exact hdf) hr
    rw [Double.toRat_neg] at h ⊢
    have e1 : ((signedInt true m : Int) : ℚ) = -(m : ℚ) := by simp [signedInt]
    rw [e1]
    have a1 : -Double.toRat (Double.round false m e) - -(m : ℚ) * (2 : ℚ) ^ e =
        -(Double.toRat (Double.round false m e) - (m : ℚ) * (2 : ℚ) ^ e) := by ring
    have a2 : Double.toRat d - -(m : ℚ) * (2 : ℚ) ^ e =
        -(-Double.toRat d - (m : ℚ) * (2 : ℚ) ^ e) := by ring
    rw [a1, a2, abs_neg, abs_neg]
    exact h

theorem signedInt_natAbs (z : Int) : signedInt (decide (z < 0)) z.natAbs = z := by
  unfold signedInt
  by_cases h : z < 0
  · simp only [h, decide_True, if_true]
    omega
  · simp only [h, decide_False, Bool.false_eq_true, if_false]
    omega

theorem Double.toRat_add (s t : Bool) (m n : Nat) (e f : Int) :
    Double.toRat (Double.finite s m e) + Double.toRat (Double.finite t n f) =
      ((signedInt s (m * 2 ^ (e - min e f).toNat) +
        signedInt t (n * 2 ^ (f - min e f).toNat) : Int) : ℚ) * (2 : ℚ) ^ min e f := by
  rw [Double.toRat_align s m e (min e f) (min_le_left _ _),
    Double.toRat_align t n f (min e f) (min_le_right _ _)]
  push_cast
  ring

/-- The sum of two finite doubles is a double nearest to their exact sum, unless
it is an infinity. -/
theorem double_add_nearest (x y d : Double) (hx : Double.isFinite x = true)
    (hy : Double.isFinite y = true) (hd : Double.valid d = true)
    (hdf : Double.isFinite d = true) (hr : Double.isFinite (Double.add x y) = true) :
    |Double.toRat (Double.add x y) - (Double.toRat x + Double.toRat y)| ≤
      |Double.toRat d - (Double.toRat x + Double.toRat y)| := by
  cases x with
  | nan => exact Bool.noConfusion hx
  | inf s => exact Bool.noConfusion hx
  | finite s m e =>
    cases y with
    | nan => exact Bool.noConfusion hy
    | inf t => exact Bool.noConfusion hy
    | finite t n f =>
      rw [Double.toRat_add]
      simp only [Double.add] at hr ⊢
      generalize signedInt s (m * 2 ^ (e - min e f).toNat) +
        signedInt t (n * 2 ^ (f - min e f).toNat) = z at hr ⊢
      by_cases hz : z = 0
      · rw [if_pos hz, hz]
        simp [Double.toRat, signedInt]
      · rw [if_neg hz] at hr ⊢
        have h := double_round_nearest (decide (z < 0)) z.natAbs (min e f) d hd hdf hr
        rw [signedInt_natAbs] at h
        exact h

/-- The difference of two finite doubles is a double nearest to their exact
difference, unless it is an infinity. -/
theorem double_sub_nearest (x y d : Double) (hx : Double.isFinite x = true)
    (hy : Double.isFinite y = true) (hd : Double.valid d = true)
    (hdf : Double.isFinite d = true) (hr : Double.isFinite (Double.sub x y) = true) :
    |Double.toRat (Double.sub x y) - (Double.toRat x - Double.toRat y)| ≤
      |Double.toRat d - (Double.toRat x - Double.toRat y)| := by
  have h := double_add_nearest x (Double.neg y) d hx (by rw [Double.isFinite_neg]; exact hy)
    hd hdf hr
  rw [Double.toRat_neg] at h
  simpa [Double.sub, sub_eq_add_neg] using h

/-- The product of two finite doubles is a double nearest to their exact product,
unless it is an infinity. -/
theorem double_mul_nearest (x y d : Double) (hx : Double.isFinite x = true)
    (hy : Double.isFinite y = true) (hd : Double.valid d = true)
    (hdf : Double.isFinite d = true) (hr : Double.isFinite (Double.mul x y) = true) :
    |Double.toRat (Double.mul x y) - Double.toRat x * Double.toRat y| ≤
      |Double.toRat d - Double.toRat x * Double.toRat y| := by
  cases x with
  | nan => exact Bool.noConfusion hx
  | inf s => exact Bool.noConfusion hx
  | finite s m e =>
    cases y with
    | nan => exact Bool.noConfusion hy
    | inf t => exact Bool.noConfusion hy
    | finite t n f =>
      have hprod : Double.toRat (Double.finite s m e) * Double.toRat (Double.finite t n f) =
          (signedInt (s != t) (m * n) : ℚ) * (2 : ℚ) ^ (e + f) := by
        simp only [Double.toRat]
        rw [zpow_add₀ (by norm_num : (2 : ℚ) ≠ 0)]
        cases s <;> cases t <;> simp [signedInt] <;> ring
      rw [hprod]
      simp only [Double.mul] at hr ⊢
      exact double_round_nearest _ _ _ d hd hdf hr

theorem Double.lt_nan_right (x : Double) : Double.lt x Double.nan = false := by
  cases x <;> rfl

theorem Double.lt_nan_left (x : Double) : Double.lt Double.nan x = false := by
  cases x <;> rfl

theorem Double.add_nan_right (x : Double) : Double.add x Double.nan = Double.nan := by
  cases x <;> rfl

theorem Double.add_nan_left (x : Double) : Double.add Double.nan x = Double.nan := by
  cases x <;> rfl

theorem Double.mul_nan_right (x : Double) : Double.mul x Double.nan = Double.nan := by
  cases x <;> rfl

theorem Double.mul_nan_left (x : Double) : Double.mul Double.nan x = Double.nan := by
  cases x <;> rfl

theorem Double.sub_nan_right (x : Double) : Double.sub x Double.nan = Double.nan :=
  Double.add_nan_right x

theorem Double.sub_nan_left (x : Double) : Double.sub Double.nan x = Double.nan :=
  Double.add_nan_left _

theorem Approx.eqLeft_nan (lhs v epsilon scale : Double)
    (h : lhs = Double.nan ∨ v = Double.nan ∨ epsilon = Double.nan ∨ scale = Double.nan) :
    Approx.eqLeft lhs (((Approx.ofValue v).epsilon epsilon).scale scale) = false := by
  simp only [Approx.eqLeft, Approx.ofValue, Approx.epsilon, Approx.scale]
  rcases h with h | h | h | h
  · subst h
    rw [Double.sub_nan_left]
    exact Double.lt_nan_left _
  · subst h
    rw [Double.sub_nan_right]
    exact Double.lt_nan_left _
  · subst h
    rw [Double.mul_nan_left]
    exact Double.lt_nan_right _
  · subst h
    rw [Double.add_nan_left, Double.mul_nan_right]
    exact Double.lt_nan_right _

theorem Approx.eqLeft_exact (lhs v epsilon scale : Double)
    (hd : Double.isFinite (Double.sub lhs v) = true)
    (hp : Double.isFinite (Double.mul epsilon
      (Double.add scale (Double.max (Double.fabs lhs) (Double.fabs v)))) = true)
    (ed : Double.toRat (Double.sub lhs v) = Double.toRat lhs - Double.toRat v)
    (ep : Double.toRat (Double.mul epsilon
        (Double.add scale (Double.max (Double.fabs lhs) (Double.fabs v)))) =
      Double.toRat epsilon *
        (Double.toRat scale + max |Double.toRat lhs| |Double.toRat v|)) :
    Approx.eqLeft lhs (((Approx.ofValue v).epsilon epsilon).scale scale) = true ↔
      |Double.toRat lhs - Double.toRat v| <
        Double.toRat epsilon * (Double.toRat scale + max |Double.toRat lhs| |Double.toRat v|) := by
  simp only [Approx.eqLeft, Approx.ofValue, Approx.epsilon, Approx.scale]
  rw [Double.lt_iff_toRat _ _ (Double.isFinite_of_fabs _ hd) hp, Double.toRat_fabs, ed, ep]

theorem Double.toRat_max (x y : Double) (hx : Double.isFinite x = true)
    (hy : Double.isFinite y = true) :
    Double.toRat (Double.max x y) = Max.max (Double.toRat x) (Double.toRat y) := by
  unfold Double.max
  by_cases h : Double.lt x y = true
  · rw [if_pos h]
    rw [Double.lt_iff_toRat x y hx hy] at h
    exact (max_eq_right (le_of_lt h)).symm
  · rw [if_neg h]
    rw [Double.lt_iff_toRat x y hx hy, not_lt] at h
    exact (max_eq_left h).symm

theorem Double.isFinite_max (x y : Double) (hx : Double.isFinite x = true)
    (hy : Double.isFinite y = true) : Double.isFinite (Double.max x y) = true := by
  unfold Double.max
  split_ifs
  · exact hy
  · exact hx

theorem Approx.eqLeft_nearest (lhs v epsilon scale d : Double)
    (hd : Double.valid d = true) (hdf : Double.isFinite d = true)
    (hl : Double.isFinite lhs = true) (hv : Double.isFinite v = true) :
    (Double.isFinite (Double.sub lhs v) = true →
      |Double.toRat (Double.sub lhs v) - (Double.toRat lhs - Double.toRat v)| ≤
        |Double.toRat d - (Double.toRat lhs - Double.toRat v)|) ∧
    (Double.isFinite scale = true →
      Double.isFinite
        (Double.add scale (Double.max (Double.fabs lhs) (Double.fabs v))) = true →
      |Double.toRat (Double.add scale (Double.max (Double.fabs lhs) (Double.fabs v))) -
          (Double.toRat scale + max |Double.toRat lhs| |Double.toRat v|)| ≤
        |Double.toRat d - (Double.toRat scale + max |Double.toRat lhs| |Double.toRat v|)|) ∧
    (Double.isFinite epsilon = true →
      Double.isFinite
        (Double.add scale (Double.max (Double.fabs lhs) (Double.fabs v))) = true →
      Double.isFinite (Double.mul epsilon
        (Double.add scale (Double.max (Double.fabs lhs) (Double.fabs v)))) = true →
      |Double.toRat (Double.mul epsilon
            (Double.add scale (Double.max (Double.fabs lhs) (Double.fabs v)))) -
          Double.toRat epsilon *
            Double.toRat (Double.add scale (Double.max (Double.fabs lhs) (Double.fabs v)))| ≤
        |Double.toRat d - Double.toRat epsilon *
            Double.toRat
              (Double.add scale (Double.max (Double.fabs lhs) (Double.fabs v)))|) := by
  have hfl := Double.isFinite_of_fabs lhs hl
  have hfv := Double.isFinite_of_fabs v hv
  have hmx := Double.isFinite_max _ _ hfl hfv
  have emx : Double.toRat (Double.max (Double.fabs lhs) (Double.fabs v)) =
      max |Double.toRat lhs| |Double.toRat v| := by
    rw [Double.toRat_max _ _ hfl hfv, Double.toRat_fabs, Double.toRat_fabs]
  refine ⟨fun hr => double_sub_nearest lhs v d hl hv hd hdf hr, fun hs hr => ?_,
    fun he ht hr => double_mul_nearest _ _ d he ht hd hdf hr⟩
  have h := double_add_nearest scale _ d hs hmx hd hdf hr
  rw [emx] at h
  exact h

/-! ## The timeout decorator -/

set_option maxRecDepth 100000
set_option exponentiation.threshold 4096
theorem timeoutExceeded_zero (e : Double) : timeoutExceeded Double.zero e = false := by
  have h : Approx.neRight ((Approx.ofValue Double.zero).epsilon DBL_EPSILON) Double.zero =
      false := by decide
  simp [timeoutExceeded, h]

set_option exponentiation.threshold 256
set_option maxRecDepth 512

theorem land_lor_of_land {r f : Nat} (d : Nat) (h : r &&& f ≠ 0) : r &&& (f ||| d) ≠ 0 := by
  intro h0
  apply h
  apply Nat.eq_of_testBit_eq
  intro i
  have := congrArg (fun n => Nat.testBit n i) h0
  simp only [Nat.testBit_and, Nat.testBit_or, Nat.zero_testBit] at this ⊢
  cases hr : r.testBit i <;> cases hf : f.testBit i <;> simp [hr, hf] at this ⊢

theorem applyDecorators_flag (tc : TestCase) (s : ContextState) (r : Nat)
    (h : r &&& s.failure_flags ≠ 0) : r &&& (applyDecorators tc s).failure_flags ≠ 0 := by
  unfold applyDecorators
  split_ifs <;> first | exact h | exact land_lor_of_land _ h

theorem countFailure_flags (s : ContextState) :
    (countFailure s).failure_flags = s.failure_flags := by
  unfold countFailure
  split_ifs <;> rfl

theorem okToFail_of_lt : ∀ f < 32, okToFail f = false ∧
    okToFail (f ||| TestCaseFailureReason.DidntFailExactlyNumTimes) = false := by
  decide

theorem finalize_undecorated (tc : TestCase) (s : ContextState)
    (hsf : tc.m_should_fail = false) (hmf : tc.m_may_fail = false)
    (hN : tc.m_expected_failures ≤ 0) (hflags : s.failure_flags < 16) :
    (finalizeTestCaseDataFor tc s).numTestCasesFailed =
        (if (beforeDecorators tc s).failure_flags ≠ 0 then s.numTestCasesFailed + 1
         else s.numTestCasesFailed) ∧
      (finalizeTestCaseDataFor tc s).failure_flags = (beforeDecorators tc s).failure_flags := by
  have hlt := beforeDecorators_flags_lt tc s hflags
  have hmay : ¬ ((beforeDecorators tc s).failure_flags ≠ 0 ∧ tc.m_may_fail = true) := by
    simp [hmf]
  have hsf1 : ¬ (tc.m_should_fail = true) := by simp [hsf]
  have h2 : applyDecorators tc (beforeDecorators tc s) = beforeDecorators tc s := by
    unfold applyDecorators
    rw [if_neg hsf1, if_neg hmay, if_neg (by omega)]
  have k1 := (okToFail_of_lt _ hlt).1
  rw [finalize_eq, countFailure_failed, countFailure_flags, h2, beforeDecorators_failed]
  simp [k1]

set_option maxRecDepth 100000
set_option exponentiation.threshold 4096
set_option exponentiation.threshold 256
set_option maxRecDepth 512

/-- C12: for all integers `a` and `b` the equality assertion compares the operands
once and yields `m_failed = (a != b)`; when it fails the decomposition is the
decimal rendering of `a`, the separator (`", "` through `binary_assert`, `" == "`
through the expression decomposer) and the decimal rendering of `b`, and when it
passes with `success` off the decomposition is empty. -/
theorem equality_assertion (a b : Int) (m_at evals : Nat)
    (hat : m_at &&& assertType.is_false = 0) :
    ResultBuilder.binary_assert binaryAssertComparison.eq a b false (ResultBuilder.ctor m_at) evals =
      ({ m_at := m_at, m_failed := decide (a ≠ b),
         m_decomp := if a ≠ b then toString a ++ [',', ' '] ++ toString b else [] }, evals + 1) ∧
    binary_assert binaryAssertComparison.eq m_at a b false evals =
      ({ m_at := m_at, m_failed := decide (a ≠ b),
         m_decomp := if a ≠ b then toString a ++ [',', ' '] ++ toString b else [] }, evals + 1) ∧
    decomposedEquality m_at a b false evals =
      ({ m_at := m_at, m_failed := decide (a ≠ b),
         m_decomp := if a ≠ b then toString a ++ [' ', '=', '=', ' '] ++ toString b else [] },
       evals + 1) := by
  have hat1 : ¬ (m_at &&& assertType.is_false ≠ 0) := fun h => h hat
  by_cases h : a = b
  · simp [ResultBuilder.binary_assert, binary_assert, decomposedEquality, Expression_lhs.opEq,
      RelationalComparator, DOCTEST_CMP_EQ, ResultBuilder.ctor, ResultBuilder.setResult,
      binaryAssertComparison.eq, stringifyBinaryExpr, h, hat]
  · simp [ResultBuilder.binary_assert, binary_assert, decomposedEquality, Expression_lhs.opEq,
      RelationalComparator, DOCTEST_CMP_EQ, ResultBuilder.ctor, ResultBuilder.setResult,
      binaryAssertComparison.eq, stringifyBinaryExpr, h, hat]

theorem equality_assertion_witness :
    assertType.DT_CHECK_EQ &&& assertType.is_false = 0 ∧
    binary_assert binaryAssertComparison.eq assertType.DT_CHECK_EQ 3 4 false 0 =
      ({ m_at := assertType.DT_CHECK_EQ, m_failed := true, m_decomp := ['3', ',', ' ', '4'] }, 1) ∧
    decomposedEquality assertType.DT_CHECK_EQ 3 4 false 0 =
      ({ m_at := assertType.DT_CHECK_EQ, m_failed := true,
         m_decomp := ['3', ' ', '=', '=', ' ', '4'] }, 1) ∧
    binary_assert binaryAssertComparison.eq assertType.DT_CHECK_EQ 3 3 false 0 =
      ({ m_at := assertType.DT_CHECK_EQ, m_failed := false, m_decomp := [] }, 1) :=
  ⟨by decide,
   (equality_assertion 3 4 assertType.DT_CHECK_EQ 0 (by decide)).2.1,
   (equality_assertion 3 4 assertType.DT_CHECK_EQ 0 (by decide)).2.2,
   (equality_assertion 3 3 assertType.DT_CHECK_EQ 0 (by decide)).2.1⟩
/-! ## Assertion classes (`checkIfShouldThrow`) -/

theorem log_events_eq (a : Nat) (failed : Bool) (s : ContextState) :
    (ResultBuilder.log a failed s).events = s.events ++ [Event.log_assert a failed] := by
  unfold ResultBuilder.log addAssert addFailedAssert iterateThroughReporters
  cases failed <;> simp only [Bool.false_eq_true, if_false, if_true] <;> split_ifs <;> rfl

theorem log_abort_after (a : Nat) (failed : Bool) (s : ContextState) :
    (ResultBuilder.log a failed s).abort_after = s.abort_after := by
  unfold ResultBuilder.log addAssert addFailedAssert iterateThroughReporters
  cases failed <;> simp only [Bool.false_eq_true, if_false, if_true] <;> split_ifs <;> rfl

/-- C13 (counterexample): with `abort_after = 1` the failed `CHECK(false)` makes
`checkIfShouldThrow` return true for the check-class type, the invocation ends
with the `TestFailureException` and the `CHECK(true)` after it is never
evaluated. -/
theorem failed_check_counterexample :
    assertType.DT_CHECK &&& assertType.is_require = 0 ∧
    assertType.DT_CHECK &&& assertType.is_check ≠ 0 ∧
    checkIfShouldThrow assertType.DT_CHECK
      (ResultBuilder.log assertType.DT_CHECK true { defaultContext with abort_after := 1 }) = true ∧
    (execBody bodyCheckCheck { defaultContext with abort_after := 1 }).2 = Outcome.testFailure ∧
    assertsLogged (execBody bodyCheckCheck { defaultContext with abort_after := 1 }).1.events =
      [(assertType.DT_CHECK, true)] := by
  refine ⟨by decide, by decide, by decide, by decide, by decide⟩

/-- C13 (amended): `checkIfShouldThrow` returns true for every require-class type,
false for every warn-class type, and for a check-class type it returns true iff
the abort threshold is enabled and reached.  Every assertion is recorded, and
with the threshold disabled a failed assertion ends the invocation iff it is
require-class: after a failed check the rest of the body is executed. -/
theorem failed_check_continues (a : Nat) (failed : Bool) (rest : Body) (s : ContextState) :
    (a &&& assertType.is_require ≠ 0 → checkIfShouldThrow a s = true) ∧
    (a &&& assertType.is_require = 0 → a &&& assertType.is_check = 0 →
      checkIfShouldThrow a s = false) ∧
    (a &&& assertType.is_require = 0 → a &&& assertType.is_check ≠ 0 →
      (checkIfShouldThrow a s = true ↔
        s.abort_after > 0 ∧
          s.numAssertsFailed + s.numAssertsFailedCurrentTest_atomic ≥ s.abort_after)) ∧
    (ResultBuilder.log a failed s).events = s.events ++ [Event.log_assert a failed] ∧
    (s.abort_after ≤ 0 →
      execBody (Body.assertion a failed rest) s =
        if failed = true ∧ a &&& assertType.is_require ≠ 0 then
          ({ ResultBuilder.log a failed s with shouldLogCurrentException := false },
            Outcome.testFailure)
        else execBody rest (ResultBuilder.log a failed s)) := by
  refine ⟨?_, ?_, ?_, log_events_eq a failed s, ?_⟩
  · intro h
    simp [checkIfShouldThrow, h]
  · intro h1 h2
    simp [checkIfShouldThrow, h1, h2]
  · intro h1 h2
    simp [checkIfShouldThrow, h1, h2]
  · intro ha
    have ha1 : ¬ ((ResultBuilder.log a failed s).abort_after > 0) := by
      rw [log_abort_after]; omega
    by_cases hr : a &&& assertType.is_require = 0
    · have hc : checkIfShouldThrow a (ResultBuilder.log a failed s) = false := by
        simp only [checkIfShouldThrow, hr, ne_eq, not_true_eq_false, if_false]
        rw [if_neg (fun h => ha1 h.2.1)]
      simp [execBody, hc, hr]
    · have hc : checkIfShouldThrow a (ResultBuilder.log a failed s) = true := by
        simp [checkIfShouldThrow, hr]
      cases failed <;> simp [execBody, hc, hr]
/-! ## Approximate equality (`Approx`) -/

set_option maxRecDepth 100000
set_option exponentiation.threshold 4096
/-- C14 (counterexample): for `10.0 == Approx(9.0).epsilon(0.1).scale(0)`, all four
values doubles, the inequality holds of the exact values (`0.1` as a double is
above one tenth) and the operator returns false: the product `0.1 * 10.0`
rounds to `1.0`. -/
theorem approx_rounding_counterexample :
    (Double.valid (Double.ofNat 10) && Double.valid (Double.ofNat 9) &&
      Double.valid doubleTenth && Double.valid Double.zero) = true ∧
    |Double.toRat (Double.ofNat 10) - Double.toRat (Double.ofNat 9)| <
      Double.toRat doubleTenth * (Double.toRat Double.zero +
        max |Double.toRat (Double.ofNat 10)| |Double.toRat (Double.ofNat 9)|) ∧
    Approx.eqLeft (Double.ofNat 10)
      (((Approx.ofValue (Double.ofNat 9)).epsilon doubleTenth).scale Double.zero) = false := by
  have h10 : Double.ofNat 10 = Double.finite false 5629499534213120 (-49) := by decide
  have h9 : Double.ofNat 9 = Double.finite false 5066549580791808 (-49) := by decide
  refine ⟨by decide, ?_, by decide⟩
  rw [h10, h9]
  norm_num [Double.toRat, doubleTenth, Double.zero, signedInt, abs_of_pos]
set_option exponentiation.threshold 256
set_option maxRecDepth 512

/-- C14 (amended): `lhs == Approx(v).epsilon(epsilon).scale(scale)` is the comparison
`fabs(lhs - v) < epsilon * (scale + max(fabs(lhs), fabs(v)))` of double
arithmetic, every operation rounded to a double; it is false when one of the
four values is a NaN; `operator!=` is its negation; when the difference and the
right-hand side are finite and computed without rounding error, it is true iff
`|lhs - v| < epsilon * (scale + max(|lhs|, |v|))` holds of the exact values,
with strict inequality; and on finite operands the difference, the sum and the
product are, unless infinite, doubles nearest to their exact values (no double
`d` is closer). -/
theorem approx_equality (lhs v epsilon scale : Double) :
    Approx.eqLeft lhs (((Approx.ofValue v).epsilon epsilon).scale scale) =
      Double.lt (Double.fabs (Double.sub lhs v))
        (Double.mul epsilon
          (Double.add scale (Double.max (Double.fabs lhs) (Double.fabs v)))) ∧
    (lhs = Double.nan ∨ v = Double.nan ∨ epsilon = Double.nan ∨ scale = Double.nan →
      Approx.eqLeft lhs (((Approx.ofValue v).epsilon epsilon).scale scale) = false) ∧
    (Double.valid (Double.sub lhs v) = true ∧
      Double.valid (Double.mul epsilon
        (Double.add scale (Double.max (Double.fabs lhs) (Double.fabs v)))) = true) ∧
    Approx.neLeft lhs (((Approx.ofValue v).epsilon epsilon).scale scale) =
      !Approx.eqLeft lhs (((Approx.ofValue v).epsilon epsilon).scale scale) ∧
    Approx.neRight (((Approx.ofValue v).epsilon epsilon).scale scale) lhs =
      !Approx.eqRight (((Approx.ofValue v).epsilon epsilon).scale scale) lhs ∧
    (Double.isFinite (Double.sub lhs v) = true →
      Double.isFinite (Double.mul epsilon
        (Double.add scale (Double.max (Double.fabs lhs) (Double.fabs v)))) = true →
      Double.toRat (Double.sub lhs v) = Double.toRat lhs - Double.toRat v →
      Double.toRat (Double.mul epsilon
          (Double.add scale (Double.max (Double.fabs lhs) (Double.fabs v)))) =
        Double.toRat epsilon *
          (Double.toRat scale + max |Double.toRat lhs| |Double.toRat v|) →
      (Approx.eqLeft lhs (((Approx.ofValue v).epsilon epsilon).scale scale) = true ↔
        |Double.toRat lhs - Double.toRat v| <
          Double.toRat epsilon *
            (Double.toRat scale + max |Double.toRat lhs| |Double.toRat v|))) ∧
    (∀ d : Double, Double.valid d = true → Double.isFinite d = true →
      Double.isFinite lhs = true → Double.isFinite v = true →
      (Double.isFinite (Double.sub lhs v) = true →
        |Double.toRat (Double.sub lhs v) - (Double.toRat lhs - Double.toRat v)| ≤
          |Double.toRat d - (Double.toRat lhs - Double.toRat v)|) ∧
      (Double.isFinite scale = true →
        Double.isFinite
          (Double.add scale (Double.max (Double.fabs lhs) (Double.fabs v))) = true →
        |Double.toRat (Double.add scale (Double.max (Double.fabs lhs) (Double.fabs v))) -
            (Double.toRat scale + max |Double.toRat lhs| |Double.toRat v|)| ≤
          |Double.toRat d -
            (Double.toRat scale + max |Double.toRat lhs| |Double.toRat v|)|) ∧
      (Double.isFinite epsilon = true →
        Double.isFinite
          (Double.add scale (Double.max (Double.fabs lhs) (Double.fabs v))) = true →
        Double.isFinite (Double.mul epsilon
          (Double.add scale (Double.max (Double.fabs lhs) (Double.fabs v)))) = true →
        |Double.toRat (Double.mul epsilon
              (Double.add scale (Double.max (Double.fabs lhs) (Double.fabs v)))) -
            Double.toRat epsilon *
              Double.toRat
                (Double.add scale (Double.max (Double.fabs lhs) (Double.fabs v)))| ≤
          |Double.toRat d - Double.toRat epsilon *
              Double.toRat
                (Double.add scale (Double.max (Double.fabs lhs) (Double.fabs v)))|)) :=
  ⟨rfl, Approx.eqLeft_nan lhs v epsilon scale,
    ⟨double_sub_valid _ _, double_mul_valid _ _⟩, rfl, rfl,
    Approx.eqLeft_exact lhs v epsilon scale,
    fun d hd hdf hl hv => Approx.eqLeft_nearest lhs v epsilon scale d hd hdf hl hv⟩

/-- C15: approximate equality is symmetric for every epsilon and scale: for all
doubles `a` and `b`, NaN and the infinities included, `a == Approx(b)` gives the
same result as `b == Approx(a)`, and `Approx(b) == a` the same as
`a == Approx(b)`. -/
theorem approx_symmetric (a b epsilon scale : Double) (ha : Double.valid a = true)
    (hb : Double.valid b = true) :
    Approx.eqLeft a (((Approx.ofValue b).epsilon epsilon).scale scale) =
      Approx.eqLeft b (((Approx.ofValue a).epsilon epsilon).scale scale) ∧
    Approx.eqRight (((Approx.ofValue b).epsilon epsilon).scale scale) a =
      Approx.eqLeft a (((Approx.ofValue b).epsilon epsilon).scale scale) := by
  refine ⟨?_, rfl⟩
  by_cases hna : a = Double.nan
  · rw [Approx.eqLeft_nan a b epsilon scale (Or.inl hna),
      Approx.eqLeft_nan b a epsilon scale (Or.inr (Or.inl hna))]
  · by_cases hnb : b = Double.nan
    · rw [Approx.eqLeft_nan a b epsilon scale (Or.inr (Or.inl hnb)),
        Approx.eqLeft_nan b a epsilon scale (Or.inl hnb)]
    · simp only [Approx.eqLeft, Approx.ofValue, Approx.epsilon, Approx.scale]
      rw [Double.fabs_sub_comm a b, Double.max_fabs_comm a b ha hb hna hnb]

set_option maxRecDepth 100000
set_option exponentiation.threshold 4096
theorem approx_symmetric_witness :
    Approx.eqLeft (Double.ofNat 10)
        (((Approx.ofValue (Double.ofNat 9)).epsilon doubleTenth).scale Double.zero) =
      Approx.eqLeft (Double.ofNat 9)
        (((Approx.ofValue (Double.ofNat 10)).epsilon doubleTenth).scale Double.zero) :=
  (approx_symmetric (Double.ofNat 10) (Double.ofNat 9) doubleTenth Double.zero (by decide)
    (by decide)).1

theorem approx_equality_witness :
    Approx.eqLeft (Double.ofNat 10)
        (((Approx.ofValue (Double.ofNat 9)).epsilon doubleHalf).scale Double.zero) = true ↔
      |Double.toRat (Double.ofNat 10) - Double.toRat (Double.ofNat 9)| <
        Double.toRat doubleHalf * (Double.toRat Double.zero +
          max |Double.toRat (Double.ofNat 10)| |Double.toRat (Double.ofNat 9)|) :=
  (approx_equality (Double.ofNat 10) (Double.ofNat 9) doubleHalf Double.zero).2.2.2.2.2.1
    (by decide) (by decide)
    (by
      have h10 : Double.ofNat 10 = Double.finite false 5629499534213120 (-49) := by decide
      have h9 : Double.ofNat 9 = Double.finite false 5066549580791808 (-49) := by decide
      have hd : Double.sub (Double.ofNat 10) (Double.ofNat 9) =
        Double.finite false 4503599627370496 (-52) := by decide
      rw [hd, h10, h9]
      norm_num [Double.toRat, signedInt])
    (by
      have h10 : Double.ofNat 10 = Double.finite false 5629499534213120 (-49) := by decide
      have h9 : Double.ofNat 9 = Double.finite false 5066549580791808 (-49) := by decide
      have hh : doubleHalf = Double.finite false 4503599627370496 (-53) := by decide
      have hp : Double.mul doubleHalf (Double.add Double.zero
          (Double.max (Double.fabs (Double.ofNat 10)) (Double.fabs (Double.ofNat 9)))) =
        Double.finite false 5629499534213120 (-50) := by decide
      rw [hp, hh, h10, h9]
      norm_num [Double.toRat, signedInt, Double.zero, abs_of_pos])
set_option exponentiation.threshold 256
set_option maxRecDepth 512
/-! ## The driving loop, pass by pass -/

theorem runIteration_eq (tc : TestCase) (s : ContextState) :
    runIteration tc s =
      if abortReached (afterBody tc s) then
        (orFailureFlag TestCaseFailureReason.TooManyFailedAsserts (afterBody tc s), false)
      else if (afterBody tc s).should_reenter = true then
        (iterateThroughReporters (Event.test_case_reenter tc.toTestCaseData) (afterBody tc s),
          true)
      else (afterBody tc s, false) := by
  have key : ∀ p2 : ContextState,
      (let tooMany : Bool := decide (p2.abort_after > 0 ∧
          p2.numAssertsFailed + p2.numAssertsFailedCurrentTest_atomic ≥ p2.abort_after)
       let p3 := if tooMany then
          { p2 with failure_flags :=
              p2.failure_flags ||| TestCaseFailureReason.TooManyFailedAsserts }
        else p2
       let run_test1 : Bool := !tooMany
       let p4 := if p3.should_reenter && run_test1 then
          iterateThroughReporters (Event.test_case_reenter tc.toTestCaseData) p3 else p3
       (p4, if !p4.should_reenter then false else run_test1)) =
      if abortReached p2 then
        (orFailureFlag TestCaseFailureReason.TooManyFailedAsserts p2, false)
      else if p2.should_reenter = true then
        (iterateThroughReporters (Event.test_case_reenter tc.toTestCaseData) p2, true)
      else (p2, false) := by
    intro p2
    unfold abortReached
    by_cases h : p2.abort_after > 0 ∧
        p2.numAssertsFailed + p2.numAssertsFailedCurrentTest_atomic ≥ p2.abort_after
    · simp [h, orFailureFlag]
    · cases hr : p2.should_reenter <;>
        simp [h, hr, iterateThroughReporters]
  exact key (afterBody tc s)

theorem iterationState_succ (tc : TestCase) (k : Nat) (s : ContextState) :
    iterationState tc (k + 1) s = (runIteration tc (iterationState tc k s)).1 := by
  induction k generalizing s with
  | zero => rfl
  | succ n ih =>
    show iterationState tc (n + 1) (runIteration tc s).1 = _
    rw [ih]
    rfl

theorem runTestLoop_at (tc : TestCase) (k : Nat) :
    ∀ (s : ContextState) (fuel : Nat), reachesIteration tc k s = true →
      (runIteration tc (iterationState tc k s)).2 = false → k < fuel →
      runTestLoop tc fuel s = some (iterationState tc (k + 1) s, k + 1) := by
  induction k with
  | zero =>
    intro s fuel _ h2 hf
    obtain ⟨f, rfl⟩ : ∃ f, fuel = f + 1 := ⟨fuel - 1, by omega⟩
    have h2' : (runIteration tc s).2 = false := h2
    simp only [runTestLoop, h2', Bool.false_eq_true, if_false]
    rfl
  | succ n ih =>
    intro s fuel h1 h2 hf
    obtain ⟨f, rfl⟩ : ∃ f, fuel = f + 1 := ⟨fuel - 1, by omega⟩
    simp only [reachesIteration, Bool.and_eq_true] at h1
    have h3 := ih (runIteration tc s).1 f h1.2 h2 (by omega)
    simp only [runTestLoop, h1.1, if_true, h3, Option.map_some']
    rfl

theorem runTestLoop_at_budget (tc : TestCase) (k : Nat) (s : ContextState)
    (h1 : reachesIteration tc k s = true)
    (h2 : (runIteration tc (iterationState tc k s)).2 = false) :
    runTestLoop tc (loopBudget tc) s = some (iterationState tc (k + 1) s, k + 1) := by
  have h := runTestLoop_at tc k s (k + 1) h1 h2 (Nat.lt_succ_self k)
  obtain ⟨r, hr⟩ := runTestLoop_budget tc (loopBudget tc) s (Nat.le_refl _)
  rcases Nat.le_total (k + 1) (loopBudget tc) with hle | hle
  · exact runTestLoop_fuel_mono tc _ _ s _ h hle
  · have := runTestLoop_fuel_mono tc _ _ s _ hr hle
    rw [h] at this
    rw [hr, ← Option.some.inj this]

theorem runTestLoop_iterations (tc : TestCase) (fuel : Nat) :
    ∀ (s q : ContextState) (n : Nat), runTestLoop tc fuel s = some (q, n) →
      ∃ k, n = k + 1 ∧ reachesIteration tc k s = true ∧
        (runIteration tc (iterationState tc k s)).2 = false ∧
        q = iterationState tc (k + 1) s := by
  induction fuel with
  | zero => intro s q n h; simp [runTestLoop] at h
  | succ f ih =>
    intro s q n h
    simp only [runTestLoop] at h
    by_cases hfl : (runIteration tc s).2 = true
    · rw [if_pos hfl] at h
      cases hrec : runTestLoop tc f (runIteration tc s).1 with
      | none => rw [hrec] at h; simp at h
      | some r =>
        obtain ⟨q1, n1⟩ := r
        rw [hrec] at h
        simp only [Option.map_some', Option.some.injEq, Prod.mk.injEq] at h
        obtain ⟨k, e1, e2, e3, e4⟩ := ih _ _ _ hrec
        refine ⟨k + 1, by omega, ?_, e3, ?_⟩
        · simp only [reachesIteration, hfl, e2, Bool.and_self]
        · rw [← h.1, e4]
          rfl
    · rw [if_neg hfl] at h
      simp only [Option.some.injEq, Prod.mk.injEq] at h
      refine ⟨0, by omega, rfl, ?_, ?_⟩
      · simpa using hfl
      · rw [← h.1]
        rfl
theorem iterationState_frame (tc : TestCase) (k : Nat) (s : ContextState) :
    loopFrame (iterationState tc k s) = loopFrame s := by
  induction k generalizing s with
  | zero => rfl
  | succ n ih =>
    show loopFrame (iterationState tc n (runIteration tc s).1) = _
    rw [ih, runIteration_frame]

theorem numAssertsFailed_of_loopFrame {s t : ContextState} (h : loopFrame s = loopFrame t) :
    s.numAssertsFailed = t.numAssertsFailed :=
  (congrArg ContextState.numAssertsFailed h :
    (loopFrame s).numAssertsFailed = (loopFrame t).numAssertsFailed)

theorem abort_after_of_loopFrame {s t : ContextState} (h : loopFrame s = loopFrame t) :
    s.abort_after = t.abort_after :=
  (congrArg ContextState.abort_after h : (loopFrame s).abort_after = (loopFrame t).abort_after)

theorem numTestCasesFailed_of_loopFrame {s t : ContextState} (h : loopFrame s = loopFrame t) :
    s.numTestCasesFailed = t.numTestCasesFailed :=
  (congrArg ContextState.numTestCasesFailed h :
    (loopFrame s).numTestCasesFailed = (loopFrame t).numTestCasesFailed)

theorem currentTest_of_loopFrame {s t : ContextState} (h : loopFrame s = loopFrame t) :
    s.currentTest = t.currentTest :=
  (congrArg ContextState.currentTest h : (loopFrame s).currentTest = (loopFrame t).currentTest)

theorem runIteration_abortReached (tc : TestCase) (s : ContextState) :
    abortReached (runIteration tc s).1 = abortReached (afterBody tc s) := by
  rw [runIteration_eq]
  split_ifs <;> rfl

theorem runIteration_flags (tc : TestCase) (s : ContextState) :
    (runIteration tc s).1.failure_flags =
      if abortReached (afterBody tc s) = true then
        (afterBody tc s).failure_flags ||| TestCaseFailureReason.TooManyFailedAsserts
      else (afterBody tc s).failure_flags := by
  rw [runIteration_eq]
  split_ifs <;> rfl

theorem runIteration_stops (tc : TestCase) (s : ContextState)
    (h : abortReached (runIteration tc s).1 = true) :
    (runIteration tc s).2 = false ∧
    TestCaseFailureReason.TooManyFailedAsserts &&& (runIteration tc s).1.failure_flags ≠ 0 ∧
    ∃ E, (runIteration tc s).1.events = s.events ++ E ∧ ∀ e ∈ E, Event.inBody e = true := by
  have h1 : abortReached (afterBody tc s) = true := by rw [← runIteration_abortReached]; exact h
  have h2 : (runIteration tc s).2 = false := by
    rw [runIteration_eq, if_pos h1]
  refine ⟨h2, ?_, ?_⟩
  · rw [runIteration_flags, if_pos h1, land_lor_self]
    decide
  · obtain ⟨E, e1, e2⟩ := runIteration_events tc s
    refine ⟨E, ?_, e2⟩
    rw [e1, h2]
    simp

theorem finalize_numAssertsFailed (tc : TestCase) (s : ContextState) :
    (finalizeTestCaseDataFor tc s).numAssertsFailed =
      s.numAssertsFailed + s.numAssertsFailedCurrentTest_atomic := by
  have h1 : ∀ t, (countFailure t).numAssertsFailed = t.numAssertsFailed := by
    intro t; unfold countFailure; split_ifs <;> rfl
  have h2 : ∀ t, (applyDecorators tc t).numAssertsFailed = t.numAssertsFailed := by
    intro t; unfold applyDecorators; split_ifs <;> rfl
  have h3 : (beforeDecorators tc s).numAssertsFailed =
      s.numAssertsFailed + s.numAssertsFailedCurrentTest_atomic := by
    unfold beforeDecorators; simp only; split_ifs <;> rfl
  rw [finalize_eq, h1, h2, h3]

theorem finalize_events (tc : TestCase) (s : ContextState) :
    (finalizeTestCaseDataFor tc s).events = s.events := by
  have h1 : ∀ t, (countFailure t).events = t.events := by
    intro t; unfold countFailure; split_ifs <;> rfl
  have h2 : ∀ t, (applyDecorators tc t).events = t.events := by
    intro t; unfold applyDecorators; split_ifs <;> rfl
  have h3 : (beforeDecorators tc s).events = s.events := by
    unfold beforeDecorators; simp only; split_ifs <;> rfl
  rw [finalize_eq, h1, h2, h3]

theorem executeTestCase_eq (fuel : Nat) (tc : TestCase) (p : ContextState) (loc : RunLocals)
    (p3 : ContextState) (n : Nat) (h : runTestLoop tc fuel (beginTestCase tc p) = some (p3, n)) :
    executeTestCase fuel tc p loc =
      some { state := endTestCase (finalizeTestCaseDataFor tc p3), locals := loc,
             broke := abortReached p3, invocations := n } := by
  have hlf := runTestLoop_frame tc _ _ _ h
  simp only at hlf
  have hcur3 : p3.currentTest = some tc := by
    rw [currentTest_of_loopFrame hlf]
    rfl
  have e1 : (endTestCase (finalizeTestCaseDataFor tc p3)).abort_after = p3.abort_after := by
    have := abort_after_of_runFrame (finalize_runFrame tc p3)
    exact this
  have e2 : (endTestCase (finalizeTestCaseDataFor tc p3)).numAssertsFailed =
      p3.numAssertsFailed + p3.numAssertsFailedCurrentTest_atomic :=
    finalize_numAssertsFailed tc p3
  unfold executeTestCase
  rw [h]
  simp only [finalizeTestCaseData, hcur3, e1, e2]
  rfl

theorem testCaseStep_executes (tc : TestCase) (p : ContextState) (loc : RunLocals)
    (h : reachesExecution p tc.toTestCaseData) :
    testCaseStep false tc p loc = executeTestCase (loopBudget tc) tc (countPassingFilters p) loc := by
  obtain ⟨h1, h2, h3, h4, h5⟩ := h
  unfold testCaseStep countPassingFilters
  simp only [h1, Bool.not_false, if_true, h2, if_false, Bool.false_eq_true, h3, h4, h5]

theorem runTestArray_cons (qm : Bool) (tc : TestCase) (post : List TestCase) (p : ContextState)
    (loc : RunLocals) (r : StepResult) (h : testCaseStep qm tc p loc = some r) :
    runTestArray qm (tc :: post) p loc =
      if r.broke = true then some (r.state, r.locals, [r.invocations])
      else (runTestArray qm post r.state r.locals).map
        (fun q => (q.1, q.2.1, r.invocations :: q.2.2)) := by
  simp only [runTestArray, h]

/-- What happens when the abort threshold is reached after pass `k + 1` of the
driving loop of a test case that is executed. -/
theorem abort_break_spec (tc : TestCase) (post : List TestCase) (p : ContextState)
    (loc : RunLocals) (k : Nat) (hex : reachesExecution p tc.toTestCaseData)
    (hk : reachesIteration tc k (beginTestCase tc (countPassingFilters p)) = true)
    (hab : abortReached
      (iterationState tc (k + 1) (beginTestCase tc (countPassingFilters p))) = true) :
    (runIteration tc
      (iterationState tc k (beginTestCase tc (countPassingFilters p)))).2 = false ∧
    runTestLoop tc (loopBudget tc) (beginTestCase tc (countPassingFilters p)) =
      some (iterationState tc (k + 1) (beginTestCase tc (countPassingFilters p)), k + 1) ∧
    TestCaseFailureReason.TooManyFailedAsserts &&&
      (iterationState tc (k + 1) (beginTestCase tc (countPassingFilters p))).failure_flags ≠ 0 ∧
    (∃ E, (iterationState tc (k + 1) (beginTestCase tc (countPassingFilters p))).events =
        (iterationState tc k (beginTestCase tc (countPassingFilters p))).events ++ E ∧
      ∀ e ∈ E, Event.inBody e = true) ∧
    ∃ q, runTestArray false (tc :: post) p loc = some (q, loc, [k + 1]) ∧
      q.events =
        (iterationState tc (k + 1) (beginTestCase tc (countPassingFilters p))).events ++
          [Event.test_case_end] := by
  rw [iterationState_succ] at hab
  obtain ⟨h1, h2, h3⟩ := runIteration_stops tc _ hab
  have h4 := runTestLoop_at_budget tc k _ hk h1
  rw [iterationState_succ]
  refine ⟨h1, ?_, h2, h3, ?_⟩
  · rw [h4, iterationState_succ]
  · rw [iterationState_succ] at h4
    have h5 := executeTestCase_eq (loopBudget tc) tc (countPassingFilters p) loc _ _ h4
    rw [← testCaseStep_executes tc p loc hex] at h5
    rw [runTestArray_cons false tc post p loc _ h5]
    simp only [hab, if_true]
    refine ⟨_, rfl, ?_⟩
    show (finalizeTestCaseDataFor tc _).events ++ [Event.test_case_end] = _
    rw [finalize_events]
/-! ## The abort threshold -/

set_option maxRecDepth 100000
/-- C16: with `abort_after = n > 0`, if after an invocation of the body of an executed
test case the failed assertions of the run (earlier test cases plus the current
one) have reached `n`, the driving loop ends with that invocation whatever
`should_reenter` is, no `test_case_reenter` is sent after it, the flag
`TooManyFailedAsserts` is set, and the loop over the test cases is left after
`test_case_end`: no further test case is executed. -/
theorem abort_after_stops (tc : TestCase) (post : List TestCase) (p : ContextState)
    (loc : RunLocals) (k : Nat) (hex : reachesExecution p tc.toTestCaseData)
    (hn : p.abort_after > 0)
    (hk : reachesIteration tc k (beginTestCase tc (countPassingFilters p)) = true)
    (hcount :
      (iterationState tc (k + 1) (beginTestCase tc (countPassingFilters p))).numAssertsFailed +
        (iterationState tc (k + 1)
          (beginTestCase tc (countPassingFilters p))).numAssertsFailedCurrentTest_atomic ≥
        p.abort_after) :
    (runIteration tc
      (iterationState tc k (beginTestCase tc (countPassingFilters p)))).2 = false ∧
    runTestLoop tc (loopBudget tc) (beginTestCase tc (countPassingFilters p)) =
      some (iterationState tc (k + 1) (beginTestCase tc (countPassingFilters p)), k + 1) ∧
    TestCaseFailureReason.TooManyFailedAsserts &&&
      (iterationState tc (k + 1) (beginTestCase tc (countPassingFilters p))).failure_flags ≠ 0 ∧
    (∃ E, (iterationState tc (k + 1) (beginTestCase tc (countPassingFilters p))).events =
        (iterationState tc k (beginTestCase tc (countPassingFilters p))).events ++ E ∧
      ∀ e ∈ E, Event.inBody e = true) ∧
    ∃ q, runTestArray false (tc :: post) p loc = some (q, loc, [k + 1]) ∧
      q.events =
        (iterationState tc (k + 1) (beginTestCase tc (countPassingFilters p))).events ++
          [Event.test_case_end] := by
  have ha : (iterationState tc (k + 1) (beginTestCase tc (countPassingFilters p))).abort_after =
      p.abort_after :=
    (abort_after_of_loopFrame (iterationState_frame tc (k + 1) _)).trans rfl
  apply abort_break_spec tc post p loc k hex hk
  unfold abortReached
  rw [ha]
  exact decide_eq_true ⟨hn, hcount⟩

theorem abort_after_stops_witness :
    (iterationState (sampleTest bodyABCheck) 1
      (beginTestCase (sampleTest bodyABCheck)
        (countPassingFilters { defaultContext with abort_after := 1 }))).should_reenter = true ∧
    ∃ q, runTestArray false (sampleTest bodyABCheck :: [sampleTest Body.done])
        { defaultContext with abort_after := 1 } ⟨[], []⟩ = some (q, ⟨[], []⟩, [0 + 1]) ∧
      q.events =
        (iterationState (sampleTest bodyABCheck) (0 + 1)
          (beginTestCase (sampleTest bodyABCheck)
            (countPassingFilters { defaultContext with abort_after := 1 }))).events ++
          [Event.test_case_end] :=
  ⟨by decide,
   (abort_after_stops (sampleTest bodyABCheck) [sampleTest Body.done]
    { defaultContext with abort_after := 1 } ⟨[], []⟩ 0
    ⟨by decide, by decide, rfl, rfl, rfl⟩ (by decide) rfl (by decide)).2.2.2.2⟩
set_option maxRecDepth 512
/-! ## Exceptions thrown by a test body -/

theorem execBody_flags (b : Body) (s : ContextState) :
    (execBody b s).1.failure_flags = s.failure_flags :=
  (congrArg ContextState.failure_flags (execBody_frame b s) :
    (engineFrame (execBody b s).1).failure_flags = (engineFrame s).failure_flags)

theorem afterBody_flags (tc : TestCase) (s : ContextState) :
    (afterBody tc s).failure_flags =
      match (execBody tc.m_test (loopReset s)).2 with
      | Outcome.normal => s.failure_flags
      | Outcome.testFailure => s.failure_flags ||| TestCaseFailureReason.AssertFailure
      | Outcome.exception => s.failure_flags ||| TestCaseFailureReason.Exception := by
  have e : (execBody tc.m_test (loopReset s)).1.failure_flags = s.failure_flags :=
    execBody_flags _ _
  unfold afterBody
  split <;> rename_i h <;> simp only [h, orFailureFlag_flags, iterateThroughReporters, e]

theorem afterBody_events (tc : TestCase) (s : ContextState) :
    (afterBody tc s).events =
      (execBody tc.m_test (loopReset s)).1.events ++
        (if (execBody tc.m_test (loopReset s)).2 = Outcome.exception then
          [Event.test_case_exception false] else []) := by
  unfold afterBody
  split <;> rename_i h <;> simp [h, orFailureFlag, iterateThroughReporters]

theorem runIteration_events_after (tc : TestCase) (s : ContextState) :
    ∃ E, (runIteration tc s).1.events = (afterBody tc s).events ++ E := by
  rw [runIteration_eq]
  split_ifs
  · exact ⟨[], by simp [orFailureFlag]⟩
  · exact ⟨[Event.test_case_reenter tc.toTestCaseData], rfl⟩
  · exact ⟨[], by simp⟩

theorem runIteration_flag_mono (tc : TestCase) (s : ContextState) (r : Nat)
    (h : r &&& s.failure_flags ≠ 0) : r &&& (runIteration tc s).1.failure_flags ≠ 0 := by
  have h1 : r &&& (afterBody tc s).failure_flags ≠ 0 := by
    rw [afterBody_flags]
    split <;> first | exact h | exact land_lor_of_land _ h
  rw [runIteration_flags]
  split_ifs
  · exact land_lor_of_land _ h1
  · exact h1

theorem lor_lt_16 {a b : Nat} (ha : a < 16) (hb : b < 16) : a ||| b < 16 :=
  Nat.or_lt_two_pow (n := 4) ha hb

theorem runIteration_flags_lt (tc : TestCase) (s : ContextState) (h : s.failure_flags < 16) :
    (runIteration tc s).1.failure_flags < 16 := by
  have h1 : (afterBody tc s).failure_flags < 16 := by
    rw [afterBody_flags]
    split <;> first | exact h | exact lor_lt_16 h (by decide)
  rw [runIteration_flags]
  split_ifs
  · exact lor_lt_16 h1 (by decide)
  · exact h1

theorem runIteration_exception (tc : TestCase) (s : ContextState)
    (h : (execBody tc.m_test (loopReset s)).2 = Outcome.exception) :
    TestCaseFailureReason.Exception &&& (runIteration tc s).1.failure_flags ≠ 0 ∧
    ∃ E, (runIteration tc s).1.events = s.events ++ E ∧ Event.test_case_exception false ∈ E := by
  constructor
  · have h1 : TestCaseFailureReason.Exception &&& (afterBody tc s).failure_flags ≠ 0 := by
      rw [afterBody_flags, h]
      simp only
      rw [land_lor_self]
      decide
    rw [runIteration_flags]
    split_ifs
    · exact land_lor_of_land _ h1
    · exact h1
  · obtain ⟨E1, e1⟩ := runIteration_events_after tc s
    obtain ⟨E0, e0, _⟩ := execBody_events tc.m_test (loopReset s)
    refine ⟨E0 ++ [Event.test_case_exception false] ++ E1, ?_, by simp⟩
    rw [e1, afterBody_events, e0, if_pos h]
    simp [loopReset]

theorem iterationState_events (tc : TestCase) (k : Nat) (s : ContextState) :
    ∃ E, (iterationState tc k s).events = s.events ++ E := by
  induction k generalizing s with
  | zero => exact ⟨[], by simp [iterationState]⟩
  | succ n ih =>
    obtain ⟨E1, e1, _⟩ := runIteration_events tc s
    obtain ⟨E2, e2⟩ := ih (runIteration tc s).1
    refine ⟨E1 ++ (if (runIteration tc s).2 = true then
      [Event.test_case_reenter tc.toTestCaseData] else []) ++ E2, ?_⟩
    show (iterationState tc n (runIteration tc s).1).events = _
    rw [e2, e1]
    simp only [List.append_assoc]

theorem iterationState_flag_mono (tc : TestCase) (k : Nat) (s : ContextState) (r : Nat)
    (h : r &&& s.failure_flags ≠ 0) : r &&& (iterationState tc k s).failure_flags ≠ 0 := by
  induction k generalizing s with
  | zero => exact h
  | succ n ih => exact ih _ (runIteration_flag_mono tc s r h)

theorem iterationState_flags_lt (tc : TestCase) (k : Nat) (s : ContextState)
    (h : s.failure_flags < 16) : (iterationState tc k s).failure_flags < 16 := by
  induction k generalizing s with
  | zero => exact h
  | succ n ih => exact ih _ (runIteration_flags_lt tc s h)

theorem iterationState_add (tc : TestCase) (a b : Nat) (s : ContextState) :
    iterationState tc (a + b) s = iterationState tc b (iterationState tc a s) := by
  induction a generalizing s with
  | zero => simp [iterationState]
  | succ n ih =>
    have e : n + 1 + b = (n + b) + 1 := by omega
    rw [e]
    show iterationState tc (n + b) (runIteration tc s).1 = _
    rw [ih]
    rfl

theorem reachesIteration_flag (tc : TestCase) (k : Nat) :
    ∀ (s : ContextState) (j : Nat), reachesIteration tc k s = true → j < k →
      (runIteration tc (iterationState tc j s)).2 = true := by
  induction k with
  | zero => intro s j _ hj; omega
  | succ n ih =>
    intro s j h hj
    simp only [reachesIteration, Bool.and_eq_true] at h
    cases j with
    | zero => exact h.1
    | succ i => exact ih (runIteration tc s).1 i h.2 (by omega)

theorem beforeDecorators_flag (tc : TestCase) (s : ContextState) (r : Nat)
    (h : r &&& s.failure_flags ≠ 0) : r &&& (beforeDecorators tc s).failure_flags ≠ 0 := by
  unfold beforeDecorators
  simp only [updateCounters, orFailureFlag]
  split_ifs <;> first | exact h | exact land_lor_of_land _ h |
    exact land_lor_of_land _ (land_lor_of_land _ h)

theorem finalize_flag (tc : TestCase) (s : ContextState) (r : Nat)
    (h : r &&& s.failure_flags ≠ 0) : r &&& (finalizeTestCaseDataFor tc s).failure_flags ≠ 0 := by
  rw [finalize_eq, countFailure_flags]
  exact applyDecorators_flag tc _ _ (beforeDecorators_flag tc s r h)

theorem land_ne_zero_right {r f : Nat} (h : r &&& f ≠ 0) : f ≠ 0 := by
  intro h0
  rw [h0] at h
  simp at h

/-- One iteration of the loop over the test cases always ends, and leaves the
options of the run as they are. -/
theorem testCaseStep_total (qm : Bool) (tc : TestCase) (p : ContextState) (loc : RunLocals) :
    ∃ r, testCaseStep qm tc p loc = some r ∧ runFrame r.state = runFrame p := by
  unfold testCaseStep
  simp only
  generalize hp1 : (if (!skipByFilters p tc.toTestCaseData) = true then
      ({ p with numTestCasesPassingFilters := p.numTestCasesPassingFilters + 1 } : ContextState)
    else p) = p1
  have e7 : runFrame p1 = runFrame p := by
    rw [← hp1]; split_ifs <;> rfl
  have hx : ∃ r, executeTestCase (loopBudget tc) tc p1 loc = some r ∧
      runFrame r.state = runFrame p := by
    obtain ⟨r, h1, _, h3, _⟩ := executeTestCase_spec tc p1 loc
    exact ⟨r, h1, h3.trans e7⟩
  split_ifs <;> first | exact ⟨_, rfl, e7⟩ | exact hx

theorem runTestArray_total (qm : Bool) (testArray : List TestCase) :
    ∀ (p : ContextState) (loc : RunLocals),
      ∃ q loc2 ns, runTestArray qm testArray p loc = some (q, loc2, ns) ∧
        runFrame q = runFrame p := by
  induction testArray with
  | nil => intro p loc; exact ⟨p, loc, [], rfl, rfl⟩
  | cons t rest ih =>
    intro p loc
    obtain ⟨r, h1, h2⟩ := testCaseStep_total qm t p loc
    rw [runTestArray_cons qm t rest p loc r h1]
    by_cases hb : r.broke = true
    · rw [if_pos hb]
      exact ⟨_, _, _, rfl, h2⟩
    · rw [if_neg hb]
      obtain ⟨q, loc2, ns, g1, g2⟩ := ih r.state r.locals
      rw [g1]
      exact ⟨_, _, _, rfl, g2.trans h2⟩
theorem endTestCase_events (p : ContextState) :
    (endTestCase p).events = p.events ++ [Event.test_case_end] := rfl

theorem endTestCase_flags (p : ContextState) :
    (endTestCase p).failure_flags = p.failure_flags := rfl

theorem endTestCase_numTestCasesFailed (p : ContextState) :
    (endTestCase p).numTestCasesFailed = p.numTestCasesFailed := rfl

theorem endTestCase_numAssertsFailed (p : ContextState) :
    (endTestCase p).numAssertsFailed = p.numAssertsFailed := rfl

set_option maxRecDepth 100000
/-- C17 (counterexample): with `abort_after = 1` the body
`SUBCASE("A") {} SUBCASE("B") { CHECK(false); } throw 0;` throws in its first
invocation; the second invocation fails the check, the threshold is reached and
the loop over the test cases is left: the test case after it is not processed
(one invocation count only, and no event after `test_case_end`). -/
theorem exception_counterexample :
    (execBody bodyThrow
      (loopReset (beginTestCase (sampleTest bodyThrow)
        (countPassingFilters { defaultContext with abort_after := 1 })))).2 = Outcome.exception ∧
    ∃ q, runTestArray false (sampleTest bodyThrow :: [sampleTest Body.done])
        { defaultContext with abort_after := 1 } ⟨[], []⟩ = some (q, ⟨[], []⟩, [2]) ∧
      q.events.map Event.kind =
        [EventKind.test_case_start, EventKind.subcase_start, EventKind.subcase_end,
         EventKind.test_case_exception, EventKind.test_case_reenter, EventKind.subcase_start,
         EventKind.log_assert, EventKind.subcase_end, EventKind.test_case_end] := by
  refine ⟨by decide, ?_⟩
  obtain ⟨q, h1, h2⟩ := (abort_break_spec (sampleTest bodyThrow) [sampleTest Body.done]
    { defaultContext with abort_after := 1 } ⟨[], []⟩ 1
    ⟨by decide, by decide, rfl, rfl, rfl⟩ (by decide) (by decide)).2.2.2.2
  refine ⟨q, h1, ?_⟩
  rw [h2]
  decide
set_option maxRecDepth 512

/-- C17 (amended): if the body of an executed test case throws, in some invocation,
an exception other than the assertion-failure exception, the iteration of the
loop over the test cases still ends normally: the reporters receive a
`test_case_exception` event with `is_crash = false`, the `Exception` flag is set
and a test case without failure decorators is counted as failed; the loop over
the test cases goes on with the next test case unless the abort threshold has
been reached at the end of this one, and the run always returns. -/
theorem exception_is_contained (tc : TestCase) (post : List TestCase) (p : ContextState)
    (loc : RunLocals) (k : Nat) (hex : reachesExecution p tc.toTestCaseData)
    (hk : reachesIteration tc k (beginTestCase tc (countPassingFilters p)) = true)
    (hthrow : (execBody tc.m_test
      (loopReset (iterationState tc k (beginTestCase tc (countPassingFilters p))))).2 =
        Outcome.exception) :
    ∃ r E, testCaseStep false tc p loc = some r ∧
      r.state.events = p.events ++ E ∧ Event.test_case_exception false ∈ E ∧
      TestCaseFailureReason.Exception &&& r.state.failure_flags ≠ 0 ∧
      (tc.m_should_fail = false → tc.m_may_fail = false → tc.m_expected_failures ≤ 0 →
        r.state.numTestCasesFailed = p.numTestCasesFailed + 1) ∧
      (r.broke = true ↔ p.abort_after > 0 ∧ r.state.numAssertsFailed ≥ p.abort_after) ∧
      (r.broke = false →
        runTestArray false (tc :: post) p loc =
          (runTestArray false post r.state r.locals).map
            (fun q => (q.1, q.2.1, r.invocations :: q.2.2))) ∧
      ∃ res, runTestArray false (tc :: post) p loc = some res := by
  obtain ⟨⟨p3, n⟩, hloop⟩ := runTestLoop_budget tc (loopBudget tc)
    (beginTestCase tc (countPassingFilters p)) (Nat.le_refl _)
  obtain ⟨m, _, _, hstop, hp3⟩ := runTestLoop_iterations tc _ _ p3 n hloop
  have hkm : k ≤ m := by
    by_contra hc
    have := reachesIteration_flag tc k _ m hk (by omega)
    rw [hstop] at this
    exact Bool.noConfusion this
  obtain ⟨d, hd⟩ : ∃ d, m + 1 = (k + 1) + d := ⟨m - k, by omega⟩
  rw [hd, iterationState_add, iterationState_succ] at hp3
  obtain ⟨hflag, E1, he1, hmem⟩ := runIteration_exception tc _ hthrow
  obtain ⟨A, hA⟩ := iterationState_events tc k (beginTestCase tc (countPassingFilters p))
  obtain ⟨C, hC⟩ := iterationState_events tc d
    (runIteration tc (iterationState tc k (beginTestCase tc (countPassingFilters p)))).1
  have hlf := runTestLoop_frame tc _ _ _ hloop
  simp only at hlf
  have hflag3 : TestCaseFailureReason.Exception &&& p3.failure_flags ≠ 0 := by
    rw [hp3]
    exact iterationState_flag_mono tc d _ _ hflag
  have hlt3 : p3.failure_flags < 16 := by
    rw [hp3, ← iterationState_succ, ← iterationState_add]
    exact iterationState_flags_lt tc _ _ (show TestCaseFailureReason.None < 16 by decide)
  have hev3 : p3.events = p.events ++ ([Event.test_case_start tc.toTestCaseData] ++ A ++ E1 ++ C) := by
    rw [hp3, hC, he1, hA]
    simp [beginTestCase, iterateThroughReporters, countPassingFilters]
  have hstep := executeTestCase_eq (loopBudget tc) tc (countPassingFilters p) loc _ _ hloop
  rw [← testCaseStep_executes tc p loc hex] at hstep
  have hab : p3.abort_after = p.abort_after := (abort_after_of_loopFrame hlf).trans rfl
  have hnf : p3.numTestCasesFailed = p.numTestCasesFailed :=
    (numTestCasesFailed_of_loopFrame hlf).trans rfl
  obtain ⟨r, hr⟩ : ∃ r : StepResult, r =
      { state := endTestCase (finalizeTestCaseDataFor tc p3), locals := loc,
        broke := abortReached p3, invocations := n } := ⟨_, rfl⟩
  rw [← hr] at hstep
  have hs : r.state = endTestCase (finalizeTestCaseDataFor tc p3) := by rw [hr]
  have hb : r.broke = abortReached p3 := by rw [hr]
  refine ⟨r, [Event.test_case_start tc.toTestCaseData] ++ A ++ E1 ++ C ++ [Event.test_case_end],
    hstep, ?_, ?_, ?_, ?_, ?_, ?_, ?_⟩
  · rw [hs, endTestCase_events, finalize_events, hev3]
    simp only [List.append_assoc]
  · simp [hmem]
  · rw [hs, endTestCase_flags]
    exact finalize_flag tc p3 _ hflag3
  · intro a b c
    rw [hs, endTestCase_numTestCasesFailed, (finalize_undecorated tc p3 a b c hlt3).1,
      if_pos (land_ne_zero_right (beforeDecorators_flag tc p3 _ hflag3)), hnf]
  · rw [hs, hb, endTestCase_numAssertsFailed, finalize_numAssertsFailed]
    unfold abortReached
    rw [hab]
    simp
  · intro hbf
    rw [runTestArray_cons false tc post p loc r hstep, if_neg (by rw [hbf]; simp)]
  · obtain ⟨q, loc2, ns, h, _⟩ := runTestArray_total false (tc :: post) p loc
    exact ⟨_, h⟩

set_option maxRecDepth 100000
theorem exception_is_contained_witness :
    ∃ r E, testCaseStep false (sampleTest Body.throwOther) defaultContext ⟨[], []⟩ = some r ∧
      r.state.events = defaultContext.events ++ E ∧ Event.test_case_exception false ∈ E ∧
      r.state.numTestCasesFailed = defaultContext.numTestCasesFailed + 1 ∧ r.broke = false :=
  let ⟨r, E, h1, h2, h3, _, h5, h6, _⟩ := exception_is_contained (sampleTest Body.throwOther)
    [sampleTest Body.done] defaultContext ⟨[], []⟩ 0
    ⟨by decide, by decide, rfl, rfl, rfl⟩ rfl (by decide)
  ⟨r, E, h1, h2, h3, h5 rfl rfl (by decide),
    Bool.eq_false_iff.mpr (fun hb => absurd (h6.mp hb).1 (by decide))⟩
set_option maxRecDepth 512
/-! ## The events of a run -/

theorem filter_isReenter_inBody (E : List Event) (h : ∀ e ∈ E, Event.inBody e = true) :
    E.filter Event.isReenter = [] := by
  rw [List.filter_eq_nil_iff]
  intro e he
  have := h e he
  cases e <;> simp [Event.isReenter, Event.inBody] at this ⊢

theorem runTestLoop_events (tc : TestCase) (fuel : Nat) :
    ∀ (s q : ContextState) (n : Nat), runTestLoop tc fuel s = some (q, n) →
      ∃ M, q.events = s.events ++ M ∧
        (∀ e ∈ M, Event.inBody e = true ∨ e = Event.test_case_reenter tc.toTestCaseData) ∧
        (M.filter Event.isReenter).length = n - 1 := by
  induction fuel with
  | zero => intro s q n h; simp [runTestLoop] at h
  | succ f ih =>
    intro s q n h
    obtain ⟨E, e1, e2⟩ := runIteration_events tc s
    have e3 := filter_isReenter_inBody E e2
    simp only [runTestLoop] at h
    by_cases hfl : (runIteration tc s).2 = true
    · rw [if_pos hfl] at h
      rw [if_pos hfl] at e1
      cases hrec : runTestLoop tc f (runIteration tc s).1 with
      | none => rw [hrec] at h; simp at h
      | some r =>
        obtain ⟨q1, n1⟩ := r
        rw [hrec] at h
        simp only [Option.map_some', Option.some.injEq, Prod.mk.injEq] at h
        obtain ⟨M, m1, m2, m3⟩ := ih _ _ _ hrec
        have hpos := runTestLoop_count_pos tc _ _ _ hrec
        simp only at hpos
        refine ⟨E ++ [Event.test_case_reenter tc.toTestCaseData] ++ M, ?_, ?_, ?_⟩
        · rw [← h.1, m1, e1]
          simp only [List.append_assoc]
        · intro e he
          simp only [List.mem_append, List.mem_singleton] at he
          rcases he with (he | he) | he
          · exact Or.inl (e2 e he)
          · exact Or.inr he
          · exact m2 e he
        · simp only [List.filter_append, e3, List.nil_append, List.length_append, m3]
          simp only [List.filter, Event.isReenter, List.length_singleton]
          omega
    · rw [if_neg hfl] at h
      rw [if_neg hfl] at e1
      simp only [Option.some.injEq, Prod.mk.injEq] at h
      refine ⟨E, ?_, fun e he => Or.inl (e2 e he), ?_⟩
      · rw [← h.1, e1]; simp
      · rw [e3, ← h.2]; rfl

/-- The events of one iteration of the loop over the test cases in a normal run. -/
theorem testCaseStep_report (tc : TestCase) (p : ContextState) (loc : RunLocals)
    (hc : p.count = false) (hl : p.list_test_cases = false) (hs : p.list_test_suites = false) :
    ∃ r E, testCaseStep false tc p loc = some r ∧ r.state.events = p.events ++ E ∧
      caseReport tc.toTestCaseData r.invocations E := by
  by_cases hex : reachesExecution p tc.toTestCaseData
  · obtain ⟨⟨p3, n⟩, hloop⟩ := runTestLoop_budget tc (loopBudget tc)
      (beginTestCase tc (countPassingFilters p)) (Nat.le_refl _)
    have hstep := executeTestCase_eq (loopBudget tc) tc (countPassingFilters p) loc _ _ hloop
    rw [← testCaseStep_executes tc p loc hex] at hstep
    obtain ⟨M, m1, m2, m3⟩ := runTestLoop_events tc _ _ _ _ hloop
    have hpos := runTestLoop_count_pos tc _ _ _ hloop
    simp only at hpos
    obtain ⟨r, hr⟩ : ∃ r : StepResult, r =
        { state := endTestCase (finalizeTestCaseDataFor tc p3), locals := loc,
          broke := abortReached p3, invocations := n } := ⟨_, rfl⟩
    rw [← hr] at hstep
    have h1 : r.state = endTestCase (finalizeTestCaseDataFor tc p3) := by rw [hr]
    have h2 : r.invocations = n := by rw [hr]
    refine ⟨r, Event.test_case_start tc.toTestCaseData :: M ++ [Event.test_case_end], hstep,
      ?_, Or.inr ⟨by omega, M, rfl, m2, by rw [h2]; exact m3⟩⟩
    rw [h1, endTestCase_events, finalize_events, m1]
    simp [beginTestCase, iterateThroughReporters, countPassingFilters]
  · have hskip : (if (p.last < (if (!skipByFilters p tc.toTestCaseData) = true then
          ({ p with numTestCasesPassingFilters := p.numTestCasesPassingFilters + 1 } :
            ContextState) else p).numTestCasesPassingFilters ∧ p.first ≤ p.last) ∨
        p.first > (if (!skipByFilters p tc.toTestCaseData) = true then
          ({ p with numTestCasesPassingFilters := p.numTestCasesPassingFilters + 1 } :
            ContextState) else p).numTestCasesPassingFilters then true
        else skipByFilters p tc.toTestCaseData) = true := by
      cases hsk : skipByFilters p tc.toTestCaseData
      · simp only [Bool.not_false, if_true]
        by_cases hrange : (p.last < p.numTestCasesPassingFilters + 1 ∧ p.first ≤ p.last) ∨
            p.first > p.numTestCasesPassingFilters + 1
        · rw [if_pos hrange]
        · exact absurd ⟨hsk, hrange, hc, hl, hs⟩ hex
      · simp
    refine ⟨{ state := iterateThroughReporters (Event.test_case_skipped tc.toTestCaseData)
                (if (!skipByFilters p tc.toTestCaseData) = true then
                  ({ p with numTestCasesPassingFilters := p.numTestCasesPassingFilters + 1 } :
                    ContextState) else p),
              locals := loc, broke := false, invocations := 0 },
      [Event.test_case_skipped tc.toTestCaseData], ?_, ?_, Or.inl ⟨rfl, rfl⟩⟩
    · unfold testCaseStep
      simp only
      have e3 : (if (!skipByFilters p tc.toTestCaseData) = true then
          ({ p with numTestCasesPassingFilters := p.numTestCasesPassingFilters + 1 } :
            ContextState) else p).last = p.last := by split_ifs <;> rfl
      have e4 : (if (!skipByFilters p tc.toTestCaseData) = true then
          ({ p with numTestCasesPassingFilters := p.numTestCasesPassingFilters + 1 } :
            ContextState) else p).first = p.first := by split_ifs <;> rfl
      rw [e3, e4, hskip]
      simp only [if_true, Bool.not_false]
    · simp only [iterateThroughReporters]
      split_ifs <;> rfl
theorem runTestArray_report (testArray : List TestCase) :
    ∀ (p : ContextState) (loc : RunLocals), p.count = false → p.list_test_cases = false →
      p.list_test_suites = false → p.abort_after ≤ 0 →
      ∃ q loc2 blocks, runTestArray false testArray p loc =
          some (q, loc2, blocks.map Prod.snd) ∧
        q.events = p.events ++ (blocks.map Prod.fst).flatten ∧
        List.Forall₂ (fun (tc : TestCase) (b : List Event × Nat) =>
          caseReport tc.toTestCaseData b.2 b.1) testArray blocks := by
  induction testArray with
  | nil =>
    intro p loc _ _ _ _
    exact ⟨p, loc, [], rfl, by simp, List.Forall₂.nil⟩
  | cons t rest ih =>
    intro p loc hc hl hs ha
    obtain ⟨r, h1, h2, h3, _, _⟩ := testCaseStep_spec t p loc hc hl hs ha
    obtain ⟨r2, E, k1, k2, k3⟩ := testCaseStep_report t p loc hc hl hs
    rw [h1] at k1
    have hr : r = r2 := Option.some.inj k1
    rw [← hr] at k2 k3
    have f1 : r.state.count = false := by
      rw [← hc]
      exact (congrArg ContextState.count h3 : (runFrame r.state).count = (runFrame p).count)
    have f2 : r.state.list_test_cases = false := by
      rw [← hl]
      exact (congrArg ContextState.list_test_cases h3 :
        (runFrame r.state).list_test_cases = (runFrame p).list_test_cases)
    have f3 : r.state.list_test_suites = false := by
      rw [← hs]
      exact (congrArg ContextState.list_test_suites h3 :
        (runFrame r.state).list_test_suites = (runFrame p).list_test_suites)
    have f4 : r.state.abort_after ≤ 0 := by rw [abort_after_of_runFrame h3]; exact ha
    obtain ⟨q, loc2, blocks, g1, g2, g3⟩ := ih r.state r.locals f1 f2 f3 f4
    refine ⟨q, loc2, (E, r.invocations) :: blocks, ?_, ?_, List.Forall₂.cons k3 g3⟩
    · rw [runTestArray_cons false t rest p loc r h1, if_neg (by rw [h2]; simp), g1]
      rfl
    · rw [g2, k2]
      simp only [List.map_cons, List.flatten_cons, List.append_assoc]

theorem run_normal (testArray : List TestCase) (p0 : ContextState)
    (h1 : p0.no_run = false) (h2 : p0.version = false) (h3 : p0.help = false)
    (h4 : p0.list_reporters = false) (h5 : p0.count = false)
    (h6 : p0.list_test_cases = false) (h7 : p0.list_test_suites = false) :
    Context.run testArray p0 =
      (runTestArray false testArray (runStart testArray.length p0) ⟨[], []⟩).map
        (fun x => (iterateThroughReporters Event.test_run_end x.1,
          cleanup_and_return (iterateThroughReporters Event.test_run_end x.1))) := by
  unfold Context.run runStart
  simp only [resetRunData, h1, h2, h3, h4, h5, h6, h7, Bool.or_self, Bool.false_eq_true,
    if_false, Bool.not_false, if_true]
  cases runTestArray false testArray _ _ with
  | none => rfl
  | some x => rfl

theorem run_query_mode (testArray : List TestCase) (p0 : ContextState)
    (h1 : p0.no_run = false) (h2 : p0.version = false) (h3 : p0.help = false)
    (h4 : p0.list_reporters = false)
    (h5 : (p0.count || p0.list_test_cases || p0.list_test_suites) = true) :
    Context.run testArray p0 =
      (runTestArray true testArray (queryStart testArray.length p0) ⟨[], []⟩).map
        (fun x => (iterateThroughReporters Event.report_query x.1,
          cleanup_and_return (iterateThroughReporters Event.report_query x.1))) := by
  unfold Context.run queryStart
  simp only [resetRunData, h1, h2, h3, h4, h5, Bool.or_self, Bool.false_eq_true,
    if_false, Bool.not_true, if_true]
  cases runTestArray true testArray _ _ with
  | none => rfl
  | some x => rfl

theorem run_early (testArray : List TestCase) (p0 : ContextState)
    (h : (p0.no_run || p0.version || p0.help || p0.list_reporters) = true) :
    Context.run testArray p0 =
      some (iterateThroughReporters Event.report_query (resetRunData p0),
        cleanup_and_return (iterateThroughReporters Event.report_query (resetRunData p0))) := by
  unfold Context.run
  have e : ((resetRunData p0).no_run || (resetRunData p0).version || (resetRunData p0).help ||
      (resetRunData p0).list_reporters) = true := h
  simp only [e, if_true]

/-- C18: in a normal run with the abort threshold disabled the reporters receive
`test_run_start`, then for every registered test case, in order, either one
`test_case_skipped` and nothing else, or one `test_case_start`, the events of
the invocations of its body with one `test_case_reenter` between two
invocations, and one `test_case_end`; then `test_run_end`. -/
theorem report_per_test_case (testArray : List TestCase) (p0 : ContextState)
    (h1 : p0.no_run = false) (h2 : p0.version = false) (h3 : p0.help = false)
    (h4 : p0.list_reporters = false) (h5 : p0.count = false)
    (h6 : p0.list_test_cases = false) (h7 : p0.list_test_suites = false)
    (ha : p0.abort_after ≤ 0) :
    ∃ q code blocks p3 loc2,
      Context.run testArray p0 = some (q, code) ∧
      runTestArray false testArray (runStart testArray.length p0) ⟨[], []⟩ =
        some (p3, loc2, blocks.map Prod.snd) ∧
      q.events =
        p0.events ++ [Event.test_run_start] ++ (blocks.map Prod.fst).flatten ++
          [Event.test_run_end] ∧
      List.Forall₂ (fun (tc : TestCase) (b : List Event × Nat) =>
        caseReport tc.toTestCaseData b.2 b.1) testArray blocks := by
  obtain ⟨p3, loc2, blocks, g1, g2, g3⟩ := runTestArray_report testArray
    (runStart testArray.length p0) ⟨[], []⟩ h5 h6 h7 ha
  refine ⟨iterateThroughReporters Event.test_run_end p3,
    cleanup_and_return (iterateThroughReporters Event.test_run_end p3), blocks, p3, loc2,
    ?_, g1, ?_, g3⟩
  · rw [run_normal testArray p0 h1 h2 h3 h4 h5 h6 h7, g1]
    rfl
  · show p3.events ++ [Event.test_run_end] = _
    rw [g2]
    rfl

theorem report_per_test_case_witness :
    ∃ q code blocks p3 loc2,
      Context.run [sampleTest bodyAB] defaultContext = some (q, code) ∧
      runTestArray false [sampleTest bodyAB] (runStart [sampleTest bodyAB].length defaultContext)
        ⟨[], []⟩ = some (p3, loc2, blocks.map Prod.snd) ∧
      q.events =
        defaultContext.events ++ [Event.test_run_start] ++ (blocks.map Prod.fst).flatten ++
          [Event.test_run_end] ∧
      List.Forall₂ (fun (tc : TestCase) (b : List Event × Nat) =>
        caseReport tc.toTestCaseData b.2 b.1) [sampleTest bodyAB] blocks :=
  report_per_test_case [sampleTest bodyAB] defaultContext rfl rfl rfl rfl rfl rfl rfl (by decide)
/-! ## Queries and the exit code -/

theorem testCaseStep_query (tc : TestCase) (p : ContextState) (loc : RunLocals)
    (h : (p.count || p.list_test_cases || p.list_test_suites) = true) :
    ∃ r, testCaseStep true tc p loc = some r ∧ r.invocations = 0 ∧ r.broke = false ∧
      r.state.events = p.events ∧ runFrame r.state = runFrame p := by
  unfold testCaseStep
  simp only
  generalize hp1 : (if (!skipByFilters p tc.toTestCaseData) = true then
      ({ p with numTestCasesPassingFilters := p.numTestCasesPassingFilters + 1 } : ContextState)
    else p) = p1
  have e1 : p1.events = p.events := by rw [← hp1]; split_ifs <;> rfl
  have e2 : p1.count = p.count := by rw [← hp1]; split_ifs <;> rfl
  have e3 : p1.list_test_cases = p.list_test_cases := by rw [← hp1]; split_ifs <;> rfl
  have e4 : p1.list_test_suites = p.list_test_suites := by rw [← hp1]; split_ifs <;> rfl
  have e7 : runFrame p1 = runFrame p := by rw [← hp1]; split_ifs <;> rfl
  simp only [Bool.not_true, Bool.false_eq_true, if_false]
  split_ifs with c1 c2 c3 c4 c5
  all_goals first
    | exact ⟨_, rfl, rfl, rfl, e1, e7⟩
    | (exfalso
       rw [← e2, ← e3, ← e4] at h
       simp_all)

theorem runTestArray_query (testArray : List TestCase) :
    ∀ (p : ContextState) (loc : RunLocals),
      (p.count || p.list_test_cases || p.list_test_suites) = true →
      ∃ q loc2 ns, runTestArray true testArray p loc = some (q, loc2, ns) ∧
        (∀ n ∈ ns, n = 0) ∧ ns.length = testArray.length ∧ q.events = p.events := by
  induction testArray with
  | nil => intro p loc _; exact ⟨p, loc, [], rfl, by simp, rfl, rfl⟩
  | cons t rest ih =>
    intro p loc h
    obtain ⟨r, h1, h2, h3, h4, h5⟩ := testCaseStep_query t p loc h
    have f1 : r.state.count = p.count :=
      (congrArg ContextState.count h5 : (runFrame r.state).count = (runFrame p).count)
    have f2 : r.state.list_test_cases = p.list_test_cases :=
      (congrArg ContextState.list_test_cases h5 :
        (runFrame r.state).list_test_cases = (runFrame p).list_test_cases)
    have f3 : r.state.list_test_suites = p.list_test_suites :=
      (congrArg ContextState.list_test_suites h5 :
        (runFrame r.state).list_test_suites = (runFrame p).list_test_suites)
    obtain ⟨q, loc2, ns, g1, g2, g3, g4⟩ := ih r.state r.locals (by rw [f1, f2, f3]; exact h)
    refine ⟨q, loc2, r.invocations :: ns, ?_, ?_, ?_, g4.trans h4⟩
    · rw [runTestArray_cons true t rest p loc r h1, if_neg (by rw [h3]; simp), g1]
      rfl
    · intro n hn
      simp only [List.mem_cons] at hn
      rcases hn with hn | hn
      · rw [hn, h2]
      · exact g2 n hn
    · simp [g3]

/-- C19: in every query mode (`count`, `list_test_cases`, `list_test_suites`, and
likewise `no_run`, `version`, `help`, `list_reporters`) `Context::run` returns
after sending one `report_query` event and no other event; with the last four
the loop over the test cases is not reached, and with the first three every
test case of the loop has zero invocations of its body. -/
theorem query_sends_one_report (testArray : List TestCase) (p0 : ContextState)
    (h : (p0.count || p0.list_test_cases || p0.list_test_suites || p0.no_run || p0.version ||
      p0.help || p0.list_reporters) = true) :
    ∃ q code, Context.run testArray p0 = some (q, code) ∧
      q.events = p0.events ++ [Event.report_query] ∧
      ((p0.no_run || p0.version || p0.help || p0.list_reporters) = true →
        q = iterateThroughReporters Event.report_query (resetRunData p0)) ∧
      ((p0.no_run || p0.version || p0.help || p0.list_reporters) = false →
        ∃ p3 loc2 ns, runTestArray true testArray (queryStart testArray.length p0) ⟨[], []⟩ =
            some (p3, loc2, ns) ∧
          ns.length = testArray.length ∧ (∀ n ∈ ns, n = 0) ∧
          q = iterateThroughReporters Event.report_query p3) := by
  by_cases he : (p0.no_run || p0.version || p0.help || p0.list_reporters) = true
  · refine ⟨_, _, run_early testArray p0 he, rfl, fun _ => rfl, ?_⟩
    intro hc
    rw [he] at hc
    exact Bool.noConfusion hc
  · have he2 : (p0.no_run || p0.version || p0.help || p0.list_reporters) = false := by
      simpa using he
    have h1 : p0.no_run = false := by
      cases hx : p0.no_run <;> simp [hx] at he2 ⊢
    have h2 : p0.version = false := by
      cases hx : p0.version <;> simp [hx] at he2 ⊢
    have h3 : p0.help = false := by
      cases hx : p0.help <;> simp [hx] at he2 ⊢
    have h4 : p0.list_reporters = false := by
      cases hx : p0.list_reporters <;> simp [hx] at he2 ⊢
    have hq : (p0.count || p0.list_test_cases || p0.list_test_suites) = true := by
      simpa [h1, h2, h3, h4] using h
    obtain ⟨p3, loc2, ns, g1, g2, g3, g4⟩ := runTestArray_query testArray
      (queryStart testArray.length p0) ⟨[], []⟩ hq
    refine ⟨iterateThroughReporters Event.report_query p3,
      cleanup_and_return (iterateThroughReporters Event.report_query p3), ?_, ?_, ?_, ?_⟩
    · rw [run_query_mode testArray p0 h1 h2 h3 h4 hq, g1]
      rfl
    · show p3.events ++ [Event.report_query] = _
      rw [g4]
      rfl
    · intro hc
      exact absurd hc he
    · intro _
      exact ⟨p3, loc2, ns, g1, g3, g2, rfl⟩

theorem query_sends_one_report_witness :
    ∃ q code, Context.run [sampleTest bodyAB] { defaultContext with count := true } =
        some (q, code) ∧
      q.events = ({ defaultContext with count := true } : ContextState).events ++
        [Event.report_query] :=
  let ⟨q, code, h1, h2, _⟩ := query_sends_one_report [sampleTest bodyAB]
    { defaultContext with count := true } rfl
  ⟨q, code, h1, h2⟩

theorem no_exitcode_of_runFrame {s t : ContextState} (h : runFrame s = runFrame t) :
    s.no_exitcode = t.no_exitcode :=
  (congrArg ContextState.no_exitcode h : (runFrame s).no_exitcode = (runFrame t).no_exitcode)

theorem runStart_no_exitcode (n : Nat) (p0 : ContextState) :
    (runStart n p0).no_exitcode = p0.no_exitcode := rfl

theorem queryStart_no_exitcode (n : Nat) (p0 : ContextState) :
    (queryStart n p0).no_exitcode = p0.no_exitcode := rfl

theorem run_result (testArray : List TestCase) (p0 : ContextState) :
    ∃ q, Context.run testArray p0 = some (q, cleanup_and_return q) ∧
      q.no_exitcode = p0.no_exitcode := by
  by_cases he : (p0.no_run || p0.version || p0.help || p0.list_reporters) = true
  · exact ⟨_, run_early testArray p0 he, rfl⟩
  · have he2 : (p0.no_run || p0.version || p0.help || p0.list_reporters) = false := by
      simpa using he
    have h1 : p0.no_run = false := by
      cases hx : p0.no_run <;> simp [hx] at he2 ⊢
    have h2 : p0.version = false := by
      cases hx : p0.version <;> simp [hx] at he2 ⊢
    have h3 : p0.help = false := by
      cases hx : p0.help <;> simp [hx] at he2 ⊢
    have h4 : p0.list_reporters = false := by
      cases hx : p0.list_reporters <;> simp [hx] at he2 ⊢
    by_cases hq : (p0.count || p0.list_test_cases || p0.list_test_suites) = true
    · obtain ⟨p3, loc2, ns, g1, g2⟩ := runTestArray_total true testArray
        (queryStart testArray.length p0) ⟨[], []⟩
      refine ⟨iterateThroughReporters Event.report_query p3, ?_, ?_⟩
      · rw [run_query_mode testArray p0 h1 h2 h3 h4 hq, g1]
        rfl
      · exact (no_exitcode_of_runFrame g2).trans (queryStart_no_exitcode _ p0)
    · have hq2 : (p0.count || p0.list_test_cases || p0.list_test_suites) = false := by
        simpa using hq
      have h5 : p0.count = false := by
        cases hx : p0.count <;> simp [hx] at hq2 ⊢
      have h6 : p0.list_test_cases = false := by
        cases hx : p0.list_test_cases <;> simp [hx] at hq2 ⊢
      have h7 : p0.list_test_suites = false := by
        cases hx : p0.list_test_suites <;> simp [hx] at hq2 ⊢
      obtain ⟨p3, loc2, ns, g1, g2⟩ := runTestArray_total false testArray
        (runStart testArray.length p0) ⟨[], []⟩
      refine ⟨iterateThroughReporters Event.test_run_end p3, ?_, ?_⟩
      · rw [run_normal testArray p0 h1 h2 h3 h4 h5 h6 h7, g1]
        rfl
      · exact (no_exitcode_of_runFrame g2).trans (runStart_no_exitcode _ p0)

/-- C20: `Context::run` always returns, and it returns 0 iff no test case was
counted as failed (`numTestCasesFailed = 0` in the final state) or `no_exitcode`
is set; otherwise it returns a non-zero value (`EXIT_FAILURE`). -/
theorem exit_code (testArray : List TestCase) (p0 : ContextState) :
    ∃ q code, Context.run testArray p0 = some (q, code) ∧
      (code = 0 ↔ q.numTestCasesFailed = 0 ∨ p0.no_exitcode = true) ∧
      (code ≠ 0 ↔ q.numTestCasesFailed ≠ 0 ∧ p0.no_exitcode = false) ∧
      (code ≠ 0 → code = EXIT_FAILURE) := by
  obtain ⟨q, h1, h2⟩ := run_result testArray p0
  refine ⟨q, cleanup_and_return q, h1, ?_⟩
  unfold cleanup_and_return
  rw [h2]
  cases hx : p0.no_exitcode <;> by_cases hf : q.numTestCasesFailed = 0 <;>
    simp [hf, EXIT_SUCCESS, EXIT_FAILURE]
/-! ## The nesting levels of the sub-branch filters -/

theorem size_t_of_int_of_nonneg (n : Int) (h0 : 0 ≤ n) (h1 : n ≤ 2147483647) :
    size_t_of_int n = n.toNat := by
  unfold size_t_of_int
  rw [Int.emod_eq_of_lt h0 (by omega)]

set_option maxRecDepth 100000
/-- C21 (counterexample): with `subcase_filter_levels = -1` the conversion
`size_t(-1)` makes the filters apply at every depth: a sub-branch `A` reached
with an empty stack (0 >= -1 signatures) is entered with no filters and is not
entered with the include filter `x`. -/
theorem filter_levels_counterexample :
    ({ defaultContext with subcase_filter_levels := -1 } : ContextState).subcase_filter_levels ≤
      (({ defaultContext with subcase_filter_levels := -1 } :
        ContextState).subcasesStack.length : Int) ∧
    (Subcase.ctor (sampleSig ['A'] 10)
      { defaultContext with subcase_filter_levels := -1, filters := fun _ => [] }).2 = true ∧
    (Subcase.ctor (sampleSig ['A'] 10)
      { defaultContext with subcase_filter_levels := -1, filters := filtersOnlyX }).2 = false := by
  refine ⟨by decide, by decide, by decide⟩
set_option maxRecDepth 512

/-- C21 (amended): for `0 <= N = subcase_filter_levels`, a sub-branch reached when the
stack holds at least `N` signatures gets the same entry decision and the same
resulting state for every choice of the filter lists; and at stack depth below
`N` a sub-branch whose name fails the include filter or matches the exclude
filter is not entered and the state is left as it is. -/
theorem filter_levels_bound (sig : SubcaseSignature) (s : ContextState)
    (f g : Nat → List (List Char)) (h0 : 0 ≤ s.subcase_filter_levels)
    (h1 : s.subcase_filter_levels ≤ 2147483647) :
    (s.subcase_filter_levels ≤ (s.subcasesStack.length : Int) →
      (Subcase.ctor sig { s with filters := f }).2 =
        (Subcase.ctor sig { s with filters := g }).2 ∧
      { (Subcase.ctor sig { s with filters := f }).1 with filters := g } =
        (Subcase.ctor sig { s with filters := g }).1) ∧
    ((s.subcasesStack.length : Int) < s.subcase_filter_levels →
      (matchesAny sig.m_name (s.filters 6) true s.case_sensitive = false ∨
        matchesAny sig.m_name (s.filters 7) false s.case_sensitive = true) →
      Subcase.ctor sig s = (s, false)) := by
  have hs := size_t_of_int_of_nonneg _ h0 h1
  constructor
  · intro hd
    have hc : ¬ (s.subcasesStack.length < size_t_of_int s.subcase_filter_levels) := by
      rw [hs]; omega
    simp only [Subcase.ctor, hc, false_and, if_false, iterateThroughReporters]
    split_ifs <;> exact ⟨rfl, rfl⟩
  · intro hd hm
    have hc : s.subcasesStack.length < size_t_of_int s.subcase_filter_levels := by
      rw [hs]; omega
    have hm2 : (!matchesAny sig.m_name (s.filters 6) true s.case_sensitive ||
        matchesAny sig.m_name (s.filters 7) false s.case_sensitive) = true := by
      rcases hm with h | h <;> simp [h]
    simp only [Subcase.ctor, hc, hm2, and_self, if_true]

theorem filter_levels_bound_witness :
    (Subcase.ctor (sampleSig ['B'] 11) { insideSubcaseA with filters := filtersOnlyX }).2 =
      (Subcase.ctor (sampleSig ['B'] 11) { insideSubcaseA with filters := fun _ => [] }).2 :=
  ((filter_levels_bound (sampleSig ['B'] 11) insideSubcaseA filtersOnlyX (fun _ => [])
    (by decide) (by decide)).1 (by decide)).1
/-! ## Reversed integer sequences -/

theorem kat.merge_reversed_ranges (a b : Nat) :
    kat.merge_and_renumber_reversed_integer_sequences (List.range a).reverse
      (List.range b).reverse = (List.range (a + b)).reverse := by
  unfold kat.merge_and_renumber_reversed_integer_sequences
  rw [Nat.add_comm a b, List.range_add, List.reverse_append, List.map_reverse]
  simp

theorem kat.impl_spec (N : Nat) :
    ∀ fuel, N ≤ fuel →
      kat.make_reversed_integer_sequence_impl fuel N = some (List.range N).reverse := by
  induction N using Nat.strong_induction_on with
  | _ N ih =>
    intro fuel hf
    rcases N with _ | _ | n
    · cases fuel <;> simp [kat.make_reversed_integer_sequence_impl]
    · cases fuel <;> simp [kat.make_reversed_integer_sequence_impl, List.range_succ]
    · rcases fuel with _ | f
      · omega
      · have h0 : (n + 2) / 2 < n + 2 := Nat.div_lt_self (by omega) (by omega)
        have h00 : 0 < (n + 2) / 2 := Nat.div_pos (by omega) (by omega)
        have e0 := ih ((n + 2) / 2) h0 f (by omega)
        have e1 := ih ((n + 2) - (n + 2) / 2) (by omega) f (by omega)
        have hsum : (n + 2) / 2 + ((n + 2) - (n + 2) / 2) = n + 2 := by omega
        simp only [kat.make_reversed_integer_sequence_impl, e0, e1]
        rw [kat.merge_reversed_ranges, hsum]

/-- C22: for every `N >= 0` the halving recursion of
`make_reversed_integer_sequence_impl` ends within `N` nested instantiations and
`make_reversed_integer_sequence<T, N>` is the sequence `N-1, N-2, ..., 1, 0`: it
has size `N` and its element at position `i` is `N - 1 - i`. -/
theorem kat.reversed_integer_sequence_descends (N : Nat) :
    (∀ fuel, N ≤ fuel →
      kat.make_reversed_integer_sequence_impl fuel N =
        some (kat.make_reversed_integer_sequence N)) ∧
    kat.make_reversed_integer_sequence N = (List.range N).reverse ∧
    (kat.make_reversed_integer_sequence N).length = N ∧
    (∀ i, i < N → (kat.make_reversed_integer_sequence N)[i]? = some (N - 1 - i)) ∧
    kat.make_reversed_integer_sequence 0 = [] ∧
    kat.make_reversed_integer_sequence 5 = [4, 3, 2, 1, 0] := by
  have e : kat.make_reversed_integer_sequence N = (List.range N).reverse := by
    unfold kat.make_reversed_integer_sequence
    rw [kat.impl_spec N N (Nat.le_refl _)]
    rfl
  refine ⟨?_, e, ?_, ?_, by decide, by decide⟩
  · intro fuel hf
    rw [e, kat.impl_spec N fuel hf]
  · rw [e]; simp
  · intro i hi
    rw [e, List.getElem?_eq_getElem (by simpa using hi)]
    simp [List.getElem_reverse]
/-! ## The fatal-condition handler -/

theorem reportFatalLoop_spec (n : Nat) :
    ∀ s : ContextState, s.subcasesStack.length = n →
      (reportFatalLoop n s).events = s.events ++ List.replicate n Event.subcase_end ∧
      (reportFatalLoop n s).subcasesStack = [] ∧
      (reportFatalLoop n s).currentTest = s.currentTest ∧
      (reportFatalLoop n s).failure_flags = s.failure_flags := by
  induction n with
  | zero =>
    intro s h
    exact ⟨by simp [reportFatalLoop], List.length_eq_zero.mp h, rfl, rfl⟩
  | succ m ih =>
    intro s h
    have hne : s.subcasesStack.length ≠ 0 := by omega
    have hlen : (iterateThroughReporters Event.subcase_end
        { s with subcasesStack := s.subcasesStack.dropLast }).subcasesStack.length = m := by
      show s.subcasesStack.dropLast.length = m
      rw [List.length_dropLast]; omega
    obtain ⟨e1, e2, e3, e4⟩ := ih _ hlen
    simp only [reportFatalLoop, hne, ne_eq, not_false_eq_true, if_true]
    refine ⟨?_, e2, e3, e4⟩
    rw [e1]
    simp [iterateThroughReporters, List.replicate_succ]

theorem finalize_stack (tc : TestCase) (s : ContextState) :
    (finalizeTestCaseDataFor tc s).subcasesStack = s.subcasesStack := by
  have h1 : ∀ t, (countFailure t).subcasesStack = t.subcasesStack := by
    intro t; unfold countFailure; split_ifs <;> rfl
  have h2 : ∀ t, (applyDecorators tc t).subcasesStack = t.subcasesStack := by
    intro t; unfold applyDecorators; split_ifs <;> rfl
  have h3 : (beforeDecorators tc s).subcasesStack = s.subcasesStack := by
    unfold beforeDecorators; simp only; split_ifs <;> rfl
  rw [finalize_eq, h1, h2, h3]

/-- C23: when the fatal-condition handler fires inside a test body, `reportFatal`
sets the `Crash` flag and the reporters receive one `test_case_exception` with
`is_crash = true`, then one `subcase_end` for every sub-branch on the stack,
which is emptied, then `test_case_end` and `test_run_end`; after that the
handler, which has been reset, raises the signal again.  The record holds
exactly one crash event more than before. -/
theorem fatal_signal_reports_crash (tc : TestCase) (s : ContextState) (sig : Int)
    (hcur : s.currentTest = some tc) :
    ∃ s1, FatalConditionHandler.handleSignal sig s =
        some { state := s1, isSet := false, raised := sig } ∧
      reportFatal s = some s1 ∧
      s1.events =
        s.events ++ [Event.test_case_exception true] ++
          List.replicate s.subcasesStack.length Event.subcase_end ++
          [Event.test_case_end, Event.test_run_end] ∧
      s1.subcasesStack = [] ∧
      TestCaseFailureReason.Crash &&& s1.failure_flags ≠ 0 ∧
      (s1.events.filter Event.isCrash).length = (s.events.filter Event.isCrash).length + 1 := by
  obtain ⟨e1, e2, e3, e4⟩ := reportFatalLoop_spec s.subcasesStack.length
    (iterateThroughReporters (Event.test_case_exception true)
      (orFailureFlag TestCaseFailureReason.Crash s)) rfl
  have hrep0 : reportFatal s =
      match finalizeTestCaseData (reportFatalLoop s.subcasesStack.length
        (iterateThroughReporters (Event.test_case_exception true)
          (orFailureFlag TestCaseFailureReason.Crash s))) with
      | none => none
      | some s4 => some (iterateThroughReporters Event.test_run_end
          (iterateThroughReporters Event.test_case_end s4)) := rfl
  have f1 : (iterateThroughReporters (Event.test_case_exception true)
      (orFailureFlag TestCaseFailureReason.Crash s)).events =
        s.events ++ [Event.test_case_exception true] := rfl
  have f2 : (iterateThroughReporters (Event.test_case_exception true)
      (orFailureFlag TestCaseFailureReason.Crash s)).currentTest = s.currentTest := rfl
  have f3 : (iterateThroughReporters (Event.test_case_exception true)
      (orFailureFlag TestCaseFailureReason.Crash s)).failure_flags =
        s.failure_flags ||| TestCaseFailureReason.Crash := rfl
  rw [f1] at e1
  rw [f2, hcur] at e3
  rw [f3] at e4
  generalize reportFatalLoop s.subcasesStack.length
    (iterateThroughReporters (Event.test_case_exception true)
      (orFailureFlag TestCaseFailureReason.Crash s)) = L at e1 e2 e3 e4 hrep0
  have hfin : finalizeTestCaseData L = some (finalizeTestCaseDataFor tc L) := by
    simp only [finalizeTestCaseData, e3]
  rw [hfin] at hrep0
  simp only at hrep0
  have g1 := finalize_events tc L
  have g2 := finalize_stack tc L
  have g3 : TestCaseFailureReason.Crash &&& (finalizeTestCaseDataFor tc L).failure_flags ≠ 0 := by
    apply finalize_flag
    rw [e4, land_lor_self]
    decide
  generalize finalizeTestCaseDataFor tc L = F at g1 g2 g3 hrep0
  have hev : (iterateThroughReporters Event.test_run_end
      (iterateThroughReporters Event.test_case_end F)).events =
      s.events ++ [Event.test_case_exception true] ++
        List.replicate s.subcasesStack.length Event.subcase_end ++
        [Event.test_case_end, Event.test_run_end] := by
    have : (iterateThroughReporters Event.test_run_end
      (iterateThroughReporters Event.test_case_end F)).events =
        F.events ++ [Event.test_case_end] ++ [Event.test_run_end] := rfl
    rw [this, g1, e1]
    simp
  refine ⟨iterateThroughReporters Event.test_run_end
      (iterateThroughReporters Event.test_case_end F), ?_, hrep0, hev, ?_, ?_, ?_⟩
  · unfold FatalConditionHandler.handleSignal
    rw [hrep0]
  · exact g2.trans e2
  · exact g3
  · rw [hev]
    simp only [List.filter_append, List.length_append]
    have h1 : (List.replicate s.subcasesStack.length Event.subcase_end).filter Event.isCrash
        = [] := by
      rw [List.filter_eq_nil_iff]
      intro e he
      rw [List.eq_of_mem_replicate he]
      simp [Event.isCrash]
    rw [h1]
    simp [List.filter, Event.isCrash]

theorem fatal_signal_reports_crash_witness :
    ∃ s1, reportFatal crashState = some s1 ∧
      s1.events =
        crashState.events ++ [Event.test_case_exception true] ++
          List.replicate crashState.subcasesStack.length Event.subcase_end ++
          [Event.test_case_end, Event.test_run_end] :=
  let ⟨s1, _, h2, h3, _⟩ := fatal_signal_reports_crash (sampleTest bodyAB) crashState 11 rfl
  ⟨s1, h2, h3⟩
/-! ## Assertions logged from several threads -/

theorem sum_map_set {α : Type} (w : α → Nat) (threads : List α) (i : Nat) (x y : α)
    (h : threads[i]? = some x) :
    ((threads.set i y).map w).sum + w x = (threads.map w).sum + w y := by
  induction threads generalizing i with
  | nil => simp at h
  | cons t rest ih =>
    cases i with
    | zero =>
      simp only [List.getElem?_cons_zero, Option.some.injEq] at h
      simp only [List.set_cons_zero, List.map_cons, List.sum_cons, h]
      omega
    | succ j =>
      simp only [List.getElem?_cons_succ] at h
      have := ih j h
      simp only [List.set_cons_succ, List.map_cons, List.sum_cons]
      omega

theorem pendingAsserts_threadOps (asserts : List (Nat × Bool)) :
    pendingAsserts (threadOps asserts) = countedAsserts asserts ∧
    pendingFailures (threadOps asserts) = countedFailures asserts := by
  induction asserts with
  | nil => exact ⟨rfl, rfl⟩
  | cons x rest ih =>
    obtain ⟨a, failed⟩ := x
    cases failed <;>
      simp [threadOps, logOps, pendingAsserts, pendingFailures, countedAsserts,
        countedFailures, ih.1, ih.2]

theorem CounterOp.apply_counters (op : CounterOp) (rest : List CounterOp) (s : ContextState) :
    (op.apply s).numAssertsCurrentTest_atomic + (pendingAsserts rest : Int) =
      s.numAssertsCurrentTest_atomic + (pendingAsserts (op :: rest) : Int) ∧
    (op.apply s).numAssertsFailedCurrentTest_atomic + (pendingFailures rest : Int) =
      s.numAssertsFailedCurrentTest_atomic + (pendingFailures (op :: rest) : Int) ∧
    (op.apply s).numAsserts = s.numAsserts ∧
    (op.apply s).numAssertsFailed = s.numAssertsFailed := by
  cases op with
  | countAssert a =>
    simp only [CounterOp.apply, addAssert, pendingAsserts, pendingFailures]
    split_ifs <;> simp <;> omega
  | countFailedAssert a =>
    simp only [CounterOp.apply, addFailedAssert, pendingAsserts, pendingFailures]
    split_ifs <;> simp <;> omega

theorem runThreads_invariant (schedule : List Nat) :
    ∀ (threads : List (List CounterOp)) (s : ContextState),
      (runThreads schedule threads s).1.numAssertsCurrentTest_atomic +
          (((runThreads schedule threads s).2.map pendingAsserts).sum : Int) =
        s.numAssertsCurrentTest_atomic + ((threads.map pendingAsserts).sum : Int) ∧
      (runThreads schedule threads s).1.numAssertsFailedCurrentTest_atomic +
          (((runThreads schedule threads s).2.map pendingFailures).sum : Int) =
        s.numAssertsFailedCurrentTest_atomic + ((threads.map pendingFailures).sum : Int) ∧
      (runThreads schedule threads s).1.numAsserts = s.numAsserts ∧
      (runThreads schedule threads s).1.numAssertsFailed = s.numAssertsFailed := by
  induction schedule with
  | nil => intro threads s; exact ⟨rfl, rfl, rfl, rfl⟩
  | cons i rest ih =>
    intro threads s
    cases hi : threads[i]? with
    | none =>
      simp only [runThreads, hi]
      exact ih threads s
    | some ops =>
      cases ops with
      | nil =>
        simp only [runThreads, hi]
        exact ih threads s
      | cons op more =>
        simp only [runThreads, hi]
        obtain ⟨h1, h2, h3, h4⟩ := ih (threads.set i more) (op.apply s)
        obtain ⟨k1, k2, k3, k4⟩ := CounterOp.apply_counters op more s
        have m1 := sum_map_set pendingAsserts threads i (op :: more) more hi
        have m2 := sum_map_set pendingFailures threads i (op :: more) more hi
        refine ⟨?_, ?_, h3.trans k3, h4.trans k4⟩
        · rw [h1]; omega
        · rw [h2]; omega

theorem sum_pending_of_finished (w : List CounterOp → Nat) (hw : w [] = 0)
    (threads : List (List CounterOp)) (h : threads.all List.isEmpty = true) :
    (threads.map w).sum = 0 := by
  induction threads with
  | nil => rfl
  | cons t rest ih =>
    simp only [List.all_cons, Bool.and_eq_true, List.isEmpty_eq_true] at h
    simp only [List.map_cons, List.sum_cons, h.1, hw, ih h.2]

theorem sum_map_threadOps (programs : List (List (Nat × Bool))) :
    ((programs.map threadOps).map pendingAsserts).sum = (programs.map countedAsserts).sum ∧
    ((programs.map threadOps).map pendingFailures).sum =
      (programs.map countedFailures).sum := by
  induction programs with
  | nil => exact ⟨rfl, rfl⟩
  | cons p rest ih =>
    simp only [List.map_cons, List.sum_cons, (pendingAsserts_threadOps p).1,
      (pendingAsserts_threadOps p).2, ih.1, ih.2, and_self]

theorem finalize_numAsserts (tc : TestCase) (s : ContextState) :
    (finalizeTestCaseDataFor tc s).numAsserts =
      s.numAsserts + s.numAssertsCurrentTest_atomic := by
  have h1 : ∀ t, (countFailure t).numAsserts = t.numAsserts := by
    intro t; unfold countFailure; split_ifs <;> rfl
  have h2 : ∀ t, (applyDecorators tc t).numAsserts = t.numAsserts := by
    intro t; unfold applyDecorators; split_ifs <;> rfl
  have h3 : (beforeDecorators tc s).numAsserts =
      s.numAsserts + s.numAssertsCurrentTest_atomic := by
    unfold beforeDecorators; simp only; split_ifs <;> rfl
  rw [finalize_eq, h1, h2, h3]

/-- C24: when the threads of a test body log their assertions under any schedule of
the atomic increments and all of them have finished, no increment is lost: the
counters of the current test case have grown by the numbers of non-warn
assertions evaluated and failed on all threads, and `finalizeTestCaseData` adds
exactly these numbers, with what the counters held before, to `numAsserts` and
`numAssertsFailed`. -/
theorem concurrent_counters (schedule : List Nat) (programs : List (List (Nat × Bool)))
    (s : ContextState) (tc : TestCase)
    (hdone : (runThreads schedule (programs.map threadOps) s).2.all List.isEmpty = true) :
    (runThreads schedule (programs.map threadOps) s).1.numAssertsCurrentTest_atomic =
      s.numAssertsCurrentTest_atomic + ((programs.map countedAsserts).sum : Int) ∧
    (runThreads schedule (programs.map threadOps) s).1.numAssertsFailedCurrentTest_atomic =
      s.numAssertsFailedCurrentTest_atomic + ((programs.map countedFailures).sum : Int) ∧
    (finalizeTestCaseDataFor tc (runThreads schedule (programs.map threadOps) s).1).numAsserts =
      s.numAsserts + s.numAssertsCurrentTest_atomic +
        ((programs.map countedAsserts).sum : Int) ∧
    (finalizeTestCaseDataFor tc
        (runThreads schedule (programs.map threadOps) s).1).numAssertsFailed =
      s.numAssertsFailed + s.numAssertsFailedCurrentTest_atomic +
        ((programs.map countedFailures).sum : Int) := by
  obtain ⟨h1, h2, h3, h4⟩ := runThreads_invariant schedule (programs.map threadOps) s
  have z1 := sum_pending_of_finished pendingAsserts rfl _ hdone
  have z2 := sum_pending_of_finished pendingFailures rfl _ hdone
  obtain ⟨c1, c2⟩ := sum_map_threadOps programs
  rw [z1, c1] at h1
  rw [z2, c2] at h2
  have a1 : (runThreads schedule (programs.map threadOps) s).1.numAssertsCurrentTest_atomic =
      s.numAssertsCurrentTest_atomic + ((programs.map countedAsserts).sum : Int) := by
    simpa using h1
  have a2 : (runThreads schedule (programs.map threadOps) s).1.numAssertsFailedCurrentTest_atomic
      = s.numAssertsFailedCurrentTest_atomic + ((programs.map countedFailures).sum : Int) := by
    simpa using h2
  refine ⟨a1, a2, ?_, ?_⟩
  · rw [finalize_numAsserts, h3, a1]; omega
  · rw [finalize_numAssertsFailed, h4, a2]; omega

set_option maxRecDepth 100000
theorem concurrent_counters_witness :
    (runThreads [0, 1, 0, 0, 1, 0]
      ([[(assertType.DT_CHECK, true), (assertType.DT_WARN, true)],
        [(assertType.DT_CHECK, false), (assertType.DT_REQUIRE, false)]].map threadOps)
      defaultContext).1.numAssertsCurrentTest_atomic = 0 + ((1 + 0) + ((1 + (1 + 0)) + 0) : Nat) ∧
    (runThreads [0, 1, 0, 0, 1, 0]
      ([[(assertType.DT_CHECK, true), (assertType.DT_WARN, true)],
        [(assertType.DT_CHECK, false), (assertType.DT_REQUIRE, false)]].map threadOps)
      defaultContext).1.numAssertsFailedCurrentTest_atomic = 0 + ((1 + 0) + (0 + 0) : Nat) :=
  ⟨(concurrent_counters [0, 1, 0, 0, 1, 0]
      [[(assertType.DT_CHECK, true), (assertType.DT_WARN, true)],
        [(assertType.DT_CHECK, false), (assertType.DT_REQUIRE, false)]]
      defaultContext (sampleTest Body.done) (by decide)).1,
   (concurrent_counters [0, 1, 0, 0, 1, 0]
      [[(assertType.DT_CHECK, true), (assertType.DT_WARN, true)],
        [(assertType.DT_CHECK, false), (assertType.DT_REQUIRE, false)]]
      defaultContext (sampleTest Body.done) (by decide)).2.1⟩
set_option maxRecDepth 512
/-! ## What the passed-branch memo holds -/

theorem runIteration_memo (tc : TestCase) (p0 p : ContextState) (k : Nat)
    (ha : p0.abort_after ≤ 0) (hnt : noThrow tc.m_test = true)
    (hd : distinctSiblings (filterBody p0 0 tc.m_test) = true)
    (hfr : loopFrame p = loopFrame p0)
    (hA : memoAgrees p.subcasesPassed k [] (filterBody p0 0 tc.m_test)) :
    memoAgrees (runIteration tc p).1.subcasesPassed (k + 1) [] (filterBody p0 0 tc.m_test) ∧
    ∀ q ∈ (runIteration tc p).1.subcasesPassed,
      q ∈ p.subcasesPassed ∨ q ∈ nodePaths [] (filterBody p0 0 tc.m_test) := by
  have hopt : sameSubcaseFilters (loopReset p) p0 := sameSubcaseFilters_of_frame hfr
  have hab : p.abort_after = p0.abort_after :=
    (congrArg ContextState.abort_after hfr :
      (loopFrame p).abort_after = (loopFrame p0).abort_after)
  have hex : execBody tc.m_test (loopReset p) =
      execBody (filterBody p0 0 tc.m_test) (loopReset p) := by
    rw [execBody_filterBody tc.m_test (loopReset p), filterBody_of_options hopt]
    rfl
  obtain ⟨t1, t2, _, _⟩ := execBody_traversal (filterBody p0 0 tc.m_test) (loopReset p) k
    (by show p.abort_after ≤ 0; omega) (noThrow_filterBody _ _ _ hnt)
    (by rw [allVisible_of_options hopt]; exact allVisible_filterBody p0 0 tc.m_test)
    hd (Nat.le_refl _) rfl hA
  obtain ⟨f1, _, _, _⟩ := runIteration_fields tc p
  rw [hex] at f1
  rw [f1]
  exact ⟨t2, t1⟩

theorem iterationState_memo (tc : TestCase) (p0 : ContextState)
    (ha : p0.abort_after ≤ 0) (hnt : noThrow tc.m_test = true)
    (hd : distinctSiblings (filterBody p0 0 tc.m_test) = true) (j : Nat) :
    ∀ (k : Nat) (p : ContextState), loopFrame p = loopFrame p0 →
      memoAgrees p.subcasesPassed k [] (filterBody p0 0 tc.m_test) →
      memoAgrees (iterationState tc j p).subcasesPassed (k + j) []
        (filterBody p0 0 tc.m_test) ∧
      ∀ q ∈ (iterationState tc j p).subcasesPassed,
        q ∈ p.subcasesPassed ∨ q ∈ nodePaths [] (filterBody p0 0 tc.m_test) := by
  induction j with
  | zero => intro k p _ hA; exact ⟨hA, fun q hq => Or.inl hq⟩
  | succ n ih =>
    intro k p hfr hA
    obtain ⟨m1, m2⟩ := runIteration_memo tc p0 p k ha hnt hd hfr hA
    obtain ⟨i1, i2⟩ := ih (k + 1) (runIteration tc p).1 ((runIteration_frame tc p).trans hfr) m1
    refine ⟨?_, ?_⟩
    · have e : k + (n + 1) = k + 1 + n := by omega
      rw [e]
      exact i1
    · intro q hq
      rcases i2 q hq with h | h
      · exact m2 q h
      · exact Or.inr h

set_option maxRecDepth 100000
/-- C25 (counterexample): in `SUBCASE("A") { SUBCASE("A1") {} SUBCASE("A2") {} }
SUBCASE("B") {}` the second invocation records the path `A`, which is the path
of a sub-branch with nested sub-branches and not a leaf path, while the
driving loop is still running. -/
theorem memo_non_leaf_counterexample :
    reachesIteration (sampleTest bodyNested) 2 defaultContext = true ∧
    [sampleSig ['A'] 10] ∈
      (iterationState (sampleTest bodyNested) 2 defaultContext).subcasesPassed ∧
    [sampleSig ['A'] 10] ∉ leafPaths bodyNested ∧
    [sampleSig ['A'] 10] ∈ nodePaths [] bodyNested := by
  refine ⟨by decide, by decide, by decide, by decide⟩
set_option maxRecDepth 512

/-- C25 (amended): for a body that does not throw, with the abort threshold disabled
and distinct siblings, at every point of the driving loop every element of the
memo is the path of a sub-branch of the body, and after `j` invocations the path
of a sub-branch is in the memo iff all the leaf paths under it are among the
first `j` leaf paths: a leaf path is recorded when it has been executed, and the
path of a sub-branch with nested sub-branches when the last leaf under it has. -/
theorem memo_holds_completed_subtrees (tc : TestCase) (p : ContextState) (j : Nat)
    (ha : p.abort_after ≤ 0) (hnt : noThrow tc.m_test = true)
    (hd : distinctSiblings (filterBody p 0 tc.m_test) = true)
    (hmemo : p.subcasesPassed = []) :
    memoAgrees (iterationState tc j p).subcasesPassed j [] (filterBody p 0 tc.m_test) ∧
    ∀ q ∈ (iterationState tc j p).subcasesPassed, q ∈ nodePaths [] (filterBody p 0 tc.m_test) := by
  obtain ⟨h1, h2⟩ := iterationState_memo tc p ha hnt hd j 0 p rfl
    (by rw [hmemo]; exact memoAgrees_nil _ _)
  refine ⟨by simpa using h1, ?_⟩
  intro q hq
  rcases h2 q hq with h | h
  · rw [hmemo] at h
    simp at h
  · exact h

set_option maxRecDepth 100000
theorem memo_holds_completed_subtrees_witness :
    memoAgrees (iterationState (sampleTest bodyNested) 2 defaultContext).subcasesPassed 2 []
      (filterBody defaultContext 0 (sampleTest bodyNested).m_test) ∧
    ∀ q ∈ (iterationState (sampleTest bodyNested) 2 defaultContext).subcasesPassed,
      q ∈ nodePaths [] (filterBody defaultContext 0 (sampleTest bodyNested).m_test) :=
  memo_holds_completed_subtrees (sampleTest bodyNested) defaultContext 2 (by decide) (by decide)
    (by decide) rfl
set_option maxRecDepth 512
/-! ## No path is entered twice -/

theorem ctor_entered_not_passed (sig : SubcaseSignature) (s : ContextState)
    (h : (Subcase.ctor sig s).2 = true) :
    setCount s.subcasesPassed (s.subcasesStack ++ [sig]) = 0 ∧
    (Subcase.ctor sig s).1.subcasesStack = s.subcasesStack ++ [sig] := by
  unfold Subcase.ctor at h ⊢
  split_ifs at h ⊢ with c1 c2 c3
  all_goals first
    | exact ⟨by simpa using c3, rfl⟩
    | simp at h

theorem ctor_passed_eq (sig : SubcaseSignature) (s : ContextState) :
    (Subcase.ctor sig s).1.subcasesPassed = s.subcasesPassed := by
  unfold Subcase.ctor
  split_ifs <;> rfl

theorem iterationState_passed_mono (tc : TestCase) (j : Nat) (s : ContextState)
    (q : List SubcaseSignature) (h : q ∈ s.subcasesPassed) :
    q ∈ (iterationState tc j s).subcasesPassed := by
  induction j generalizing s with
  | zero => exact h
  | succ n ih => exact ih _ (runIteration_passed_mono tc s q h)

/-- C26: whenever a `Subcase` is entered, the stack with its signature is not in
`subcasesPassed`; the memo is cleared when a test case starts and only grows
while the body runs and from one invocation to the next; and a path is found
in the memo iff the memo holds that very sequence of signatures. -/
theorem no_reentry_of_passed_path (sig : SubcaseSignature) (s : ContextState) (b : Body)
    (tc : TestCase) :
    ((Subcase.ctor sig s).2 = true →
      s.subcasesStack ++ [sig] ∉ s.subcasesPassed ∧
      (Subcase.ctor sig s).1.subcasesStack = s.subcasesStack ++ [sig]) ∧
    (Subcase.ctor sig s).1.subcasesPassed = s.subcasesPassed ∧
    (beginTestCase tc s).subcasesPassed = [] ∧
    (∀ q ∈ s.subcasesPassed, q ∈ (execBody b s).1.subcasesPassed) ∧
    (∀ q ∈ s.subcasesPassed, q ∈ (runIteration tc s).1.subcasesPassed) ∧
    (∀ j, ∀ q ∈ s.subcasesPassed, q ∈ (iterationState tc j s).subcasesPassed) ∧
    (∀ (memo : List (List SubcaseSignature)) (key : List SubcaseSignature),
      setCount memo key ≠ 0 ↔ key ∈ memo) := by
  refine ⟨?_, ctor_passed_eq sig s, rfl, fun q hq => execBody_passed_mono b s q hq,
    fun q hq => runIteration_passed_mono tc s q hq,
    fun j q hq => iterationState_passed_mono tc j s q hq, setCount_ne_zero⟩
  intro h
  obtain ⟨h1, h2⟩ := ctor_entered_not_passed sig s h
  refine ⟨?_, h2⟩
  intro hm
  exact (setCount_ne_zero _ _).mpr hm h1
/-! ## The order of signatures -/

theorem strcmp_eq_zero_iff (a b : List Char) : strcmp a b = 0 ↔ a = b :=
  ⟨(strcmp_sign a b).1, fun h => by rw [h]; exact strcmp_self b⟩

theorem strcmp_trans (a : List Char) :
    ∀ b c : List Char, strcmp a b < 0 → strcmp b c < 0 → strcmp a c < 0 := by
  induction a with
  | nil =>
    intro b c h1 h2
    cases b with
    | nil => simp [strcmp] at h1
    | cons d t =>
      cases c with
      | nil => simp [strcmp] at h2
      | cons e u => simp [strcmp]
  | cons x s ih =>
    intro b c h1 h2
    cases b with
    | nil => simp [strcmp] at h1
    | cons d t =>
      cases c with
      | nil => simp [strcmp] at h2
      | cons e u =>
        by_cases hxd : x = d
        · subst hxd
          by_cases hde : x = e
          · subst hde
            simp only [strcmp, if_true] at h1 h2 ⊢
            exact ih t u h1 h2
          · simp only [strcmp, if_true, hde, if_false] at h1 h2 ⊢
            exact h2
        · by_cases hde : d = e
          · subst hde
            simp only [strcmp, hxd, if_false] at h1 ⊢
            exact h1
          · have hxe : x ≠ e := by
              intro e2
              subst e2
              simp only [strcmp, hxd, if_false, hde] at h1 h2
              omega
            simp only [strcmp, hxd, hde, hxe, if_false] at h1 h2 ⊢
            omega

theorem SubcaseSignature.lt_iff (a b : SubcaseSignature) :
    a.lt b = true ↔
      a.m_line < b.m_line ∨
      (a.m_line = b.m_line ∧
        (strcmp a.m_file b.m_file < 0 ∨
          (a.m_file = b.m_file ∧ strcmp a.m_name b.m_name < 0))) := by
  unfold SubcaseSignature.lt
  by_cases h1 : a.m_line = b.m_line
  · by_cases h2 : strcmp a.m_file b.m_file = 0
    · have h3 := (strcmp_eq_zero_iff _ _).mp h2
      simp [h1, h2, h3, strcmp_self]
    · have h3 : a.m_file ≠ b.m_file := fun e => h2 ((strcmp_eq_zero_iff _ _).mpr e)
      simp [h1, h2, h3]
  · simp only [ne_eq, h1, not_false_eq_true, if_true, decide_eq_true_eq, false_and, or_false]

/-- C27: `SubcaseSignature::operator<` is the lexicographic order by line, then file
contents, then name: it is irreflexive and transitive, two signatures are
unordered in both directions iff they have the same line, file and name, and
two different signatures are ordered one way or the other. -/
theorem signature_order (a b c : SubcaseSignature) :
    a.lt a = false ∧
    (a.lt b = true → b.lt c = true → a.lt c = true) ∧
    ((a.lt b = false ∧ b.lt a = false) ↔
      (a.m_line = b.m_line ∧ a.m_file = b.m_file ∧ a.m_name = b.m_name)) ∧
    (a.lt b = true ↔
      a.m_line < b.m_line ∨
      (a.m_line = b.m_line ∧
        (strcmp a.m_file b.m_file < 0 ∨
          (a.m_file = b.m_file ∧ strcmp a.m_name b.m_name < 0)))) ∧
    (a ≠ b → a.lt b = true ∨ b.lt a = true) := by
  refine ⟨SubcaseSignature.lt_irrefl a, ?_, ?_, SubcaseSignature.lt_iff a b, ?_⟩
  · intro h1 h2
    rw [SubcaseSignature.lt_iff] at h1 h2 ⊢
    rcases h1 with h1 | ⟨l1, h1⟩
    · rcases h2 with h2 | ⟨l2, _⟩
      · exact Or.inl (by omega)
      · exact Or.inl (by omega)
    · rcases h2 with h2 | ⟨l2, h2⟩
      · exact Or.inl (by omega)
      · refine Or.inr ⟨l1.trans l2, ?_⟩
        rcases h1 with h1 | ⟨f1, h1⟩
        · rcases h2 with h2 | ⟨f2, _⟩
          · exact Or.inl (strcmp_trans _ _ _ h1 h2)
          · rw [← f2]; exact Or.inl h1
        · rcases h2 with h2 | ⟨f2, h2⟩
          · rw [f1]; exact Or.inl h2
          · exact Or.inr ⟨f1.trans f2, strcmp_trans _ _ _ h1 h2⟩
  · constructor
    · rintro ⟨h1, h2⟩
      have := SubcaseSignature.eq_of_not_lt a b h1 h2
      rw [this]
      exact ⟨rfl, rfl, rfl⟩
    · rintro ⟨h1, h2, h3⟩
      have : a = b := by cases a; cases b; simp_all
      rw [this]
      exact ⟨SubcaseSignature.lt_irrefl b, SubcaseSignature.lt_irrefl b⟩
  · intro hne
    by_contra hc
    push_neg at hc
    exact hne (SubcaseSignature.eq_of_not_lt a b (by simpa using hc.1) (by simpa using hc.2))
/-! ## An execution range with `last < first` -/

set_option maxRecDepth 100000
/-- C28 (counterexample): with `first = 2` and `last = 1` (so `last < first`) and
two registered test cases, the second one is executed: its body is invoked
once. -/
theorem empty_range_counterexample :
    ({ defaultContext with first := 2, last := 1 } : ContextState).last <
      ({ defaultContext with first := 2, last := 1 } : ContextState).first ∧
    ∃ q loc2 ns n, runTestArray false [sampleTest Body.done, sampleTest bodyAB]
        { defaultContext with first := 2, last := 1 } ⟨[], []⟩ = some (q, loc2, ns) ∧
      ns[1]? = some n ∧ 0 < n := by
  refine ⟨by decide, ?_⟩
  obtain ⟨q, loc2, ns, h1, _, h3⟩ := runTestArray_spec [sampleTest Body.done, sampleTest bodyAB]
    { defaultContext with first := 2, last := 1 } ⟨[], []⟩ rfl rfl rfl (by decide)
  obtain ⟨n, k1, k2⟩ := h3 [sampleTest Body.done] (sampleTest bodyAB) [] rfl
  exact ⟨q, loc2, ns, n, h1, k1, k2.mpr ⟨by decide, by decide⟩⟩
set_option maxRecDepth 512

/-- C28 (amended): in a normal run with the abort threshold disabled and
`last < first`, the upper end of the execution range is not applied: the body
of a test case is executed iff it passes the selection filters and its 1-based
position among the test cases passing them is at least `first`; the test cases
before that position are skipped. -/
theorem empty_range_runs_from_first (p : ContextState) (pre post : List TestCase)
    (tc : TestCase) (loc : RunLocals) (hc : p.count = false)
    (hl : p.list_test_cases = false) (hs : p.list_test_suites = false)
    (ha : p.abort_after ≤ 0) (hfl : p.last < p.first)
    (h0 : p.numTestCasesPassingFilters = 0) :
    ∃ q loc2 ns n, runTestArray false (pre ++ tc :: post) p loc = some (q, loc2, ns) ∧
      ns[pre.length]? = some n ∧
      (0 < n ↔ passesSelection p tc.toTestCaseData ∧
        p.first ≤ (selectedBefore p pre).length + 1) := by
  obtain ⟨q, loc2, ns, h1, _, h3⟩ := runTestArray_spec (pre ++ tc :: post) p loc hc hl hs ha
  obtain ⟨n, k1, k2⟩ := h3 pre tc post rfl
  refine ⟨q, loc2, ns, n, h1, k1, ?_⟩
  rw [k2, skipByFilters_iff, h0]
  constructor
  · rintro ⟨a, b⟩
    refine ⟨a, ?_⟩
    by_contra hcon
    exact b (Or.inr (by omega))
  · rintro ⟨a, b⟩
    refine ⟨a, ?_⟩
    rintro (⟨_, d⟩ | d) <;> omega

theorem empty_range_runs_from_first_witness :
    ∃ q loc2 ns n,
      runTestArray false ([sampleTest Body.done] ++ sampleTest Body.done :: [])
        { defaultContext with first := 2, last := 1 } ⟨[], []⟩ = some (q, loc2, ns) ∧
      ns[[sampleTest Body.done].length]? = some n ∧
      (0 < n ↔ passesSelection { defaultContext with first := 2, last := 1 }
          (sampleTest Body.done).toTestCaseData ∧
        ({ defaultContext with first := 2, last := 1 } : ContextState).first ≤
          (selectedBefore { defaultContext with first := 2, last := 1 }
            [sampleTest Body.done]).length + 1) :=
  empty_range_runs_from_first { defaultContext with first := 2, last := 1 }
    [sampleTest Body.done] [] (sampleTest Body.done) ⟨[], []⟩ rfl rfl rfl (by decide)
    (by decide) rfl
/-! ## A sub-branch statement executed twice -/

theorem execBody_seq (first second : Body) (s : ContextState) :
    execBody (first.seq second) s =
      if (execBody first s).2 = Outcome.normal then execBody second (execBody first s).1
      else execBody first s := by
  induction first generalizing s with
  | done => simp [Body.seq, execBody]
  | throwOther => simp [Body.seq, execBody]
  | assertion a f rest ih =>
    simp only [Body.seq, execBody]
    split_ifs with h1 h2 h2
    · simp at h2
    · rfl
    · rw [ih, if_pos h2]
    · rw [ih, if_neg h2]
  | subcase sig inner rest ih1 ih2 =>
    simp only [Body.seq]
    cases he : (Subcase.ctor sig s).2
    · rw [execBody_subcase_skipped _ _ _ _ he, execBody_subcase_skipped _ _ _ _ he, ih2]
    · rw [execBody_subcase_entered _ _ _ _ he, execBody_subcase_entered _ _ _ _ he]
      by_cases hn : (execBody inner (Subcase.ctor sig s).1).2 = Outcome.normal
      · rw [if_pos hn, if_pos hn, ih2]
      · rw [if_neg hn, if_neg hn, if_neg hn]

theorem execBody_maxLevel_mono (b : Body) (s : ContextState) :
    s.subcasesCurrentMaxLevel ≤ (execBody b s).1.subcasesCurrentMaxLevel := by
  induction b generalizing s with
  | done => exact Nat.le_refl _
  | throwOther => exact Nat.le_refl _
  | assertion a f rest ih =>
    have h1 : (ResultBuilder.log a f s).subcasesCurrentMaxLevel = s.subcasesCurrentMaxLevel :=
      congrArg EngineView.maxLevel (log_view a f s)
    simp only [execBody]
    split_ifs
    · exact Nat.le_of_eq (congrArg EngineView.maxLevel (assertion_view a f s)).symm
    · exact Nat.le_trans (Nat.le_of_eq h1.symm) (ih _)
  | subcase sig inner rest ih1 ih2 =>
    by_cases hv : visible s s.subcasesStack.length sig = true
    · by_cases hl : s.subcasesStack.length < s.subcasesCurrentMaxLevel
      · have hc := ctor_level sig s hv hl
        rw [execBody_subcase_skipped _ _ _ _ (by rw [hc])]
        refine Nat.le_trans ?_ (ih2 (Subcase.ctor sig s).1)
        rw [hc]
      · by_cases hp : s.subcasesStack ++ [sig] ∈ s.subcasesPassed
        · have hc := ctor_passed sig s hv hl hp
          rw [execBody_subcase_skipped _ _ _ _ (by rw [hc]), hc]
          exact ih2 _
        · obtain ⟨he, hview⟩ := ctor_enter sig s hv hl hp
          have hm : (Subcase.ctor sig s).1.subcasesCurrentMaxLevel =
              s.subcasesStack.length + 1 := congrArg EngineView.maxLevel hview
          have h2 := ih1 (Subcase.ctor sig s).1
          rw [hm] at h2
          rw [execBody_subcase_entered _ _ _ _ he]
          split_ifs
          · refine Nat.le_trans ?_ (ih2 _)
            rw [dtor_maxLevel]
            omega
          · show _ ≤ (Subcase.dtor true true _).subcasesCurrentMaxLevel
            rw [dtor_maxLevel]
            omega
    · have hc := ctor_invisible sig s (by simpa using hv)
      rw [execBody_subcase_skipped _ _ _ _ (by rw [hc]), hc]
      exact ih2 _

theorem execBody_subcase_level (sig : SubcaseSignature) (inner rest : Body) (s : ContextState)
    (he : (Subcase.ctor sig s).2 = true) :
    s.subcasesStack.length <
      (execBody (Body.subcase sig inner rest) s).1.subcasesCurrentMaxLevel := by
  have hv : visible s s.subcasesStack.length sig = true := by
    by_contra hc
    rw [ctor_invisible sig s (by simpa using hc)] at he
    exact Bool.noConfusion he
  have hl : ¬ s.subcasesStack.length < s.subcasesCurrentMaxLevel := by
    intro hc
    rw [ctor_level sig s hv hc] at he
    exact Bool.noConfusion he
  have hp : s.subcasesStack ++ [sig] ∉ s.subcasesPassed := by
    intro hc
    rw [ctor_passed sig s hv hl hc] at he
    exact Bool.noConfusion he
  obtain ⟨_, hview⟩ := ctor_enter sig s hv hl hp
  have hm : (Subcase.ctor sig s).1.subcasesCurrentMaxLevel =
      s.subcasesStack.length + 1 := congrArg EngineView.maxLevel hview
  have h2 := execBody_maxLevel_mono inner (Subcase.ctor sig s).1
  rw [hm] at h2
  rw [execBody_subcase_entered _ _ _ _ he]
  split_ifs
  · refine Nat.lt_of_lt_of_le ?_ (execBody_maxLevel_mono rest _)
    rw [dtor_maxLevel]
    omega
  · show _ < (Subcase.dtor true true _).subcasesCurrentMaxLevel
    rw [dtor_maxLevel]
    omega

theorem ctor_not_entered_again (sig : SubcaseSignature) (inner mid : Body) (s : ContextState) :
    (Subcase.ctor sig (execBody (Body.subcase sig inner mid) s).1).2 = false := by
  have hst := execBody_stack (Body.subcase sig inner mid) s
  have hfr := execBody_frame (Body.subcase sig inner mid) s
  have hvis : visible (execBody (Body.subcase sig inner mid) s).1
      (execBody (Body.subcase sig inner mid) s).1.subcasesStack.length sig =
        visible s s.subcasesStack.length sig := by
    rw [visible_congr hfr, hst]
  have hmono := execBody_maxLevel_mono (Body.subcase sig inner mid) s
  by_cases hv : visible s s.subcasesStack.length sig = true
  · by_cases hlater : (execBody (Body.subcase sig inner mid) s).1.subcasesStack.length <
        (execBody (Body.subcase sig inner mid) s).1.subcasesCurrentMaxLevel
    · rw [ctor_level sig _ (hvis.trans hv) hlater]
    · -- nothing was entered at this level: the path is in the memo
      have hl : ¬ s.subcasesStack.length < s.subcasesCurrentMaxLevel := by
        intro hc
        apply hlater
        rw [hst]
        omega
      have hp : s.subcasesStack ++ [sig] ∈ s.subcasesPassed := by
        by_contra hc
        obtain ⟨he, _⟩ := ctor_enter sig s hv hl hc
        have := execBody_subcase_level sig inner mid s he
        apply hlater
        rw [hst]
        exact this
      have hp2 : (execBody (Body.subcase sig inner mid) s).1.subcasesStack ++ [sig] ∈
          (execBody (Body.subcase sig inner mid) s).1.subcasesPassed := by
        rw [hst]
        exact execBody_passed_mono _ s _ hp
      rw [ctor_passed sig _ (hvis.trans hv) hlater hp2]
  · rw [ctor_invisible sig _ (by rw [hvis]; simpa using hv)]

/-- C29: when a sub-branch statement with the signature of an earlier sibling is
reached under the same parent path, its constructor never sets `m_entered`,
whatever the state in which the first one was reached and whatever was
executed between the two: the block of the second one is not executed, and
the body goes on after it. -/
theorem duplicate_sibling_not_entered (sig : SubcaseSignature) (inner mid inner2 rest : Body)
    (s : ContextState) :
    (Subcase.ctor sig (execBody (Body.subcase sig inner mid) s).1).2 = false ∧
    execBody ((Body.subcase sig inner mid).seq (Body.subcase sig inner2 rest)) s =
      if (execBody (Body.subcase sig inner mid) s).2 = Outcome.normal then
        execBody rest (Subcase.ctor sig (execBody (Body.subcase sig inner mid) s).1).1
      else execBody (Body.subcase sig inner mid) s := by
  have h := ctor_not_entered_again sig inner mid s
  refine ⟨h, ?_⟩
  rw [execBody_seq]
  split_ifs
  · rw [execBody_subcase_skipped _ _ _ _ h]
  · rfl
/-! ## Warn-class assertions -/

theorem ctor_failedAsserts (sig : SubcaseSignature) (s : ContextState) :
    (Subcase.ctor sig s).1.numAssertsFailedCurrentTest_atomic =
      s.numAssertsFailedCurrentTest_atomic := by
  unfold Subcase.ctor
  split_ifs <;> rfl

theorem dtor_failedAsserts (e u : Bool) (s : ContextState) :
    (Subcase.dtor e u s).numAssertsFailedCurrentTest_atomic =
      s.numAssertsFailedCurrentTest_atomic := by
  unfold Subcase.dtor
  cases e
  · rfl
  · simp only [if_true]
    split_ifs <;> rfl

theorem warn_counters (a : Nat) (failed : Bool) (s : ContextState)
    (hw : a &&& assertType.is_warn ≠ 0) :
    addAssert a s = s ∧ addFailedAssert a s = s ∧
    (ResultBuilder.log a failed s).numAssertsCurrentTest_atomic =
      s.numAssertsCurrentTest_atomic ∧
    (ResultBuilder.log a failed s).numAssertsFailedCurrentTest_atomic =
      s.numAssertsFailedCurrentTest_atomic := by
  have h1 : addAssert a s = s := by unfold addAssert; rw [if_neg hw]
  have h2 : ∀ t, addFailedAssert a t = t := by intro t; unfold addFailedAssert; rw [if_neg hw]
  refine ⟨h1, h2 s, ?_, ?_⟩
  · unfold ResultBuilder.log
    simp only [h1, h2]
    cases failed <;> rfl
  · unfold ResultBuilder.log
    simp only [h1, h2]
    cases failed <;> rfl

theorem log_passed_failedAsserts (a : Nat) (s : ContextState) :
    (ResultBuilder.log a false s).numAssertsFailedCurrentTest_atomic =
      s.numAssertsFailedCurrentTest_atomic := by
  unfold ResultBuilder.log addAssert iterateThroughReporters
  simp only [Bool.false_eq_true, if_false]
  split_ifs <;> rfl

theorem execBody_onlyWarn (b : Body) (s : ContextState) (h : onlyWarnFailures b = true) :
    (execBody b s).2 = Outcome.normal ∧
    (execBody b s).1.numAssertsFailedCurrentTest_atomic =
      s.numAssertsFailedCurrentTest_atomic := by
  induction b generalizing s with
  | done => exact ⟨rfl, rfl⟩
  | throwOther => simp [onlyWarnFailures] at h
  | assertion a f rest ih =>
    simp only [onlyWarnFailures, Bool.and_eq_true, Bool.or_eq_true, Bool.not_eq_true'] at h
    obtain ⟨h1, h2⟩ := h
    cases f with
    | false =>
      simp only [execBody, Bool.false_and, Bool.false_eq_true, if_false]
      obtain ⟨i1, i2⟩ := ih (ResultBuilder.log a false s) h2
      exact ⟨i1, i2.trans (log_passed_failedAsserts a s)⟩
    | true =>
      have hwc : warnClass a = true := by
        rcases h1 with h1 | h1
        · exact Bool.noConfusion h1
        · exact h1
      simp only [warnClass, decide_eq_true_eq] at hwc
      obtain ⟨w1, w2, w3⟩ := hwc
      have hthrow : checkIfShouldThrow a (ResultBuilder.log a true s) = false := by
        simp [checkIfShouldThrow, w2, w3]
      simp only [execBody, hthrow, Bool.and_false, Bool.false_eq_true, if_false]
      obtain ⟨i1, i2⟩ := ih (ResultBuilder.log a true s) h2
      exact ⟨i1, i2.trans (warn_counters a true s w1).2.2.2⟩
  | subcase sig inner rest ih1 ih2 =>
    simp only [onlyWarnFailures, Bool.and_eq_true] at h
    cases he : (Subcase.ctor sig s).2
    · rw [execBody_subcase_skipped _ _ _ _ he]
      obtain ⟨i1, i2⟩ := ih2 (Subcase.ctor sig s).1 h.2
      exact ⟨i1, i2.trans (ctor_failedAsserts sig s)⟩
    · obtain ⟨j1, j2⟩ := ih1 (Subcase.ctor sig s).1 h.1
      rw [execBody_subcase_entered _ _ _ _ he, if_pos j1]
      obtain ⟨i1, i2⟩ := ih2 (Subcase.dtor true false (execBody inner (Subcase.ctor sig s).1).1)
        h.2
      refine ⟨i1, i2.trans ?_⟩
      rw [dtor_failedAsserts, j2, ctor_failedAsserts]

theorem runIteration_onlyWarn (tc : TestCase) (s : ContextState)
    (h : onlyWarnFailures tc.m_test = true)
    (hab : ¬ (s.abort_after > 0 ∧ s.numAssertsFailed ≥ s.abort_after))
    (hz : s.numAssertsFailedCurrentTest_atomic = 0) :
    (runIteration tc s).1.failure_flags = s.failure_flags ∧
    (runIteration tc s).1.numAssertsFailedCurrentTest_atomic = 0 := by
  obtain ⟨h1, h2⟩ := execBody_onlyWarn tc.m_test (loopReset s) h
  have h3 : (execBody tc.m_test (loopReset s)).1.numAssertsFailedCurrentTest_atomic = 0 :=
    h2.trans hz
  have e : afterBody tc s = (execBody tc.m_test (loopReset s)).1 := by
    unfold afterBody
    rw [h1]
  have hfr := execBody_frame tc.m_test (loopReset s)
  have a1 : (execBody tc.m_test (loopReset s)).1.abort_after = s.abort_after :=
    abort_after_of_frame hfr
  have a2 : (execBody tc.m_test (loopReset s)).1.numAssertsFailed = s.numAssertsFailed :=
    (congrArg ContextState.numAssertsFailed hfr :
      (engineFrame (execBody tc.m_test (loopReset s)).1).numAssertsFailed =
        (engineFrame (loopReset s)).numAssertsFailed)
  have hnot : abortReached (afterBody tc s) = false := by
    rw [e]
    unfold abortReached
    rw [a1, a2, h3]
    simpa using hab
  have hfl : (afterBody tc s).failure_flags = s.failure_flags := by
    rw [e]
    exact execBody_flags _ _
  constructor
  · rw [runIteration_flags, hnot]
    simpa using hfl
  · rw [runIteration_eq, hnot]
    simp only [Bool.false_eq_true, if_false]
    split_ifs
    · show (afterBody tc s).numAssertsFailedCurrentTest_atomic = 0
      rw [e]; exact h3
    · rw [e]; exact h3

theorem iterationState_onlyWarn (tc : TestCase) (h : onlyWarnFailures tc.m_test = true)
    (k : Nat) :
    ∀ s : ContextState, ¬ (s.abort_after > 0 ∧ s.numAssertsFailed ≥ s.abort_after) →
      s.numAssertsFailedCurrentTest_atomic = 0 →
      (iterationState tc k s).failure_flags = s.failure_flags ∧
      (iterationState tc k s).numAssertsFailedCurrentTest_atomic = 0 := by
  induction k with
  | zero => intro s _ hz; exact ⟨rfl, hz⟩
  | succ n ih =>
    intro s hab hz
    obtain ⟨r1, r2⟩ := runIteration_onlyWarn tc s h hab hz
    have hfr := runIteration_frame tc s
    have hab2 : ¬ ((runIteration tc s).1.abort_after > 0 ∧
        (runIteration tc s).1.numAssertsFailed ≥ (runIteration tc s).1.abort_after) := by
      rw [abort_after_of_loopFrame hfr, numAssertsFailed_of_loopFrame hfr]
      exact hab
    obtain ⟨i1, i2⟩ := ih (runIteration tc s).1 hab2 r2
    exact ⟨i1.trans r1, i2⟩

/-- C30: for every assertion type with the trait `is_warn`, passed or failed,
`addAssert`, `addFailedAssert` and so `ResultBuilder::log` leave both atomic
counters as they are; and a test case without decorators whose body throws
nothing and whose failing assertions are all of the warn class, started below
the abort threshold, ends with no failure flag, adds nothing to
`numAssertsFailed` and is not counted as failed. -/
theorem warn_failures_not_counted (a : Nat) (failed : Bool) (s : ContextState)
    (tc : TestCase) (p : ContextState) (loc : RunLocals)
    (hw : a &&& assertType.is_warn ≠ 0)
    (hbody : onlyWarnFailures tc.m_test = true)
    (hsf : tc.m_should_fail = false) (hmf : tc.m_may_fail = false)
    (hN : tc.m_expected_failures ≤ 0) (hT : tc.m_timeout = Double.zero)
    (hab : ¬ (p.abort_after > 0 ∧ p.numAssertsFailed ≥ p.abort_after)) :
    (addAssert a s = s ∧ addFailedAssert a s = s ∧
      (ResultBuilder.log a failed s).numAssertsCurrentTest_atomic =
        s.numAssertsCurrentTest_atomic ∧
      (ResultBuilder.log a failed s).numAssertsFailedCurrentTest_atomic =
        s.numAssertsFailedCurrentTest_atomic) ∧
    ∃ r, executeTestCase (loopBudget tc) tc p loc = some r ∧
      r.state.failure_flags = 0 ∧
      r.state.numTestCasesFailed = p.numTestCasesFailed ∧
      r.state.numAssertsFailed = p.numAssertsFailed ∧ r.broke = false := by
  refine ⟨warn_counters a failed s hw, ?_⟩
  obtain ⟨⟨p3, n⟩, hloop⟩ := runTestLoop_budget tc (loopBudget tc) (beginTestCase tc p)
    (Nat.le_refl _)
  obtain ⟨m, _, _, _, hp3⟩ := runTestLoop_iterations tc _ _ p3 n hloop
  obtain ⟨i1, i2⟩ := iterationState_onlyWarn tc hbody (m + 1) (beginTestCase tc p) hab rfl
  rw [← hp3] at i1 i2
  have hfl : p3.failure_flags = 0 := i1
  have hlf := runTestLoop_frame tc _ _ _ hloop
  simp only at hlf
  have hab3 : p3.abort_after = p.abort_after := (abort_after_of_loopFrame hlf).trans rfl
  have hnf3 : p3.numAssertsFailed = p.numAssertsFailed :=
    (numAssertsFailed_of_loopFrame hlf).trans rfl
  have hcf3 : p3.numTestCasesFailed = p.numTestCasesFailed :=
    (numTestCasesFailed_of_loopFrame hlf).trans rfl
  have hstep := executeTestCase_eq (loopBudget tc) tc p loc _ _ hloop
  obtain ⟨r, hr⟩ : ∃ r : StepResult, r =
      { state := endTestCase (finalizeTestCaseDataFor tc p3), locals := loc,
        broke := abortReached p3, invocations := n } := ⟨_, rfl⟩
  rw [← hr] at hstep
  have hs : r.state = endTestCase (finalizeTestCaseDataFor tc p3) := by rw [hr]
  have hb : r.broke = abortReached p3 := by rw [hr]
  have hnobs : ¬ failureObserved tc p3 := by
    rintro (h | h | h)
    · exact h hfl
    · exact h i2
    · rw [hT, timeoutExceeded_zero] at h
      exact Bool.noConfusion h
  have hbf : (beforeDecorators tc p3).failure_flags = 0 := by
    by_contra hc
    exact hnobs ((beforeDecorators_flags_ne_zero tc p3).mp hc)
  obtain ⟨u1, u2⟩ := finalize_undecorated tc p3 hsf hmf hN (by rw [hfl]; decide)
  refine ⟨r, hstep, ?_, ?_, ?_, ?_⟩
  · rw [hs, endTestCase_flags, u2, hbf]
  · rw [hs, endTestCase_numTestCasesFailed, u1, if_neg (by rw [hbf]; simp), hcf3]
  · rw [hs, endTestCase_numAssertsFailed, finalize_numAssertsFailed, i2, hnf3]
    simp
  · rw [hb]
    unfold abortReached
    rw [hab3, hnf3, i2]
    simpa using hab

set_option maxRecDepth 100000
theorem warn_failures_not_counted_witness :
    onlyWarnFailures (sampleTest bodyWarn).m_test = true ∧
    ∃ r, executeTestCase (loopBudget (sampleTest bodyWarn)) (sampleTest bodyWarn)
        defaultContext ⟨[], []⟩ = some r ∧
      r.state.failure_flags = 0 ∧
      r.state.numTestCasesFailed = defaultContext.numTestCasesFailed :=
  ⟨by decide,
   let ⟨r, h1, h2, h3, _⟩ := (warn_failures_not_counted assertType.DT_WARN true defaultContext
    (sampleTest bodyWarn) defaultContext ⟨[], []⟩ (by decide) (by decide) rfl rfl (by decide)
    rfl (by decide)).2
   ⟨r, h1, h2, h3⟩⟩
set_option maxRecDepth 512

end Doctest
